import Mathlib

/-!
# Pintos storage and paging core: buffer cache, inode layer, swap store, frame table

Shallow embedding of `filesys/cache.c`, `filesys/inode.c`, `vm/swap.c` and
`vm/frame.c`.  C state becomes explicit state passing; a kernel panic, an
out-of-bounds access or an exhausted loop bound is the result `none`.
-/

set_option autoImplicit false

/-! ## Block devices -/

/-- Bytes per block-device sector (`devices/block.h`). -/
def BLOCK_SECTOR_SIZE : Nat := 512

/-- One sector of data: `BLOCK_SECTOR_SIZE` bytes. -/
abbrev Sector := List Nat

/-- Modelled from the spec: the raw block device (`devices/block.c`), a service
operating on fixed-size sectors addressed by sector number.  `size` is the
number of sectors of the device. -/
structure block where
  size : Nat
  data : Nat → Sector

/-- Modelled from the spec: `block_read`, the raw read-by-sector-number primitive.
An access past the end of the device panics the kernel. -/
def block_read (b : block) (sector : Nat) : Option Sector :=
  if sector < b.size then some (b.data sector) else none

/-- Modelled from the spec: `block_write`, the raw write-by-sector-number primitive.
An access past the end of the device panics the kernel. -/
def block_write (b : block) (sector : Nat) (buffer : Sector) : Option block :=
  if sector < b.size then some { b with data := Function.update b.data sector buffer } else none

/-! ## Buffer cache (`filesys/cache.c`) -/

/-- Number of cache lines (`filesys/cache.h`). -/
def CACHE_SIZE : Nat := 64

/-- One cache line (`struct cache_entry`). -/
structure cache_entry where
  sector : Nat
  buffer : Sector
  valid : Bool
  dirty : Bool
  second_chance : Bool

/-- The static state of `cache.c` together with the device it fronts:
`cache[CACHE_SIZE]`, `clock_ptr` and `fs_device`. -/
structure cache_state where
  cache : List cache_entry
  clock_ptr : Nat
  fs_device : block

/-- A zero-initialised cache line, as static storage is at boot. -/
def cache_entry_zero : cache_entry :=
  { sector := 0, buffer := List.replicate BLOCK_SECTOR_SIZE 0, valid := false, dirty := false,
    second_chance := false }

/-- The static storage of `cache.c` before `cache_init` runs. -/
def cache_boot (dev : block) : cache_state :=
  { cache := List.replicate CACHE_SIZE cache_entry_zero, clock_ptr := 0, fs_device := dev }

/-- The function `cache_init`: marks every line invalid. -/
def cache_init (c : cache_state) : cache_state :=
  { c with cache := c.cache.map (fun e => { e with valid := false }) }

/-- The function `cache_write_back`: writes line `index` to the device if it is valid and dirty. -/
def cache_write_back (c : cache_state) (index : Nat) : Option cache_state :=
  match c.cache[index]? with
  | none => none
  | some e =>
    if e.valid && e.dirty then
      match block_write c.fs_device e.sector e.buffer with
      | none => none
      | some dev => some { c with fs_device := dev, cache := c.cache.set index { e with dirty := false } }
    else some c

/-- The clock sweep of `cache_acquire` (its `while (true)` loop), bounded by `fuel` iterations. -/
def cache_clock (sec : Nat) : Nat → cache_state → Option (Nat × cache_state)
  | 0, _ => none
  | fuel + 1, c =>
    match c.cache[c.clock_ptr]? with
    | none => none
    | some e =>
      if e.second_chance then
        cache_clock sec fuel
          { c with cache := c.cache.set c.clock_ptr { e with second_chance := false },
                   clock_ptr := (c.clock_ptr + 1) % CACHE_SIZE }
      else
        match cache_write_back c c.clock_ptr with
        | none => none
        | some c1 =>
          match c1.cache[c.clock_ptr]?, block_read c1.fs_device sec with
          | some e1, some buf =>
            let e2 : cache_entry :=
              { e1 with sector := sec, valid := true, second_chance := false, buffer := buf }
            some (c.clock_ptr,
              { c1 with cache := c1.cache.set c.clock_ptr e2,
                        clock_ptr := (c.clock_ptr + 1) % CACHE_SIZE })
          | _, _ => none

/-- The function `cache_acquire`: takes the first invalid line, else evicts by the clock sweep. -/
def cache_acquire (c : cache_state) (sec : Nat) : Option (Nat × cache_state) :=
  match c.cache.findIdx? (fun e => !e.valid) with
  | some i =>
    match block_read c.fs_device sec with
    | none => none
    | some buf =>
      let e : cache_entry :=
        { sector := sec, buffer := buf, valid := true, dirty := false, second_chance := false }
      some (i, { c with cache := c.cache.set i e })
  | none => cache_clock sec (CACHE_SIZE + 1) c

/-- The function `cache_get`: the index of the line holding `sec`, installing it when absent. -/
def cache_get (c : cache_state) (sec : Nat) : Option (Nat × cache_state) :=
  match c.cache.findIdx? (fun e => e.valid && e.sector == sec) with
  | some i => some (i, c)
  | none => cache_acquire c sec

/-- The function `cache_read`: returns the sector copied into `dest`. -/
def cache_read (c : cache_state) (sec : Nat) : Option (Sector × cache_state) :=
  match cache_get c sec with
  | none => none
  | some (index, c1) =>
    match c1.cache[index]? with
    | none => none
    | some e =>
      some (e.buffer, { c1 with cache := c1.cache.set index { e with second_chance := true } })

/-- The function `cache_write`: copies the sector `src` into the line of `sec`. -/
def cache_write (c : cache_state) (sec : Nat) (src : Sector) : Option cache_state :=
  match cache_get c sec with
  | none => none
  | some (index, c1) =>
    match c1.cache[index]? with
    | none => none
    | some e =>
      let e1 : cache_entry := { e with second_chance := true, dirty := true, buffer := src }
      some { c1 with cache := c1.cache.set index e1 }

/-- The loop `for (i = 0; i < n; ++i) cache_write_back (i)`, counted down from `n`. -/
def cache_write_back_upto (c : cache_state) : Nat → Option cache_state
  | 0 => some c
  | n + 1 =>
    match cache_write_back_upto c n with
    | none => none
    | some c1 => cache_write_back c1 n

/-- One round of `cache_write_behind_func`: flushes every dirty line. -/
def cache_write_behind_func (c : cache_state) : Option cache_state :=
  cache_write_back_upto c CACHE_SIZE

/-- The loop of `cache_clear` over the lines below `n`: write back, then invalidate. -/
def cache_clear_upto (c : cache_state) : Nat → Option cache_state
  | 0 => some c
  | n + 1 =>
    match cache_clear_upto c n with
    | none => none
    | some c1 =>
      match cache_write_back c1 n with
      | none => none
      | some c2 =>
        match c2.cache[n]? with
        | none => none
        | some e => some { c2 with cache := c2.cache.set n { e with valid := false } }

/-- The function `cache_clear`: flushes and invalidates every line. -/
def cache_clear (c : cache_state) : Option cache_state :=
  cache_clear_upto c CACHE_SIZE

/-! ### Cache invariant and logical view -/

/-- No two valid lines of `l` hold the same sector. -/
def lines_uniq (l : List cache_entry) : Prop :=
  ∀ (i j : Nat) (ei ej : cache_entry), l[i]? = some ei → l[j]? = some ej → ei.valid = true → ej.valid = true →
    ei.sector = ej.sector → i = j

/-- The representation invariant of the buffer cache. -/
structure cache_inv (c : cache_state) : Prop where
  len : c.cache.length = CACHE_SIZE
  ptr : c.clock_ptr < CACHE_SIZE
  uniq : lines_uniq c.cache
  inrange : ∀ (i : Nat) (e : cache_entry), c.cache[i]? = some e → e.valid = true → e.sector < c.fs_device.size
  clean : ∀ (i : Nat) (e : cache_entry), c.cache[i]? = some e → e.valid = true → e.dirty = false →
    e.buffer = c.fs_device.data e.sector
  invalid_clean : ∀ (i : Nat) (e : cache_entry), c.cache[i]? = some e → e.valid = false → e.dirty = false

/-- The content of sector `sec` as seen through the lines `l` over device data `dev`. -/
def lines_view (l : List cache_entry) (dev : Nat → Sector) (sec : Nat) : Sector :=
  match l.find? (fun e => e.valid && e.sector == sec) with
  | some e => e.buffer
  | none => dev sec

/-- The logical content of sector `sec`: the cached copy when there is one, else the device. -/
def cache_view (c : cache_state) (sec : Nat) : Sector :=
  lines_view c.cache c.fs_device.data sec

/-- No valid line of `l` holds sector `sec`. -/
def lines_absent (l : List cache_entry) (sec : Nat) : Prop :=
  ∀ (i : Nat) (e : cache_entry), l[i]? = some e → e.valid = true → e.sector ≠ sec

/-- A call into the buffer cache: the exported operations, and one round of the
background write-behind task. -/
inductive cache_op where
  | read (sec : Nat)
  | write (sec : Nat) (src : Sector)
  | get (sec : Nat)
  | clear
  | write_behind

/-- The sector number a call names lies on a device of `size` sectors. -/
def cache_op.in_range (size : Nat) : cache_op → Bool
  | .read sec => decide (sec < size)
  | .write sec _ => decide (sec < size)
  | .get sec => decide (sec < size)
  | .clear => true
  | .write_behind => true

/-- Runs one call against the cache. -/
def cache_step (c : cache_state) : cache_op → Option cache_state
  | .read sec => (cache_read c sec).map (fun r => r.2)
  | .write sec src => cache_write c sec src
  | .get sec => (cache_get c sec).map (fun r => r.2)
  | .clear => cache_clear c
  | .write_behind => cache_write_behind_func c

/-- Runs a sequence of calls, left to right. -/
def cache_run (c : cache_state) : List cache_op → Option cache_state
  | [] => some c
  | op :: ops =>
    match cache_step c op with
    | none => none
    | some c1 => cache_run c1 ops

/-- The sector contents a sequence of calls asks for: each `write` replaces its sector. -/
def disk_run (d : Nat → Sector) : List cache_op → Nat → Sector
  | [] => d
  | .write sec src :: ops => disk_run (Function.update d sec src) ops
  | _ :: ops => disk_run d ops

/-! ## Swap store (`vm/swap.c`) -/

/-- Bytes per page (`threads/vaddr.h`). -/
def PGSIZE : Nat := 4096

/-- Sectors per page: `PGSIZE / BLOCK_SECTOR_SIZE`. -/
def BLOCKS_PER_PAGE : Nat := PGSIZE / BLOCK_SECTOR_SIZE

/-- The value `BITMAP_ERROR` (`lib/kernel/bitmap.h`): `SIZE_MAX` on the 32-bit target. -/
def BITMAP_ERROR : Nat := 2 ^ 32 - 1

/-- Modelled from the spec: `bitmap_scan (b, 0, 1, true)` of `lib/kernel/bitmap.c`, the
first-fit scan for one bit that is set; `BITMAP_ERROR` when there is none. -/
def bitmap_scan (b : List Bool) : Nat :=
  match b.findIdx? (fun x => x) with
  | some i => i
  | none => BITMAP_ERROR

/-- Modelled from the spec: `bitmap_set (b, idx, value)` of `lib/kernel/bitmap.c`; it asserts
`idx < bit_cnt`, so an index past the end panics the kernel. -/
def bitmap_set (b : List Bool) (idx : Nat) (value : Bool) : Option (List Bool) :=
  if idx < b.length then some (b.set idx value) else none

/-- Conversion of a `size_t` to `int` on the 32-bit target. -/
def size_to_int (n : Nat) : Int :=
  if n % 2 ^ 32 < 2 ^ 31 then ((n % 2 ^ 32 : Nat) : Int) else ((n % 2 ^ 32 : Nat) : Int) - 2 ^ 32

/-- Conversion of an `int` to a 32-bit unsigned value (`block_sector_t`, `size_t`). -/
def int_to_u32 (z : Int) : Nat := (z % 2 ^ 32).toNat

/-- The globals of `swap.c`: `swap_block` and `swap_bitmap` (a set bit is a free slot). -/
structure swap_state where
  swap_block : block
  swap_bitmap : List Bool

/-- The function `swap_init`: one bitmap bit per page-sized slot of the device, all free. -/
def swap_init (dev : block) : swap_state :=
  { swap_block := dev, swap_bitmap := List.replicate (dev.size / BLOCKS_PER_PAGE) true }

/-- The `BLOCK_SECTOR_SIZE` bytes at `pp + i * BLOCK_SECTOR_SIZE`. -/
def page_sector (pp : List Nat) (i : Nat) : Sector :=
  (pp.drop (i * BLOCK_SECTOR_SIZE)).take BLOCK_SECTOR_SIZE

/-- Stores a sector read from a device at `pp + i * BLOCK_SECTOR_SIZE`. -/
def page_put (pp : List Nat) (i : Nat) (s : Sector) : List Nat :=
  pp.take (i * BLOCK_SECTOR_SIZE) ++ s ++ pp.drop (i * BLOCK_SECTOR_SIZE + BLOCK_SECTOR_SIZE)

/-- The read loop of `swap_in`, over the sectors `i < n` of the slot. -/
def swap_in_loop (dev : block) (swap_index : Int) (pp : List Nat) : Nat → Option (List Nat)
  | 0 => some pp
  | n + 1 =>
    match swap_in_loop dev swap_index pp n with
    | none => none
    | some pp1 =>
      match block_read dev (int_to_u32 (swap_index * BLOCKS_PER_PAGE + n)) with
      | none => none
      | some s => some (page_put pp1 n s)

/-- The function `swap_in`: reads slot `swap_index` into the page `pp` and frees the slot. -/
def swap_in (st : swap_state) (swap_index : Int) (pp : List Nat) :
    Option (List Nat × swap_state) :=
  match swap_in_loop st.swap_block swap_index pp BLOCKS_PER_PAGE with
  | none => none
  | some pp1 =>
    match bitmap_set st.swap_bitmap (int_to_u32 swap_index) true with
    | none => none
    | some b => some (pp1, { st with swap_bitmap := b })

/-- The write loop of `swap_out`, over the sectors `i < n` of the slot. -/
def swap_out_loop (dev : block) (swap_index : Int) (pp : List Nat) : Nat → Option block
  | 0 => some dev
  | n + 1 =>
    match swap_out_loop dev swap_index pp n with
    | none => none
    | some dev1 =>
      block_write dev1 (int_to_u32 (swap_index * BLOCKS_PER_PAGE + n)) (page_sector pp n)

/-- The function `swap_out`: writes the page `pp` to the first free slot, marks the slot
occupied and returns its index. -/
def swap_out (st : swap_state) (pp : List Nat) : Option (Int × swap_state) :=
  let swap_index := size_to_int (bitmap_scan st.swap_bitmap)
  match swap_out_loop st.swap_block swap_index pp BLOCKS_PER_PAGE with
  | none => none
  | some dev =>
    match bitmap_set st.swap_bitmap (int_to_u32 swap_index) false with
    | none => none
    | some b => some (swap_index, { swap_block := dev, swap_bitmap := b })

/-! ## Inode layer (`filesys/inode.c`, `filesys/inode.h`) -/

/-- Identifies an inode. -/
def INODE_MAGIC : Nat := 0x494e4f44

/-- Number of direct sector pointers of an on-disk inode. -/
def DIRECT_BLOCK_NUM : Nat := 25

/-- Number of indirect-block pointers of an on-disk inode. -/
def INDIRECT_BLOCK_NUM : Nat := 100

/-- Sector pointers per indirect block: `BLOCK_SECTOR_SIZE / 4`. -/
def BLOCK_POINTER_NUM : Nat := BLOCK_SECTOR_SIZE / 4

/-- The invalid-sector sentinel: `(block_sector_t) -1`. -/
def SECTOR_ERROR : Nat := 2 ^ 32 - 1

/-- The static all-zero sector `empty_sector`. -/
def empty_sector : Sector := List.replicate BLOCK_SECTOR_SIZE 0

/-- On-disk inode (`struct inode_disk`); `length` is the file size in bytes. -/
structure inode_disk where
  length : Nat
  magic : Nat
  is_dir : Bool
  direct : List Nat
  indirect : List Nat

/-- In-memory inode (`struct inode`). -/
structure inode where
  sector : Nat
  open_cnt : Int
  removed : Bool
  deny_write_cnt : Int
  data : inode_disk

/-- The four bytes of a 32-bit value, least significant first. -/
def u32_bytes (w : Nat) : List Nat :=
  [w % 256, w / 256 % 256, w / 65536 % 256, w / 16777216 % 256]

/-- The 32-bit value stored at byte offset `i` of `b`. -/
def bytes_u32 (b : List Nat) (i : Nat) : Nat :=
  b.getD i 0 + 256 * b.getD (i + 1) 0 + 65536 * b.getD (i + 2) 0 + 16777216 * b.getD (i + 3) 0

/-- A sector read as an array of `BLOCK_POINTER_NUM` sector numbers (an indirect block). -/
def sector_words (s : Sector) : List Nat :=
  (List.range BLOCK_POINTER_NUM).map (fun i => bytes_u32 s (4 * i))

/-- The sector that holds the first `BLOCK_POINTER_NUM` sector numbers of `ws`. -/
def words_sector (ws : List Nat) : Sector :=
  (ws.take BLOCK_POINTER_NUM).flatMap u32_bytes

/-- The `BLOCK_SECTOR_SIZE` bytes of a `struct inode_disk`: `length` at 0, `magic` at 4,
`is_dir` at 8 (padded to 4 bytes), `direct` at 12, `indirect` at 112. -/
def inode_disk_bytes (d : inode_disk) : Sector :=
  u32_bytes d.length ++ u32_bytes d.magic ++ [if d.is_dir then 1 else 0, 0, 0, 0]
    ++ d.direct.flatMap u32_bytes ++ d.indirect.flatMap u32_bytes

/-- A sector read as a `struct inode_disk`. -/
def bytes_inode_disk (s : Sector) : inode_disk :=
  { length := bytes_u32 s 0
    magic := bytes_u32 s 4
    is_dir := s.getD 8 0 != 0
    direct := (List.range DIRECT_BLOCK_NUM).map (fun i => bytes_u32 s (12 + 4 * i))
    indirect := (List.range INDIRECT_BLOCK_NUM).map (fun i => bytes_u32 s (112 + 4 * i)) }

/-- The state of the file system: the buffer cache over the device, the free map and the list
`open_inodes`.  An in-memory inode is referred to by its sector number, which `inode_open`
keeps unique in `open_inodes`. -/
structure fs_state where
  cache : cache_state
  free_map : List Nat
  open_inodes : List inode

/-- Modelled from the spec: `free_map_allocate (1, &sector)` of `filesys/free-map.c`, the
service that hands out disk sector numbers; here the free sectors are a list handed out from
its head, and allocation fails when none is left. -/
def free_map_allocate (fm : List Nat) : Option (Nat × List Nat) :=
  match fm with
  | [] => none
  | s :: rest => some (s, rest)

/-- Modelled from the spec: `free_map_release (sector, 1)` of `filesys/free-map.c`, which
reclaims a sector number; releasing a sector that is already free trips its assertion. -/
def free_map_release (fm : List Nat) (sector : Nat) : Option (List Nat) :=
  if sector ∈ fm then none else some (sector :: fm)

/-- The function `bytes_to_sectors`: `DIV_ROUND_UP (size, BLOCK_SECTOR_SIZE)`. -/
def bytes_to_sectors (size : Nat) : Nat :=
  (size + BLOCK_SECTOR_SIZE - 1) / BLOCK_SECTOR_SIZE

/-- The function `byte_to_sector`: the sector holding byte `pos` of the inode, or
`SECTOR_ERROR` when `pos` is not below the length.  The result is `none` where the C code
reads `indirect` out of bounds or reaches the end of the function without a `return`. -/
def byte_to_sector (c : cache_state) (ino : inode) (pos : Nat) : Option (Nat × cache_state) :=
  if pos < ino.data.length then
    let sectors := bytes_to_sectors pos
    let index := pos / BLOCK_SECTOR_SIZE
    if index < DIRECT_BLOCK_NUM then
      match ino.data.direct[index]? with
      | none => none
      | some s => some (s, c)
    else
      let sectors := sectors - DIRECT_BLOCK_NUM
      if sectors ≤ INDIRECT_BLOCK_NUM * BLOCK_POINTER_NUM then
        let index := sectors / BLOCK_POINTER_NUM
        let offset := ((pos - DIRECT_BLOCK_NUM * BLOCK_SECTOR_SIZE) / BLOCK_SECTOR_SIZE)
          % BLOCK_POINTER_NUM
        match ino.data.indirect[index]? with
        | none => none
        | some ind =>
          match cache_read c ind with
          | none => none
          | some (indirect_block, c1) =>
            match (sector_words indirect_block)[offset]? with
            | none => none
            | some s => some (s, c1)
      else none
  else some (SECTOR_ERROR, c)

/-- The allocation step shared by both levels of `inode_block_init`: a zero pointer gets a
fresh sector from the free map, which is written with the all-zero sector at once. -/
def inode_block_alloc (st : fs_state) (block_sector : Nat) : Option (Bool × Nat × fs_state) :=
  if block_sector = 0 then
    match free_map_allocate st.free_map with
    | none => some (false, block_sector, st)
    | some (s, fm) =>
      match cache_write st.cache s empty_sector with
      | none => none
      | some c => some (true, s, { st with cache := c, free_map := fm })
  else some (true, block_sector, st)

/-- The loop of `inode_block_init` over the entries `i < n` of an indirect block. -/
def inode_block_init_loop (st : fs_state) (indirect_block : List Nat) :
    Nat → Option (Bool × List Nat × fs_state)
  | 0 => some (true, indirect_block, st)
  | n + 1 =>
    match inode_block_init_loop st indirect_block n with
    | none => none
    | some (false, b, s) => some (false, b, s)
    | some (true, b, s) =>
      match b[n]? with
      | none => none
      | some p =>
        match inode_block_alloc s p with
        | none => none
        | some (ok, q, s1) => some (ok, b.set n q, s1)

/-- The function `inode_block_init`: allocates the block behind `*block_sector` when it is
zero and, at level 1, the first `size` entries of that indirect block.  Returns the success
flag and the new value of `*block_sector`. -/
def inode_block_init (st : fs_state) (block_sector : Nat) (size : Nat) (level : Nat) :
    Option (Bool × Nat × fs_state) :=
  match level with
  | 0 => inode_block_alloc st block_sector
  | 1 =>
    match inode_block_alloc st block_sector with
    | none => none
    | some (false, p, s) => some (false, p, s)
    | some (true, p, s) =>
      match cache_read s.cache p with
      | none => none
      | some (buf, c1) =>
        match inode_block_init_loop { s with cache := c1 } (sector_words buf) size with
        | none => none
        | some (false, _, s2) => some (false, p, s2)
        | some (true, b, s2) =>
          match cache_write s2.cache p (words_sector b) with
          | none => none
          | some c3 => some (true, p, { s2 with cache := c3 })
  | _ => some (false, block_sector, st)

/-- The first loop of `inode_disk_init`, over the direct pointers `i < n`. -/
def inode_disk_init_direct (st : fs_state) (data : inode_disk) :
    Nat → Option (Bool × inode_disk × fs_state)
  | 0 => some (true, data, st)
  | n + 1 =>
    match inode_disk_init_direct st data n with
    | none => none
    | some (false, d, s) => some (false, d, s)
    | some (true, d, s) =>
      match d.direct[n]? with
      | none => none
      | some p =>
        match inode_block_init s p 1 0 with
        | none => none
        | some (ok, q, s1) => some (ok, { d with direct := d.direct.set n q }, s1)

/-- The second loop of `inode_disk_init`: `iters` more iterations from indirect pointer `i`
with `sectors` data sectors still to cover. -/
def inode_disk_init_indirect :
    Nat → Nat → Nat → inode_disk → fs_state → Option (Bool × inode_disk × fs_state)
  | 0, _, _, d, s => some (true, d, s)
  | iters + 1, i, sectors, d, s =>
    let blocks := if sectors < BLOCK_POINTER_NUM then sectors else BLOCK_POINTER_NUM
    match d.indirect[i]? with
    | none => none
    | some p =>
      match inode_block_init s p blocks 1 with
      | none => none
      | some (ok, q, s1) =>
        let d1 := { d with indirect := d.indirect.set i q }
        if !ok then some (false, d1, s1)
        else if sectors ≤ BLOCK_POINTER_NUM then some (true, d1, s1)
        else inode_disk_init_indirect iters (i + 1) (sectors - BLOCK_POINTER_NUM) d1 s1

/-- The function `inode_disk_init`: allocates the sectors an inode of `size` bytes needs.
Returns the success flag and the updated `*data`. -/
def inode_disk_init (st : fs_state) (data : inode_disk) (size : Nat) :
    Option (Bool × inode_disk × fs_state) :=
  if size > 0x800000 then some (false, data, st)
  else
    let sectors := bytes_to_sectors size
    let blocks := if sectors < DIRECT_BLOCK_NUM then sectors else DIRECT_BLOCK_NUM
    match inode_disk_init_direct st data blocks with
    | none => none
    | some (false, d, s) => some (false, d, s)
    | some (true, d, s) =>
      if sectors ≤ DIRECT_BLOCK_NUM then some (true, d, s)
      else inode_disk_init_indirect INDIRECT_BLOCK_NUM 0 (sectors - DIRECT_BLOCK_NUM) d s

/-- The function `inode_create`: builds an inode of `length` bytes and writes it to `sector`
when the allocation succeeded. -/
def inode_create (st : fs_state) (sector : Nat) (length : Nat) (is_dir : Bool) :
    Option (Bool × fs_state) :=
  let disk_inode : inode_disk :=
    { length := length, magic := INODE_MAGIC, is_dir := is_dir,
      direct := List.replicate DIRECT_BLOCK_NUM 0,
      indirect := List.replicate INDIRECT_BLOCK_NUM 0 }
  match inode_disk_init st disk_inode length with
  | none => none
  | some (false, _, s) => some (false, s)
  | some (true, d, s) =>
    match cache_write s.cache sector (inode_disk_bytes d) with
    | none => none
    | some c => some (true, { s with cache := c })

/-- The in-memory inode a pointer (its sector number) refers to, if it is open. -/
def inode_lookup (st : fs_state) (h : Nat) : Option inode :=
  st.open_inodes.find? (fun i => i.sector == h)

/-- Writes back the in-memory inode `ino` in `open_inodes`. -/
def inode_store (st : fs_state) (ino : inode) : fs_state :=
  { st with open_inodes := st.open_inodes.map (fun i => if i.sector == ino.sector then ino else i) }

/-- The function `inode_reopen`: one more opener. -/
def inode_reopen (st : fs_state) (h : Nat) : Option fs_state :=
  match inode_lookup st h with
  | none => none
  | some ino => some (inode_store st { ino with open_cnt := ino.open_cnt + 1 })

/-- The function `inode_open`: returns the open inode of `sector`, reading it from disk when
it is not open yet. -/
def inode_open (st : fs_state) (sector : Nat) : Option (Nat × fs_state) :=
  match inode_lookup st sector with
  | some _ =>
    match inode_reopen st sector with
    | none => none
    | some s => some (sector, s)
  | none =>
    match cache_read st.cache sector with
    | none => none
    | some (buf, c) =>
      let ino : inode :=
        { sector := sector, open_cnt := 1, deny_write_cnt := 0, removed := false,
          data := bytes_inode_disk buf }
      some (sector, { st with cache := c, open_inodes := ino :: st.open_inodes })

/-- The function `inode_get_inumber`. -/
def inode_get_inumber (ino : inode) : Nat := ino.sector

/-- The function `inode_length`. -/
def inode_length (ino : inode) : Nat := ino.data.length

/-- The loop of `inode_block_clear` releasing the entries `i < n` of an indirect block. -/
def inode_block_clear_loop (fm : List Nat) (indirect_block : List Nat) : Nat → Option (List Nat)
  | 0 => some fm
  | n + 1 =>
    match inode_block_clear_loop fm indirect_block n with
    | none => none
    | some fm1 =>
      match indirect_block[n]? with
      | none => none
      | some p => free_map_release fm1 p

/-- The function `inode_block_clear`: releases the block behind `*block_sector` and, at
level 1, the first `size` sectors it points to. -/
def inode_block_clear (st : fs_state) (block_sector : Nat) (size : Nat) (level : Nat) :
    Option fs_state :=
  match level with
  | 1 =>
    match cache_read st.cache block_sector with
    | none => none
    | some (buf, c) =>
      match inode_block_clear_loop st.free_map (sector_words buf) size with
      | none => none
      | some fm =>
        match free_map_release fm block_sector with
        | none => none
        | some fm1 => some { st with cache := c, free_map := fm1 }
  | _ =>
    match free_map_release st.free_map block_sector with
    | none => none
    | some fm1 => some { st with free_map := fm1 }

/-- The first loop of `inode_close`, over the direct pointers `i < n`. -/
def inode_close_direct (st : fs_state) (data : inode_disk) : Nat → Option fs_state
  | 0 => some st
  | n + 1 =>
    match inode_close_direct st data n with
    | none => none
    | some s =>
      match data.direct[n]? with
      | none => none
      | some p => inode_block_clear s p 1 0

/-- The second loop of `inode_close`: `iters` more iterations from indirect pointer `i` with
`sectors` data sectors still to release. -/
def inode_close_indirect (data : inode_disk) : Nat → Nat → Nat → fs_state → Option fs_state
  | 0, _, _, s => some s
  | iters + 1, i, sectors, s =>
    let blocks := if sectors < BLOCK_POINTER_NUM then sectors else BLOCK_POINTER_NUM
    match data.indirect[i]? with
    | none => none
    | some p =>
      match inode_block_clear s p blocks 1 with
      | none => none
      | some s1 =>
        if sectors ≤ BLOCK_POINTER_NUM then some s1
        else inode_close_indirect data iters (i + 1) (sectors - BLOCK_POINTER_NUM) s1

/-- The block release of `inode_close` for a removed inode, up to the label `done`. -/
def inode_close_blocks (st : fs_state) (data : inode_disk) : Option fs_state :=
  let sectors := bytes_to_sectors data.length
  let blocks := if sectors < DIRECT_BLOCK_NUM then sectors else DIRECT_BLOCK_NUM
  match inode_close_direct st data blocks with
  | none => none
  | some s =>
    if sectors ≤ DIRECT_BLOCK_NUM then some s
    else inode_close_indirect data INDIRECT_BLOCK_NUM 0 (sectors - DIRECT_BLOCK_NUM) s

/-- The function `inode_close`: drops one opener; the last one removes the inode from
`open_inodes` and, if the inode was removed, releases its blocks and its own sector. -/
def inode_close (st : fs_state) (h : Nat) : Option fs_state :=
  match inode_lookup st h with
  | none => none
  | some ino =>
    if ino.open_cnt - 1 = 0 then
      let st1 := { st with open_inodes := st.open_inodes.filter (fun i => !(i.sector == h)) }
      if ino.removed then
        match inode_close_blocks st1 ino.data with
        | none => none
        | some s =>
          match free_map_release s.free_map ino.sector with
          | none => none
          | some fm => some { s with free_map := fm }
      else some st1
    else some (inode_store st { ino with open_cnt := ino.open_cnt - 1 })

/-- The function `inode_remove`: marks the inode to be deleted when its last opener closes it. -/
def inode_remove (st : fs_state) (h : Nat) : Option fs_state :=
  match inode_lookup st h with
  | none => none
  | some ino => some (inode_store st { ino with removed := true })

/-- Bytes left in the sector of byte `offset`: `BLOCK_SECTOR_SIZE - sector_ofs`. -/
def inode_sector_left (offset : Nat) : Int :=
  (BLOCK_SECTOR_SIZE : Int) - ((offset % BLOCK_SECTOR_SIZE : Nat) : Int)

/-- The number of bytes the loops of `inode_read_at` and `inode_write_at` handle in one
iteration: the least of `size`, the bytes left in the inode and the bytes left in the sector. -/
def inode_chunk_size (length size offset : Nat) : Int :=
  let inode_left : Int := (length : Int) - (offset : Int)
  let sector_left : Int := inode_sector_left offset
  let min_left : Int := if inode_left < sector_left then inode_left else sector_left
  if (size : Int) < min_left then (size : Int) else min_left

/-- The `while (size > 0)` loop of `inode_read_at`, bounded by `fuel` iterations.  Returns
`bytes_read` and the bytes stored in the caller's buffer. -/
def inode_read_at_loop (ino : inode) :
    Nat → cache_state → Nat → Nat → Nat → List Nat → Option (Nat × List Nat × cache_state)
  | 0, c, size, _, bytes_read, buffer =>
    if size > 0 then none else some (bytes_read, buffer, c)
  | fuel + 1, c, size, offset, bytes_read, buffer =>
    if size > 0 then
      match byte_to_sector c ino offset with
      | none => none
      | some (sector_idx, c1) =>
        let sector_ofs := offset % BLOCK_SECTOR_SIZE
        let chunk_size : Int := inode_chunk_size (inode_length ino) size offset
        if chunk_size ≤ 0 then some (bytes_read, buffer, c1)
        else
          match cache_read c1 sector_idx with
          | none => none
          | some (bounce, c2) =>
            let chunk :=
              if sector_ofs = 0 ∧ chunk_size = (BLOCK_SECTOR_SIZE : Int) then bounce
              else (bounce.drop sector_ofs).take chunk_size.toNat
            inode_read_at_loop ino fuel c2 (size - chunk_size.toNat) (offset + chunk_size.toNat)
              (bytes_read + chunk_size.toNat) (buffer ++ chunk)
    else some (bytes_read, buffer, c)

/-- The function `inode_read_at`: reads `size` bytes at `offset`; returns the number of bytes
read and those bytes. -/
def inode_read_at (st : fs_state) (h : Nat) (size offset : Nat) :
    Option (Nat × List Nat × fs_state) :=
  match inode_lookup st h with
  | none => none
  | some ino =>
    match inode_read_at_loop ino size st.cache size offset 0 [] with
    | none => none
    | some (n, buf, c) => some (n, buf, { st with cache := c })

/-- The `while (size > 0)` loop of `inode_write_at`, bounded by `fuel` iterations.  Returns
`bytes_written`. -/
def inode_write_at_loop (ino : inode) (buffer : List Nat) :
    Nat → cache_state → Nat → Nat → Nat → Option (Nat × cache_state)
  | 0, c, size, _, bytes_written =>
    if size > 0 then none else some (bytes_written, c)
  | fuel + 1, c, size, offset, bytes_written =>
    if size > 0 then
      match byte_to_sector c ino offset with
      | none => none
      | some (sector_idx, c1) =>
        let sector_ofs := offset % BLOCK_SECTOR_SIZE
        let sector_left : Int := inode_sector_left offset
        let chunk_size : Int := inode_chunk_size (inode_length ino) size offset
        if chunk_size ≤ 0 then some (bytes_written, c1)
        else
          let chunk := (buffer.drop bytes_written).take chunk_size.toNat
          if sector_ofs = 0 ∧ chunk_size = (BLOCK_SECTOR_SIZE : Int) then
            match cache_write c1 sector_idx chunk with
            | none => none
            | some c2 =>
              inode_write_at_loop ino buffer fuel c2 (size - chunk_size.toNat)
                (offset + chunk_size.toNat) (bytes_written + chunk_size.toNat)
          else
            let filled : Option (Sector × cache_state) :=
              if sector_ofs > 0 ∨ chunk_size < sector_left then cache_read c1 sector_idx
              else some (List.replicate BLOCK_SECTOR_SIZE 0, c1)
            match filled with
            | none => none
            | some (bounce, c2) =>
              let bounce1 := bounce.take sector_ofs ++ chunk
                ++ bounce.drop (sector_ofs + chunk_size.toNat)
              match cache_write c2 sector_idx bounce1 with
              | none => none
              | some c3 =>
                inode_write_at_loop ino buffer fuel c3 (size - chunk_size.toNat)
                  (offset + chunk_size.toNat) (bytes_written + chunk_size.toNat)
    else some (bytes_written, c)

/-- The copy phase of `inode_write_at`: runs the write loop for the inode `ino` and stores
the inode back. -/
def inode_write_at_copy (st : fs_state) (ino : inode) (buffer : List Nat) (size offset : Nat) :
    Option (Nat × fs_state) :=
  match inode_write_at_loop ino buffer size st.cache size offset 0 with
  | none => none
  | some (n, c) => some (n, inode_store { st with cache := c } ino)

/-- The function `inode_write_at`: writes `size` bytes of `buffer` at `offset`, growing the
inode first when `new_length - 1 > length`; returns the number of bytes written. -/
def inode_write_at (st : fs_state) (h : Nat) (buffer : List Nat) (size offset : Nat) :
    Option (Nat × fs_state) :=
  match inode_lookup st h with
  | none => none
  | some ino =>
    if ino.deny_write_cnt ≠ 0 then some (0, st)
    else
      let new_length := offset + size
      if (new_length : Int) - 1 > (ino.data.length : Int) then
        match inode_disk_init st ino.data new_length with
        | none => none
        | some (false, d, s) => some (0, inode_store s { ino with data := d })
        | some (true, d, s) =>
          let ino1 := { ino with data := { d with length := new_length } }
          match cache_write s.cache ino1.sector (inode_disk_bytes ino1.data) with
          | none => none
          | some c => inode_write_at_copy { s with cache := c } ino1 buffer size offset
      else inode_write_at_copy st ino buffer size offset

/-- The function `inode_deny_write`. -/
def inode_deny_write (st : fs_state) (h : Nat) : Option fs_state :=
  match inode_lookup st h with
  | none => none
  | some ino =>
    if ino.deny_write_cnt + 1 ≤ ino.open_cnt then
      some (inode_store st { ino with deny_write_cnt := ino.deny_write_cnt + 1 })
    else none

/-- The function `inode_allow_write`. -/
def inode_allow_write (st : fs_state) (h : Nat) : Option fs_state :=
  match inode_lookup st h with
  | none => none
  | some ino =>
    if 0 < ino.deny_write_cnt ∧ ino.deny_write_cnt ≤ ino.open_cnt then
      some (inode_store st { ino with deny_write_cnt := ino.deny_write_cnt - 1 })
    else none

/-! ### Call sequences on a file -/

/-- A freshly formatted file system over `dev`: an empty cache after `cache_init`, the free
sectors `free`, no inode open. -/
def fs_boot (dev : block) (free : List Nat) : fs_state :=
  { cache := cache_init (cache_boot dev), free_map := free, open_inodes := [] }

/-- The calls `inode_create (sector, length)`, `inode_open`, `inode_write_at (buffer, size,
offset)`, `inode_read_at (size, offset)`: returns the two byte counts and the bytes read. -/
def inode_fresh_write_read (st : fs_state) (sector length : Nat) (buffer : List Nat)
    (size offset : Nat) : Option (Nat × Nat × List Nat) :=
  match inode_create st sector length false with
  | some (true, s1) =>
    match inode_open s1 sector with
    | none => none
    | some (h, s2) =>
      match inode_write_at s2 h buffer size offset with
      | none => none
      | some (written, s3) =>
        match inode_read_at s3 h size offset with
        | none => none
        | some (read, bytes, _) => some (written, read, bytes)
  | _ => none

/-- The calls `inode_create (sector, length)`, `inode_open`, `inode_write_at (buffer, size,
offset)`: returns the byte count, `inode_length` afterwards and the length held by the
inode's sector afterwards. -/
def inode_fresh_write (st : fs_state) (sector length : Nat) (buffer : List Nat)
    (size offset : Nat) : Option (Nat × Nat × Nat) :=
  match inode_create st sector length false with
  | some (true, s1) =>
    match inode_open s1 sector with
    | none => none
    | some (h, s2) =>
      match inode_write_at s2 h buffer size offset with
      | none => none
      | some (written, s3) =>
        match inode_lookup s3 h with
        | none => none
        | some ino =>
          some (written, inode_length ino, (bytes_inode_disk (cache_view s3.cache sector)).length)
  | _ => none

/-- The calls `inode_create (sector, length)`, `inode_open`, `inode_write_at (buffer, length,
0)`, `inode_close`, `inode_open`, `inode_read_at (length, 0)`: returns the two byte counts,
the bytes read and `inode_length` of the reopened inode. -/
def inode_persist (st : fs_state) (sector length : Nat) (buffer : List Nat) :
    Option (Nat × Nat × List Nat × Nat) :=
  match inode_create st sector length false with
  | some (true, s1) =>
    match inode_open s1 sector with
    | none => none
    | some (h, s2) =>
      match inode_write_at s2 h buffer length 0 with
      | none => none
      | some (written, s3) =>
        match inode_close s3 h with
        | none => none
        | some s4 =>
          match inode_open s4 sector with
          | none => none
          | some (h2, s5) =>
            match inode_read_at s5 h2 length 0 with
            | none => none
            | some (read, bytes, s6) =>
              match inode_lookup s6 h2 with
              | none => none
              | some ino => some (written, read, bytes, inode_length ino)
  | _ => none

/-! ### Layout of a file's sectors -/

/-- The sectors of the inode `d` as the pointer tree gives them: data sector `k < n` is
`S k`, found in `direct[k]` for `k < 25` and else in entry `(k - 25) % 128` of the indirect
block `T ((k - 25) / 128)`, read through the sector contents `V`.  Data sectors are distinct,
none is an indirect block, all lie on a device of `size` sectors. -/
structure inode_layout (V : Nat → Sector) (size : Nat) (d : inode_disk) (n : Nat)
    (S T : Nat → Nat) : Prop where
  direct : ∀ k, k < n → k < 25 → d.direct[k]? = some (S k)
  indirect : ∀ k, k < n → 25 ≤ k → d.indirect[(k - 25) / 128]? = some (T ((k - 25) / 128)) ∧
    (sector_words (V (T ((k - 25) / 128))))[(k - 25) % 128]? = some (S k)
  s_range : ∀ k, k < n → S k < size
  t_range : ∀ k, k < n → 25 ≤ k → T ((k - 25) / 128) < size
  sep : ∀ k j, k < n → j < n → 25 ≤ j → S k ≠ T ((j - 25) / 128)
  inj : ∀ k j, k < n → j < n → S k = S j → k = j

/-- The content of data sector `k` of a file that holds `buffer` from offset 0: the bytes of
the sector, zero-filled to a whole sector. -/
def file_sector (buffer : List Nat) (k : Nat) : Sector :=
  (buffer.drop (BLOCK_SECTOR_SIZE * k)).take BLOCK_SECTOR_SIZE
    ++ List.replicate
      (BLOCK_SECTOR_SIZE - ((buffer.drop (BLOCK_SECTOR_SIZE * k)).take BLOCK_SECTOR_SIZE).length) 0

/-- Position in the free list of the sector that a fresh inode gets for data sector `k`:
the direct sectors come first, then each indirect block followed by its data sectors. -/
def fresh_data_index (k : Nat) : Nat :=
  if k < 25 then k else k + (k - 25) / 128 + 1

/-- The sector that a fresh inode gets for data sector `k` from the free list `fm`. -/
def fresh_data_sector (fm : List Nat) (k : Nat) : Nat :=
  fm.getD (fresh_data_index k) 0

/-- The sector that a fresh inode gets for indirect block `q` from the free list `fm`. -/
def fresh_indirect_sector (fm : List Nat) (q : Nat) : Nat :=
  fm.getD (25 + q * 129) 0

/-! ## Frame table (`vm/frame.c`, `vm/page.h`) -/

/-- Backing status of a supplemental page-table entry (`enum pte_status`). -/
inductive pte_status where
  | ZERO
  | FRAME
  | SWAP
  | MMAP
  deriving DecidableEq

/-- Supplemental page-table entry (`struct page_table_entry`); a null `physical_page` is
`none`. -/
structure page_table_entry where
  physical_page : Option Nat
  virtual_page : Nat
  status : pte_status
  swap_index : Int
  file : Nat
  ofs : Nat
  read_bytes : Nat
  zero_bytes : Nat
  writable : Bool

/-- Frame-table entry (`struct frame_table_entry`); `owner` is the owning thread. -/
structure frame_table_entry where
  physical_page : Nat
  virtual_page : Nat
  owner : Nat

/-- Modelled from the spec: one entry of a hardware page directory (`userprog/pagedir.c`),
with the present, writable, accessed and dirty indicators of the page. -/
structure pagedir_entry where
  present : Bool
  frame : Nat
  writable : Bool
  accessed : Bool
  dirty : Bool

/-- The memory-management state of a thread (`struct thread`): its supplemental page table
(a hash table keyed by `virtual_page`) and its hardware page directory. -/
structure vm_thread where
  page_table : List page_table_entry
  pagedir : Nat → Option pagedir_entry

/-- Modelled from the spec: a page pool of `threads/palloc.c`; page `base + i` is in use when
bit `i` of `used_map` is set. -/
structure palloc_pool where
  base : Nat
  used_map : List Bool

/-- The state the frame table works on: the list `frame_table`, the two page pools, the
threads, the contents of the physical pages and the swap store. -/
structure vm_state where
  frame_table : List frame_table_entry
  kernel_pool : palloc_pool
  user_pool : palloc_pool
  threads : Nat → vm_thread
  memory : Nat → List Nat
  swap : swap_state

/-- The flag `PAL_ASSERT` (`threads/palloc.h`). -/
def PAL_ASSERT : Nat := 1

/-- The flag `PAL_ZERO` (`threads/palloc.h`). -/
def PAL_ZERO : Nat := 2

/-- The flag `PAL_USER` (`threads/palloc.h`). -/
def PAL_USER : Nat := 4

/-- Modelled from the spec: `palloc_get_page (flags)` of `threads/palloc.c`: the first free
page of the user pool (with `PAL_USER`) or of the kernel pool, zeroed with `PAL_ZERO`; a null
pointer when the pool is exhausted, a kernel panic instead with `PAL_ASSERT`. -/
def palloc_get_page (st : vm_state) (flags : Nat) : Option (Option Nat × vm_state) :=
  let pool := if flags.testBit 2 then st.user_pool else st.kernel_pool
  match pool.used_map.findIdx? (fun b => !b) with
  | none => if flags.testBit 0 then none else some (none, st)
  | some idx =>
    let page := pool.base + idx
    let pool1 : palloc_pool := { pool with used_map := pool.used_map.set idx true }
    let mem := if flags.testBit 1 then Function.update st.memory page (List.replicate PGSIZE 0)
      else st.memory
    if flags.testBit 2 then some (some page, { st with user_pool := pool1, memory := mem })
    else some (some page, { st with kernel_pool := pool1, memory := mem })

/-- Releases page `page` of `pool`; the page must be in use (an assertion of
`palloc_free_multiple`). -/
def palloc_pool_free (pool : palloc_pool) (page : Nat) : Option palloc_pool :=
  if pool.used_map[page - pool.base]? = some true then
    some { pool with used_map := pool.used_map.set (page - pool.base) false }
  else none

/-- The page `page` belongs to `pool` (`page_from_pool`). -/
def page_from_pool (pool : palloc_pool) (page : Nat) : Bool :=
  decide (pool.base ≤ page) && decide (page < pool.base + pool.used_map.length)

/-- Modelled from the spec: `palloc_free_page (page)` of `threads/palloc.c`: returns the page
to the pool it comes from; a null pointer is ignored, a page of no pool or a page that is not
in use panics the kernel. -/
def palloc_free_page (st : vm_state) (page : Option Nat) : Option vm_state :=
  match page with
  | none => some st
  | some p =>
    if page_from_pool st.kernel_pool p then
      match palloc_pool_free st.kernel_pool p with
      | none => none
      | some pool => some { st with kernel_pool := pool }
    else if page_from_pool st.user_pool p then
      match palloc_pool_free st.user_pool p with
      | none => none
      | some pool => some { st with user_pool := pool }
    else none

/-- The function `frame_init_table`. -/
def frame_init_table (st : vm_state) : vm_state :=
  { st with frame_table := [] }

/-- The function `page_table_entry_search`: the entry of virtual page `vp`, if any. -/
def page_table_entry_search (pt : List page_table_entry) (vp : Nat) : Option page_table_entry :=
  pt.find? (fun e => e.virtual_page == vp)

/-- Modelled from the spec: `hash_insert` of `lib/kernel/hash.c` on a page table: inserts the
entry unless one with the same `virtual_page` is already there. -/
def hash_insert (pt : List page_table_entry) (pte : page_table_entry) : List page_table_entry :=
  match page_table_entry_search pt pte.virtual_page with
  | some _ => pt
  | none => pte :: pt

/-- Replaces the page table of thread `t`. -/
def set_page_table (st : vm_state) (t : Nat) (pt : List page_table_entry) : vm_state :=
  { st with threads := Function.update st.threads t { st.threads t with page_table := pt } }

/-- Replaces the page directory of thread `t`. -/
def set_pagedir (st : vm_state) (t : Nat) (pd : Nat → Option pagedir_entry) : vm_state :=
  { st with threads := Function.update st.threads t { st.threads t with pagedir := pd } }

/-- The loop of `frame_free`: removes the first frame-table entry whose page is `frame`. -/
def frame_table_drop (ft : List frame_table_entry) (frame : Option Nat) :
    List frame_table_entry :=
  match ft.findIdx? (fun e => some e.physical_page == frame) with
  | some i => ft.eraseIdx i
  | none => ft

/-- The function `frame_free`: drops the first frame-table entry of the page `frame` and
returns the page to its pool. -/
def frame_free (st : vm_state) (frame : Option Nat) : Option vm_state :=
  palloc_free_page { st with frame_table := frame_table_drop st.frame_table frame } frame

/-- The function `frame_table_entry_set` called with a null `fte`, by thread `cur`: appends a
frame-table entry for (`pp`, `vp`) and inserts a `ZERO` page-table entry for `vp` into the
page table of `cur`.  (`malloc` is taken to succeed; the fields it leaves unset are zero.) -/
def frame_table_entry_set (st : vm_state) (cur : Nat) (pp vp : Nat) : vm_state :=
  let fte : frame_table_entry := { physical_page := pp, virtual_page := vp, owner := cur }
  let pte : page_table_entry :=
    { physical_page := some pp, virtual_page := vp, status := pte_status.ZERO, swap_index := 0,
      file := 0, ofs := 0, read_bytes := 0, zero_bytes := 0, writable := false }
  set_page_table { st with frame_table := st.frame_table ++ [fte] } cur
    (hash_insert (st.threads cur).page_table pte)

/-- Modelled from the spec: `pagedir_is_accessed (pd, vpage)` of `userprog/pagedir.c`. -/
def pagedir_is_accessed (pd : Nat → Option pagedir_entry) (vpage : Nat) : Bool :=
  match pd vpage with
  | some e => e.accessed
  | none => false

/-- Modelled from the spec: `pagedir_set_accessed (pd, vpage, accessed)` of
`userprog/pagedir.c`. -/
def pagedir_set_accessed (pd : Nat → Option pagedir_entry) (vpage : Nat) (accessed : Bool) :
    Nat → Option pagedir_entry :=
  match pd vpage with
  | some e => Function.update pd vpage (some { e with accessed := accessed })
  | none => pd

/-- Modelled from the spec: `pagedir_clear_page (pd, upage)` of `userprog/pagedir.c`: marks the
page not present. -/
def pagedir_clear_page (pd : Nat → Option pagedir_entry) (upage : Nat) :
    Nat → Option pagedir_entry :=
  match pd upage with
  | some e => Function.update pd upage (some { e with present := false })
  | none => pd

/-- One scan of `frame_evict_page` over the frame table, on the page directory of the current
thread: a frame whose accessed indicator is set has it cleared, any other frame becomes the
candidate.  Returns the page directory and the candidate after the scan. -/
def frame_evict_scan (pd : Nat → Option pagedir_entry) (fte_evict : Option frame_table_entry) :
    List frame_table_entry → (Nat → Option pagedir_entry) × Option frame_table_entry
  | [] => (pd, fte_evict)
  | fte :: rest =>
    if pagedir_is_accessed pd fte.virtual_page then
      frame_evict_scan (pagedir_set_accessed pd fte.virtual_page false) fte_evict rest
    else frame_evict_scan pd (some fte) rest

/-- The victim selection of `frame_evict_page`: one scan, and a second one when the first
found no candidate. -/
def frame_evict_select (pd : Nat → Option pagedir_entry) (ft : List frame_table_entry) :
    (Nat → Option pagedir_entry) × Option frame_table_entry :=
  let r1 := frame_evict_scan pd none ft
  match r1.2 with
  | some _ => r1
  | none => frame_evict_scan r1.1 none ft

/-- The second half of `frame_evict_page`, once the victim `fte_evict` is chosen: clears the
owner's mapping, swaps the page out, marks the owner's page-table entry `SWAP`, frees the
frame and ends with the call of `frame_get_page`, passed as `get_page`. -/
def frame_evict_victim
    (get_page : vm_state → Nat → Nat → Nat → Option (Option Nat × vm_state))
    (st1 : vm_state) (cur : Nat) (vp : Nat) (fte_evict : frame_table_entry) :
    Option (Option Nat × vm_state) :=
  let st2 := set_pagedir st1 fte_evict.owner
    (pagedir_clear_page (st1.threads fte_evict.owner).pagedir fte_evict.virtual_page)
  match swap_out st2.swap (st2.memory fte_evict.physical_page) with
  | none => none
  | some (swap_index, sw) =>
    let st3 := { st2 with swap := sw }
    match page_table_entry_search (st3.threads fte_evict.owner).page_table
        fte_evict.virtual_page with
    | none => some (none, st3)
    | some pte =>
      let pte1 : page_table_entry :=
        { pte with status := pte_status.SWAP, swap_index := swap_index, physical_page := none }
      let pt := (st3.threads fte_evict.owner).page_table.map
        (fun e => if e.virtual_page == fte_evict.virtual_page then pte1 else e)
      match frame_free (set_page_table st3 fte_evict.owner pt) (some fte_evict.physical_page) with
      | none => none
      | some st4 => get_page st4 cur (PAL_USER ||| PAL_ZERO) vp

/-- The body of `frame_evict_page` called by thread `cur`, with its final call of
`frame_get_page` passed as `get_page`. -/
def frame_evict_page_body
    (get_page : vm_state → Nat → Nat → Nat → Option (Option Nat × vm_state))
    (st : vm_state) (cur : Nat) (vp : Nat) : Option (Option Nat × vm_state) :=
  let r := frame_evict_select (st.threads cur).pagedir st.frame_table
  let st1 := set_pagedir st cur r.1
  match r.2 with
  | none => some (none, st1)
  | some fte_evict => frame_evict_victim get_page st1 cur vp fte_evict

/-- The function `frame_get_page` called by thread `cur`; `fuel` bounds the depth of the
mutual recursion with `frame_evict_page`. -/
def frame_get_page : Nat → vm_state → Nat → Nat → Nat → Option (Option Nat × vm_state)
  | 0, _, _, _, _ => none
  | fuel + 1, st, cur, flag, vp =>
    match palloc_get_page st flag with
    | none => none
    | some (some pp, st1) => some (some pp, frame_table_entry_set st1 cur pp vp)
    | some (none, st1) => frame_evict_page_body (frame_get_page fuel) st1 cur vp

/-- The function `frame_evict_page` called by thread `cur`. -/
def frame_evict_page (fuel : Nat) (st : vm_state) (cur : Nat) (vp : Nat) :
    Option (Option Nat × vm_state) :=
  frame_evict_page_body (frame_get_page fuel) st cur vp

/-- The representation invariant of the frame table: no two entries share a physical page;
every entry's page is a page of the user pool that is in use; the pools do not overlap; no
page table has two entries for one virtual page; every entry's virtual page has an entry in
the page table of the entry's owner. -/
structure vm_inv (st : vm_state) : Prop where
  nodup : (st.frame_table.map (fun e => e.physical_page)).Nodup
  used : ∀ fte ∈ st.frame_table, page_from_pool st.user_pool fte.physical_page = true ∧
    st.user_pool.used_map[fte.physical_page - st.user_pool.base]? = some true
  pools : st.kernel_pool.base + st.kernel_pool.used_map.length ≤ st.user_pool.base
  keys : ∀ t, ((st.threads t).page_table.map (fun e => e.virtual_page)).Nodup
  owned : ∀ fte ∈ st.frame_table,
    ∃ pte ∈ (st.threads fte.owner).page_table, pte.virtual_page = fte.virtual_page

/-- A call into the frame table: `frame_get_page (flag, vp)` or `frame_evict_page (vp)` by
thread `cur`, or `frame_free (frame)`. -/
inductive frame_op where
  | get_page (cur flag vp : Nat)
  | evict_page (cur vp : Nat)
  | free (frame : Option Nat)

/-- The call asks for a page of the user pool (`PAL_USER`), as every caller of
`frame_get_page` does. -/
def frame_op.user : frame_op → Bool
  | .get_page _ flag _ => flag.testBit 2
  | _ => true

/-- Runs one call; `fuel` is extra depth for the recursion between `frame_get_page` and
`frame_evict_page` beyond the two levels a call needs. -/
def frame_step (fuel : Nat) (st : vm_state) : frame_op → Option vm_state
  | .get_page cur flag vp => (frame_get_page (fuel + 2) st cur flag vp).map (fun r => r.2)
  | .evict_page cur vp => (frame_evict_page (fuel + 1) st cur vp).map (fun r => r.2)
  | .free frame => frame_free st frame

/-- Runs a sequence of calls, left to right. -/
def frame_run (fuel : Nat) (st : vm_state) : List frame_op → Option vm_state
  | [] => some st
  | op :: ops =>
    match frame_step fuel st op with
    | none => none
    | some st1 => frame_run fuel st1 ops

/-- A small machine: two kernel pages, three user pages, no page-table entries, an empty
24-sector swap device. -/
def vm_example : vm_state :=
  { frame_table := []
    kernel_pool := { base := 1, used_map := [false, false] }
    user_pool := { base := 3, used_map := [false, false, false] }
    threads := fun _ => { page_table := [], pagedir := fun _ => none }
    memory := fun _ => List.replicate PGSIZE 0
    swap := swap_init (block.mk 24 (fun _ => List.replicate BLOCK_SECTOR_SIZE 0)) }

/-! ## Page-in (`vm/page.c`) and the files behind mapped pages -/

/-- Modelled from the spec: an open file of `filesys/file.c`: the inode it reads and its
position. -/
structure vm_file where
  inode : Nat
  pos : Nat

/-- Modelled from the spec: the Inode Layer as the paging code uses it: the bytes of every
inode, the open files (a `struct file *` is an index into `files`, a closed file is `none`)
and `write_cnt`, the number of calls of `file_write_at` made so far. -/
structure file_sys where
  inodes : Nat → List Nat
  files : List (Option vm_file)
  write_cnt : Nat

/-- The open file behind the pointer `file`. -/
def file_get (fs : file_sys) (file : Nat) : Option vm_file :=
  match fs.files[file]? with
  | some (some f) => some f
  | _ => none

/-- Modelled from the spec: `file_reopen (file)` of `filesys/file.c`: a new open file on the
same inode, at position 0. -/
def file_reopen (fs : file_sys) (file : Nat) : Option (Nat × file_sys) :=
  match file_get fs file with
  | none => none
  | some f =>
    some (fs.files.length, { fs with files := fs.files ++ [some { inode := f.inode, pos := 0 }] })

/-- Modelled from the spec: `file_length (file)` of `filesys/file.c`. -/
def file_length (fs : file_sys) (file : Nat) : Option Nat :=
  match file_get fs file with
  | none => none
  | some f => some (fs.inodes f.inode).length

/-- Modelled from the spec: `file_seek (file, new_pos)` of `filesys/file.c`. -/
def file_seek (fs : file_sys) (file : Nat) (new_pos : Nat) : Option file_sys :=
  match file_get fs file with
  | none => none
  | some f => some { fs with files := fs.files.set file (some { f with pos := new_pos }) }

/-- Modelled from the spec: `file_read (file, buffer, size)` of `filesys/file.c`: the bytes
from the file's position on, at most `size` of them and none past the end of the file; the
position advances by the number of bytes read. -/
def file_read (fs : file_sys) (file : Nat) (size : Nat) : Option (List Nat × file_sys) :=
  match file_get fs file with
  | none => none
  | some f =>
    let bytes := ((fs.inodes f.inode).drop f.pos).take size
    some (bytes,
      { fs with files := fs.files.set file (some { f with pos := f.pos + bytes.length }) })

/-- The bytes `buffer` stored at offset `ofs` of a byte sequence that is first extended with
zeros when it is too short. -/
def bytes_write (content : List Nat) (ofs : Nat) (buffer : List Nat) : List Nat :=
  let c := content ++ List.replicate (ofs + buffer.length - content.length) 0
  c.take ofs ++ buffer ++ c.drop (ofs + buffer.length)

/-- Modelled from the spec: `file_write_at (file, buffer, size, file_ofs)` of
`filesys/file.c`: stores the first `size` bytes of `buffer` at offset `file_ofs`, growing the
file when they end past its length; returns the number of bytes written. -/
def file_write_at (fs : file_sys) (file : Nat) (buffer : List Nat) (size file_ofs : Nat) :
    Option (Nat × file_sys) :=
  match file_get fs file with
  | none => none
  | some f =>
    some ((buffer.take size).length,
      { fs with
        inodes := Function.update fs.inodes f.inode
          (bytes_write (fs.inodes f.inode) file_ofs (buffer.take size))
        write_cnt := fs.write_cnt + 1 })

/-- Modelled from the spec: `file_close (file)` of `filesys/file.c`. -/
def file_close (fs : file_sys) (file : Nat) : Option file_sys :=
  match file_get fs file with
  | none => none
  | some _ => some { fs with files := fs.files.set file none }

/-- Mapping record (`struct mmap_entry`, `vm/page.h`). -/
structure mmap_entry where
  id : Int
  file : Nat
  va : Nat

/-- Modelled from the spec: an entry of a thread's `owned_files` (`struct thread_file`,
`threads/thread.h`): a file descriptor and its open file, null as `none`. -/
structure thread_file where
  fd : Int
  file : Option Nat

/-- The state the paging system calls work on: the memory-management state, the files, and
for every thread its `mmap_list` and its `owned_files`. -/
structure sys_state where
  vm : vm_state
  fs : file_sys
  mmap_list : Nat → List mmap_entry
  owned_files : Nat → List thread_file

/-- Modelled from the spec: `pagedir_set_page (pd, upage, kpage, writable)` of
`userprog/pagedir.c`: maps `upage` to the frame `kpage`, not accessed and not dirty; it
fails when no memory is left for the page table, which `ok` decides. -/
def pagedir_set_page (pd : Nat → Option pagedir_entry) (upage kpage : Nat) (writable : Bool)
    (ok : Bool) : Option (Nat → Option pagedir_entry) :=
  if ok then
    some (Function.update pd upage
      (some { present := true, frame := kpage, writable := writable, accessed := false,
              dirty := false }))
  else none

/-- Modelled from the spec: `pagedir_is_dirty (pd, vpage)` of `userprog/pagedir.c`. -/
def pagedir_is_dirty (pd : Nat → Option pagedir_entry) (vpage : Nat) : Bool :=
  match pd vpage with
  | some e => e.dirty
  | none => false

/-- Modelled from the spec: `pagedir_set_dirty (pd, vpage, dirty)` of `userprog/pagedir.c`. -/
def pagedir_set_dirty (pd : Nat → Option pagedir_entry) (vpage : Nat) (dirty : Bool) :
    Nat → Option pagedir_entry :=
  match pd vpage with
  | some e => Function.update pd vpage (some { e with dirty := dirty })
  | none => pd

/-- The bytes `bytes` stored at offset `ofs` of a page. -/
def page_store (page : List Nat) (ofs : Nat) (bytes : List Nat) : List Nat :=
  page.take ofs ++ bytes ++ page.drop (ofs + bytes.length)

/-- Replaces the contents of the frame `pp`. -/
def set_memory (st : vm_state) (pp : Nat) (page : List Nat) : vm_state :=
  { st with memory := Function.update st.memory pp page }

/-- The `switch` of `page_load`: fills the frame `pp` according to the status of `pte`.  The
result is `false` with the frame untouched when the file gives fewer bytes than
`read_bytes`.  An entry whose `read_bytes` and `zero_bytes` do not fit the page is outside
the model. -/
def page_load_fill (st : sys_state) (pte : page_table_entry) (pp : Nat) :
    Option (Bool × sys_state) :=
  match pte.status with
  | pte_status.ZERO =>
    some (true, { st with vm := set_memory st.vm pp (List.replicate PGSIZE 0) })
  | pte_status.SWAP =>
    match swap_in st.vm.swap pte.swap_index (st.vm.memory pp) with
    | none => none
    | some (page, sw) => some (true, { st with vm := set_memory { st.vm with swap := sw } pp page })
  | pte_status.MMAP =>
    if pte.read_bytes + pte.zero_bytes ≤ PGSIZE then
      match file_seek st.fs pte.file pte.ofs with
      | none => none
      | some fs1 =>
        match file_read fs1 pte.file pte.read_bytes with
        | none => none
        | some (bytes, fs2) =>
          let page := page_store (st.vm.memory pp) 0 bytes
          if bytes.length ≠ pte.read_bytes then
            some (false, { st with fs := fs2, vm := set_memory st.vm pp page })
          else
            some (true, { st with
              fs := fs2
              vm := set_memory st.vm pp
                (page_store page bytes.length (List.replicate pte.zero_bytes 0)) })
    else none
  | pte_status.FRAME => some (true, st)

/-- The end of `page_load`, once the frame `pp` is filled: maps the page at `vp` to the
frame, marks the entry `pte` resident and clears the dirty indicator of `pp`; when
`pagedir_set_page` fails the frame is freed and the result is `false`. -/
def page_load_install (pd_ok : Bool) (st2 : sys_state) (cur vp pp : Nat)
    (pte : page_table_entry) : Option (Bool × sys_state) :=
  match pagedir_set_page (st2.vm.threads cur).pagedir vp pp true pd_ok with
  | none => (frame_free st2.vm (some pp)).map (fun vm3 => (false, { st2 with vm := vm3 }))
  | some pd1 =>
    let pte1 : page_table_entry :=
      { pte with physical_page := some pp, status := pte_status.FRAME }
    let pt := (st2.vm.threads cur).page_table.map
      (fun e => if e.virtual_page == vp then pte1 else e)
    let vm3 := set_page_table (set_pagedir st2.vm cur pd1) cur pt
    some (true, { st2 with
      vm := set_pagedir vm3 cur (pagedir_set_dirty (vm3.threads cur).pagedir pp false) })

/-- The function `page_load (pt, pd, vp)` on the page table and page directory of thread
`cur`, which is also the running thread; `fuel` is the recursion depth given to
`frame_get_page` and `pd_ok` says whether `pagedir_set_page` finds memory. -/
def page_load (fuel : Nat) (pd_ok : Bool) (st : sys_state) (cur vp : Nat) :
    Option (Bool × sys_state) :=
  match page_table_entry_search (st.vm.threads cur).page_table vp with
  | none => some (false, st)
  | some pte0 =>
    if pte0.status = pte_status.FRAME then some (true, st)
    else
      match frame_get_page fuel st.vm cur (PAL_USER ||| PAL_ZERO) vp with
      | none => none
      | some (none, vm1) => some (false, { st with vm := vm1 })
      | some (some pp, vm1) =>
        match page_table_entry_search (vm1.threads cur).page_table vp with
        | none => none
        | some pte =>
          match page_load_fill { st with vm := vm1 } pte pp with
          | none => none
          | some (false, st2) =>
            (frame_free st2.vm (some pp)).map (fun vm3 => (false, { st2 with vm := vm3 }))
          | some (true, st2) => page_load_install pd_ok st2 cur vp pp pte

/-! ## Memory-mapped files (`mmap` and `munmap` of `userprog/syscall.c`) -/

/-- Addition of an offset to a 32-bit pointer. -/
def ptr_add (p ofs : Nat) : Nat := (p + ofs) % 2 ^ 32

/-- Conversion of a result of `int` arithmetic to the 32-bit `int`. -/
def int_wrap (z : Int) : Int := size_to_int (int_to_u32 z)

/-- Number of iterations of a loop `for (ofs = 0; ofs < size; ofs += PGSIZE)`; sizes are
file lengths, far below the range of `int`. -/
def page_count (size : Nat) : Nat := (size + PGSIZE - 1) / PGSIZE

/-- The function `get_thread_file`: the first entry of `owned_files` with descriptor `fd`. -/
def get_thread_file (owned_files : List thread_file) (fd : Int) : Option thread_file :=
  owned_files.find? (fun f => f.fd == fd)

/-- The first loop of `mmap`, over the pages `ofs = k * PGSIZE` with `k < n`: whether one of
them already has a page-table entry. -/
def mmap_overlap (pt : List page_table_entry) (data : Nat) : Nat → Bool
  | 0 => false
  | n + 1 =>
    mmap_overlap pt data n ||
      (page_table_entry_search pt (ptr_add data (n * PGSIZE))).isSome

/-- The page-table entry `mmap` builds for the page at offset `ofs` of a file of `size`
bytes.  (`malloc` is taken to succeed; the fields it leaves unset are zero.) -/
def mmap_entry_for (file data size ofs : Nat) : page_table_entry :=
  let read_bytes := if ofs + PGSIZE ≥ size then size - ofs else PGSIZE
  let zero_bytes := if ofs + PGSIZE ≥ size then PGSIZE - read_bytes else 0
  { physical_page := none, virtual_page := ptr_add data ofs, status := pte_status.MMAP,
    swap_index := 0, file := file, ofs := ofs, read_bytes := read_bytes,
    zero_bytes := zero_bytes, writable := true }

/-- The second loop of `mmap`, over the pages `ofs = k * PGSIZE` with `k < n`. -/
def mmap_install (file data size : Nat) (pt : List page_table_entry) :
    Nat → List page_table_entry
  | 0 => pt
  | n + 1 => hash_insert (mmap_install file data size pt n) (mmap_entry_for file data size (n * PGSIZE))

/-- The identifier `mmap` gives a new mapping: 1 on an empty list, else one more than the
identifier at the back of the list. -/
def mmap_next_id (l : List mmap_entry) : Int :=
  match l.getLast? with
  | none => 1
  | some m => int_wrap (m.id + 1)

/-- The system call `mmap (fd, data)` made by thread `cur`. -/
def mmap (st : sys_state) (cur : Nat) (fd : Int) (data : Nat) : Option (Int × sys_state) :=
  if fd < 2 then some (-1, st)
  else if data = 0 ∨ data % PGSIZE ≠ 0 then some (-1, st)
  else
    match (get_thread_file (st.owned_files cur) fd).bind (fun f => f.file) with
    | none => some (-1, st)
    | some h =>
      match file_reopen st.fs h with
      | none => none
      | some (file, fs1) =>
        match file_length fs1 file with
        | none => none
        | some size =>
          let st1 := { st with fs := fs1 }
          if size = 0 then some (-1, st1)
          else if mmap_overlap (st.vm.threads cur).page_table data (page_count size) then
            some (-1, st1)
          else
            let pt := mmap_install file data size (st.vm.threads cur).page_table
              (page_count size)
            let id := mmap_next_id (st.mmap_list cur)
            some (id, { st1 with
              vm := set_page_table st.vm cur pt
              mmap_list := Function.update st.mmap_list cur
                (st.mmap_list cur ++ [{ id := id, file := file, va := data }]) })

/-- The search loop of `munmap`: the position and the record of the last entry of the list
whose identifier is `id`. -/
def munmap_find (l : List mmap_entry) (id : Int) : Option (Nat × mmap_entry) :=
  l.enum.foldl (fun me p => if p.2.id == id then some p else me) none

/-- Modelled from the spec: `hash_delete` of `lib/kernel/hash.c` on a page table: removes the
entry of virtual page `vp`. -/
def hash_delete (pt : List page_table_entry) (vp : Nat) : List page_table_entry :=
  pt.eraseP (fun e => e.virtual_page == vp)

/-- The bytes the kernel reads at the user address `upage` of thread `cur`: the contents of
the frame the page directory maps there; without a mapping the access faults. -/
def user_page (st : vm_state) (cur upage : Nat) : Option (List Nat) :=
  match (st.threads cur).pagedir upage with
  | some e => if e.present then some (st.memory e.frame) else none
  | none => none

/-- The `FRAME` case of the `switch` of `munmap`. -/
def munmap_frame (st : sys_state) (cur : Nat) (me : mmap_entry) (pte : page_table_entry)
    (bytes ofs : Nat) : Option sys_state :=
  let pd := (st.vm.threads cur).pagedir
  let written :=
    if pagedir_is_dirty pd pte.virtual_page || pagedir_is_dirty pd (pte.physical_page.getD 0)
    then
      match user_page st.vm cur pte.virtual_page with
      | none => none
      | some page => (file_write_at st.fs me.file page bytes ofs).map (fun r => r.2)
    else some st.fs
  match written with
  | none => none
  | some fs1 =>
    match frame_free st.vm pte.physical_page with
    | none => none
    | some vm1 =>
      some { st with
        fs := fs1
        vm := set_pagedir vm1 cur (pagedir_clear_page (vm1.threads cur).pagedir pte.virtual_page) }

/-- The `SWAP` case of the `switch` of `munmap`. -/
def munmap_swap (st : sys_state) (cur : Nat) (me : mmap_entry) (pte : page_table_entry)
    (ofs : Nat) : Option sys_state :=
  if pagedir_is_dirty (st.vm.threads cur).pagedir pte.virtual_page then
    match palloc_get_page st.vm 0 with
    | some (some temp_page, vm1) =>
      match swap_in vm1.swap pte.swap_index (vm1.memory temp_page) with
      | none => none
      | some (page, sw) =>
        let vm2 := set_memory { vm1 with swap := sw } temp_page page
        match file_write_at st.fs me.file page PGSIZE ofs with
        | none => none
        | some (_, fs1) =>
          match palloc_free_page vm2 (some temp_page) with
          | none => none
          | some vm3 => some { st with fs := fs1, vm := vm3 }
    | _ => none
  else some st

/-- One iteration of the loop of `munmap`, for the page at offset `ofs` of a file of `size`
bytes. -/
def munmap_page (st : sys_state) (cur : Nat) (me : mmap_entry) (size ofs : Nat) :
    Option sys_state :=
  let addr := ptr_add me.va ofs
  let bytes := if ofs + PGSIZE ≥ size then size - ofs else PGSIZE
  match page_table_entry_search (st.vm.threads cur).page_table addr with
  | none => some st
  | some pte =>
    let after :=
      match pte.status with
      | pte_status.ZERO => some st
      | pte_status.FRAME => munmap_frame st cur me pte bytes ofs
      | pte_status.SWAP => munmap_swap st cur me pte ofs
      | pte_status.MMAP => some st
    match after with
    | none => none
    | some st1 =>
      some { st1 with
        vm := set_page_table st1.vm cur
          (hash_delete (st1.vm.threads cur).page_table pte.virtual_page) }

/-- The loop of `munmap`, over the pages `ofs = k * PGSIZE` with `k < n`. -/
def munmap_loop (cur : Nat) (me : mmap_entry) (size : Nat) (st : sys_state) :
    Nat → Option sys_state
  | 0 => some st
  | n + 1 =>
    match munmap_loop cur me size st n with
    | none => none
    | some st1 => munmap_page st1 cur me size (n * PGSIZE)

/-- The system call `munmap (id)` made by thread `cur`. -/
def munmap (st : sys_state) (cur : Nat) (id : Int) : Option sys_state :=
  if (st.mmap_list cur).isEmpty then some st
  else
    match munmap_find (st.mmap_list cur) id with
    | none => some st
    | some (i, me) =>
      match file_length st.fs me.file with
      | none => none
      | some size =>
        match munmap_loop cur me size st (page_count size) with
        | none => none
        | some st1 =>
          match file_close st1.fs me.file with
          | none => none
          | some fs1 =>
            some { st1 with
              fs := fs1
              mmap_list := Function.update st1.mmap_list cur ((st1.mmap_list cur).eraseIdx i) }

/-- A mapping system call: `mmap (fd, data)` or `munmap (id)`, made by thread `cur`. -/
inductive map_op where
  | mmap (cur : Nat) (fd : Int) (data : Nat)
  | munmap (cur : Nat) (id : Int)

/-- Runs one mapping system call. -/
def map_step (st : sys_state) : map_op → Option sys_state
  | .mmap cur fd data => (mmap st cur fd data).map (fun r => r.2)
  | .munmap cur id => munmap st cur id

/-- Runs a sequence of mapping system calls, left to right. -/
def map_run (st : sys_state) : List map_op → Option sys_state
  | [] => some st
  | op :: ops =>
    match map_step st op with
    | none => none
    | some st1 => map_run st1 ops

/-- A small system: the machine `vm_example`, one three-byte file that every thread has open
as descriptor 2, no mappings. -/
def sys_example : sys_state :=
  { vm := vm_example
    fs := { inodes := fun _ => [1, 2, 3], files := [some (vm_file.mk 0 0)], write_cnt := 0 }
    mmap_list := fun _ => []
    owned_files := fun _ => [thread_file.mk 2 (some 0)] }

/-- The system `sys_example` in which thread 1 has a page-table entry for the page at
`0x10000`: not resident, zero-filled on first use, and not writable. -/
def sys_read_only : sys_state :=
  { sys_example with
    vm := set_page_table vm_example 1
      [page_table_entry.mk none 0x10000 pte_status.ZERO 0 0 0 0 0 false] }

/-- The mapping lists are well formed up to `b`: in every list the identifiers increase from
front to back and lie between 1 and `b`. -/
def mmap_ids_inv (b : Nat) (st : sys_state) : Prop :=
  ∀ t, ((st.mmap_list t).map (fun m => m.id)).Pairwise (fun a c => a < c) ∧
    ∀ m ∈ st.mmap_list t, 1 ≤ m.id ∧ m.id ≤ (b : Int)

/-! ## Well-formedness and effect relations for the paging code -/

/-- The swap store is well formed: every slot of the bitmap lies on the device, and the
sector numbers of the device leave room for one more slot below `2 ^ 32`. -/
def swap_wf (sw : swap_state) : Prop :=
  sw.swap_bitmap.length * BLOCKS_PER_PAGE ≤ sw.swap_block.size ∧ sw.swap_block.size ≤ 2 ^ 32 - 8

/-- Slot `k` of the swap store holds the page `P`. -/
def swap_slot_holds (sw : swap_state) (k : Nat) (P : List Nat) : Prop :=
  P.length = PGSIZE ∧
    ∀ i, i < BLOCKS_PER_PAGE → sw.swap_block.data (k * BLOCKS_PER_PAGE + i) = page_sector P i

/-- The page directory `pd2` is `pd` with some accessed and present indicators cleared. -/
def pagedir_cleared (pd2 pd : Nat → Option pagedir_entry) : Prop :=
  ∀ v, (pd v = none → pd2 v = none) ∧
    ∀ e2, pd2 v = some e2 → ∃ e, pd v = some e ∧ e2.frame = e.frame ∧
      e2.writable = e.writable ∧ e2.dirty = e.dirty ∧
      (e2.present = true → e.present = true) ∧ (e2.accessed = true → e.accessed = true)

/-- What a call `frame_get_page (PAL_USER | PAL_ZERO, vp)` by thread `cur` that returns the
frame `pp` does to the state: the frame is zeroed and entered in the frame table for
(`cur`, `vp`); the kernel pool is untouched; a page-table entry whose page has no frame (it
cannot be the victim of an eviction) is unchanged; page directories lose at most accessed and
present indicators; occupied swap slots stay occupied and keep their contents. -/
structure frame_get_effect (st st2 : vm_state) (cur vp pp : Nat) : Prop where
  inv : vm_inv st2
  zero : st2.memory pp = List.replicate PGSIZE 0
  entry : frame_table_entry.mk pp vp cur ∈ st2.frame_table
  kernel : st2.kernel_pool = st.kernel_pool
  pte_keep : ∀ t v pte, page_table_entry_search (st.threads t).page_table v = some pte →
    (∀ fte ∈ st.frame_table, ¬(fte.owner = t ∧ fte.virtual_page = v)) →
    page_table_entry_search (st2.threads t).page_table v = some pte
  pd_keep : ∀ t, pagedir_cleared (st2.threads t).pagedir (st.threads t).pagedir
  wf : swap_wf st2.swap
  swap_keep : st2.swap.swap_bitmap.length = st.swap.swap_bitmap.length ∧
    ∀ k, st.swap.swap_bitmap[k]? = some false →
      st2.swap.swap_bitmap[k]? = some false ∧
      ∀ i, i < BLOCKS_PER_PAGE →
        st2.swap.swap_block.data (k * BLOCKS_PER_PAGE + i)
          = st.swap.swap_block.data (k * BLOCKS_PER_PAGE + i)

/-- The state `frame_evict_page` reaches just before its final call of `frame_get_page`, when
the page of the victim `fte_evict` went to the swap store, now `sw`, in slot `swap_index`, and
`pte` was the victim's page-table entry. -/
def frame_evicted (st1 : vm_state) (fte_evict : frame_table_entry) (swap_index : Int)
    (sw : swap_state) (pte : page_table_entry) : vm_state :=
  let st2 := set_pagedir st1 fte_evict.owner
    (pagedir_clear_page (st1.threads fte_evict.owner).pagedir fte_evict.virtual_page)
  let st3 := { st2 with swap := sw }
  let pte1 : page_table_entry :=
    { pte with status := pte_status.SWAP, swap_index := swap_index, physical_page := none }
  let pt := (st3.threads fte_evict.owner).page_table.map
    (fun e => if e.virtual_page == fte_evict.virtual_page then pte1 else e)
  let st4 := set_page_table st3 fte_evict.owner pt
  { st4 with
    frame_table := frame_table_drop st4.frame_table (some fte_evict.physical_page)
    user_pool :=
      { st4.user_pool with
        used_map := st4.user_pool.used_map.set
          (fte_evict.physical_page - st4.user_pool.base) false } }

/-- A machine under full pressure: both user pages are frames of thread 1, for the pages at
100 and 200, both recently accessed; three free swap slots. -/
def vm_full : vm_state :=
  { frame_table := [frame_table_entry.mk 3 100 1, frame_table_entry.mk 4 200 1]
    kernel_pool := { base := 1, used_map := [false, false] }
    user_pool := { base := 3, used_map := [true, true] }
    threads := fun _ =>
      { page_table :=
          [page_table_entry.mk (some 3) 100 pte_status.FRAME 0 0 0 0 0 true,
            page_table_entry.mk (some 4) 200 pte_status.FRAME 0 0 0 0 0 true]
        pagedir := fun v =>
          if v = 100 then some (pagedir_entry.mk true 3 true true false)
          else if v = 200 then some (pagedir_entry.mk true 4 true true false)
          else none }
    memory := fun _ => List.replicate PGSIZE 0
    swap := swap_init (block.mk 24 (fun _ => List.replicate BLOCK_SECTOR_SIZE 0)) }

/-- The system `sys_example` in which thread 1 has two file-backed page-table entries on the
three-byte file: the page at `0x10000` expects 3 bytes of the file, the page at `0x20000`
expects 100 bytes, more than the file has. -/
def sys_file_pages : sys_state :=
  { sys_example with
    vm := set_page_table vm_example 1
      [page_table_entry.mk none 0x10000 pte_status.MMAP 0 0 0 3 4093 true,
        page_table_entry.mk none 0x20000 pte_status.MMAP 0 0 0 100 3996 true] }

/-! ## Relations for the write-back of `munmap` -/

/-- The number of bytes `munmap` writes back for the resident page at offset `ofs` of a
mapping of a file of `size` bytes. -/
def munmap_bytes (size ofs : Nat) : Nat :=
  if ofs + PGSIZE ≥ size then size - ofs else PGSIZE

/-- The dirty test `munmap` makes for a resident page: the dirty indicator of the page or
that of its frame. -/
def munmap_dirty (pd : Nat → Option pagedir_entry) (pte : page_table_entry) : Bool :=
  pagedir_is_dirty pd pte.virtual_page || pagedir_is_dirty pd (pte.physical_page.getD 0)

/-- The page of `pte` is not dirty: its dirty indicator is clear and, when it is resident,
so is that of its frame. -/
def munmap_clean (pd : Nat → Option pagedir_entry) (pte : page_table_entry) : Prop :=
  pagedir_is_dirty pd pte.virtual_page = false ∧
    (pte.status = pte_status.FRAME → pagedir_is_dirty pd (pte.physical_page.getD 0) = false)

/-- What one iteration of the loop of `munmap`, for the page at `addr`, leaves alone in the
state of thread `cur`: the open files, the extent of the kernel pool, the contents of every
page outside the kernel pool, all dirty indicators, and the page-directory and page-table
entries of every other page. -/
structure munmap_keep (st st2 : sys_state) (cur addr : Nat) : Prop where
  files : st2.fs.files = st.fs.files
  kbase : st2.vm.kernel_pool.base = st.vm.kernel_pool.base
  klen : st2.vm.kernel_pool.used_map.length = st.vm.kernel_pool.used_map.length
  mem : ∀ p, page_from_pool st.vm.kernel_pool p = false → st2.vm.memory p = st.vm.memory p
  dirty : ∀ v, pagedir_is_dirty (st2.vm.threads cur).pagedir v
    = pagedir_is_dirty (st.vm.threads cur).pagedir v
  pd : ∀ v, v ≠ addr → (st2.vm.threads cur).pagedir v = (st.vm.threads cur).pagedir v
  pt : ∀ v, v ≠ addr → page_table_entry_search (st2.vm.threads cur).page_table v
    = page_table_entry_search (st.vm.threads cur).page_table v

/-- The state `stk` of the loop of `munmap` after the pages `m < k` of the mapping `me` of
the file `f` of `size` bytes, started in `st`: what the iterations so far left alone, the
bytes of the file from offset `k * PGSIZE` on are as in `st`, and every page done so far that
had a page-table entry in `st` is written back if it was resident and dirty, and has its
bytes of the file unchanged if it was not dirty. -/
structure munmap_inv (st stk : sys_state) (cur : Nat) (me : mmap_entry) (f : vm_file)
    (size k : Nat) : Prop where
  files : stk.fs.files = st.fs.files
  kbase : stk.vm.kernel_pool.base = st.vm.kernel_pool.base
  klen : stk.vm.kernel_pool.used_map.length = st.vm.kernel_pool.used_map.length
  mem : ∀ p, page_from_pool st.vm.kernel_pool p = false → stk.vm.memory p = st.vm.memory p
  dirty : ∀ v, pagedir_is_dirty (stk.vm.threads cur).pagedir v
    = pagedir_is_dirty (st.vm.threads cur).pagedir v
  pd : ∀ m, k ≤ m → m < page_count size →
    (stk.vm.threads cur).pagedir (ptr_add me.va (m * PGSIZE))
      = (st.vm.threads cur).pagedir (ptr_add me.va (m * PGSIZE))
  pt : ∀ m, k ≤ m → m < page_count size →
    page_table_entry_search (stk.vm.threads cur).page_table (ptr_add me.va (m * PGSIZE))
      = page_table_entry_search (st.vm.threads cur).page_table (ptr_add me.va (m * PGSIZE))
  len : size ≤ (stk.fs.inodes f.inode).length
  rest : ∀ q, k * PGSIZE ≤ q → q < size →
    (stk.fs.inodes f.inode)[q]? = (st.fs.inodes f.inode)[q]?
  done : ∀ m, m < k → ∀ pte,
    page_table_entry_search (st.vm.threads cur).page_table (ptr_add me.va (m * PGSIZE))
      = some pte →
    (pte.status = pte_status.FRAME → munmap_dirty (st.vm.threads cur).pagedir pte = true →
      ∃ page, user_page st.vm cur pte.virtual_page = some page ∧
        ∀ j, j < munmap_bytes size (m * PGSIZE) → j < page.length →
          (stk.fs.inodes f.inode)[m * PGSIZE + j]? = page[j]?) ∧
    (munmap_clean (st.vm.threads cur).pagedir pte →
      ∀ j, j < munmap_bytes size (m * PGSIZE) →
        (stk.fs.inodes f.inode)[m * PGSIZE + j]? = (st.fs.inodes f.inode)[m * PGSIZE + j]?)

/-- A process with a mapped file: thread 1 has mapping 1 of a 10000-byte file (every byte
`0x11`) at `0x10000`.  The first and the last page are resident, in the frames 3 and 4, and
were written (bytes `0xAA` and `0xBB`, dirty indicators set); the middle page was never
touched and is still file-backed. -/
def sys_mapped_file : sys_state :=
  { vm :=
      { frame_table := [frame_table_entry.mk 3 0x10000 1, frame_table_entry.mk 4 0x12000 1]
        kernel_pool := { base := 1, used_map := [false, false] }
        user_pool := { base := 3, used_map := [true, true, false] }
        threads := fun _ =>
          { page_table :=
              [page_table_entry.mk (some 3) 0x10000 pte_status.FRAME 0 1 0 4096 0 true,
                page_table_entry.mk none 0x11000 pte_status.MMAP 0 1 4096 4096 0 true,
                page_table_entry.mk (some 4) 0x12000 pte_status.FRAME 0 1 8192 1808 2288 true]
            pagedir := fun v =>
              if v = 0x10000 then some (pagedir_entry.mk true 3 true true true)
              else if v = 0x12000 then some (pagedir_entry.mk true 4 true true true)
              else none }
        memory := fun p =>
          if p = 3 then List.replicate PGSIZE 0xAA
          else if p = 4 then List.replicate PGSIZE 0xBB
          else List.replicate PGSIZE 0
        swap := swap_init (block.mk 24 (fun _ => List.replicate BLOCK_SECTOR_SIZE 0)) }
    fs :=
      { inodes := fun _ => List.replicate 10000 0x11
        files := [some (vm_file.mk 0 0), some (vm_file.mk 0 0)]
        write_cnt := 0 }
    mmap_list := fun _ => [mmap_entry.mk 1 1 0x10000]
    owned_files := fun _ => [thread_file.mk 2 (some 0)] }

/-! ## Scenario: a removed inode with one opener -/

/-- A device of 64 sectors whose sector 35 is an indirect block with the single entry 40. -/
def removed_dev : block :=
  block.mk 64
    (fun sec => if sec = 35 then words_sector (40 :: List.replicate 127 0) else empty_sector)

/-- An open inode at sector 5 of 13000 bytes (26 sectors), marked removed, with one opener:
direct pointers 10..34 and one indirect block, sector 35. -/
def removed_inode : inode :=
  inode.mk 5 1 true 0
    (inode_disk.mk 13000 INODE_MAGIC false (List.range' 10 25) (35 :: List.replicate 99 0))

/-- The file system over `removed_dev` with the free sectors 50 and 51 and `removed_inode`
open. -/
def fs_removed : fs_state :=
  fs_state.mk (cache_init (cache_boot removed_dev)) [50, 51] [removed_inode]

/-- Data sector `k` of `removed_inode`. -/
def removed_S (k : Nat) : Nat := if k < 25 then 10 + k else 40

/-- Indirect block `q` of `removed_inode`. -/
def removed_T (_ : Nat) : Nat := 35

/-! ## Allocation on an inode that already has blocks -/

/-- A state in which `inode_disk_init` can run: the cache invariant holds, every free sector is
on the device, sector numbers fit `block_sector_t` and sector contents are bytes. -/
structure alloc_ok (st : fs_state) : Prop where
  inv : cache_inv st.cache
  range : ∀ s ∈ st.free_map, s < st.cache.fs_device.size
  dev : st.cache.fs_device.size ≤ 2 ^ 32
  bytes : ∀ t b, b ∈ cache_view st.cache t → b < 256

/-- What the allocation functions may do to the state: sectors are taken from the head of the
free map, and in a sector that is not free every non-zero entry keeps its value. -/
structure alloc_step (st st2 : fs_state) : Prop where
  ok : alloc_ok st2
  size : st2.cache.fs_device.size = st.cache.fs_device.size
  free : ∃ m, st2.free_map = st.free_map.drop m
  keep : ∀ (t : Nat), t ∉ st.free_map → ∀ (j w : Nat),
    (sector_words (cache_view st.cache t))[j]? = some w → w ≠ 0 →
    (sector_words (cache_view st2.cache t))[j]? = some w

/-- A device of 64 sectors whose sector 35 is an indirect block with the entries 40 and 41. -/
def grown_dev : block :=
  block.mk 64
    (fun sec => if sec = 35 then words_sector (40 :: 41 :: List.replicate 126 0)
      else empty_sector)

/-- The on-disk inode of a file of 27 sectors over `grown_dev`: direct pointers 10..34 and one
indirect block, sector 35. -/
def grown_disk : inode_disk :=
  inode_disk.mk 13500 INODE_MAGIC false (List.range' 10 25) (35 :: List.replicate 99 0)

/-- The file system over `grown_dev` with the free sectors 50..59 and no inode open. -/
def fs_grown : fs_state :=
  fs_state.mk (cache_init (cache_boot grown_dev)) (List.range' 50 10) []

/-! ## Fixed-point arithmetic (`threads/fixed_point.h`) -/

/-- Fractional bits of the fixed-point type `fp`, an `int`. -/
def FP_SHIFT_BITS : Nat := 16

/-- A result of `int` arithmetic: the value when it lies in the range of `int`; signed
overflow is undefined behaviour. -/
def int_checked (z : Int) : Option Int :=
  if -2 ^ 31 ≤ z ∧ z < 2 ^ 31 then some z else none

/-- The macro `FP_TO_INT`: an arithmetic shift to the right, which rounds down. -/
def FP_TO_INT (A : Int) : Int := A >>> FP_SHIFT_BITS

/-- The macro `FP_ROUND`: adds one half to a value that is not negative, subtracts one half
from a negative value, and shifts to the right. -/
def FP_ROUND (A : Int) : Option Int :=
  if A ≥ 0 then
    (int_checked (A + ((1 <<< (FP_SHIFT_BITS - 1) : Nat) : Int))).map (fun (x : Int) => x >>> FP_SHIFT_BITS)
  else
    (int_checked (A - ((1 <<< (FP_SHIFT_BITS - 1) : Nat) : Int))).map (fun (x : Int) => x >>> FP_SHIFT_BITS)

/-- The integer `r` is an integer nearest to the fixed-point value `A`, that is to
`A / 2 ^ 16`: the two differ by at most one half. -/
def fp_nearest (A r : Int) : Prop :=
  -(2 ^ 15) ≤ A - r * 2 ^ 16 ∧ A - r * 2 ^ 16 ≤ 2 ^ 15

instance (A r : Int) : Decidable (fp_nearest A r) := by
  unfold fp_nearest
  exact inferInstance

/-! ## System-call argument validation (`userprog/syscall.c`) -/

/-- Modelled from the spec: `PHYS_BASE` of `threads/vaddr.h`, the first kernel address. -/
def PHYS_BASE : Nat := 0xc0000000

/-- Modelled from the spec: `pg_round_down` of `threads/vaddr.h`, the start of the page an
address lies in. -/
def pg_round_down (va : Nat) : Nat := va - va % PGSIZE

/-- Modelled from the spec: `is_user_vaddr` of `threads/vaddr.h`. -/
def is_user_vaddr (va : Nat) : Bool := decide (va < PHYS_BASE)

/-- Modelled from the spec: `pagedir_get_page (pd, uaddr)` of `userprog/pagedir.c`: the frame
mapped at the page of `uaddr`, a null pointer when the page is not mapped. -/
def pagedir_get_page (pd : Nat → Option pagedir_entry) (uaddr : Nat) : Option Nat :=
  match pd (pg_round_down uaddr) with
  | some e => if e.present then some e.frame else none
  | none => none

/-- Modelled from the spec: the system-call numbers of `lib/syscall-nr.h`. -/
def SYS_HALT : Int := 0

/-- Modelled from the spec: system-call number (`lib/syscall-nr.h`). -/
def SYS_EXIT : Int := 1

/-- Modelled from the spec: system-call number (`lib/syscall-nr.h`). -/
def SYS_EXEC : Int := 2

/-- Modelled from the spec: system-call number (`lib/syscall-nr.h`). -/
def SYS_WAIT : Int := 3

/-- Modelled from the spec: system-call number (`lib/syscall-nr.h`). -/
def SYS_CREATE : Int := 4

/-- Modelled from the spec: system-call number (`lib/syscall-nr.h`). -/
def SYS_REMOVE : Int := 5

/-- Modelled from the spec: system-call number (`lib/syscall-nr.h`). -/
def SYS_OPEN : Int := 6

/-- Modelled from the spec: system-call number (`lib/syscall-nr.h`). -/
def SYS_FILESIZE : Int := 7

/-- Modelled from the spec: system-call number (`lib/syscall-nr.h`). -/
def SYS_READ : Int := 8

/-- Modelled from the spec: system-call number (`lib/syscall-nr.h`). -/
def SYS_WRITE : Int := 9

/-- Modelled from the spec: system-call number (`lib/syscall-nr.h`). -/
def SYS_SEEK : Int := 10

/-- Modelled from the spec: system-call number (`lib/syscall-nr.h`). -/
def SYS_TELL : Int := 11

/-- Modelled from the spec: system-call number (`lib/syscall-nr.h`). -/
def SYS_CLOSE : Int := 12

/-- Modelled from the spec: system-call number (`lib/syscall-nr.h`). -/
def SYS_MMAP : Int := 13

/-- Modelled from the spec: system-call number (`lib/syscall-nr.h`). -/
def SYS_MUNMAP : Int := 14

/-- Modelled from the spec: system-call number (`lib/syscall-nr.h`). -/
def SYS_CHDIR : Int := 15

/-- Modelled from the spec: system-call number (`lib/syscall-nr.h`). -/
def SYS_MKDIR : Int := 16

/-- Modelled from the spec: system-call number (`lib/syscall-nr.h`). -/
def SYS_READDIR : Int := 17

/-- Modelled from the spec: system-call number (`lib/syscall-nr.h`). -/
def SYS_ISDIR : Int := 18

/-- Modelled from the spec: system-call number (`lib/syscall-nr.h`). -/
def SYS_INUMBER : Int := 19

/-- The function `check_ptr` on the page directory `pd` of the current thread. -/
def check_ptr (pd : Nat → Option pagedir_entry) (ptr : Nat) : Bool :=
  if !is_user_vaddr ptr || ptr == 0 || (pagedir_get_page pd ptr).isNone then false else true

/-- The function `check_esp` of project 2; `load_int` is the `int` the user memory holds at an
address. -/
def check_esp (pd : Nat → Option pagedir_entry) (load_int : Nat → Int) (esp : Nat) : Bool :=
  if !check_ptr pd esp || !check_ptr pd (ptr_add esp 3) then false
  else
    let sys_num := load_int esp
    let esp := ptr_add esp 4
    if sys_num = SYS_HALT then true
    else if sys_num ∈ [SYS_EXIT, SYS_EXEC, SYS_WAIT, SYS_REMOVE, SYS_OPEN, SYS_FILESIZE,
        SYS_TELL, SYS_CLOSE] then
      if !check_ptr pd esp || !check_ptr pd (ptr_add esp 3) then false else true
    else if sys_num ∈ [SYS_SEEK, SYS_CREATE] then
      if !check_ptr pd esp || !check_ptr pd (ptr_add esp 7) then false else true
    else if sys_num ∈ [SYS_READ, SYS_WRITE] then
      if !check_ptr pd esp || !check_ptr pd (ptr_add esp 7) then false else true
    else false

/-- The function `check_esp` of project 3, which adds `SYS_MMAP` and `SYS_MUNMAP`. -/
def check_esp_vm (pd : Nat → Option pagedir_entry) (load_int : Nat → Int) (esp : Nat) : Bool :=
  if !check_ptr pd esp || !check_ptr pd (ptr_add esp 3) then false
  else
    let sys_num := load_int esp
    let esp := ptr_add esp 4
    if sys_num = SYS_HALT then true
    else if sys_num ∈ [SYS_EXIT, SYS_EXEC, SYS_WAIT, SYS_REMOVE, SYS_OPEN, SYS_FILESIZE,
        SYS_TELL, SYS_CLOSE, SYS_MUNMAP] then
      if !check_ptr pd esp || !check_ptr pd (ptr_add esp 3) then false else true
    else if sys_num ∈ [SYS_SEEK, SYS_CREATE, SYS_MMAP] then
      if !check_ptr pd esp || !check_ptr pd (ptr_add esp 7) then false else true
    else if sys_num ∈ [SYS_READ, SYS_WRITE] then
      if !check_ptr pd esp || !check_ptr pd (ptr_add esp 7) then false else true
    else false

/-- The function `check_esp` of project 4, which adds the directory calls. -/
def check_esp_filesys (pd : Nat → Option pagedir_entry) (load_int : Nat → Int) (esp : Nat) :
    Bool :=
  if !check_ptr pd esp || !check_ptr pd (ptr_add esp 3) then false
  else
    let sys_num := load_int esp
    let esp := ptr_add esp 4
    if sys_num = SYS_HALT then true
    else if sys_num ∈ [SYS_EXIT, SYS_EXEC, SYS_WAIT, SYS_REMOVE, SYS_OPEN, SYS_FILESIZE,
        SYS_TELL, SYS_CLOSE, SYS_CHDIR, SYS_MKDIR, SYS_ISDIR, SYS_INUMBER] then
      if !check_ptr pd esp || !check_ptr pd (ptr_add esp 3) then false else true
    else if sys_num ∈ [SYS_SEEK, SYS_CREATE, SYS_READDIR] then
      if !check_ptr pd esp || !check_ptr pd (ptr_add esp 7) then false else true
    else if sys_num ∈ [SYS_READ, SYS_WRITE] then
      if !check_ptr pd esp || !check_ptr pd (ptr_add esp 7) then false else true
    else false

/-- Number of 4-byte arguments of a system call of project 2. -/
def syscall_argc (sys_num : Int) : Nat :=
  if sys_num ∈ [SYS_EXIT, SYS_EXEC, SYS_WAIT, SYS_REMOVE, SYS_OPEN, SYS_FILESIZE, SYS_TELL,
      SYS_CLOSE] then 1
  else if sys_num ∈ [SYS_SEEK, SYS_CREATE] then 2
  else if sys_num ∈ [SYS_READ, SYS_WRITE] then 3
  else 0

/-- A page directory with the one page at `0x8048000` mapped. -/
def one_page_pagedir : Nat → Option pagedir_entry :=
  fun v => if v = 0x8048000 then some (pagedir_entry.mk true 3 true false false) else none

/-- User memory that holds `SYS_WRITE` at `0x8048ff4`, twelve bytes below the end of the page
at `0x8048000`. -/
def write_call_memory : Nat → Int :=
  fun a => if a = 0x8048ff4 then SYS_WRITE else 0

/-! ## Preparing a user buffer (`read_prepare` of `userprog/syscall.c`, project 3) -/

/-- Modelled from the spec: `STACK_SIZE`, the maximum stack size limit. -/
def STACK_SIZE : Nat := 0x800000

/-- Subtraction of an offset from a 32-bit pointer. -/
def ptr_sub (p ofs : Nat) : Nat := (p + 2 ^ 32 - ofs % 2 ^ 32) % 2 ^ 32

/-- The function `read_prepare` called by thread `cur` on `buf`, with `ge` the stack pointer
saved by `syscall_handler`.  The flag of the result is `false` when the function ends in
`exit (-1)`. -/
def read_prepare (fuel : Nat) (pd_ok : Bool) (st : sys_state) (cur ge buf : Nat) :
    Option (Bool × sys_state) :=
  if buf = 0 ∨ is_user_vaddr buf = false then some (false, st)
  else if (pagedir_get_page (st.vm.threads cur).pagedir buf).isNone then
    match page_table_entry_search (st.vm.threads cur).page_table buf with
    | some pte => page_load fuel pd_ok st cur pte.virtual_page
    | none =>
      if buf ≥ ptr_sub ge 32 then
        let page := pg_round_down buf
        if buf ≥ PHYS_BASE - STACK_SIZE ∧ (buf ≥ ge ∨ buf = ptr_sub ge 4 ∨ buf = ptr_sub ge 32)
        then
          let pte : page_table_entry :=
            { physical_page := none, virtual_page := page, status := pte_status.ZERO,
              swap_index := 0, file := 0, ofs := 0, read_bytes := 0, zero_bytes := 0,
              writable := true }
          page_load fuel pd_ok
            (sys_state.mk
              (set_page_table st.vm cur (hash_insert (st.vm.threads cur).page_table pte))
              st.fs st.mmap_list st.owned_files) cur page
        else some (false, st)
      else some (false, st)
  else some (true, st)

/-! ## Scenarios for victim selection and for the pointer tree of a large file -/

/-- The machine `vm_full` with the accessed indicators of both pages clear. -/
def vm_idle : vm_state :=
  { vm_full with
    threads := fun _ =>
      { page_table :=
          [page_table_entry.mk (some 3) 100 pte_status.FRAME 0 0 0 0 0 true,
            page_table_entry.mk (some 4) 200 pte_status.FRAME 0 0 0 0 0 true]
        pagedir := fun v =>
          if v = 100 then some (pagedir_entry.mk true 3 true false false)
          else if v = 200 then some (pagedir_entry.mk true 4 true false false)
          else none } }

/-- A device of 512 sectors with two indirect blocks: sector 35 lists the sectors 100..227,
sector 36 the sectors 228..355; every other sector is zero. -/
def tree_dev : block :=
  block.mk 512
    (fun sec =>
      if sec = 35 then words_sector ((List.range 128).map (fun j => j + 100))
      else if sec = 36 then words_sector ((List.range 128).map (fun j => j + 228))
      else empty_sector)

/-- An open inode of 143872 bytes (281 sectors) over `tree_dev`: direct pointers 10..34 and the
indirect blocks 35 and 36.  Data sector 152 is sector 227, data sector 280 is sector 355. -/
def tree_inode : inode :=
  inode.mk 5 1 false 0
    (inode_disk.mk 143872 INODE_MAGIC false (List.range' 10 25)
      (35 :: 36 :: List.replicate 98 0))

/-- The file system over `tree_dev` with `tree_inode` open. -/
def fs_tree : fs_state :=
  fs_state.mk (cache_init (cache_boot tree_dev)) [] [tree_inode]

/-- The calls `inode_read_at (rsize, roffset)`, `inode_write_at (buffer, size, offset)`,
`inode_read_at (rsize, roffset)` on the open inode `h`: returns the bytes of the first read, the
count of the write and the bytes of the second read. -/
def inode_read_write_read (st : fs_state) (h : Nat) (buffer : List Nat) (size offset : Nat)
    (rsize roffset : Nat) : Option (List Nat × Nat × List Nat) :=
  match inode_read_at st h rsize roffset with
  | none => none
  | some (_, before, s1) =>
    match inode_write_at s1 h buffer size offset with
    | none => none
    | some (written, s2) =>
      match inode_read_at s2 h rsize roffset with
      | none => none
      | some (_, after, _) => some (before, written, after)

/-! ## The buffer cache against the bare device -/

/-- A call of `cache_read (sec, dest)` or `cache_write (sec, src)`. -/
inductive rw_op where
  | read (sec : Nat)
  | write (sec : Nat) (src : Sector)

/-- Runs a sequence of `cache_read` and `cache_write` calls against the cache, left to right;
returns the sectors the reads return, in order. -/
def cache_trace (c : cache_state) : List rw_op → Option (List Sector)
  | [] => some []
  | .read sec :: ops =>
    match cache_read c sec with
    | none => none
    | some (buf, c1) => (cache_trace c1 ops).map (fun l => buf :: l)
  | .write sec src :: ops =>
    match cache_write c sec src with
    | none => none
    | some c1 => cache_trace c1 ops

/-- The reference the cache is compared with: the same reads and writes applied to the block
device directly, so that a read returns the sector last written, or the initial content of the
device when the sector was never written. -/
def disk_trace (d : block) : List rw_op → Option (List Sector)
  | [] => some []
  | .read sec :: ops =>
    match block_read d sec with
    | none => none
    | some buf => (disk_trace d ops).map (fun l => buf :: l)
  | .write sec src :: ops =>
    match block_write d sec src with
    | none => none
    | some d1 => disk_trace d1 ops

/-! ## The clock sweep of the buffer cache -/

/-- The recency flag `second_chance` of line `i`. -/
def cache_flag (c : cache_state) (i : Nat) : Option Bool :=
  (c.cache[i]?).map (fun e => e.second_chance)

/-- The line `cache_acquire` installs for sector `sec` read from the device `dev`. -/
def cache_line_for (dev : block) (sec : Nat) : cache_entry :=
  { sector := sec, buffer := dev.data sec, valid := true, dirty := false,
    second_chance := false }

/-- The device after the write-back of the line `victim`: unchanged when the line is clean. -/
def cache_flushed (dev : block) (victim : cache_entry) : block :=
  if victim.dirty then block.mk dev.size (Function.update dev.data victim.sector victim.buffer)
  else dev

/-- A full cache over a device of 128 sectors: line `i` holds sector `i + 10`; the scan cursor
is at line 3; the lines 3 and 4 have the recency flag set, line 5 has it clear and is dirty. -/
def clock_cache : cache_state :=
  { cache := (List.range 64).map (fun i =>
      cache_entry.mk (i + 10) (List.replicate 512 i) true (decide (i = 5))
        (decide (3 ≤ i ∧ i < 5)))
    clock_ptr := 3
    fs_device := block.mk 128 (fun _ => List.replicate 512 0) }
/-! ## Scenario: a failed growth followed by removal and the last close -/

/-- The calls `inode_create (sector, 0)`, `inode_open`, `inode_write_at (buffer, size, 0)`,
`inode_remove`, `inode_close` on `st`: returns the byte count of the write, the first four
direct pointers and the length of the in-memory inode after the write, the free map after the
write and the free map after the close. -/
def inode_grow_remove_close (st : fs_state) (sector : Nat) (buffer : List Nat) (size : Nat) :
    Option (Nat × List Nat × Nat × List Nat × List Nat) :=
  match inode_create st sector 0 false with
  | some (true, s1) =>
    match inode_open s1 sector with
    | none => none
    | some (h, s2) =>
      match inode_write_at s2 h buffer size 0 with
      | none => none
      | some (written, s3) =>
        match inode_lookup s3 h with
        | none => none
        | some ino =>
          match inode_remove s3 h with
          | none => none
          | some s4 =>
            match inode_close s4 h with
            | none => none
            | some s5 =>
              some (written, ino.data.direct.take 4, inode_length ino, s3.free_map, s5.free_map)
  | _ => none

/-! ## Scenario: a swapped-out page under memory pressure -/

/-- A process under memory pressure with a swapped-out page: as in `vm_full` both user pages
are frames of thread 1, for the pages at 100 and 200, both recently accessed.  Thread 1 has a
third page-table entry, for the page at `0x10000`, swapped out to slot 1; slot 1 of the swap
store (the sectors 8 to 15) is occupied and holds a page of bytes 7, the slots 0 and 2 are
free. -/
def sys_swapped : sys_state :=
  { vm :=
      { frame_table := [frame_table_entry.mk 3 100 1, frame_table_entry.mk 4 200 1]
        kernel_pool := { base := 1, used_map := [false, false] }
        user_pool := { base := 3, used_map := [true, true] }
        threads := fun _ =>
          { page_table :=
              [page_table_entry.mk (some 3) 100 pte_status.FRAME 0 0 0 0 0 true,
                page_table_entry.mk (some 4) 200 pte_status.FRAME 0 0 0 0 0 true,
                page_table_entry.mk none 0x10000 pte_status.SWAP 1 0 0 0 0 true]
            pagedir := fun v =>
              if v = 100 then some (pagedir_entry.mk true 3 true true false)
              else if v = 200 then some (pagedir_entry.mk true 4 true true false)
              else none }
        memory := fun _ => List.replicate PGSIZE 0
        swap :=
          { swap_block := block.mk 24 (fun s =>
              if 8 ≤ s ∧ s < 16 then List.replicate BLOCK_SECTOR_SIZE 7
              else List.replicate BLOCK_SECTOR_SIZE 0)
            swap_bitmap := [true, false, true] } }
    fs := { inodes := fun _ => [1, 2, 3], files := [some (vm_file.mk 0 0)], write_cnt := 0 }
    mmap_list := fun _ => []
    owned_files := fun _ => [thread_file.mk 2 (some 0)] }


/-! ## Buffer cache: basic lemmas -/

theorem find?_eq_of_unique {α : Type} (p : α → Bool) :
    ∀ (l : List α) (i : Nat) (e : α), l[i]? = some e → p e = true →
      (∀ j x, l[j]? = some x → p x = true → j = i) → l.find? p = some e := by
  intro l
  induction l with
  | nil => intro i e h; simp at h
  | cons x xs ih =>
    intro i e h hp hu
    cases i with
    | zero =>
      simp at h
      subst h
      simp [hp]
    | succ i =>
      have hx : p x = false := by
        by_contra hx
        have := hu 0 x (by simp) (by simpa using hx)
        omega
      simp only [List.getElem?_cons_succ] at h
      rw [List.find?_cons_of_neg _ (by simp [hx])]
      apply ih i e h hp
      intro j y hj hy
      have := hu (j + 1) y (by simpa using hj) hy
      omega

theorem lines_view_hit (l : List cache_entry) (dev : Nat → Sector) (s i : Nat) (e : cache_entry)
    (hu : lines_uniq l) (hi : l[i]? = some e) (hv : e.valid = true) (hs : e.sector = s) :
    lines_view l dev s = e.buffer := by
  unfold lines_view
  rw [find?_eq_of_unique _ l i e hi (by simp [hv, hs])]
  intro j x hj hx
  simp only [Bool.and_eq_true, beq_iff_eq] at hx
  exact hu j i x e hj hi hx.1 hv (by rw [hx.2, hs])

theorem lines_view_miss (l : List cache_entry) (dev : Nat → Sector) (s : Nat)
    (h : ∀ (i : Nat) (e : cache_entry), l[i]? = some e → e.valid = true → e.sector ≠ s) :
    lines_view l dev s = dev s := by
  unfold lines_view
  have : l.find? (fun e => e.valid && e.sector == s) = none := by
    rw [List.find?_eq_none]
    intro x hx
    obtain ⟨n, hn⟩ := List.mem_iff_getElem?.1 hx
    have := h n x hn
    simp only [Bool.and_eq_true, beq_iff_eq, not_and]
    exact this
  rw [this]

theorem lines_uniq_set (l : List cache_entry) (k : Nat) (e : cache_entry) (hu : lines_uniq l)
    (h : e.valid = true → ∀ (j : Nat) (x : cache_entry), j ≠ k → l[j]? = some x →
      x.valid = true → x.sector ≠ e.sector) :
    lines_uniq (l.set k e) := by
  intro i j ei ej hi hj hvi hvj hs
  rw [List.getElem?_set] at hi hj
  by_cases hik : k = i <;> by_cases hjk : k = j
  · omega
  · rw [if_pos hik] at hi
    rw [if_neg hjk] at hj
    split at hi
    · simp only [Option.some.injEq] at hi
      subst hi
      exact absurd hs.symm (h hvi j ej (by omega) hj hvj)
    · simp at hi
  · rw [if_neg hik] at hi
    rw [if_pos hjk] at hj
    split at hj
    · simp only [Option.some.injEq] at hj
      subst hj
      exact absurd hs (h hvj i ei (by omega) hi hvi)
    · simp at hj
  · rw [if_neg hik] at hi
    rw [if_neg hjk] at hj
    exact hu i j ei ej hi hj hvi hvj hs

theorem lines_view_congr (l : List cache_entry) (dev dev2 : Nat → Sector) (t : Nat)
    (h : dev2 t = dev t) : lines_view l dev2 t = lines_view l dev t := by
  unfold lines_view
  rw [h]

theorem lines_cached_or_not (l : List cache_entry) (t : Nat) :
    (∃ (i : Nat) (e : cache_entry), l[i]? = some e ∧ e.valid = true ∧ e.sector = t) ∨
    (∀ (i : Nat) (e : cache_entry), l[i]? = some e → e.valid = true → e.sector ≠ t) := by
  by_cases h : ∃ (i : Nat) (e : cache_entry), l[i]? = some e ∧ e.valid = true ∧ e.sector = t
  · exact Or.inl h
  · right
    intro i e hi hv hs
    exact h ⟨i, e, hi, hv, hs⟩

theorem getElem?_set_other {α : Type} (l : List α) (k j : Nat) (a : α) (h : j ≠ k) :
    (l.set k a)[j]? = l[j]? := by
  rw [List.getElem?_set, if_neg (by omega)]

theorem getElem?_set_same {α : Type} (l : List α) (k : Nat) (a x : α) (h : l[k]? = some x) :
    (l.set k a)[k]? = some a := by
  have hk : k < l.length := by
    by_contra hk
    rw [List.getElem?_eq_none (by omega)] at h
    simp at h
  rw [List.getElem?_set, if_pos rfl, if_pos hk]

/-- The view through the lines after line `k` is replaced by `new`. -/
theorem lines_view_set (l : List cache_entry) (dev : Nat → Sector) (k : Nat)
    (old new : cache_entry) (t : Nat) (hu : lines_uniq l) (hk : l[k]? = some old)
    (hu2 : lines_uniq (l.set k new)) :
    lines_view (l.set k new) dev t =
      if new.valid = true ∧ new.sector = t then new.buffer
      else if old.valid = true ∧ old.sector = t then dev t
      else lines_view l dev t := by
  have hk2 := getElem?_set_same l k new old hk
  by_cases hnew : new.valid = true ∧ new.sector = t
  · rw [if_pos hnew]
    exact lines_view_hit _ dev t k new hu2 hk2 hnew.1 hnew.2
  · rw [if_neg hnew]
    by_cases hold : old.valid = true ∧ old.sector = t
    · rw [if_pos hold]
      apply lines_view_miss
      intro j x hj hv hs
      by_cases hjk : j = k
      · subst hjk
        rw [hk2] at hj
        simp only [Option.some.injEq] at hj
        subst hj
        exact hnew ⟨hv, hs⟩
      · rw [getElem?_set_other l k j new hjk] at hj
        exact hjk (hu j k x old hj hk hv hold.1 (by rw [hs, hold.2]))
    · rw [if_neg hold]
      rcases lines_cached_or_not l t with ⟨j, x, hj, hv, hs⟩ | hno
      · have hjk : j ≠ k := by
          intro hjk
          subst hjk
          rw [hk] at hj
          simp only [Option.some.injEq] at hj
          subst hj
          exact hold ⟨hv, hs⟩
        rw [lines_view_hit l dev t j x hu hj hv hs]
        exact lines_view_hit _ dev t j x hu2 (by rw [getElem?_set_other l k j new hjk]; exact hj) hv hs
      · rw [lines_view_miss l dev t hno]
        apply lines_view_miss
        intro j x hj hv hs
        by_cases hjk : j = k
        · subst hjk
          rw [hk2] at hj
          simp only [Option.some.injEq] at hj
          subst hj
          exact hnew ⟨hv, hs⟩
        · rw [getElem?_set_other l k j new hjk] at hj
          exact hno j x hj hv hs

/-- The invariant after line `k` is replaced by `new` (and the device possibly written). -/
theorem cache_inv_set (c : cache_state) (k p : Nat) (old new : cache_entry) (dev2 : block)
    (hc : cache_inv c) (hk : c.cache[k]? = some old) (hp : p < CACHE_SIZE)
    (h1 : new.valid = true → ∀ (j : Nat) (x : cache_entry), j ≠ k → c.cache[j]? = some x →
      x.valid = true → x.sector ≠ new.sector)
    (h2 : new.valid = true → new.sector < dev2.size)
    (h3 : new.valid = true → new.dirty = false → new.buffer = dev2.data new.sector)
    (h4 : new.valid = false → new.dirty = false)
    (h5 : dev2.size = c.fs_device.size)
    (h6 : ∀ (j : Nat) (x : cache_entry), j ≠ k → c.cache[j]? = some x → x.valid = true →
      x.dirty = false → dev2.data x.sector = c.fs_device.data x.sector) :
    cache_inv { cache := c.cache.set k new, clock_ptr := p, fs_device := dev2 } := by
  have hk2 := getElem?_set_same c.cache k new old hk
  refine ⟨?_, hp, lines_uniq_set _ k new hc.uniq h1, ?_, ?_, ?_⟩
  · simp only [List.length_set]
    exact hc.len
  · intro i e hi hv
    by_cases hik : i = k
    · subst hik
      simp only at hi
      rw [hk2] at hi
      simp only [Option.some.injEq] at hi
      subst hi
      exact h2 hv
    · simp only at hi
      rw [getElem?_set_other _ k i new hik] at hi
      simp only
      rw [h5]
      exact hc.inrange i e hi hv
  · intro i e hi hv hd
    by_cases hik : i = k
    · subst hik
      simp only at hi
      rw [hk2] at hi
      simp only [Option.some.injEq] at hi
      subst hi
      exact h3 hv hd
    · simp only at hi
      rw [getElem?_set_other _ k i new hik] at hi
      simp only
      rw [h6 i e hik hi hv hd]
      exact hc.clean i e hi hv hd
  · intro i e hi hv
    by_cases hik : i = k
    · subst hik
      simp only at hi
      rw [hk2] at hi
      simp only [Option.some.injEq] at hi
      subst hi
      exact h4 hv
    · simp only at hi
      rw [getElem?_set_other _ k i new hik] at hi
      exact hc.invalid_clean i e hi hv

theorem set_getElem?_self {α : Type} (l : List α) (k : Nat) (a : α) (h : l[k]? = some a) :
    l.set k a = l := by
  apply List.ext_getElem?
  intro j
  by_cases hjk : j = k
  · subst hjk
    rw [getElem?_set_same l j a a h, h]
  · rw [getElem?_set_other l k j a hjk]

/-- Replacing a line by one with the same sector, validity, dirtiness and data keeps the
invariant and the logical view. -/
theorem cache_touch (c : cache_state) (k p : Nat) (old new : cache_entry)
    (hc : cache_inv c) (hk : c.cache[k]? = some old) (hp : p < CACHE_SIZE)
    (hv : new.valid = old.valid) (hs : new.sector = old.sector)
    (hb : new.buffer = old.buffer) (hd : new.dirty = old.dirty) :
    cache_inv { cache := c.cache.set k new, clock_ptr := p, fs_device := c.fs_device } ∧
    ∀ t, cache_view { cache := c.cache.set k new, clock_ptr := p, fs_device := c.fs_device } t
      = cache_view c t := by
  have hinv : cache_inv { cache := c.cache.set k new, clock_ptr := p, fs_device := c.fs_device } := by
    apply cache_inv_set c k p old new c.fs_device hc hk hp
    · intro hnv j x hjk hj hxv hxs
      exact hjk (hc.uniq j k x old hj hk hxv (by rw [← hv]; exact hnv) (by rw [hxs, hs]))
    · intro hnv
      rw [hs]
      exact hc.inrange k old hk (by rw [← hv]; exact hnv)
    · intro hnv hnd
      rw [hs, hb]
      exact hc.clean k old hk (by rw [← hv]; exact hnv) (by rw [← hd]; exact hnd)
    · intro hnv
      rw [hd]
      exact hc.invalid_clean k old hk (by rw [← hv]; exact hnv)
    · rfl
    · intro j x _ _ _ _
      rfl
  refine ⟨hinv, ?_⟩
  intro t
  unfold cache_view
  simp only
  rw [lines_view_set c.cache c.fs_device.data k old new t hc.uniq hk hinv.uniq]
  by_cases h : old.valid = true ∧ old.sector = t
  · rw [if_pos (by rw [hv, hs]; exact h), hb]
    exact (lines_view_hit c.cache _ t k old hc.uniq hk h.1 h.2).symm
  · rw [if_neg (by rw [hv, hs]; exact h), if_neg h]

theorem cache_write_back_spec (c : cache_state) (k : Nat) (e : cache_entry)
    (hc : cache_inv c) (hk : c.cache[k]? = some e) :
    ∃ c2, cache_write_back c k = some c2 ∧ cache_inv c2 ∧
      (∀ t, cache_view c2 t = cache_view c t) ∧
      c2.fs_device.size = c.fs_device.size ∧ c2.clock_ptr = c.clock_ptr ∧
      c2.cache = c.cache.set k { e with dirty := false } ∧
      (e.valid = true → c2.fs_device.data e.sector = e.buffer) := by
  unfold cache_write_back
  rw [hk]
  simp only
  by_cases hvd : (e.valid && e.dirty) = true
  · rw [if_pos hvd]
    simp only [Bool.and_eq_true] at hvd
    have hr := hc.inrange k e hk hvd.1
    unfold block_write
    rw [if_pos hr]
    simp only
    have hinv := cache_inv_set c k c.clock_ptr e { e with dirty := false }
      { size := c.fs_device.size, data := Function.update c.fs_device.data e.sector e.buffer }
      hc hk hc.ptr
      (fun _ j x hjk hj hxv hxs => hjk (hc.uniq j k x e hj hk hxv hvd.1 hxs))
      (fun _ => hr) (fun _ _ => by simp) (fun _ => rfl) rfl
      (fun j x hjk hj hxv _ => by
        have hne : x.sector ≠ e.sector := fun hxs => hjk (hc.uniq j k x e hj hk hxv hvd.1 hxs)
        simp only
        rw [Function.update_noteq hne])
    refine ⟨_, rfl, hinv, ?_, rfl, rfl, rfl, ?_⟩
    · intro t
      unfold cache_view
      simp only
      rw [lines_view_set c.cache _ k e _ t hc.uniq hk hinv.uniq]
      by_cases h : e.valid = true ∧ e.sector = t
      · rw [if_pos h]
        exact (lines_view_hit c.cache _ t k e hc.uniq hk h.1 h.2).symm
      · rw [if_neg h, if_neg h]
        apply lines_view_congr
        have hne : t ≠ e.sector := fun hh => h ⟨hvd.1, hh.symm⟩
        rw [Function.update_noteq hne]
    · intro _
      simp
  · rw [if_neg hvd]
    have hd : e.dirty = false := by
      cases hv : e.valid
      · exact hc.invalid_clean k e hk hv
      · rw [hv] at hvd
        simpa using hvd
    have he : ({ e with dirty := false } : cache_entry) = e := by
      cases e
      simp only at hd
      simp [hd]
    refine ⟨c, rfl, hc, fun _ => rfl, rfl, rfl, ?_, ?_⟩
    · rw [he, set_getElem?_self c.cache k e hk]
    · intro hv
      exact (hc.clean k e hk hv hd).symm

theorem lines_absent_set (l : List cache_entry) (k sec : Nat) (old new : cache_entry)
    (hk : l[k]? = some old) (h : lines_absent l sec) (hn : new.valid = true → new.sector ≠ sec) :
    lines_absent (l.set k new) sec := by
  intro j x hj hv
  by_cases hjk : j = k
  · subst hjk
    rw [getElem?_set_same l j new old hk] at hj
    simp only [Option.some.injEq] at hj
    subst hj
    exact hn hv
  · rw [getElem?_set_other l k j new hjk] at hj
    exact h j x hj hv

/-- Installing sector `sec` in a line that is invalid or clean keeps the invariant and the view. -/
theorem cache_install (c : cache_state) (k p sec : Nat) (old new : cache_entry)
    (hc : cache_inv c) (hk : c.cache[k]? = some old) (hp : p < CACHE_SIZE)
    (hold : old.valid = true → old.dirty = false) (habs : lines_absent c.cache sec)
    (hr : sec < c.fs_device.size) (hnv : new.valid = true) (hns : new.sector = sec)
    (hnb : new.buffer = c.fs_device.data sec) :
    cache_inv { cache := c.cache.set k new, clock_ptr := p, fs_device := c.fs_device } ∧
    ∀ t, cache_view { cache := c.cache.set k new, clock_ptr := p, fs_device := c.fs_device } t
      = cache_view c t := by
  have hinv := cache_inv_set c k p old new c.fs_device hc hk hp
    (fun _ j x _ hj hxv => by rw [hns]; exact habs j x hj hxv)
    (fun _ => by rw [hns]; exact hr) (fun _ _ => by rw [hnb, hns])
    (fun h => by rw [hnv] at h; cases h) rfl (fun _ _ _ _ _ _ => rfl)
  refine ⟨hinv, ?_⟩
  intro t
  unfold cache_view
  simp only
  rw [lines_view_set c.cache c.fs_device.data k old new t hc.uniq hk hinv.uniq]
  by_cases h1 : new.valid = true ∧ new.sector = t
  · rw [if_pos h1, hnb]
    have hst : sec = t := by rw [← hns]; exact h1.2
    subst hst
    exact (lines_view_miss c.cache _ sec habs).symm
  · rw [if_neg h1]
    by_cases h2 : old.valid = true ∧ old.sector = t
    · rw [if_pos h2, lines_view_hit c.cache _ t k old hc.uniq hk h2.1 h2.2,
        hc.clean k old hk h2.1 (hold h2.1), h2.2]
    · rw [if_neg h2]

theorem cache_clock_spec (sec : Nat) : ∀ (fuel : Nat) (c : cache_state), cache_inv c →
    sec < c.fs_device.size → lines_absent c.cache sec →
    List.countP (fun e => e.second_chance) c.cache < fuel →
    ∃ i c2, cache_clock sec fuel c = some (i, c2) ∧ cache_inv c2 ∧
      (∀ t, cache_view c2 t = cache_view c t) ∧ c2.fs_device.size = c.fs_device.size ∧
      ∃ e, c2.cache[i]? = some e ∧ e.valid = true ∧ e.sector = sec := by
  intro fuel
  induction fuel with
  | zero => intro c _ _ _ h; omega
  | succ fuel ih =>
    intro c hc hr habs hcnt
    have hlt : c.clock_ptr < c.cache.length := by rw [hc.len]; exact hc.ptr
    have hk : c.cache[c.clock_ptr]? = some c.cache[c.clock_ptr] := List.getElem?_eq_getElem hlt
    generalize c.cache[c.clock_ptr] = e at hk
    have hp : (c.clock_ptr + 1) % CACHE_SIZE < CACHE_SIZE := Nat.mod_lt _ (by decide)
    unfold cache_clock
    rw [hk]
    simp only
    by_cases hsc : e.second_chance = true
    · rw [if_pos hsc]
      obtain ⟨hinv, hview⟩ := cache_touch c c.clock_ptr ((c.clock_ptr + 1) % CACHE_SIZE) e
        { e with second_chance := false } hc hk hp rfl rfl rfl rfl
      have hcnt2 : List.countP (fun e => e.second_chance)
          (c.cache.set c.clock_ptr { e with second_chance := false }) < fuel := by
        rw [List.countP_set _ _ _ _ hlt]
        have he : c.cache[c.clock_ptr] = e := by
          rw [List.getElem?_eq_getElem hlt] at hk
          exact Option.some.inj hk
        have hpos : 0 < List.countP (fun e => e.second_chance) c.cache := by
          rw [List.countP_pos_iff]
          exact ⟨e, List.getElem?_mem hk, hsc⟩
        rw [he]
        simp only [hsc, if_true]
        simp only [Bool.false_eq_true, if_false]
        omega
      obtain ⟨i, c2, h1, h2, h3, h4, h5⟩ := ih _ hinv hr
        (lines_absent_set c.cache c.clock_ptr sec e _ hk habs (fun hv => habs _ e hk hv)) hcnt2
      exact ⟨i, c2, h1, h2, fun t => by rw [h3 t, hview t], h4, h5⟩
    · rw [if_neg hsc]
      obtain ⟨c1, hw1, hw2, hw3, hw4, hw5, hw6, _⟩ := cache_write_back_spec c c.clock_ptr e hc hk
      rw [hw1]
      simp only
      have hk1 : c1.cache[c.clock_ptr]? = some { e with dirty := false } := by
        rw [hw6]
        exact getElem?_set_same c.cache _ _ e hk
      have hrd : block_read c1.fs_device sec = some (c1.fs_device.data sec) := by
        unfold block_read
        rw [if_pos (by rw [hw4]; exact hr)]
      rw [hk1, hrd]
      simp only
      have habs1 : lines_absent c1.cache sec := by
        rw [hw6]
        exact lines_absent_set c.cache c.clock_ptr sec e _ hk habs (fun hv => habs _ e hk hv)
      obtain ⟨hinv, hview⟩ := cache_install c1 c.clock_ptr ((c.clock_ptr + 1) % CACHE_SIZE) sec
        { e with dirty := false }
        { sector := sec, buffer := c1.fs_device.data sec, valid := true, dirty := false,
          second_chance := false }
        hw2 hk1 hp (fun _ => rfl) habs1 (by rw [hw4]; exact hr) rfl rfl rfl
      refine ⟨_, _, rfl, hinv, fun t => by rw [hview t, hw3 t], hw4,
        { sector := sec, buffer := c1.fs_device.data sec, valid := true, dirty := false,
          second_chance := false }, ?_, rfl, rfl⟩
      exact getElem?_set_same c1.cache _ _ _ hk1

theorem cache_acquire_spec (c : cache_state) (sec : Nat) (hc : cache_inv c)
    (hr : sec < c.fs_device.size) (habs : lines_absent c.cache sec) :
    ∃ i c2, cache_acquire c sec = some (i, c2) ∧ cache_inv c2 ∧
      (∀ t, cache_view c2 t = cache_view c t) ∧ c2.fs_device.size = c.fs_device.size ∧
      ∃ e, c2.cache[i]? = some e ∧ e.valid = true ∧ e.sector = sec := by
  unfold cache_acquire
  cases hf : c.cache.findIdx? (fun e => !e.valid) with
  | some i =>
    simp only
    obtain ⟨hi, hpi, _⟩ := List.findIdx?_eq_some_iff_getElem.1 hf
    have hk : c.cache[i]? = some c.cache[i] := List.getElem?_eq_getElem hi
    generalize c.cache[i] = old at hk hpi
    have hov : old.valid = false := by simpa using hpi
    unfold block_read
    rw [if_pos hr]
    simp only
    obtain ⟨hinv, hview⟩ := cache_install c i c.clock_ptr sec old
      { sector := sec, buffer := c.fs_device.data sec, valid := true, dirty := false,
        second_chance := false }
      hc hk hc.ptr (fun h => by rw [hov] at h; cases h) habs hr rfl rfl rfl
    exact ⟨_, _, rfl, hinv, hview, rfl, _, getElem?_set_same c.cache _ _ _ hk, rfl, rfl⟩
  | none =>
    simp only
    apply cache_clock_spec sec (CACHE_SIZE + 1) c hc hr habs
    have := List.countP_le_length (fun e => e.second_chance) (l := c.cache)
    rw [hc.len] at this
    omega

theorem cache_get_spec (c : cache_state) (sec : Nat) (hc : cache_inv c)
    (hr : sec < c.fs_device.size) :
    ∃ i c2, cache_get c sec = some (i, c2) ∧ cache_inv c2 ∧
      (∀ t, cache_view c2 t = cache_view c t) ∧ c2.fs_device.size = c.fs_device.size ∧
      ∃ e, c2.cache[i]? = some e ∧ e.valid = true ∧ e.sector = sec := by
  unfold cache_get
  cases hf : c.cache.findIdx? (fun e => e.valid && e.sector == sec) with
  | some i =>
    simp only
    obtain ⟨hi, hpi, _⟩ := List.findIdx?_eq_some_iff_getElem.1 hf
    have hk : c.cache[i]? = some c.cache[i] := List.getElem?_eq_getElem hi
    generalize c.cache[i] = e at hk hpi
    simp only [Bool.and_eq_true, beq_iff_eq] at hpi
    exact ⟨i, c, rfl, hc, fun _ => rfl, rfl, e, hk, hpi.1, hpi.2⟩
  | none =>
    simp only
    apply cache_acquire_spec c sec hc hr
    intro j x hj hv hs
    have := List.findIdx?_eq_none_iff.1 hf x (List.getElem?_mem hj)
    simp [hv, hs] at this

/-- A `cache_read` returns the logical content of the sector and leaves every sector's logical
content unchanged. -/
theorem cache_read_spec (c : cache_state) (sec : Nat) (hc : cache_inv c)
    (hr : sec < c.fs_device.size) :
    ∃ c2, cache_read c sec = some (cache_view c sec, c2) ∧ cache_inv c2 ∧
      (∀ t, cache_view c2 t = cache_view c t) ∧ c2.fs_device.size = c.fs_device.size := by
  obtain ⟨i, c1, h1, h2, h3, h4, e, he, hv, hs⟩ := cache_get_spec c sec hc hr
  unfold cache_read
  rw [h1]
  simp only
  rw [he]
  simp only
  obtain ⟨hinv, hview⟩ := cache_touch c1 i c1.clock_ptr e { e with second_chance := true }
    h2 he h2.ptr rfl rfl rfl rfl
  have hb : e.buffer = cache_view c sec := by
    rw [← h3 sec]
    exact (lines_view_hit c1.cache _ sec i e h2.uniq he hv hs).symm
  exact ⟨_, by rw [hb], hinv, fun t => by rw [hview t, h3 t], h4⟩

/-- A `cache_write` sets the logical content of its sector and of no other. -/
theorem cache_write_spec (c : cache_state) (sec : Nat) (src : Sector) (hc : cache_inv c)
    (hr : sec < c.fs_device.size) :
    ∃ c2, cache_write c sec src = some c2 ∧ cache_inv c2 ∧
      (∀ t, cache_view c2 t = if t = sec then src else cache_view c t) ∧
      c2.fs_device.size = c.fs_device.size := by
  obtain ⟨i, c1, h1, h2, h3, h4, e, he, hv, hs⟩ := cache_get_spec c sec hc hr
  unfold cache_write
  rw [h1]
  simp only
  rw [he]
  simp only
  have hinv := cache_inv_set c1 i c1.clock_ptr e
    { e with second_chance := true, dirty := true, buffer := src } c1.fs_device h2 he h2.ptr
    (fun _ j x hjk hj hxv hxs => hjk (h2.uniq j i x e hj he hxv hv hxs))
    (fun _ => h2.inrange i e he hv) (fun _ h => by cases h) (fun h => by rw [hv] at h; cases h)
    rfl (fun _ _ _ _ _ _ => rfl)
  refine ⟨_, rfl, hinv, ?_, h4⟩
  intro t
  unfold cache_view
  simp only
  rw [lines_view_set c1.cache _ i e _ t h2.uniq he hinv.uniq]
  simp only
  by_cases hts : t = sec
  · rw [if_pos hts, if_pos ⟨hv, by rw [hs, hts]⟩]
  · rw [if_neg hts, if_neg (fun h => hts (by rw [← h.2, hs])),
      if_neg (fun h => hts (by rw [← h.2, hs]))]
    exact h3 t

theorem cache_write_back_upto_spec (c : cache_state) (hc : cache_inv c) :
    ∀ n, n ≤ CACHE_SIZE → ∃ c2, cache_write_back_upto c n = some c2 ∧ cache_inv c2 ∧
      (∀ t, cache_view c2 t = cache_view c t) ∧ c2.fs_device.size = c.fs_device.size := by
  intro n
  induction n with
  | zero => intro _; exact ⟨c, rfl, hc, fun _ => rfl, rfl⟩
  | succ n ih =>
    intro hn
    obtain ⟨c1, h1, h2, h3, h4⟩ := ih (by omega)
    have hlt : n < c1.cache.length := by rw [h2.len]; omega
    obtain ⟨c2, g1, g2, g3, g4, _⟩ :=
      cache_write_back_spec c1 n _ h2 (List.getElem?_eq_getElem hlt)
    refine ⟨c2, ?_, g2, fun t => by rw [g3 t, h3 t], by rw [g4, h4]⟩
    simp only [cache_write_back_upto]
    rw [h1]
    exact g1

theorem cache_clear_upto_spec (c : cache_state) (hc : cache_inv c) :
    ∀ n, n ≤ CACHE_SIZE → ∃ c2, cache_clear_upto c n = some c2 ∧ cache_inv c2 ∧
      (∀ t, cache_view c2 t = cache_view c t) ∧ c2.fs_device.size = c.fs_device.size ∧
      ∀ (j : Nat) (e : cache_entry), j < n → c2.cache[j]? = some e →
        e.valid = false ∧ e.dirty = false := by
  intro n
  induction n with
  | zero =>
    intro _
    exact ⟨c, rfl, hc, fun _ => rfl, rfl, fun j e hj => by omega⟩
  | succ n ih =>
    intro hn
    obtain ⟨c1, h1, h2, h3, h4, h5⟩ := ih (by omega)
    have hlt : n < c1.cache.length := by rw [h2.len]; omega
    have hk : c1.cache[n]? = some c1.cache[n] := List.getElem?_eq_getElem hlt
    generalize c1.cache[n] = e at hk
    obtain ⟨c2, g1, g2, g3, g4, g5, g6, _⟩ := cache_write_back_spec c1 n e h2 hk
    have hk2 : c2.cache[n]? = some { e with dirty := false } := by
      rw [g6]
      exact getElem?_set_same c1.cache _ _ e hk
    have hinv := cache_inv_set c2 n c2.clock_ptr { e with dirty := false }
      { e with dirty := false, valid := false } c2.fs_device g2 hk2 g2.ptr
      (fun h => by cases h) (fun h => by cases h) (fun h => by cases h) (fun _ => rfl) rfl
      (fun _ _ _ _ _ _ => rfl)
    refine ⟨_, ?_, hinv, ?_, by rw [← h4, ← g4], ?_⟩
    · simp only [cache_clear_upto]
      rw [h1]
      simp only
      rw [g1]
      simp only
      rw [hk2]
    · intro t
      rw [← h3 t, ← g3 t]
      unfold cache_view
      simp only
      rw [lines_view_set c2.cache _ n _ _ t g2.uniq hk2 hinv.uniq]
      simp only [Bool.false_eq_true, false_and, if_false]
      by_cases h : e.valid = true ∧ e.sector = t
      · rw [if_pos h, lines_view_hit c2.cache _ t n _ g2.uniq hk2 h.1 h.2]
        simp only
        rw [← h.2]
        exact (g2.clean n _ hk2 h.1 rfl).symm
      · rw [if_neg h]
    · intro j x hj hx
      simp only at hx
      by_cases hjn : j = n
      · subst hjn
        rw [getElem?_set_same c2.cache j _ _ hk2] at hx
        simp only [Option.some.injEq] at hx
        subst hx
        exact ⟨rfl, rfl⟩
      · rw [getElem?_set_other c2.cache n j _ hjn, g6, getElem?_set_other c1.cache n j _ hjn] at hx
        exact h5 j x (by omega) hx

/-- The function `cache_clear` leaves the device holding every sector's logical content, and
every line invalid and clean. -/
theorem cache_clear_spec (c : cache_state) (hc : cache_inv c) :
    ∃ c2, cache_clear c = some c2 ∧ cache_inv c2 ∧
      (∀ t, cache_view c2 t = cache_view c t) ∧ c2.fs_device.size = c.fs_device.size ∧
      (∀ t, c2.fs_device.data t = cache_view c t) ∧
      ∀ e ∈ c2.cache, e.valid = false ∧ e.dirty = false := by
  obtain ⟨c2, h1, h2, h3, h4, h5⟩ := cache_clear_upto_spec c hc CACHE_SIZE (le_refl _)
  have hall : ∀ e ∈ c2.cache, e.valid = false ∧ e.dirty = false := by
    intro e he
    obtain ⟨j, hj, hje⟩ := List.mem_iff_getElem.1 he
    apply h5 j e (by rw [← h2.len]; exact hj)
    rw [List.getElem?_eq_getElem hj, hje]
  refine ⟨c2, h1, h2, h3, h4, ?_, hall⟩
  intro t
  rw [← h3 t]
  unfold cache_view
  rw [lines_view_miss]
  intro i e hi hv
  have := (hall e (List.getElem?_mem hi)).1
  rw [hv] at this
  cases this

theorem cache_init_spec (dev : block) :
    cache_inv (cache_init (cache_boot dev)) ∧
    (∀ t, cache_view (cache_init (cache_boot dev)) t = dev.data t) ∧
    (cache_init (cache_boot dev)).fs_device = dev := by
  have hall : ∀ (i : Nat) (e : cache_entry), (cache_init (cache_boot dev)).cache[i]? = some e →
      e.valid = false ∧ e.dirty = false := by
    intro i e hi
    simp only [cache_init, cache_boot, List.map_replicate, List.getElem?_replicate] at hi
    split at hi
    · simp only [Option.some.injEq] at hi
      subst hi
      exact ⟨rfl, rfl⟩
    · cases hi
  refine ⟨⟨?_, ?_, ?_, ?_, ?_, ?_⟩, ?_, rfl⟩
  · simp [cache_init, cache_boot]
  · simp [cache_init, cache_boot, CACHE_SIZE]
  · intro i j ei ej hi _ hvi
    have := (hall i ei hi).1
    rw [hvi] at this
    cases this
  · intro i e hi hv
    have := (hall i e hi).1
    rw [hv] at this
    cases this
  · intro i e hi hv
    have := (hall i e hi).1
    rw [hv] at this
    cases this
  · intro i e hi _
    exact (hall i e hi).2
  · intro t
    unfold cache_view
    rw [lines_view_miss]
    · rfl
    · intro i e hi hv
      have := (hall i e hi).1
      rw [hv] at this
      cases this

/-- Every in-range call succeeds, keeps the invariant, and changes the logical view exactly as
the call asks. -/
theorem cache_step_spec (c : cache_state) (op : cache_op) (hc : cache_inv c)
    (hr : op.in_range c.fs_device.size = true) :
    ∃ c2, cache_step c op = some c2 ∧ cache_inv c2 ∧
      (∀ t, cache_view c2 t = disk_run (cache_view c) [op] t) ∧
      c2.fs_device.size = c.fs_device.size := by
  cases op with
  | read sec =>
    simp only [cache_op.in_range, decide_eq_true_eq] at hr
    obtain ⟨c2, h1, h2, h3, h4⟩ := cache_read_spec c sec hc hr
    exact ⟨c2, by simp [cache_step, h1], h2, h3, h4⟩
  | write sec src =>
    simp only [cache_op.in_range, decide_eq_true_eq] at hr
    obtain ⟨c2, h1, h2, h3, h4⟩ := cache_write_spec c sec src hc hr
    refine ⟨c2, h1, h2, ?_, h4⟩
    intro t
    rw [h3 t]
    simp only [disk_run, Function.update_apply]
  | get sec =>
    simp only [cache_op.in_range, decide_eq_true_eq] at hr
    obtain ⟨i, c2, h1, h2, h3, h4, _⟩ := cache_get_spec c sec hc hr
    exact ⟨c2, by simp [cache_step, h1], h2, h3, h4⟩
  | clear =>
    obtain ⟨c2, h1, h2, h3, h4, _⟩ := cache_clear_spec c hc
    exact ⟨c2, h1, h2, h3, h4⟩
  | write_behind =>
    obtain ⟨c2, h1, h2, h3, h4⟩ := cache_write_back_upto_spec c hc CACHE_SIZE (le_refl _)
    exact ⟨c2, h1, h2, h3, h4⟩

theorem disk_run_congr (ops : List cache_op) : ∀ (d1 d2 : Nat → Sector),
    (∀ t, d1 t = d2 t) → ∀ t, disk_run d1 ops t = disk_run d2 ops t := by
  induction ops with
  | nil => intro d1 d2 h t; exact h t
  | cons op ops ih =>
    intro d1 d2 h t
    have hfun : d1 = d2 := funext h
    rw [hfun]

theorem cache_run_spec (ops : List cache_op) : ∀ (c : cache_state), cache_inv c →
    ops.all (fun op => op.in_range c.fs_device.size) = true →
    ∃ c2, cache_run c ops = some c2 ∧ cache_inv c2 ∧
      (∀ t, cache_view c2 t = disk_run (cache_view c) ops t) ∧
      c2.fs_device.size = c.fs_device.size := by
  induction ops with
  | nil => intro c hc _; exact ⟨c, rfl, hc, fun _ => rfl, rfl⟩
  | cons op ops ih =>
    intro c hc hr
    simp only [List.all_cons, Bool.and_eq_true] at hr
    obtain ⟨c1, h1, h2, h3, h4⟩ := cache_step_spec c op hc hr.1
    obtain ⟨c2, g1, g2, g3, g4⟩ := ih c1 h2 (by rw [h4]; exact hr.2)
    refine ⟨c2, ?_, g2, ?_, by rw [g4, h4]⟩
    · simp only [cache_run]
      rw [h1]
      exact g1
    · intro t
      rw [g3 t, disk_run_congr ops _ _ h3 t]
      cases op <;> rfl

/-! ## Buffer cache: the claims -/

/-- C4: after `cache_init` and any sequence of in-range cache calls, for every sector `s` of
the device and every sector of data, `cache_write (s, data)` followed immediately by
`cache_read (s, buf)` succeeds and leaves `buf` equal to `data`. -/
theorem cache_read_after_write (dev : block) (ops : List cache_op) (s : Nat) (data : Sector)
    (hops : ops.all (fun op => op.in_range dev.size) = true) (hs : s < dev.size) :
    ∃ c c1 c2, cache_run (cache_init (cache_boot dev)) ops = some c ∧
      cache_write c s data = some c1 ∧ cache_read c1 s = some (data, c2) := by
  obtain ⟨hinv, _, hdev⟩ := cache_init_spec dev
  obtain ⟨c, h1, h2, _, h4⟩ := cache_run_spec ops _ hinv (by rw [hdev]; exact hops)
  rw [hdev] at h4
  obtain ⟨c1, g1, g2, g3, g4⟩ := cache_write_spec c s data h2 (by rw [h4]; exact hs)
  obtain ⟨c2, k1, _⟩ := cache_read_spec c1 s g2 (by rw [g4, h4]; exact hs)
  refine ⟨c, c1, c2, h1, g1, ?_⟩
  rw [k1, g3 s, if_pos rfl]

/-- C5: after `cache_init` and any sequence of in-range cache calls, `cache_clear` succeeds and
leaves the block device holding, for every sector, the data of the most recent `cache_write` to
it (or the device's earlier content if there was none), with every line invalid and clean. -/
theorem cache_clear_flushes (dev : block) (ops : List cache_op)
    (hops : ops.all (fun op => op.in_range dev.size) = true) :
    ∃ c c2, cache_run (cache_init (cache_boot dev)) ops = some c ∧ cache_clear c = some c2 ∧
      (∀ t, c2.fs_device.data t = disk_run dev.data ops t) ∧
      ∀ e ∈ c2.cache, e.valid = false ∧ e.dirty = false := by
  obtain ⟨hinv, hview, hdev⟩ := cache_init_spec dev
  obtain ⟨c, h1, h2, h3, _⟩ := cache_run_spec ops _ hinv (by rw [hdev]; exact hops)
  obtain ⟨c2, g1, _, _, _, g5, g6⟩ := cache_clear_spec c h2
  refine ⟨c, c2, h1, g1, ?_, g6⟩
  intro t
  rw [g5 t, h3 t]
  exact disk_run_congr ops _ _ hview t

/-- C8: after `cache_init` and any sequence of in-range `cache_read`, `cache_write`,
`cache_get` and `cache_clear` calls (and write-behind rounds), the calls all return and no two
valid cache lines hold the same sector number. -/
theorem cache_lines_unique (dev : block) (ops : List cache_op)
    (hops : ops.all (fun op => op.in_range dev.size) = true) :
    ∃ c, cache_run (cache_init (cache_boot dev)) ops = some c ∧
      ∀ (i j : Nat) (ei ej : cache_entry), c.cache[i]? = some ei → c.cache[j]? = some ej →
        ei.valid = true → ej.valid = true → ei.sector = ej.sector → i = j := by
  obtain ⟨hinv, _, hdev⟩ := cache_init_spec dev
  obtain ⟨c, h1, h2, _, _⟩ := cache_run_spec ops _ hinv (by rw [hdev]; exact hops)
  exact ⟨c, h1, h2.uniq⟩

theorem cache_read_after_write_witness :
    ([cache_op.write 1 (List.replicate 512 9), cache_op.read 2].all
        (fun op => op.in_range (block.mk 8 (fun _ => List.replicate 512 0)).size) = true) ∧
    3 < (block.mk 8 (fun _ => List.replicate 512 0)).size ∧
    ∃ c c1 c2, cache_run (cache_init (cache_boot (block.mk 8 (fun _ => List.replicate 512 0))))
        [cache_op.write 1 (List.replicate 512 9), cache_op.read 2] = some c ∧
      cache_write c 3 (List.replicate 512 7) = some c1 ∧
      cache_read c1 3 = some (List.replicate 512 7, c2) :=
  ⟨by decide, by decide,
    cache_read_after_write (block.mk 8 (fun _ => List.replicate 512 0))
      [cache_op.write 1 (List.replicate 512 9), cache_op.read 2] 3 (List.replicate 512 7)
      (by decide) (by decide)⟩

theorem cache_clear_flushes_witness :
    ([cache_op.write 2 (List.replicate 512 5), cache_op.read 4, cache_op.write_behind,
        cache_op.write 2 (List.replicate 512 6)].all
        (fun op => op.in_range (block.mk 16 (fun _ => List.replicate 512 0)).size) = true) ∧
    ∃ c c2, cache_run (cache_init (cache_boot (block.mk 16 (fun _ => List.replicate 512 0))))
        [cache_op.write 2 (List.replicate 512 5), cache_op.read 4, cache_op.write_behind,
          cache_op.write 2 (List.replicate 512 6)] = some c ∧
      cache_clear c = some c2 ∧
      (∀ t, c2.fs_device.data t = disk_run (block.mk 16 (fun _ => List.replicate 512 0)).data
        [cache_op.write 2 (List.replicate 512 5), cache_op.read 4, cache_op.write_behind,
          cache_op.write 2 (List.replicate 512 6)] t) ∧
      ∀ e ∈ c2.cache, e.valid = false ∧ e.dirty = false :=
  ⟨by decide,
    cache_clear_flushes (block.mk 16 (fun _ => List.replicate 512 0))
      [cache_op.write 2 (List.replicate 512 5), cache_op.read 4, cache_op.write_behind,
        cache_op.write 2 (List.replicate 512 6)] (by decide)⟩

theorem cache_lines_unique_witness :
    ([cache_op.read 3, cache_op.write 3 (List.replicate 512 1), cache_op.get 5,
        cache_op.clear, cache_op.read 3].all
        (fun op => op.in_range (block.mk 32 (fun _ => List.replicate 512 0)).size) = true) ∧
    ∃ c, cache_run (cache_init (cache_boot (block.mk 32 (fun _ => List.replicate 512 0))))
        [cache_op.read 3, cache_op.write 3 (List.replicate 512 1), cache_op.get 5,
          cache_op.clear, cache_op.read 3] = some c ∧
      ∀ (i j : Nat) (ei ej : cache_entry), c.cache[i]? = some ei → c.cache[j]? = some ej →
        ei.valid = true → ej.valid = true → ei.sector = ej.sector → i = j :=
  ⟨by decide,
    cache_lines_unique (block.mk 32 (fun _ => List.replicate 512 0))
      [cache_op.read 3, cache_op.write 3 (List.replicate 512 1), cache_op.get 5,
        cache_op.clear, cache_op.read 3] (by decide)⟩

/-! ## Swap store -/

theorem bitmap_scan_free (b : List Bool) (h : true ∈ b) :
    bitmap_scan b < b.length ∧ b[bitmap_scan b]? = some true ∧
      ∀ j, j < bitmap_scan b → b[j]? = some false := by
  unfold bitmap_scan
  cases hf : b.findIdx? (fun x => x) with
  | none =>
    have := List.findIdx?_eq_none_iff.1 hf true h
    simp at this
  | some i =>
    obtain ⟨hi, hp, hlt⟩ := List.findIdx?_eq_some_iff_getElem.1 hf
    refine ⟨hi, ?_, ?_⟩
    · simp only
      rw [List.getElem?_eq_getElem hi, hp]
    · intro j hj
      simp only at hj
      have hjl : j < b.length := by omega
      rw [List.getElem?_eq_getElem hjl]
      have := hlt j hj
      simp only [Bool.not_eq_true] at this
      rw [this]

theorem bitmap_scan_full (b : List Bool) (h : ∀ x ∈ b, x = false) :
    bitmap_scan b = BITMAP_ERROR := by
  unfold bitmap_scan
  have : b.findIdx? (fun x => x) = none := by
    rw [List.findIdx?_eq_none_iff]
    exact h
  rw [this]

theorem size_to_int_small (k : Nat) (h : k < 2 ^ 31) : size_to_int k = (k : Int) := by
  unfold size_to_int
  have h1 : k % 2 ^ 32 = k := Nat.mod_eq_of_lt (by omega)
  rw [h1, if_pos h]

theorem int_to_u32_small (k : Nat) (h : k < 2 ^ 32) : int_to_u32 (k : Int) = k := by
  unfold int_to_u32
  have : ((k : Int) % 2 ^ 32) = ((k % 2 ^ 32 : Nat) : Int) := by
    norm_cast
  rw [this, Nat.mod_eq_of_lt h]
  simp

theorem slot_sector (k n : Nat) (h : k * BLOCKS_PER_PAGE + n < 2 ^ 32) :
    int_to_u32 ((k : Int) * (BLOCKS_PER_PAGE : Int) + (n : Int)) = k * BLOCKS_PER_PAGE + n := by
  have : ((k : Int) * (BLOCKS_PER_PAGE : Int) + (n : Int)) = ((k * BLOCKS_PER_PAGE + n : Nat) : Int) := by
    push_cast
    rfl
  rw [this, int_to_u32_small _ h]

/-- The write loop stores sector `i` of the page at sector `k * BLOCKS_PER_PAGE + i`. -/
theorem swap_out_loop_spec (dev : block) (k : Nat) (pp : List Nat)
    (hk : k * BLOCKS_PER_PAGE + BLOCKS_PER_PAGE ≤ dev.size) (h32 : dev.size < 2 ^ 32) :
    ∀ n, n ≤ BLOCKS_PER_PAGE → ∃ dev1, swap_out_loop dev (k : Int) pp n = some dev1 ∧
      dev1.size = dev.size ∧
      (∀ i, i < n → dev1.data (k * BLOCKS_PER_PAGE + i) = page_sector pp i) ∧
      (∀ s, (s < k * BLOCKS_PER_PAGE ∨ k * BLOCKS_PER_PAGE + n ≤ s) → dev1.data s = dev.data s) := by
  intro n
  induction n with
  | zero => intro _; exact ⟨dev, rfl, rfl, fun i hi => by omega, fun _ _ => rfl⟩
  | succ n ih =>
    intro hn
    obtain ⟨dev1, h1, h2, h3, h4⟩ := ih (by omega)
    simp only [swap_out_loop]
    rw [h1]
    simp only
    rw [slot_sector k n (by omega)]
    unfold block_write
    rw [if_pos (by rw [h2]; omega)]
    refine ⟨_, rfl, h2, ?_, ?_⟩
    · intro i hi
      simp only
      by_cases hin : i = n
      · subst hin
        rw [Function.update_same]
      · rw [Function.update_noteq (by omega)]
        exact h3 i (by omega)
    · intro s hs
      simp only
      rw [Function.update_noteq (by omega)]
      exact h4 s (by omega)

theorem page_put_take (P dest : List Nat) (m S : Nat) (hm : m + S ≤ P.length) :
    (P.take m ++ dest.drop m).take m ++ (P.drop m).take S
        ++ (P.take m ++ dest.drop m).drop (m + S)
      = P.take (m + S) ++ dest.drop (m + S) := by
  have hlen : (List.take m P).length = m := by
    rw [List.length_take]
    omega
  rw [List.take_left' hlen, List.drop_append_eq_append_drop, hlen]
  have h0 : List.drop (m + S) (List.take m P) = [] := by
    apply List.drop_eq_nil_of_le
    rw [hlen]
    omega
  have h1 : m + S - m = S := by omega
  rw [h0, List.drop_drop, h1, List.nil_append, List.take_add]

/-- The read loop copies back the sectors a slot holds, one after the other. -/
theorem swap_in_loop_spec (dev : block) (k : Nat) (P dest : List Nat)
    (hP : P.length = PGSIZE)
    (hk : k * BLOCKS_PER_PAGE + BLOCKS_PER_PAGE ≤ dev.size) (h32 : dev.size < 2 ^ 32)
    (hdev : ∀ i, i < BLOCKS_PER_PAGE → dev.data (k * BLOCKS_PER_PAGE + i) = page_sector P i) :
    ∀ n, n ≤ BLOCKS_PER_PAGE → swap_in_loop dev (k : Int) dest n
      = some (P.take (n * BLOCK_SECTOR_SIZE) ++ dest.drop (n * BLOCK_SECTOR_SIZE)) := by
  intro n
  induction n with
  | zero => intro _; simp [swap_in_loop]
  | succ n ih =>
    intro hn
    simp only [swap_in_loop]
    rw [ih (by omega)]
    simp only
    rw [slot_sector k n (by omega)]
    unfold block_read
    rw [if_pos (by omega), hdev n (by omega)]
    simp only [Option.some.injEq]
    have hB : BLOCKS_PER_PAGE = 8 := by decide
    have hm : n * BLOCK_SECTOR_SIZE + BLOCK_SECTOR_SIZE ≤ P.length := by
      rw [hP]
      show n * 512 + 512 ≤ 4096
      omega
    unfold page_put page_sector
    rw [page_put_take P dest _ _ hm, Nat.add_mul, Nat.one_mul]

theorem swap_init_slots (dev : block) :
    (swap_init dev).swap_bitmap.length * BLOCKS_PER_PAGE ≤ (swap_init dev).swap_block.size := by
  simp only [swap_init, List.length_replicate]
  exact Nat.div_mul_le_self _ _

/-- C9: for every page `P` and every swap state with a free slot, `swap_out (P)` returns the
lowest-numbered free slot and marks exactly that slot occupied, and a following `swap_in` of
that slot into `dest` leaves `dest` equal to `P` and the bitmap as it was before `swap_out`. -/
theorem swap_round_trip (st : swap_state) (P dest : List Nat)
    (hP : P.length = PGSIZE) (hd : dest.length = PGSIZE)
    (hsize : st.swap_bitmap.length * BLOCKS_PER_PAGE ≤ st.swap_block.size)
    (h32 : st.swap_block.size < 2 ^ 32) (hfree : true ∈ st.swap_bitmap) :
    ∃ (k : Nat) (st1 st2 : swap_state), swap_out st P = some ((k : Int), st1) ∧
      st.swap_bitmap[k]? = some true ∧ (∀ j, j < k → st.swap_bitmap[j]? = some false) ∧
      st1.swap_bitmap = st.swap_bitmap.set k false ∧
      swap_in st1 (k : Int) dest = some (P, st2) ∧ st2.swap_bitmap = st.swap_bitmap := by
  obtain ⟨hk, hkt, hlow⟩ := bitmap_scan_free st.swap_bitmap hfree
  generalize hkdef : bitmap_scan st.swap_bitmap = k at hk hkt hlow
  have hB : BLOCKS_PER_PAGE = 8 := by decide
  have hk8 : k * BLOCKS_PER_PAGE + BLOCKS_PER_PAGE ≤ st.swap_block.size := by
    have : (k + 1) * BLOCKS_PER_PAGE ≤ st.swap_bitmap.length * BLOCKS_PER_PAGE :=
      Nat.mul_le_mul_right _ hk
    rw [Nat.add_mul, Nat.one_mul] at this
    omega
  have hk31 : k < 2 ^ 31 := by
    rw [hB] at hk8
    omega
  obtain ⟨dev1, h1, h2, h3, _⟩ :=
    swap_out_loop_spec st.swap_block k P hk8 h32 BLOCKS_PER_PAGE (le_refl _)
  have hout : swap_out st P = some ((k : Int),
      { swap_block := dev1, swap_bitmap := st.swap_bitmap.set k false }) := by
    unfold swap_out
    simp only
    rw [hkdef, size_to_int_small k hk31, h1, int_to_u32_small k (by omega)]
    simp only [bitmap_set]
    rw [if_pos hk]
  have hin := swap_in_loop_spec dev1 k P dest hP (by rw [h2]; exact hk8) (by rw [h2]; exact h32)
    h3 BLOCKS_PER_PAGE (le_refl _)
  have hfull : List.take (BLOCKS_PER_PAGE * BLOCK_SECTOR_SIZE) P
      ++ List.drop (BLOCKS_PER_PAGE * BLOCK_SECTOR_SIZE) dest = P := by
    have e : BLOCKS_PER_PAGE * BLOCK_SECTOR_SIZE = PGSIZE := by decide
    rw [e, List.take_of_length_le (by omega), List.drop_eq_nil_of_le (by omega),
      List.append_nil]
  rw [hfull] at hin
  have hset : (st.swap_bitmap.set k false).set k true = st.swap_bitmap := by
    rw [List.set_set]
    exact set_getElem?_self _ k true hkt
  refine ⟨k, _, { swap_block := dev1, swap_bitmap := st.swap_bitmap }, hout, hkt, hlow, rfl,
    ?_, rfl⟩
  unfold swap_in
  simp only
  rw [hin, int_to_u32_small k (by omega)]
  simp only [bitmap_set, List.length_set]
  rw [if_pos hk, hset]

theorem swap_round_trip_witness :
    (List.replicate 4096 7).length = PGSIZE ∧ (List.replicate 4096 0).length = PGSIZE ∧
    ([false, true, true] : List Bool).length * BLOCKS_PER_PAGE
      ≤ (block.mk 24 (fun _ => List.replicate 512 0)).size ∧
    (block.mk 24 (fun _ => List.replicate 512 0)).size < 2 ^ 32 ∧
    true ∈ ([false, true, true] : List Bool) ∧
    ∃ (k : Nat) (st1 st2 : swap_state),
      swap_out ⟨block.mk 24 (fun _ => List.replicate 512 0), [false, true, true]⟩
        (List.replicate 4096 7) = some ((k : Int), st1) ∧
      ([false, true, true] : List Bool)[k]? = some true ∧
      (∀ j, j < k → ([false, true, true] : List Bool)[j]? = some false) ∧
      st1.swap_bitmap = ([false, true, true] : List Bool).set k false ∧
      swap_in st1 (k : Int) (List.replicate 4096 0) = some (List.replicate 4096 7, st2) ∧
      st2.swap_bitmap = [false, true, true] :=
  ⟨by rw [List.length_replicate]; rfl, by rw [List.length_replicate]; rfl, by decide, by decide, by decide,
    swap_round_trip ⟨block.mk 24 (fun _ => List.replicate 512 0), [false, true, true]⟩
      (List.replicate 4096 7) (List.replicate 4096 0) (by rw [List.length_replicate]; rfl) (by rw [List.length_replicate]; rfl)
      (by decide) (by decide) (by decide)⟩

theorem swap_out_loop_panics (dev : block) (pp : List Nat) (hsize : dev.size ≤ 2 ^ 32 - 8) :
    ∀ n, swap_out_loop dev (size_to_int BITMAP_ERROR) pp (n + 1) = none := by
  intro n
  induction n with
  | zero =>
    simp only [swap_out_loop]
    have : int_to_u32 (size_to_int BITMAP_ERROR * (BLOCKS_PER_PAGE : Int) + ((0 : Nat) : Int))
        = 2 ^ 32 - 8 := by decide
    rw [this]
    unfold block_write
    rw [if_neg (by omega)]
  | succ n ih =>
    simp only [swap_out_loop] at ih ⊢
    rw [ih]

/-- C10 (as amended): when no slot of the swap bitmap is free, `swap_out` reports nothing to its
caller.  It takes `BITMAP_ERROR` as slot index -1; on a swap device of at most 2^32 - 8
sectors its first `block_write`, to sector 2^32 - 8, is past the end of the device, so the
kernel panics there: `swap_out` never returns, and no sector was written, no bit changed. -/
theorem swap_out_exhausted (st : swap_state) (pp : List Nat)
    (hfull : ∀ x ∈ st.swap_bitmap, x = false) (hsize : st.swap_block.size ≤ 2 ^ 32 - 8) :
    swap_out st pp = none ∧
    block_write st.swap_block
      (int_to_u32 (size_to_int (bitmap_scan st.swap_bitmap) * (BLOCKS_PER_PAGE : Int) + ((0 : Nat) : Int)))
      (page_sector pp 0) = none := by
  rw [bitmap_scan_full st.swap_bitmap hfull]
  constructor
  · unfold swap_out
    simp only
    rw [bitmap_scan_full st.swap_bitmap hfull]
    have := swap_out_loop_panics st.swap_block pp hsize 7
    have e : BLOCKS_PER_PAGE = 7 + 1 := by decide
    rw [e, this]
  · have : int_to_u32 (size_to_int BITMAP_ERROR * (BLOCKS_PER_PAGE : Int) + ((0 : Nat) : Int))
        = 2 ^ 32 - 8 := by decide
    rw [this]
    unfold block_write
    rw [if_neg (by omega)]

theorem swap_out_exhausted_witness :
    (∀ x ∈ ([false, false] : List Bool), x = false) ∧
    (block.mk 16 (fun _ => List.replicate 512 0)).size ≤ 2 ^ 32 - 8 ∧
    swap_out ⟨block.mk 16 (fun _ => List.replicate 512 0), [false, false]⟩
      (List.replicate 4096 1) = none ∧
    block_write (block.mk 16 (fun _ => List.replicate 512 0))
      (int_to_u32 (size_to_int (bitmap_scan [false, false]) * (BLOCKS_PER_PAGE : Int)
        + ((0 : Nat) : Int)))
      (page_sector (List.replicate 4096 1) 0) = none :=
  ⟨by decide, by decide,
    swap_out_exhausted ⟨block.mk 16 (fun _ => List.replicate 512 0), [false, false]⟩
      (List.replicate 4096 1) (by decide) (by decide)⟩

/-- C10 (as stated) fails: with both slots of a 16-sector swap device occupied, `swap_out`
returns no result at all to its caller. -/
theorem swap_out_exhausted_no_report :
    ¬ ∃ (r : Int) (st1 : swap_state),
      swap_out ⟨block.mk 16 (fun _ => List.replicate 512 0), [false, false]⟩
        (List.replicate 4096 1) = some (r, st1) := by
  rintro ⟨r, st1, h⟩
  have hn : (swap_out ⟨block.mk 16 (fun _ => List.replicate 512 0), [false, false]⟩
      (List.replicate 4096 1)).isNone = true := by decide
  rw [h] at hn
  cases hn

/-! ## Inode layer: sector encodings -/

theorem u32_bytes_length (w : Nat) : (u32_bytes w).length = 4 := rfl

theorem bytes_u32_u32_bytes (w : Nat) (rest : List Nat) (h : w < 2 ^ 32) :
    bytes_u32 (u32_bytes w ++ rest) 0 = w := by
  simp only [bytes_u32, u32_bytes, List.cons_append, List.nil_append, List.getD_cons_zero,
    List.getD_cons_succ]
  omega

theorem getD_append_right_add (a b : List Nat) (j : Nat) :
    (a ++ b).getD (a.length + j) 0 = b.getD j 0 := by
  induction a with
  | nil => simp
  | cons x xs ih =>
    have : (x :: xs).length + j = (xs.length + j) + 1 := by
      simp only [List.length_cons]
      omega
    rw [this, List.cons_append, List.getD_cons_succ]
    exact ih

theorem bytes_u32_append (a b : List Nat) (i : Nat) :
    bytes_u32 (a ++ b) (a.length + i) = bytes_u32 b i := by
  simp only [bytes_u32, Nat.add_assoc, getD_append_right_add]

theorem flatMap_u32_length (ws : List Nat) : (ws.flatMap u32_bytes).length = 4 * ws.length := by
  induction ws with
  | nil => rfl
  | cons w ws ih =>
    rw [List.flatMap_cons, List.length_append, ih, u32_bytes_length, List.length_cons]
    omega

/-- Word `i` of the bytes of a list of 32-bit values is its `i`-th value. -/
theorem bytes_u32_flatMap (ws : List Nat) (rest : List Nat) (hw : ∀ w ∈ ws, w < 2 ^ 32) :
    ∀ (i : Nat) (w : Nat), ws[i]? = some w → bytes_u32 (ws.flatMap u32_bytes ++ rest) (4 * i) = w := by
  induction ws with
  | nil => intro i w h; simp at h
  | cons x xs ih =>
    intro i w h
    cases i with
    | zero =>
      simp only [List.getElem?_cons_zero, Option.some.injEq] at h
      subst h
      rw [List.flatMap_cons, List.append_assoc]
      exact bytes_u32_u32_bytes x _ (hw x (List.mem_cons_self _ _))
    | succ i =>
      simp only [List.getElem?_cons_succ] at h
      rw [List.flatMap_cons, List.append_assoc]
      have e : 4 * (i + 1) = (u32_bytes x).length + 4 * i := by
        rw [u32_bytes_length]
        omega
      rw [e, bytes_u32_append]
      exact ih (fun w hw2 => hw w (List.mem_cons_of_mem _ hw2)) i w h

theorem sector_words_length (s : Sector) : (sector_words s).length = BLOCK_POINTER_NUM := by
  simp [sector_words]

theorem sector_words_getElem? (s : Sector) (i : Nat) (h : i < BLOCK_POINTER_NUM) :
    (sector_words s)[i]? = some (bytes_u32 s (4 * i)) := by
  unfold sector_words
  rw [List.getElem?_map, List.getElem?_range h]
  rfl

/-- Reading back an indirect block that was written from `ws` gives `ws`. -/
theorem sector_words_words_sector (ws : List Nat) (hl : ws.length = BLOCK_POINTER_NUM)
    (hw : ∀ w ∈ ws, w < 2 ^ 32) : sector_words (words_sector ws) = ws := by
  apply List.ext_getElem?
  intro i
  by_cases hi : i < BLOCK_POINTER_NUM
  · rw [sector_words_getElem? _ i hi]
    have hi2 : i < ws.length := by rw [hl]; exact hi
    rw [List.getElem?_eq_getElem hi2]
    unfold words_sector
    rw [List.take_of_length_le (by rw [hl])]
    have := bytes_u32_flatMap ws [] hw i ws[i] (List.getElem?_eq_getElem hi2)
    rw [List.append_nil] at this
    rw [this]
  · rw [List.getElem?_eq_none (by rw [sector_words_length]; omega),
      List.getElem?_eq_none (by rw [hl]; omega)]

theorem sector_words_empty : sector_words empty_sector = List.replicate BLOCK_POINTER_NUM 0 := by
  apply List.ext_getElem?
  intro i
  by_cases hi : i < BLOCK_POINTER_NUM
  · rw [sector_words_getElem? _ i hi, List.getElem?_replicate, if_pos hi]
    simp only [bytes_u32, empty_sector, List.getD_eq_getElem?_getD, List.getElem?_replicate]
    split_ifs <;> simp
  · rw [List.getElem?_eq_none (by rw [sector_words_length]; omega),
      List.getElem?_eq_none (by rw [List.length_replicate]; omega)]

theorem words_sector_length (ws : List Nat) (hl : ws.length = BLOCK_POINTER_NUM) :
    (words_sector ws).length = BLOCK_SECTOR_SIZE := by
  unfold words_sector
  rw [List.take_of_length_le (by rw [hl]), flatMap_u32_length, hl]
  rfl

theorem map_range_getElem (l : List Nat) (n : Nat) (f : Nat → Nat) (hl : l.length = n)
    (h : ∀ (i : Nat) (w : Nat), l[i]? = some w → f i = w) : (List.range n).map f = l := by
  apply List.ext_getElem?
  intro i
  by_cases hi : i < n
  · rw [List.getElem?_map, List.getElem?_range hi]
    have hi2 : i < l.length := by rw [hl]; exact hi
    rw [List.getElem?_eq_getElem hi2]
    simp only [Option.map_some', Option.some.injEq]
    exact h i l[i] (List.getElem?_eq_getElem hi2)
  · rw [List.getElem?_eq_none (by simp; omega), List.getElem?_eq_none (by rw [hl]; omega)]

/-- Reading back an on-disk inode that was written from `d` gives `d`. -/
theorem bytes_inode_disk_bytes (d : inode_disk) (hlen : d.length < 2 ^ 32)
    (hmagic : d.magic < 2 ^ 32) (hd : d.direct.length = DIRECT_BLOCK_NUM)
    (hi : d.indirect.length = INDIRECT_BLOCK_NUM) (hdw : ∀ w ∈ d.direct, w < 2 ^ 32)
    (hiw : ∀ w ∈ d.indirect, w < 2 ^ 32) : bytes_inode_disk (inode_disk_bytes d) = d := by
  have h0 : bytes_u32 (inode_disk_bytes d) 0 = d.length := by
    unfold inode_disk_bytes
    rw [List.append_assoc, List.append_assoc, List.append_assoc]
    exact bytes_u32_u32_bytes _ _ hlen
  have h4 : bytes_u32 (inode_disk_bytes d) 4 = d.magic := by
    unfold inode_disk_bytes
    rw [List.append_assoc, List.append_assoc, List.append_assoc]
    have := bytes_u32_append (u32_bytes d.length) (u32_bytes d.magic ++
      ([if d.is_dir = true then 1 else 0, 0, 0, 0] ++
        (d.direct.flatMap u32_bytes ++ d.indirect.flatMap u32_bytes))) 0
    rw [u32_bytes_length] at this
    rw [this]
    exact bytes_u32_u32_bytes _ _ hmagic
  have h8 : ((inode_disk_bytes d).getD 8 0 != 0) = d.is_dir := by
    unfold inode_disk_bytes u32_bytes
    cases d.is_dir <;> simp
  have hdir : ∀ (i : Nat) (w : Nat), d.direct[i]? = some w →
      bytes_u32 (inode_disk_bytes d) (12 + 4 * i) = w := by
    intro i w hiw2
    unfold inode_disk_bytes
    rw [List.append_assoc]
    have := bytes_u32_append (u32_bytes d.length ++ u32_bytes d.magic ++
      [if d.is_dir = true then 1 else 0, 0, 0, 0])
      (d.direct.flatMap u32_bytes ++ d.indirect.flatMap u32_bytes) (4 * i)
    have e : (u32_bytes d.length ++ u32_bytes d.magic ++
      [if d.is_dir = true then 1 else 0, 0, 0, 0]).length = 12 := rfl
    rw [e] at this
    rw [this]
    exact bytes_u32_flatMap d.direct _ hdw i w hiw2
  have hind : ∀ (i : Nat) (w : Nat), d.indirect[i]? = some w →
      bytes_u32 (inode_disk_bytes d) (112 + 4 * i) = w := by
    intro i w hiw2
    unfold inode_disk_bytes
    have := bytes_u32_append (u32_bytes d.length ++ u32_bytes d.magic ++
      [if d.is_dir = true then 1 else 0, 0, 0, 0] ++ d.direct.flatMap u32_bytes)
      (d.indirect.flatMap u32_bytes) (4 * i)
    have e : (u32_bytes d.length ++ u32_bytes d.magic ++
      [if d.is_dir = true then 1 else 0, 0, 0, 0] ++ d.direct.flatMap u32_bytes).length = 112 := by
      rw [List.length_append, flatMap_u32_length, hd]
      rfl
    rw [e] at this
    rw [this]
    have := bytes_u32_flatMap d.indirect [] hiw i w hiw2
    rw [List.append_nil] at this
    exact this
  unfold bytes_inode_disk
  rw [h0, h4, h8, map_range_getElem d.direct _ _ hd hdir, map_range_getElem d.indirect _ _ hi hind]

/-! ## Inode layer: allocation on a fresh inode -/

/-- A zero pointer gets the head of the free list, which is written with the empty sector. -/
theorem inode_block_alloc_fresh (st : fs_state) (s : Nat) (rest : List Nat)
    (hc : cache_inv st.cache) (hfm : st.free_map = s :: rest)
    (hs : s < st.cache.fs_device.size) :
    ∃ c, inode_block_alloc st 0
        = some (true, s, { cache := c, free_map := rest, open_inodes := st.open_inodes }) ∧
      cache_inv c ∧ c.fs_device.size = st.cache.fs_device.size ∧
      ∀ t, cache_view c t = if t = s then empty_sector else cache_view st.cache t := by
  obtain ⟨c, h1, h2, h3, h4⟩ := cache_write_spec st.cache s empty_sector hc hs
  refine ⟨c, ?_, h2, h4, h3⟩
  unfold inode_block_alloc
  rw [if_pos rfl, hfm]
  simp only [free_map_allocate]
  rw [h1]

/-- The entry loop of `inode_block_init` on entries that are all zero: entry `j < n` becomes
the `j`-th free sector, and each of these sectors is written with the empty sector. -/
theorem inode_block_init_loop_fresh (st : fs_state) (blk : List Nat) (hc : cache_inv st.cache)
    (hr : ∀ s ∈ st.free_map, s < st.cache.fs_device.size) :
    ∀ n, n ≤ blk.length → n ≤ st.free_map.length → (∀ j, j < n → blk[j]? = some 0) →
    ∃ blk2 c, inode_block_init_loop st blk n
        = some (true, blk2,
            { cache := c, free_map := st.free_map.drop n, open_inodes := st.open_inodes }) ∧
      cache_inv c ∧ c.fs_device.size = st.cache.fs_device.size ∧
      blk2.length = blk.length ∧
      (∀ j, blk2[j]? = if j < n then st.free_map[j]? else blk[j]?) ∧
      ∀ t, cache_view c t
        = if t ∈ st.free_map.take n then empty_sector else cache_view st.cache t := by
  intro n
  induction n with
  | zero =>
    intro _ _ _
    refine ⟨blk, st.cache, rfl, hc, rfl, rfl, fun j => by simp, fun t => by simp⟩
  | succ n ih =>
    intro hn hfm hz
    obtain ⟨b, c, h1, h2, h3, h4, h5, h6⟩ := ih (by omega) (by omega)
      (fun j hj => hz j (by omega))
    have hbn : b[n]? = some 0 := by
      rw [h5 n, if_neg (by omega)]
      exact hz n (by omega)
    have hlt : n < st.free_map.length := by omega
    have hdrop : st.free_map.drop n = st.free_map[n] :: st.free_map.drop (n + 1) :=
      List.drop_eq_getElem_cons hlt
    have hmem : st.free_map[n] ∈ st.free_map := List.getElem_mem hlt
    obtain ⟨c2, g1, g2, g3, g4⟩ := inode_block_alloc_fresh
      { cache := c, free_map := st.free_map.drop n, open_inodes := st.open_inodes }
      st.free_map[n] (st.free_map.drop (n + 1)) h2 hdrop (by rw [h3]; exact hr _ hmem)
    refine ⟨b.set n st.free_map[n], c2, ?_, g2, by rw [g3, h3], ?_, ?_, ?_⟩
    · simp only [inode_block_init_loop]
      rw [h1]
      simp only
      rw [hbn]
      simp only
      rw [g1]
    · rw [List.length_set, h4]
    · intro j
      rw [List.getElem?_set]
      by_cases hjn : n = j
      · subst hjn
        rw [if_pos rfl, if_pos (by omega), if_pos (by omega), List.getElem?_eq_getElem hlt]
      · rw [if_neg hjn, h5 j]
        by_cases hj : j < n
        · rw [if_pos hj, if_pos (by omega)]
        · rw [if_neg hj, if_neg (by omega)]
    · intro t
      rw [g4 t, h6 t]
      rw [List.take_succ, List.getElem?_eq_getElem hlt]
      simp only [Option.toList_some, List.mem_append, List.mem_singleton]
      by_cases ht : t = st.free_map[n]
      · rw [if_pos ht, if_pos (Or.inr ht)]
      · rw [if_neg ht]
        by_cases ht2 : t ∈ List.take n st.free_map
        · rw [if_pos ht2, if_pos (Or.inl ht2)]
        · rw [if_neg ht2, if_neg (by rintro (h | h); exact ht2 h; exact ht h)]

/-- The function `inode_block_init` at level 1 on a zero pointer: the block is the first free
sector, its first `blocks` entries are the free sectors that follow. -/
theorem inode_block_init_fresh (st : fs_state) (blocks : Nat) (hc : cache_inv st.cache)
    (hr : ∀ s ∈ st.free_map, s < st.cache.fs_device.size) (hb : blocks ≤ BLOCK_POINTER_NUM)
    (hfm : blocks + 1 ≤ st.free_map.length) :
    ∃ t blk c, st.free_map[0]? = some t ∧
      inode_block_init st 0 blocks 1 = some (true, t,
        { cache := c, free_map := st.free_map.drop (blocks + 1),
          open_inodes := st.open_inodes }) ∧
      cache_inv c ∧ c.fs_device.size = st.cache.fs_device.size ∧
      blk.length = BLOCK_POINTER_NUM ∧
      (∀ j, j < blocks → blk[j]? = st.free_map[j + 1]?) ∧
      (∀ w ∈ blk, w = 0 ∨ w ∈ st.free_map) ∧
      ∀ x, cache_view c x = if x = t then words_sector blk
        else if x ∈ (st.free_map.drop 1).take blocks then empty_sector
        else cache_view st.cache x := by
  cases hfmeq : st.free_map with
  | nil => rw [hfmeq] at hfm; simp at hfm
  | cons t rest =>
    rw [hfmeq] at hfm
    simp only [List.length_cons] at hfm
    have htr : t < st.cache.fs_device.size := hr t (by rw [hfmeq]; exact List.mem_cons_self _ _)
    obtain ⟨c1, a1, a2, a3, a4⟩ := inode_block_alloc_fresh st t rest hc hfmeq htr
    obtain ⟨c1r, r1, r2, r3, r4⟩ := cache_read_spec c1 t a2 (by rw [a3]; exact htr)
    have hv1 : cache_view c1 t = empty_sector := by rw [a4 t, if_pos rfl]
    rw [hv1] at r1
    obtain ⟨blk2, c2, l1, l2, l3, l4, l5, l6⟩ := inode_block_init_loop_fresh
      { cache := c1r, free_map := rest, open_inodes := st.open_inodes }
      (List.replicate BLOCK_POINTER_NUM 0) r2
      (fun s hs => by
        simp only at hs ⊢
        rw [r4, a3]
        exact hr s (by rw [hfmeq]; exact List.mem_cons_of_mem _ hs))
      blocks (by rw [List.length_replicate]; exact hb) (by simp only; omega)
      (fun j hj => by rw [List.getElem?_replicate, if_pos (by omega)])
    simp only at l1 l3 l5 l6
    obtain ⟨c3, w1, w2, w3, w4⟩ := cache_write_spec c2 t (words_sector blk2) l2
      (by rw [l3, r4, a3]; exact htr)
    refine ⟨t, blk2, c3, by simp, ?_, w2, by rw [w4, l3, r4, a3], ?_, ?_, ?_, ?_⟩
    · unfold inode_block_init
      simp only
      rw [a1]
      simp only
      rw [r1]
      simp only
      rw [sector_words_empty, l1]
      simp only
      rw [w1]
      simp
    · rw [l4, List.length_replicate]
    · intro j hj
      rw [l5 j, if_pos hj]
      simp
    · intro w hw
      obtain ⟨j, hj⟩ := List.mem_iff_getElem?.1 hw
      rw [l5 j] at hj
      by_cases hjb : j < blocks
      · rw [if_pos hjb] at hj
        right
        exact List.mem_cons_of_mem _ (List.getElem?_mem hj)
      · rw [if_neg hjb, List.getElem?_replicate] at hj
        left
        split at hj
        · exact (Option.some.inj hj).symm
        · cases hj
    · intro x
      rw [w3 x]
      by_cases hxt : x = t
      · rw [if_pos hxt, if_pos hxt]
      · rw [if_neg hxt, if_neg hxt, l6 x, r3 x, a4 x, if_neg hxt]
        simp

/-- The first loop of `inode_disk_init` on direct pointers that are all zero: pointer `j < n`
becomes the `j`-th free sector, and each of these sectors is written with the empty sector. -/
theorem inode_disk_init_direct_fresh (st : fs_state) (data : inode_disk)
    (hc : cache_inv st.cache) (hr : ∀ s ∈ st.free_map, s < st.cache.fs_device.size) :
    ∀ n, n ≤ data.direct.length → n ≤ st.free_map.length →
      (∀ j, j < n → data.direct[j]? = some 0) →
    ∃ dir c, inode_disk_init_direct st data n
        = some (true, { data with direct := dir },
            { cache := c, free_map := st.free_map.drop n, open_inodes := st.open_inodes }) ∧
      cache_inv c ∧ c.fs_device.size = st.cache.fs_device.size ∧
      dir.length = data.direct.length ∧
      (∀ j, dir[j]? = if j < n then st.free_map[j]? else data.direct[j]?) ∧
      ∀ t, cache_view c t
        = if t ∈ st.free_map.take n then empty_sector else cache_view st.cache t := by
  intro n
  induction n with
  | zero =>
    intro _ _ _
    exact ⟨data.direct, st.cache, rfl, hc, rfl, rfl, fun j => by simp, fun t => by simp⟩
  | succ n ih =>
    intro hn hfm hz
    obtain ⟨b, c, h1, h2, h3, h4, h5, h6⟩ := ih (by omega) (by omega)
      (fun j hj => hz j (by omega))
    have hbn : b[n]? = some 0 := by
      rw [h5 n, if_neg (by omega)]
      exact hz n (by omega)
    have hlt : n < st.free_map.length := by omega
    have hdrop : st.free_map.drop n = st.free_map[n] :: st.free_map.drop (n + 1) :=
      List.drop_eq_getElem_cons hlt
    have hmem : st.free_map[n] ∈ st.free_map := List.getElem_mem hlt
    obtain ⟨c2, g1, g2, g3, g4⟩ := inode_block_alloc_fresh
      { cache := c, free_map := st.free_map.drop n, open_inodes := st.open_inodes }
      st.free_map[n] (st.free_map.drop (n + 1)) h2 hdrop (by rw [h3]; exact hr _ hmem)
    refine ⟨b.set n st.free_map[n], c2, ?_, g2, by rw [g3, h3], ?_, ?_, ?_⟩
    · simp only [inode_disk_init_direct]
      rw [h1]
      simp only
      rw [hbn]
      simp only [inode_block_init]
      rw [g1]
    · rw [List.length_set, h4]
    · intro j
      rw [List.getElem?_set]
      by_cases hjn : n = j
      · subst hjn
        rw [if_pos rfl, if_pos (by omega), if_pos (by omega), List.getElem?_eq_getElem hlt]
      · rw [if_neg hjn, h5 j]
        by_cases hj : j < n
        · rw [if_pos hj, if_pos (by omega)]
        · rw [if_neg hj, if_neg (by omega)]
    · intro t
      rw [g4 t, h6 t]
      rw [List.take_succ, List.getElem?_eq_getElem hlt]
      simp only [Option.toList_some, List.mem_append, List.mem_singleton]
      by_cases ht : t = st.free_map[n]
      · rw [if_pos ht, if_pos (Or.inr ht)]
      · rw [if_neg ht]
        by_cases ht2 : t ∈ List.take n st.free_map
        · rw [if_pos ht2, if_pos (Or.inl ht2)]
        · rw [if_neg ht2, if_neg (by rintro (h | h); exact ht2 h; exact ht h)]

theorem nodup_getElem?_inj (l : List Nat) (h : l.Nodup) (a b x : Nat)
    (ha : l[a]? = some x) (hb : l[b]? = some x) : a = b := by
  have hal : a < l.length := by
    by_contra hh
    rw [List.getElem?_eq_none (by omega)] at ha
    cases ha
  have hbl : b < l.length := by
    by_contra hh
    rw [List.getElem?_eq_none (by omega)] at hb
    cases hb
  rcases Nat.lt_trichotomy a b with hlt | heq | hgt
  · exact absurd (ha.trans hb.symm) (List.nodup_iff_getElem?_ne_getElem?.1 h a b hlt hbl)
  · exact heq
  · exact absurd (hb.trans ha.symm) (List.nodup_iff_getElem?_ne_getElem?.1 h b a hgt hal)

theorem not_mem_drop_of_nodup (l : List Nat) (h : l.Nodup) (a b x : Nat) (hab : a < b)
    (ha : l[a]? = some x) : x ∉ l.drop b := by
  intro hx
  obtain ⟨j, hj⟩ := List.mem_iff_getElem?.1 hx
  rw [List.getElem?_drop] at hj
  have := nodup_getElem?_inj l h a (b + j) x ha hj
  omega

theorem mem_take_of_getElem? (l : List Nat) (a n x : Nat) (han : a < n) (ha : l[a]? = some x) :
    x ∈ l.take n := by
  apply List.mem_iff_getElem?.2
  exact ⟨a, by rw [List.getElem?_take_of_lt han]; exact ha⟩

/-- The second loop of `inode_disk_init` on indirect pointers that are all zero.  Relative data
sector `r` ends up in entry `r % 128` of indirect block `i + r / 128`; that block is free
sector number `(r / 128) * 129` and the data sector is free sector number `r + r / 128 + 1`. -/
theorem inode_disk_init_indirect_fresh :
    ∀ (iters i sectors : Nat) (d : inode_disk) (st : fs_state),
      cache_inv st.cache → (∀ s ∈ st.free_map, s < st.cache.fs_device.size) →
      st.free_map.Nodup → i + iters ≤ d.indirect.length →
      (∀ j, i ≤ j → j < i + iters → d.indirect[j]? = some 0) →
      sectors + iters ≤ st.free_map.length →
      ∃ ind c m, inode_disk_init_indirect iters i sectors d st
          = some (true, { d with indirect := ind },
              { cache := c, free_map := st.free_map.drop m, open_inodes := st.open_inodes }) ∧
        cache_inv c ∧ c.fs_device.size = st.cache.fs_device.size ∧
        ind.length = d.indirect.length ∧
        (∀ j, j < i → ind[j]? = d.indirect[j]?) ∧
        (∀ w ∈ ind, w ∈ d.indirect ∨ w ∈ st.free_map) ∧
        (∀ r, r < sectors → r < iters * 128 →
          ∃ t blk u, ind[i + r / 128]? = some t ∧ st.free_map[(r / 128) * 129]? = some t ∧
            cache_view c t = words_sector blk ∧ blk.length = 128 ∧
            (∀ w ∈ blk, w = 0 ∨ w ∈ st.free_map) ∧ blk[r % 128]? = some u ∧
            st.free_map[r + r / 128 + 1]? = some u ∧ cache_view c u = empty_sector) ∧
        ∀ x, x ∉ st.free_map → cache_view c x = cache_view st.cache x := by
  intro iters
  induction iters with
  | zero =>
    intro i sectors d st hc _ _ _ _ _
    refine ⟨d.indirect, st.cache, 0, rfl, hc, rfl, rfl, fun _ _ => rfl,
      fun w hw => Or.inl hw, fun r _ hr => by omega, fun _ _ => rfl⟩
  | succ iters ih =>
    intro i sectors d st hc hr hnd hlen hz hfm
    have h128 : BLOCK_POINTER_NUM = 128 := rfl
    have hdi : d.indirect[i]? = some 0 := hz i (le_refl _) (by omega)
    have hil : i < d.indirect.length := by omega
    obtain ⟨t, blk, c1, b0, b1, b2, b3, b4, b5, b6, b7⟩ := inode_block_init_fresh st
      (if sectors < BLOCK_POINTER_NUM then sectors else BLOCK_POINTER_NUM) hc hr
      (by split <;> omega) (by rw [h128]; split <;> omega)
    have hset_i : (d.indirect.set i t)[i]? = some t := getElem?_set_same _ _ _ _ hdi
    by_cases hs : sectors ≤ BLOCK_POINTER_NUM
    · -- this block covers all remaining sectors
      refine ⟨d.indirect.set i t, c1,
        (if sectors < BLOCK_POINTER_NUM then sectors else BLOCK_POINTER_NUM) + 1,
        ?_, b2, b3, by rw [List.length_set], ?_, ?_, ?_, ?_⟩
      · simp only [inode_disk_init_indirect]
        rw [hdi]
        simp only
        rw [b1]
        simp only [Bool.not_true, Bool.false_eq_true, if_false]
        rw [if_pos hs]
      · intro j hj
        exact getElem?_set_other _ _ _ _ (by omega)
      · intro w hw
        rcases List.mem_or_eq_of_mem_set hw with h | h
        · exact Or.inl h
        · right
          rw [h]
          exact List.getElem?_mem b0
      · intro r hr1 _
        rw [h128] at hs
        have hr128 : r / 128 = 0 := by omega
        have hrm : r % 128 = r := by omega
        have hblocks : r < (if sectors < BLOCK_POINTER_NUM then sectors else BLOCK_POINTER_NUM) := by
          rw [h128]
          split <;> omega
        have hu : st.free_map[r + 1]? = some st.free_map[r + 1] :=
          List.getElem?_eq_getElem (by omega)
        refine ⟨t, blk, st.free_map[r + 1], ?_, ?_, ?_, b4, b6, ?_, ?_, ?_⟩
        · rw [hr128]
          exact hset_i
        · rw [hr128]
          exact b0
        · rw [b7 t, if_pos rfl]
        · rw [hrm, b5 r hblocks]
          exact hu
        · rw [hr128]
          exact hu
        · rw [b7]
          have hne : st.free_map[r + 1] ≠ t := by
            intro he
            have := nodup_getElem?_inj st.free_map hnd (r + 1) 0 t (by rw [hu, he]) b0
            omega
          rw [if_neg hne, if_pos]
          apply mem_take_of_getElem? _ r _ _ hblocks
          rw [List.getElem?_drop, Nat.add_comm]
          exact hu
      · intro x hx
        rw [b7 x, if_neg, if_neg]
        · intro hmem
          exact hx (List.mem_of_mem_drop (List.mem_of_mem_take hmem))
        · intro he
          exact hx (by rw [he]; exact List.getElem?_mem b0)
    · -- a full block, then the remaining iterations
      have hbl : (if sectors < BLOCK_POINTER_NUM then sectors else BLOCK_POINTER_NUM) = 128 := by
        rw [h128] at hs ⊢
        split <;> omega
      rw [hbl] at b1 b5 b7
      rw [h128] at hs
      obtain ⟨ind, c2, m, r1, r2, r3, r4, r5, r6, r7, r8⟩ := ih (i + 1) (sectors - 128)
        { d with indirect := d.indirect.set i t }
        { cache := c1, free_map := st.free_map.drop (128 + 1), open_inodes := st.open_inodes }
        b2
        (fun s hs2 => by
          simp only at hs2 ⊢
          rw [b3]
          exact hr s (List.mem_of_mem_drop hs2))
        (List.Nodup.sublist (List.drop_sublist _ _) hnd)
        (by simp only [List.length_set]; omega)
        (fun j hj1 hj2 => by
          simp only
          rw [getElem?_set_other _ _ _ _ (by omega)]
          exact hz j (by omega) (by omega))
        (by simp only [List.length_drop]; omega)
      simp only at r1 r3 r4 r5 r6 r7 r8
      have ht_not : t ∉ st.free_map.drop (128 + 1) :=
        not_mem_drop_of_nodup st.free_map hnd 0 _ t (by omega) b0
      refine ⟨ind, c2, 128 + 1 + m, ?_, r2, by rw [r3, b3], by rw [r4, List.length_set],
        ?_, ?_, ?_, ?_⟩
      · simp only [inode_disk_init_indirect]
        rw [hdi]
        simp only
        rw [hbl, b1]
        simp only [Bool.not_true, Bool.false_eq_true, if_false]
        rw [if_neg (by rw [h128]; omega), h128, r1, List.drop_drop]
      · intro j hj
        rw [r5 j (by omega)]
        exact getElem?_set_other _ _ _ _ (by omega)
      · intro w hw
        rcases r6 w hw with h | h
        · rcases List.mem_or_eq_of_mem_set h with h2 | h2
          · exact Or.inl h2
          · right
            rw [h2]
            exact List.getElem?_mem b0
        · exact Or.inr (List.mem_of_mem_drop h)
      · intro r hr1 hr2
        by_cases hr128 : r < 128
        · have hq : r / 128 = 0 := by omega
          have hrm : r % 128 = r := by omega
          have hu : st.free_map[r + 1]? = some st.free_map[r + 1] :=
            List.getElem?_eq_getElem (by omega)
          have hu_not : st.free_map[r + 1] ∉ st.free_map.drop (128 + 1) :=
            not_mem_drop_of_nodup st.free_map hnd (r + 1) _ _ (by omega) hu
          refine ⟨t, blk, st.free_map[r + 1], ?_, ?_, ?_, b4, b6, ?_, ?_, ?_⟩
          · rw [hq, Nat.add_zero, r5 i (by omega)]
            exact hset_i
          · rw [hq]
            exact b0
          · rw [r8 t ht_not, b7 t, if_pos rfl]
          · rw [hrm, b5 r hr128]
            exact hu
          · rw [hq]
            exact hu
          · rw [r8 _ hu_not, b7]
            have hne : st.free_map[r + 1] ≠ t := by
              intro he
              have := nodup_getElem?_inj st.free_map hnd (r + 1) 0 t (by rw [hu, he]) b0
              omega
            rw [if_neg hne, if_pos]
            apply mem_take_of_getElem? _ r _ _ hr128
            rw [List.getElem?_drop, Nat.add_comm]
            exact hu
        · obtain ⟨t2, blk2, u2, q1, q2, q3, q4, q5, q6, q7, q8⟩ :=
            r7 (r - 128) (by omega) (by omega)
          rw [List.getElem?_drop] at q2 q7
          refine ⟨t2, blk2, u2, ?_, ?_, q3, q4, ?_, ?_, ?_, q8⟩
          · have e : i + r / 128 = i + 1 + (r - 128) / 128 := by omega
            rw [e]
            exact q1
          · have e : r / 128 * 129 = 128 + 1 + (r - 128) / 128 * 129 := by omega
            rw [e]
            exact q2
          · intro w hw
            rcases q5 w hw with h | h
            · exact Or.inl h
            · exact Or.inr (List.mem_of_mem_drop h)
          · have e : r % 128 = (r - 128) % 128 := by omega
            rw [e]
            exact q6
          · have e : r + r / 128 + 1 = 128 + 1 + (r - 128 + (r - 128) / 128 + 1) := by omega
            rw [e]
            exact q7
      · intro x hx
        rw [r8 x (fun h => hx (List.mem_of_mem_drop h)), b7 x, if_neg, if_neg]
        · intro hmem
          exact hx (List.mem_of_mem_drop (List.mem_of_mem_take hmem))
        · intro he
          exact hx (by rw [he]; exact List.getElem?_mem b0)

/-- The function `inode_disk_init` on an inode without any allocated pointer, with enough free
sectors: it succeeds for every `size` up to `0x800000`.  Data sector `k < 25` is the `k`-th
free sector; data sector `k >= 25` (below the capacity of the pointer tree) is entry
`(k - 25) % 128` of indirect block `(k - 25) / 128`; all data sectors hold the empty sector. -/
theorem inode_disk_init_fresh (st : fs_state) (data : inode_disk) (size : Nat)
    (hc : cache_inv st.cache) (hr : ∀ s ∈ st.free_map, s < st.cache.fs_device.size)
    (hnd : st.free_map.Nodup) (hdz : data.direct = List.replicate DIRECT_BLOCK_NUM 0)
    (hiz : data.indirect = List.replicate INDIRECT_BLOCK_NUM 0) (hsize : size ≤ 0x800000)
    (hfm : bytes_to_sectors size + INDIRECT_BLOCK_NUM ≤ st.free_map.length) :
    ∃ dir ind c m, inode_disk_init st data size
        = some (true, { data with direct := dir, indirect := ind },
            { cache := c, free_map := st.free_map.drop m, open_inodes := st.open_inodes }) ∧
      cache_inv c ∧ c.fs_device.size = st.cache.fs_device.size ∧
      dir.length = DIRECT_BLOCK_NUM ∧ ind.length = INDIRECT_BLOCK_NUM ∧
      (∀ w ∈ dir, w = 0 ∨ w ∈ st.free_map) ∧ (∀ w ∈ ind, w = 0 ∨ w ∈ st.free_map) ∧
      (∀ k, k < bytes_to_sectors size → k < 25 →
        ∃ u, dir[k]? = some u ∧ st.free_map[k]? = some u ∧ cache_view c u = empty_sector) ∧
      (∀ k, k < bytes_to_sectors size → 25 ≤ k → k < 25 + 100 * 128 →
        ∃ t blk u, ind[(k - 25) / 128]? = some t ∧
          st.free_map[25 + (k - 25) / 128 * 129]? = some t ∧
          cache_view c t = words_sector blk ∧ blk.length = 128 ∧
          (∀ w ∈ blk, w = 0 ∨ w ∈ st.free_map) ∧ blk[(k - 25) % 128]? = some u ∧
          st.free_map[k + (k - 25) / 128 + 1]? = some u ∧ cache_view c u = empty_sector) ∧
      ∀ x, x ∉ st.free_map → cache_view c x = cache_view st.cache x := by
  have h25 : DIRECT_BLOCK_NUM = 25 := rfl
  have h100 : INDIRECT_BLOCK_NUM = 100 := rfl
  generalize hn : bytes_to_sectors size = n at hfm
  rw [h100] at hfm
  obtain ⟨dir, c1, a1, a2, a3, a4, a5, a6⟩ := inode_disk_init_direct_fresh st data hc hr
    (if n < DIRECT_BLOCK_NUM then n else DIRECT_BLOCK_NUM)
    (by rw [hdz, List.length_replicate]; split <;> omega)
    (by rw [h25]; split <;> omega)
    (fun j hj => by
      rw [hdz, List.getElem?_replicate, if_pos]
      rw [h25] at hj ⊢
      split at hj <;> omega)
  have hdirlen : dir.length = DIRECT_BLOCK_NUM := by rw [a4, hdz, List.length_replicate]
  have hdirmem : ∀ w ∈ dir, w = 0 ∨ w ∈ st.free_map := by
    intro w hw
    obtain ⟨j, hj⟩ := List.mem_iff_getElem?.1 hw
    rw [a5 j] at hj
    by_cases hjn : j < (if n < DIRECT_BLOCK_NUM then n else DIRECT_BLOCK_NUM)
    · rw [if_pos hjn] at hj
      exact Or.inr (List.getElem?_mem hj)
    · rw [if_neg hjn, hdz] at hj
      exact Or.inl (List.eq_of_mem_replicate (List.getElem?_mem hj))
  by_cases hle : n ≤ DIRECT_BLOCK_NUM
  · have hb : (if n < DIRECT_BLOCK_NUM then n else DIRECT_BLOCK_NUM) = n := by
      rw [h25] at hle ⊢
      split <;> omega
    rw [hb] at a1 a5 a6
    refine ⟨dir, data.indirect, c1, n, ?_, a2, a3, hdirlen, by rw [hiz, List.length_replicate],
      hdirmem, ?_, ?_, ?_, ?_⟩
    · unfold inode_disk_init
      rw [if_neg (by omega)]
      simp only
      rw [hn, hb, a1]
      simp only
      rw [if_pos hle]
    · intro w hw
      rw [hiz] at hw
      exact Or.inl (List.eq_of_mem_replicate hw)
    · intro k hk _
      have hu : st.free_map[k]? = some st.free_map[k] := List.getElem?_eq_getElem (by omega)
      refine ⟨st.free_map[k], ?_, hu, ?_⟩
      · rw [a5 k, if_pos hk]
        exact hu
      · rw [a6, if_pos (mem_take_of_getElem? _ k _ _ hk hu)]
    · intro k hk hk2 _
      rw [h25] at hle
      omega
    · intro x hx
      rw [a6 x, if_neg (fun h => hx (List.mem_of_mem_take h))]
  · have hb : (if n < DIRECT_BLOCK_NUM then n else DIRECT_BLOCK_NUM) = 25 := by
      rw [h25] at hle ⊢
      split <;> omega
    rw [hb] at a1 a5 a6
    rw [h25] at hle
    obtain ⟨ind, c2, m, r1, r2, r3, r4, _, r6, r7, r8⟩ := inode_disk_init_indirect_fresh
      INDIRECT_BLOCK_NUM 0 (n - 25) { data with direct := dir }
      { cache := c1, free_map := st.free_map.drop 25, open_inodes := st.open_inodes }
      a2
      (fun s hs2 => by
        simp only at hs2 ⊢
        rw [a3]
        exact hr s (List.mem_of_mem_drop hs2))
      (List.Nodup.sublist (List.drop_sublist _ _) hnd)
      (by simp only; rw [hiz, List.length_replicate]; omega)
      (fun j _ hj2 => by
        simp only
        rw [hiz, List.getElem?_replicate, if_pos (by omega)])
      (by simp only [List.length_drop]; rw [h100]; omega)
    simp only at r1 r3 r4 r6 r7 r8
    refine ⟨dir, ind, c2, 25 + m, ?_, r2, by rw [r3, a3], hdirlen,
      by rw [r4, hiz, List.length_replicate], hdirmem, ?_, ?_, ?_, ?_⟩
    · unfold inode_disk_init
      rw [if_neg (by omega)]
      simp only
      rw [hn, hb, h25, a1]
      simp only
      rw [if_neg hle, r1, List.drop_drop]
    · intro w hw
      rcases r6 w hw with h | h
      · rw [hiz] at h
        exact Or.inl (List.eq_of_mem_replicate h)
      · exact Or.inr (List.mem_of_mem_drop h)
    · intro k _ hk25
      have hu : st.free_map[k]? = some st.free_map[k] := List.getElem?_eq_getElem (by omega)
      refine ⟨st.free_map[k], ?_, hu, ?_⟩
      · rw [a5 k, if_pos hk25]
        exact hu
      · rw [r8 _ (not_mem_drop_of_nodup st.free_map hnd k 25 _ hk25 hu), a6,
          if_pos (mem_take_of_getElem? _ k _ _ hk25 hu)]
    · intro k hk hk25 hkcap
      obtain ⟨t, blk, u, q1, q2, q3, q4, q5, q6, q7, q8⟩ :=
        r7 (k - 25) (by omega) (by rw [h100]; omega)
      rw [List.getElem?_drop] at q2 q7
      refine ⟨t, blk, u, ?_, q2, q3, q4, ?_, q6, ?_, q8⟩
      · rw [← q1, Nat.zero_add]
      · intro w hw
        rcases q5 w hw with h | h
        · exact Or.inl h
        · exact Or.inr (List.mem_of_mem_drop h)
      · have e : k + (k - 25) / 128 + 1 = 25 + (k - 25 + (k - 25) / 128 + 1) := by omega
        rw [e]
        exact q7
    · intro x hx
      rw [r8 x (fun h => hx (List.mem_of_mem_drop h)), a6 x,
        if_neg (fun h => hx (List.mem_of_mem_take h))]

/-! ## Inode layer: whole-file write and read -/

theorem inode_sector_left_aligned (k : Nat) : inode_sector_left (512 * k) = 512 := by
  unfold inode_sector_left
  have : 512 * k % BLOCK_SECTOR_SIZE = 0 := by
    show 512 * k % 512 = 0
    omega
  rw [this]
  rfl

theorem inode_chunk_size_aligned (L size k : Nat) (h : 512 * k + size = L) :
    inode_chunk_size L size (512 * k) = ((min size 512 : Nat) : Int) := by
  unfold inode_chunk_size
  simp only
  rw [inode_sector_left_aligned]
  split_ifs <;> omega

theorem bytes_to_sectors_aligned (k : Nat) : bytes_to_sectors (512 * k) = k := by
  unfold bytes_to_sectors
  show (512 * k + 512 - 1) / 512 = k
  omega

theorem bytes_to_sectors_gt (L k : Nat) (h : 512 * k < L) : k < bytes_to_sectors L := by
  unfold bytes_to_sectors
  show k < (L + 512 - 1) / 512
  omega

theorem bytes_to_sectors_le (L k : Nat) (h : L ≤ 512 * k) : bytes_to_sectors L ≤ k := by
  unfold bytes_to_sectors
  show (L + 512 - 1) / 512 ≤ k
  omega

/-- The layout depends on the sector contents only at the indirect blocks. -/
theorem inode_layout_congr (V V2 : Nat → Sector) (size : Nat) (d : inode_disk) (n : Nat)
    (S T : Nat → Nat) (h : inode_layout V size d n S T)
    (hv : ∀ k, k < n → 25 ≤ k → V2 (T ((k - 25) / 128)) = V (T ((k - 25) / 128))) :
    inode_layout V2 size d n S T := by
  refine ⟨h.direct, ?_, h.s_range, h.t_range, h.sep, h.inj⟩
  intro k hk hk25
  rw [hv k hk hk25]
  exact h.indirect k hk hk25

/-- At a sector-aligned position below the length `byte_to_sector` returns the data sector the
layout names, reading at most one indirect block through the cache. -/
theorem byte_to_sector_aligned (c : cache_state) (ino : inode) (n k : Nat) (S T : Nat → Nat)
    (hc : cache_inv c) (hlay : inode_layout (cache_view c) c.fs_device.size ino.data n S T)
    (hk : k < n) (hn : n ≤ 25 + 100 * 128) (hpos : 512 * k < ino.data.length) :
    ∃ c2, byte_to_sector c ino (512 * k) = some (S k, c2) ∧ cache_inv c2 ∧
      (∀ t, cache_view c2 t = cache_view c t) ∧ c2.fs_device.size = c.fs_device.size := by
  have e1 : 512 * k / BLOCK_SECTOR_SIZE = k := by
    show 512 * k / 512 = k
    omega
  unfold byte_to_sector
  rw [if_pos hpos]
  simp only
  rw [e1, bytes_to_sectors_aligned]
  by_cases hk25 : k < 25
  · rw [if_pos (by exact hk25), hlay.direct k hk hk25]
    exact ⟨c, rfl, hc, fun _ => rfl, rfl⟩
  · have hk25b : 25 ≤ k := by omega
    obtain ⟨hi1, hi2⟩ := hlay.indirect k hk hk25b
    rw [if_neg (by exact hk25), if_pos (by show k - 25 ≤ 100 * 128; omega)]
    have e2 : (k - DIRECT_BLOCK_NUM) / BLOCK_POINTER_NUM = (k - 25) / 128 := rfl
    have e3 : (512 * k - DIRECT_BLOCK_NUM * BLOCK_SECTOR_SIZE) / BLOCK_SECTOR_SIZE
        % BLOCK_POINTER_NUM = (k - 25) % 128 := by
      show (512 * k - 25 * 512) / 512 % 128 = (k - 25) % 128
      omega
    rw [e2, e3, hi1]
    simp only
    obtain ⟨c2, r1, r2, r3, r4⟩ := cache_read_spec c _ hc (hlay.t_range k hk hk25b)
    rw [r1]
    simp only
    rw [hi2]
    exact ⟨c2, rfl, r2, r3, r4⟩

theorem inode_write_at_loop_done (ino : inode) (buffer : List Nat) (fuel : Nat)
    (c : cache_state) (offset bytes_written : Nat) :
    inode_write_at_loop ino buffer fuel c 0 offset bytes_written = some (bytes_written, c) := by
  cases fuel <;> simp [inode_write_at_loop]

theorem inode_read_at_loop_done (ino : inode) (fuel : Nat) (c : cache_state)
    (offset bytes_read : Nat) (buffer : List Nat) :
    inode_read_at_loop ino fuel c 0 offset bytes_read buffer = some (bytes_read, buffer, c) := by
  cases fuel <;> simp [inode_read_at_loop]

theorem inode_write_at_loop_whole (ino : inode) (buffer : List Nat) (n : Nat) (S T : Nat → Nat)
    (hn : n = bytes_to_sectors ino.data.length) (hcap : n ≤ 25 + 100 * 128)
    (hbuf : buffer.length = ino.data.length) :
    ∀ (fuel size k : Nat) (c : cache_state), size ≤ fuel → 512 * k + size = ino.data.length →
      cache_inv c → inode_layout (cache_view c) c.fs_device.size ino.data n S T →
      (∀ j, k ≤ j → j < n → cache_view c (S j) = empty_sector) →
      ∃ c2, inode_write_at_loop ino buffer fuel c size (512 * k) (512 * k)
          = some (ino.data.length, c2) ∧ cache_inv c2 ∧
        c2.fs_device.size = c.fs_device.size ∧
        (∀ j, k ≤ j → j < n → cache_view c2 (S j) = file_sector buffer j) ∧
        ∀ x, (∀ j, k ≤ j → j < n → x ≠ S j) → cache_view c2 x = cache_view c x := by
  have hdone : ∀ (fuel k : Nat) (c : cache_state), 512 * k + 0 = ino.data.length → cache_inv c →
      ∃ c2, inode_write_at_loop ino buffer fuel c 0 (512 * k) (512 * k)
          = some (ino.data.length, c2) ∧ cache_inv c2 ∧
        c2.fs_device.size = c.fs_device.size ∧
        (∀ j, k ≤ j → j < n → cache_view c2 (S j) = file_sector buffer j) ∧
        ∀ x, (∀ j, k ≤ j → j < n → x ≠ S j) → cache_view c2 x = cache_view c x := by
    intro fuel k c hL hc
    refine ⟨c, ?_, hc, rfl, ?_, fun _ _ => rfl⟩
    · rw [inode_write_at_loop_done, ← hL, Nat.add_zero]
    · intro j hj1 hj2
      have := bytes_to_sectors_le ino.data.length k (by omega)
      omega
  intro fuel
  induction fuel with
  | zero =>
    intro size k c hs hL hc _ _
    have : size = 0 := by omega
    subst this
    exact hdone 0 k c hL hc
  | succ fuel ih =>
    intro size k c hs hL hc hlay hempty
    by_cases hs0 : size = 0
    · subst hs0
      exact hdone _ k c hL hc
    have hkn : k < n := by
      rw [hn]
      exact bytes_to_sectors_gt _ _ (by omega)
    obtain ⟨c1, b1, b2, b3, b4⟩ := byte_to_sector_aligned c ino n k S T hc hlay hkn hcap (by omega)
    have hSk : S k < c1.fs_device.size := by rw [b4]; exact hlay.s_range k hkn
    have hofs : 512 * k % BLOCK_SECTOR_SIZE = 0 := by
      show 512 * k % 512 = 0
      omega
    have hchunk : inode_chunk_size (inode_length ino) size (512 * k) = ((min size 512 : Nat) : Int) :=
      inode_chunk_size_aligned _ size k hL
    unfold inode_write_at_loop
    rw [if_pos (by omega), b1]
    simp only
    rw [hchunk, hofs, inode_sector_left_aligned, if_neg (by omega), Int.toNat_ofNat]
    by_cases hfull : 512 ≤ size
    · have hmin : min size 512 = 512 := by omega
      rw [hmin, if_pos ⟨rfl, rfl⟩]
      obtain ⟨c2, w1, w2, w3, w4⟩ := cache_write_spec c1 (S k)
        (List.take 512 (List.drop (512 * k) buffer)) b2 hSk
      rw [w1]
      simp only
      have e : 512 * k + 512 = 512 * (k + 1) := by omega
      rw [e]
      have hlay2 : inode_layout (cache_view c2) c2.fs_device.size ino.data n S T := by
        rw [w4, b4]
        apply inode_layout_congr (cache_view c) _ _ _ _ _ _ hlay
        intro j hj hj25
        rw [w3, if_neg (fun h => hlay.sep k j hkn hj hj25 h.symm), b3]
      obtain ⟨c3, i1, i2, i3, i4, i5⟩ := ih (size - 512) (k + 1) c2 (by omega) (by omega) w2 hlay2
        (fun j hj1 hj2 => by
          rw [w3, if_neg (fun h => by have := hlay.inj j k hj2 hkn h; omega), b3]
          exact hempty j (by omega) hj2)
      refine ⟨c3, i1, i2, by rw [i3, w4, b4], ?_, ?_⟩
      · intro j hj1 hj2
        by_cases hjk : j = k
        · subst hjk
          rw [i5 _ (fun j2 hj3 hj4 h => by have := hlay.inj j j2 hkn hj4 h; omega), w3,
            if_pos rfl]
          unfold file_sector
          have hlen : (List.take BLOCK_SECTOR_SIZE (List.drop (BLOCK_SECTOR_SIZE * j) buffer)).length
              = BLOCK_SECTOR_SIZE := by
            rw [List.length_take, List.length_drop, hbuf]
            show min 512 (ino.data.length - 512 * j) = 512
            omega
          rw [hlen, Nat.sub_self]
          simp only [List.replicate_zero, List.append_nil]
          rfl
        · exact i4 j (by omega) hj2
      · intro x hx
        rw [i5 x (fun j hj1 hj2 => hx j (by omega) hj2), w3, if_neg (hx k (le_refl _) hkn), b3]
    · have hmin : min size 512 = size := by omega
      have hn1 : n ≤ k + 1 := by
        rw [hn]
        exact bytes_to_sectors_le _ _ (by omega)
      rw [hmin, if_neg (fun h => by have h2 : (size : Int) = 512 := h.2; omega),
        if_pos (Or.inr (by omega))]
      obtain ⟨c2, r1, r2, r3, r4⟩ := cache_read_spec c1 (S k) b2 hSk
      rw [r1]
      simp only
      rw [b3, hempty k (le_refl _) hkn]
      obtain ⟨c3, w1, w2, w3, w4⟩ := cache_write_spec c2 (S k)
        (List.take 0 empty_sector ++ List.take size (List.drop (512 * k) buffer)
          ++ List.drop (0 + size) empty_sector) r2 (by rw [r4]; exact hSk)
      rw [w1]
      simp only
      rw [Nat.sub_self, inode_write_at_loop_done, hL]
      refine ⟨c3, rfl, w2, by rw [w4, r4, b4], ?_, ?_⟩
      · intro j hj1 hj2
        have hjk : j = k := by omega
        subst hjk
        rw [w3, if_pos rfl]
        unfold file_sector
        have hdl : (List.drop (512 * j) buffer).length = size := by
          rw [List.length_drop, hbuf]
          omega
        have ht1 : List.take 512 (List.drop (512 * j) buffer) = List.drop (512 * j) buffer :=
          List.take_of_length_le (by rw [hdl]; omega)
        have ht2 : List.take size (List.drop (512 * j) buffer) = List.drop (512 * j) buffer :=
          List.take_of_length_le (by rw [hdl])
        show _ = List.take 512 (List.drop (512 * j) buffer)
          ++ List.replicate (512 - (List.take 512 (List.drop (512 * j) buffer)).length) 0
        rw [ht1, ht2, hdl]
        simp only [List.take_zero, List.nil_append, Nat.zero_add, empty_sector,
          List.drop_replicate]
        rfl
      · intro x hx
        rw [w3, if_neg (hx k (le_refl _) hkn), r3, b3]

theorem inode_read_at_loop_whole (ino : inode) (buffer : List Nat) (n : Nat) (S T : Nat → Nat)
    (hn : n = bytes_to_sectors ino.data.length) (hcap : n ≤ 25 + 100 * 128)
    (hbuf : buffer.length = ino.data.length) :
    ∀ (fuel size k : Nat) (c : cache_state) (acc : List Nat), size ≤ fuel →
      512 * k + size = ino.data.length → cache_inv c →
      inode_layout (cache_view c) c.fs_device.size ino.data n S T →
      (∀ j, k ≤ j → j < n → cache_view c (S j) = file_sector buffer j) →
      acc = buffer.take (512 * k) →
      ∃ c2, inode_read_at_loop ino fuel c size (512 * k) (512 * k) acc
          = some (ino.data.length, buffer, c2) ∧ cache_inv c2 ∧
        c2.fs_device.size = c.fs_device.size ∧ ∀ t, cache_view c2 t = cache_view c t := by
  have hdone : ∀ (fuel k : Nat) (c : cache_state) (acc : List Nat),
      512 * k + 0 = ino.data.length → cache_inv c → acc = buffer.take (512 * k) →
      ∃ c2, inode_read_at_loop ino fuel c 0 (512 * k) (512 * k) acc
          = some (ino.data.length, buffer, c2) ∧ cache_inv c2 ∧
        c2.fs_device.size = c.fs_device.size ∧ ∀ t, cache_view c2 t = cache_view c t := by
    intro fuel k c acc hL hc hacc
    refine ⟨c, ?_, hc, rfl, fun _ => rfl⟩
    rw [inode_read_at_loop_done, hacc, List.take_of_length_le (by omega), ← hL, Nat.add_zero]
  intro fuel
  induction fuel with
  | zero =>
    intro size k c acc hs hL hc _ _ hacc
    have : size = 0 := by omega
    subst this
    exact hdone 0 k c acc hL hc hacc
  | succ fuel ih =>
    intro size k c acc hs hL hc hlay hdata hacc
    by_cases hs0 : size = 0
    · subst hs0
      exact hdone _ k c acc hL hc hacc
    have hkn : k < n := by
      rw [hn]
      exact bytes_to_sectors_gt _ _ (by omega)
    obtain ⟨c1, b1, b2, b3, b4⟩ := byte_to_sector_aligned c ino n k S T hc hlay hkn hcap (by omega)
    have hSk : S k < c1.fs_device.size := by rw [b4]; exact hlay.s_range k hkn
    have hofs : 512 * k % BLOCK_SECTOR_SIZE = 0 := by
      show 512 * k % 512 = 0
      omega
    have hchunk : inode_chunk_size (inode_length ino) size (512 * k) = ((min size 512 : Nat) : Int) :=
      inode_chunk_size_aligned _ size k hL
    obtain ⟨c2, r1, r2, r3, r4⟩ := cache_read_spec c1 (S k) b2 hSk
    rw [b3, hdata k (le_refl _) hkn] at r1
    unfold inode_read_at_loop
    rw [if_pos (by omega), b1]
    simp only
    rw [hchunk, hofs, if_neg (by omega), Int.toNat_ofNat, r1]
    simp only
    have hfs : file_sector buffer k = List.take 512 (List.drop (512 * k) buffer)
        ++ List.replicate (512 - (List.take 512 (List.drop (512 * k) buffer)).length) 0 := rfl
    by_cases hfull : 512 ≤ size
    · have hmin : min size 512 = 512 := by omega
      rw [hmin, if_pos ⟨trivial, rfl⟩]
      have e : 512 * k + 512 = 512 * (k + 1) := by omega
      rw [e]
      have hlay2 : inode_layout (cache_view c2) c2.fs_device.size ino.data n S T := by
        rw [r4, b4]
        apply inode_layout_congr (cache_view c) _ _ _ _ _ _ hlay
        intro j _ _
        rw [r3, b3]
      obtain ⟨c3, i1, i2, i3, i4⟩ := ih (size - 512) (k + 1) c2
        (acc ++ file_sector buffer k) (by omega) (by omega) r2 hlay2
        (fun j hj1 hj2 => by rw [r3, b3]; exact hdata j (by omega) hj2)
        (by
          have hlen : (List.take 512 (List.drop (512 * k) buffer)).length = 512 := by
            rw [List.length_take, List.length_drop, hbuf]
            omega
          rw [hfs, hlen, Nat.sub_self, List.replicate_zero, List.append_nil, hacc, ← e,
            List.take_add])
      exact ⟨c3, i1, i2, by rw [i3, r4, b4], fun t => by rw [i4, r3, b3]⟩
    · have hmin : min size 512 = size := by omega
      rw [hmin, if_neg (fun h => by have h2 : (size : Int) = 512 := h.2; omega), Nat.sub_self,
        inode_read_at_loop_done, hL]
      refine ⟨c2, ?_, r2, by rw [r4, b4], fun t => by rw [r3, b3]⟩
      have hdl : (List.drop (512 * k) buffer).length = size := by
        rw [List.length_drop, hbuf]
        omega
      have ht1 : List.take 512 (List.drop (512 * k) buffer) = List.drop (512 * k) buffer :=
        List.take_of_length_le (by rw [hdl]; omega)
      rw [hfs, ht1, hdl, List.drop_zero, List.take_append_of_le_length (by rw [hdl]),
        List.take_of_length_le (by rw [hdl]), hacc, List.take_append_drop]

/-! ## Inode layer: creating a file -/

theorem getD_of_getElem? (l : List Nat) (i x : Nat) (h : l[i]? = some x) : l.getD i 0 = x := by
  rw [List.getD_eq_getElem?_getD, h]
  rfl

/-- The function `inode_create` with enough free sectors succeeds for every length up to
`0x800000`; the inode sector then holds the new inode, whose pointer tree lays out the first
`25 + 100 * 128` data sectors in allocation order, each holding the empty sector. -/
theorem inode_create_fresh (st : fs_state) (sec L : Nat) (is_dir : Bool)
    (hc : cache_inv st.cache) (hdev : st.cache.fs_device.size ≤ 2 ^ 32)
    (hsec : sec < st.cache.fs_device.size)
    (hfr : ∀ s ∈ st.free_map, s < st.cache.fs_device.size) (hnd : st.free_map.Nodup)
    (hsf : sec ∉ st.free_map) (hL : L ≤ 0x800000)
    (hfm : bytes_to_sectors L + INDIRECT_BLOCK_NUM ≤ st.free_map.length) :
    ∃ d c m, inode_create st sec L is_dir
        = some (true, { cache := c, free_map := st.free_map.drop m,
                        open_inodes := st.open_inodes }) ∧
      cache_inv c ∧ c.fs_device.size = st.cache.fs_device.size ∧ d.length = L ∧
      bytes_inode_disk (cache_view c sec) = d ∧
      inode_layout (cache_view c) c.fs_device.size d (min (bytes_to_sectors L) (25 + 100 * 128))
        (fresh_data_sector st.free_map) (fresh_indirect_sector st.free_map) ∧
      (∀ k, k < min (bytes_to_sectors L) (25 + 100 * 128) →
        cache_view c (fresh_data_sector st.free_map k) = empty_sector ∧
        fresh_data_sector st.free_map k ∈ st.free_map) ∧
      (∀ k, k < min (bytes_to_sectors L) (25 + 100 * 128) → 25 ≤ k →
        fresh_indirect_sector st.free_map ((k - 25) / 128) ∈ st.free_map) := by
  obtain ⟨dir, ind, c1, m, a1, a2, a3, a4, a5, a6, a7, a8, a9, a10⟩ := inode_disk_init_fresh st
    (inode_disk.mk L INODE_MAGIC is_dir (List.replicate DIRECT_BLOCK_NUM 0)
      (List.replicate INDIRECT_BLOCK_NUM 0)) L hc hfr hnd rfl rfl hL hfm
  simp only at a1
  obtain ⟨c2, w1, w2, w3, w4⟩ := cache_write_spec c1 sec
    (inode_disk_bytes (inode_disk.mk L INODE_MAGIC is_dir dir ind)) a2 (by rw [a3]; exact hsec)
  have hroundtrip := bytes_inode_disk_bytes
    (inode_disk.mk L INODE_MAGIC is_dir dir ind)
    (by simp only; omega) (by simp only [INODE_MAGIC]; omega) a4 a5
    (fun w hw => by
      rcases a6 w hw with h | h
      · rw [h]; decide
      · have := hfr w h
        omega)
    (fun w hw => by
      rcases a7 w hw with h | h
      · rw [h]; decide
      · have := hfr w h
        omega)
  have hview : ∀ x, x ∈ st.free_map → cache_view c2 x = cache_view c1 x := by
    intro x hx
    rw [w3, if_neg (fun h => hsf (by rw [← h]; exact hx))]
  -- every data sector below the capacity is a free-list entry holding the empty sector
  have hS : ∀ k, k < min (bytes_to_sectors L) (25 + 100 * 128) →
      st.free_map[fresh_data_index k]? = some (fresh_data_sector st.free_map k) ∧
      cache_view c1 (fresh_data_sector st.free_map k) = empty_sector := by
    intro k hk
    by_cases hk25 : k < 25
    · obtain ⟨u, _, q2, q3⟩ := a8 k (by omega) hk25
      have e : fresh_data_index k = k := by unfold fresh_data_index; rw [if_pos hk25]
      have e2 : fresh_data_sector st.free_map k = u := by
        unfold fresh_data_sector
        rw [e]
        exact getD_of_getElem? _ _ _ q2
      rw [e, e2]
      exact ⟨q2, q3⟩
    · obtain ⟨t, blk, u, _, _, _, _, _, _, q7, q8⟩ := a9 k (by omega) (by omega) (by omega)
      have e : fresh_data_index k = k + (k - 25) / 128 + 1 := by
        unfold fresh_data_index; rw [if_neg hk25]
      have e2 : fresh_data_sector st.free_map k = u := by
        unfold fresh_data_sector
        rw [e]
        exact getD_of_getElem? _ _ _ q7
      rw [e, e2]
      exact ⟨q7, q8⟩
  have hT : ∀ k, k < min (bytes_to_sectors L) (25 + 100 * 128) → 25 ≤ k →
      st.free_map[25 + (k - 25) / 128 * 129]?
        = some (fresh_indirect_sector st.free_map ((k - 25) / 128)) := by
    intro k hk hk25
    obtain ⟨t, blk, u, _, q2, _⟩ := a9 k (by omega) hk25 (by omega)
    unfold fresh_indirect_sector
    rw [getD_of_getElem? _ _ _ q2]
    exact q2
  refine ⟨inode_disk.mk L INODE_MAGIC is_dir dir ind, c2, m, ?_, w2, by rw [w4, a3], rfl, ?_, ?_, ?_, ?_⟩
  · unfold inode_create
    simp only
    rw [a1]
    simp only
    rw [w1]
  · rw [w3, if_pos rfl]
    exact hroundtrip
  · refine ⟨?_, ?_, ?_, ?_, ?_, ?_⟩
    · intro k hk hk25
      obtain ⟨u, q1, q2, _⟩ := a8 k (by omega) hk25
      simp only
      rw [q1]
      have e : fresh_data_index k = k := by unfold fresh_data_index; rw [if_pos hk25]
      unfold fresh_data_sector
      rw [e, getD_of_getElem? _ _ _ q2]
    · intro k hk hk25
      obtain ⟨t, blk, u, q1, q2, q3, q4, q5, q6, q7, _⟩ := a9 k (by omega) hk25 (by omega)
      have et : fresh_indirect_sector st.free_map ((k - 25) / 128) = t := by
        unfold fresh_indirect_sector
        exact getD_of_getElem? _ _ _ q2
      have eu : fresh_data_sector st.free_map k = u := by
        unfold fresh_data_sector fresh_data_index
        rw [if_neg (by omega)]
        exact getD_of_getElem? _ _ _ q7
      rw [et, eu]
      refine ⟨q1, ?_⟩
      rw [hview t (List.getElem?_mem q2), q3, sector_words_words_sector blk q4
        (fun w hw => by
          rcases q5 w hw with h | h
          · rw [h]; decide
          · have := hfr w h
            omega)]
      exact q6
    · intro k hk
      rw [w4, a3]
      exact hfr _ (List.getElem?_mem (hS k hk).1)
    · intro k hk hk25
      rw [w4, a3]
      exact hfr _ (List.getElem?_mem (hT k hk hk25))
    · intro k j hk hj hj25 heq
      have := nodup_getElem?_inj st.free_map hnd _ _ _ (hS k hk).1 (by rw [heq]; exact hT j hj hj25)
      unfold fresh_data_index at this
      split at this <;> omega
    · intro k j hk hj heq
      have := nodup_getElem?_inj st.free_map hnd _ _ _ (hS k hk).1 (by rw [heq]; exact (hS j hj).1)
      unfold fresh_data_index at this
      split at this <;> split at this <;> omega
  · intro k hk
    have hmem := List.getElem?_mem (hS k hk).1
    exact ⟨by rw [hview _ hmem]; exact (hS k hk).2, hmem⟩
  · intro k hk hk25
    exact List.getElem?_mem (hT k hk hk25)

/-! ## Inode layer: the claims -/

theorem find?_filter_not (l : List inode) (h : Nat) :
    (l.filter (fun i => !(i.sector == h))).find? (fun i => i.sector == h) = none := by
  rw [List.find?_eq_none]
  intro x hx
  have := (List.mem_filter.1 hx).2
  simpa using this

theorem find?_map_store (ino : inode) (l : List inode) :
    (l.map (fun i => if i.sector == ino.sector then ino else i)).find?
        (fun i => i.sector == ino.sector)
      = (l.find? (fun i => i.sector == ino.sector)).map (fun _ => ino) := by
  induction l with
  | nil => rfl
  | cons x xs ih =>
    by_cases hx : (x.sector == ino.sector) = true
    · rw [List.map_cons, if_pos hx,
        @List.find?_cons_of_pos _ (fun i => i.sector == ino.sector) ino _ (by simp),
        @List.find?_cons_of_pos _ (fun i => i.sector == ino.sector) x _ hx]
      rfl
    · rw [List.map_cons, if_neg hx,
        @List.find?_cons_of_neg _ (fun i => i.sector == ino.sector) x _ hx,
        @List.find?_cons_of_neg _ (fun i => i.sector == ino.sector) x _ hx]
      exact ih

/-- Opening an inode that is not open reads it from its sector. -/
theorem inode_open_fresh (st : fs_state) (sec : Nat) (hc : cache_inv st.cache)
    (hsec : sec < st.cache.fs_device.size) (hopen : inode_lookup st sec = none) :
    ∃ c, inode_open st sec = some (sec,
        { cache := c, free_map := st.free_map,
          open_inodes := (inode.mk sec 1 false 0 (bytes_inode_disk (cache_view st.cache sec)))
            :: st.open_inodes }) ∧
      cache_inv c ∧ c.fs_device.size = st.cache.fs_device.size ∧
      ∀ t, cache_view c t = cache_view st.cache t := by
  obtain ⟨c, r1, r2, r3, r4⟩ := cache_read_spec st.cache sec hc hsec
  refine ⟨c, ?_, r2, r4, r3⟩
  unfold inode_open
  rw [hopen]
  simp only
  rw [r1]

/-- C3: for every length `L` within the capacity of the pointer tree and every buffer of `L`
bytes, on a file system with enough free sectors, `inode_create (sector, L)`, `inode_open`,
`inode_write_at (buffer, L, 0)`, `inode_close`, `inode_open` again and `inode_read_at (L, 0)`
all succeed; the write and the read return `L`, the bytes read equal `buffer` and
`inode_length` of the reopened inode is `L`. -/
theorem inode_persist_round_trip (st : fs_state) (sec L : Nat) (buffer : List Nat)
    (hc : cache_inv st.cache) (hdev : st.cache.fs_device.size ≤ 2 ^ 32)
    (hsec : sec < st.cache.fs_device.size)
    (hfr : ∀ s ∈ st.free_map, s < st.cache.fs_device.size) (hnd : st.free_map.Nodup)
    (hsf : sec ∉ st.free_map) (hopen : inode_lookup st sec = none)
    (hL : L ≤ (DIRECT_BLOCK_NUM + INDIRECT_BLOCK_NUM * BLOCK_POINTER_NUM) * BLOCK_SECTOR_SIZE)
    (hbuf : buffer.length = L)
    (hfm : bytes_to_sectors L + INDIRECT_BLOCK_NUM ≤ st.free_map.length) :
    inode_persist st sec L buffer = some (L, L, buffer, L) := by
  have hL2 : L ≤ (25 + 100 * 128) * 512 := hL
  have hn : bytes_to_sectors L ≤ 25 + 100 * 128 := bytes_to_sectors_le _ _ (by omega)
  obtain ⟨d, c1, m, a1, a2, a3, a4, a5, a6, a7, a8⟩ := inode_create_fresh st sec L false hc hdev
    hsec hfr hnd hsf (by omega) hfm
  rw [Nat.min_eq_left hn] at a6 a7 a8
  -- first open
  obtain ⟨c2, o1, o2, o3, o4⟩ := inode_open_fresh
    { cache := c1, free_map := st.free_map.drop m, open_inodes := st.open_inodes } sec a2
    (by rw [a3]; exact hsec) hopen
  simp only at o1 o3 o4
  rw [a5] at o1
  generalize hino : inode.mk sec 1 false 0 d = ino at o1
  have hdata : ino.data = d := by rw [← hino]
  have hsector : ino.sector = sec := by rw [← hino]
  have hlen : ino.data.length = L := by rw [hdata, a4]
  -- write
  have hlay2 : inode_layout (cache_view c2) c2.fs_device.size ino.data (bytes_to_sectors L)
      (fresh_data_sector st.free_map) (fresh_indirect_sector st.free_map) := by
    rw [hdata, o3]
    exact inode_layout_congr _ _ _ _ _ _ _ a6 (fun k _ _ => o4 _)
  obtain ⟨c3, w1, w2, w3, w4, w5⟩ := inode_write_at_loop_whole ino buffer (bytes_to_sectors L)
    (fresh_data_sector st.free_map) (fresh_indirect_sector st.free_map) (by rw [hlen]) hn
    (by rw [hlen, hbuf]) L L 0 c2 (le_refl _) (by rw [hlen]; omega) o2 hlay2
    (fun j _ hj => by rw [o4]; exact (a7 j hj).1)
  have hsec_ne : ∀ j, j < bytes_to_sectors L → sec ≠ fresh_data_sector st.free_map j :=
    fun j hj h => hsf (by rw [h]; exact (a7 j hj).2)
  have hv3 : cache_view c3 sec = cache_view c1 sec := by
    rw [w5 sec (fun j _ hj => hsec_ne j hj), o4]
  have hcnt : ino.open_cnt = 1 := by rw [← hino]
  have hdeny : ino.deny_write_cnt = 0 := by rw [← hino]
  have hrem : ino.removed = false := by rw [← hino]
  have hpself : (ino.sector == sec) = true := by rw [hsector]; simp
  have hlook2 : ∀ (c : cache_state) (fm : List Nat) (l : List inode),
      inode_lookup { cache := c, free_map := fm, open_inodes := ino :: l } sec = some ino := by
    intro c fm l
    unfold inode_lookup
    simp only
    rw [@List.find?_cons_of_pos _ (fun i => i.sector == sec) ino _ hpself]
  generalize hl3 : (ino :: st.open_inodes).map
      (fun i => if i.sector == ino.sector then ino else i) = l3
  have hwrite : inode_write_at
      { cache := c2, free_map := st.free_map.drop m, open_inodes := ino :: st.open_inodes }
      sec buffer L 0
      = some (L, { cache := c3, free_map := st.free_map.drop m, open_inodes := l3 }) := by
    have w1b : inode_write_at_loop ino buffer L c2 L 0 0 = some (ino.data.length, c3) := w1
    unfold inode_write_at
    rw [hlook2]
    simp only
    rw [if_neg (by rw [hdeny]; simp), if_neg (by rw [hlen]; omega)]
    unfold inode_write_at_copy inode_store
    simp only
    rw [w1b, hlen, hl3]
  have hlook3 : inode_lookup
      { cache := c3, free_map := st.free_map.drop m, open_inodes := l3 } sec = some ino := by
    unfold inode_lookup
    simp only
    rw [← hl3, ← hsector, find?_map_store,
      @List.find?_cons_of_pos _ (fun i => i.sector == ino.sector) ino _ (by simp)]
    rfl
  have hclose : inode_close
      { cache := c3, free_map := st.free_map.drop m, open_inodes := l3 } sec
      = some { cache := c3, free_map := st.free_map.drop m,
               open_inodes := l3.filter (fun i => !(i.sector == sec)) } := by
    unfold inode_close
    rw [hlook3]
    simp only
    rw [if_pos (by rw [hcnt]; rfl), if_neg (by rw [hrem]; simp)]
  obtain ⟨c4, p1, p2, p3, p4⟩ := inode_open_fresh
    { cache := c3, free_map := st.free_map.drop m,
      open_inodes := l3.filter (fun i => !(i.sector == sec)) } sec
    w2 (by simp only; rw [w3, o3, a3]; exact hsec)
    (by unfold inode_lookup; exact find?_filter_not _ _)
  simp only at p1 p3 p4
  rw [hv3, a5, hino] at p1
  have hlay4 : inode_layout (cache_view c4) c4.fs_device.size ino.data (bytes_to_sectors L)
      (fresh_data_sector st.free_map) (fresh_indirect_sector st.free_map) := by
    rw [p3, w3]
    apply inode_layout_congr _ _ _ _ _ _ _ hlay2
    intro k hk hk25
    rw [p4, w5 _ (fun j _ hj h => hlay2.sep j k hj hk hk25 h.symm)]
  obtain ⟨c5, q1, _⟩ := inode_read_at_loop_whole ino buffer (bytes_to_sectors L)
    (fresh_data_sector st.free_map) (fresh_indirect_sector st.free_map) (by rw [hlen]) hn
    (by rw [hlen, hbuf]) L L 0 c4 [] (le_refl _) (by rw [hlen]; omega) p2 hlay4
    (fun j hj1 hj2 => by rw [p4]; exact w4 j hj1 hj2) (by simp)
  have q1b : inode_read_at_loop ino L c4 L 0 0 [] = some (ino.data.length, buffer, c5) := q1
  unfold inode_persist
  rw [a1]
  simp only
  rw [o1]
  simp only
  rw [hwrite]
  simp only
  rw [hclose]
  simp only
  rw [p1]
  simp only
  unfold inode_read_at
  rw [hlook2]
  simp only
  rw [q1b]
  simp only
  rw [hlook2, hlen]
  simp only [inode_length, hlen]

theorem inode_persist_round_trip_witness :
    cache_inv (fs_boot (block.mk 128 (fun _ => empty_sector)) (List.range' 2 120)).cache ∧
    (fs_boot (block.mk 128 (fun _ => empty_sector)) (List.range' 2 120)).cache.fs_device.size
      ≤ 2 ^ 32 ∧
    1 < (fs_boot (block.mk 128 (fun _ => empty_sector)) (List.range' 2 120)).cache.fs_device.size ∧
    (∀ s ∈ (fs_boot (block.mk 128 (fun _ => empty_sector)) (List.range' 2 120)).free_map,
      s < (fs_boot (block.mk 128 (fun _ => empty_sector))
        (List.range' 2 120)).cache.fs_device.size) ∧
    (fs_boot (block.mk 128 (fun _ => empty_sector)) (List.range' 2 120)).free_map.Nodup ∧
    1 ∉ (fs_boot (block.mk 128 (fun _ => empty_sector)) (List.range' 2 120)).free_map ∧
    inode_lookup (fs_boot (block.mk 128 (fun _ => empty_sector)) (List.range' 2 120)) 1 = none ∧
    5000 ≤ (DIRECT_BLOCK_NUM + INDIRECT_BLOCK_NUM * BLOCK_POINTER_NUM) * BLOCK_SECTOR_SIZE ∧
    (List.replicate 5000 0xAB).length = 5000 ∧
    bytes_to_sectors 5000 + INDIRECT_BLOCK_NUM
      ≤ (fs_boot (block.mk 128 (fun _ => empty_sector)) (List.range' 2 120)).free_map.length ∧
    inode_persist (fs_boot (block.mk 128 (fun _ => empty_sector)) (List.range' 2 120)) 1 5000
      (List.replicate 5000 0xAB) = some (5000, 5000, List.replicate 5000 0xAB, 5000) :=
  ⟨(cache_init_spec _).1, by decide, by decide, by decide, by decide, by decide, rfl, by decide,
    List.length_replicate _ _, by decide,
    inode_persist_round_trip (fs_boot (block.mk 128 (fun _ => empty_sector)) (List.range' 2 120))
      1 5000 (List.replicate 5000 0xAB) (cache_init_spec _).1 (by decide) (by decide)
      (by decide) (by decide) (by decide) rfl (by decide) (List.length_replicate _ _)
      (by decide)⟩

/-- C1 fails in the code: on a fresh, empty file `inode_write_at` of the one byte 0xAB at
offset 0 writes nothing and returns 0 (the growth test `new_length - 1 > length` is false for
a write that ends one byte past the length), and the `inode_read_at` that follows returns 0
bytes instead of the byte written. -/
theorem inode_round_trip_one_byte :
    inode_fresh_write_read (fs_boot (block.mk 64 (fun _ => List.replicate 512 0)) [2, 3, 4, 5])
      1 0 [0xAB] 1 0 = some (0, 0, []) := by
  decide

/-- C2 fails in the code: on a file of length 10, `inode_write_at` of one byte at offset 10
(so `offset + size = 11` exceeds the length) does not grow the file: it returns 0, and
afterwards `inode_length` and the length in the inode's sector are still 10. -/
theorem inode_write_no_grow_by_one :
    inode_fresh_write (fs_boot (block.mk 64 (fun _ => List.replicate 512 0)) [2, 3, 4, 5])
      1 10 [0xAB] 1 10 = some (0, 10, 10) := by
  decide

/-- C6 fails in the code: `inode_create` (through `inode_disk_init`) accepts the size 6566401,
one byte more than the `(25 + 100 * 128) * 512` bytes the pointer tree can hold: it returns
true and the inode's sector holds length 6566401, which needs 12826 data sectors while the
tree has 12825 data-sector pointers. -/
theorem inode_create_over_capacity :
    ∃ s, inode_create (fs_boot (block.mk 13100 (fun _ => empty_sector)) (List.range' 2 13000))
        1 6566401 false = some (true, s) ∧
      (bytes_inode_disk (cache_view s.cache 1)).length = 6566401 ∧
      DIRECT_BLOCK_NUM + INDIRECT_BLOCK_NUM * BLOCK_POINTER_NUM < bytes_to_sectors 6566401 := by
  obtain ⟨d, c, m, h1, _, _, h4, h5, _⟩ := inode_create_fresh
    (fs_boot (block.mk 13100 (fun _ => empty_sector)) (List.range' 2 13000)) 1 6566401 false
    (cache_init_spec _).1 (by decide) (by decide)
    (fun s hs => by
      have := List.mem_range'_1.1 hs
      show s < 13100
      omega)
    (List.nodup_range' _ _) (fun h => by
      have := List.mem_range'_1.1 h
      omega)
    (by decide)
    (by
      show bytes_to_sectors 6566401 + INDIRECT_BLOCK_NUM ≤ (List.range' 2 13000).length
      rw [List.length_range']
      decide)
  refine ⟨_, h1, ?_, by decide⟩
  simp only
  rw [h5, h4]

/-! ## Frame table -/

/-- The invariant depends only on the frame table, the pools and the keys of the page tables. -/
theorem vm_inv_congr (st st2 : vm_state) (h : vm_inv st)
    (hft : st2.frame_table = st.frame_table) (hk : st2.kernel_pool = st.kernel_pool)
    (hu : st2.user_pool = st.user_pool)
    (hpt : ∀ t, (st2.threads t).page_table.map (fun e => e.virtual_page)
      = (st.threads t).page_table.map (fun e => e.virtual_page)) : vm_inv st2 := by
  refine ⟨?_, ?_, ?_, ?_, ?_⟩
  · rw [hft]; exact h.nodup
  · rw [hft, hu]; exact h.used
  · rw [hk, hu]; exact h.pools
  · intro t; rw [hpt t]; exact h.keys t
  · intro fte hfte
    rw [hft] at hfte
    obtain ⟨pte, hp1, hp2⟩ := h.owned fte hfte
    have hmem : fte.virtual_page ∈ (st2.threads fte.owner).page_table.map
        (fun e => e.virtual_page) := by
      rw [hpt]
      exact List.mem_map.2 ⟨pte, hp1, hp2⟩
    obtain ⟨pte2, hq1, hq2⟩ := List.mem_map.1 hmem
    exact ⟨pte2, hq1, hq2⟩

theorem set_pagedir_inv (st : vm_state) (t : Nat) (pd : Nat → Option pagedir_entry)
    (h : vm_inv st) : vm_inv (set_pagedir st t pd) := by
  refine vm_inv_congr st (set_pagedir st t pd) h rfl rfl rfl ?_
  intro t2
  unfold set_pagedir
  simp only
  by_cases ht : t2 = t
  · subst ht
    rw [Function.update_same]
  · rw [Function.update_noteq ht]

theorem set_page_table_keys (st : vm_state) (t : Nat) (pt : List page_table_entry)
    (h : vm_inv st)
    (hpt : pt.map (fun e => e.virtual_page)
      = (st.threads t).page_table.map (fun e => e.virtual_page)) :
    vm_inv (set_page_table st t pt) := by
  refine vm_inv_congr st (set_page_table st t pt) h rfl rfl rfl ?_
  intro t2
  unfold set_page_table
  simp only
  by_cases ht : t2 = t
  · subst ht
    rw [Function.update_same]
    exact hpt
  · rw [Function.update_noteq ht]

theorem swap_change_inv (st : vm_state) (sw : swap_state) (h : vm_inv st) :
    vm_inv { st with swap := sw } :=
  vm_inv_congr st _ h rfl rfl rfl (fun _ => rfl)

theorem search_some_key (pt : List page_table_entry) (vp : Nat) (pte : page_table_entry)
    (h : page_table_entry_search pt vp = some pte) : pte.virtual_page = vp := by
  unfold page_table_entry_search at h
  have := List.find?_some h
  simpa using this

theorem search_none_key (pt : List page_table_entry) (vp : Nat)
    (h : page_table_entry_search pt vp = none) : vp ∉ pt.map (fun e => e.virtual_page) := by
  unfold page_table_entry_search at h
  rw [List.find?_eq_none] at h
  intro hmem
  obtain ⟨e, he1, he2⟩ := List.mem_map.1 hmem
  have := h e he1
  simp only [beq_iff_eq] at this
  exact this he2

theorem search_of_mem (pt : List page_table_entry) (vp : Nat)
    (h : ∃ pte ∈ pt, pte.virtual_page = vp) :
    ∃ pte, page_table_entry_search pt vp = some pte := by
  cases hs : page_table_entry_search pt vp with
  | some pte => exact ⟨pte, rfl⟩
  | none =>
    obtain ⟨pte, hp1, hp2⟩ := h
    exact absurd (List.mem_map.2 ⟨pte, hp1, hp2⟩) (search_none_key pt vp hs)

/-- The page-table insertion of `frame_table_entry_set` keeps keys unique and makes `vp` a
key. -/
theorem hash_insert_keys (pt : List page_table_entry) (pte : page_table_entry)
    (h : (pt.map (fun e => e.virtual_page)).Nodup) :
    ((hash_insert pt pte).map (fun e => e.virtual_page)).Nodup ∧
    (∃ e ∈ hash_insert pt pte, e.virtual_page = pte.virtual_page) ∧
    ∀ e ∈ pt, e ∈ hash_insert pt pte := by
  unfold hash_insert
  cases hs : page_table_entry_search pt pte.virtual_page with
  | some e =>
    simp only
    refine ⟨h, ⟨e, ?_, search_some_key _ _ _ hs⟩, fun _ he => he⟩
    unfold page_table_entry_search at hs
    exact List.mem_of_find?_eq_some hs
  | none =>
    simp only
    refine ⟨?_, ⟨pte, List.mem_cons_self _ _, rfl⟩, fun _ he => List.mem_cons_of_mem _ he⟩
    rw [List.map_cons, List.nodup_cons]
    exact ⟨search_none_key _ _ hs, h⟩

theorem frame_table_entry_set_inv (st : vm_state) (cur pp vp : Nat) (h : vm_inv st)
    (hpool : page_from_pool st.user_pool pp = true)
    (hused : st.user_pool.used_map[pp - st.user_pool.base]? = some true)
    (hnew : pp ∉ st.frame_table.map (fun e => e.physical_page)) :
    vm_inv (frame_table_entry_set st cur pp vp) := by
  unfold frame_table_entry_set set_page_table
  simp only
  obtain ⟨k1, k2, k3⟩ := hash_insert_keys (st.threads cur).page_table
    (page_table_entry.mk (some pp) vp pte_status.ZERO 0 0 0 0 0 false) (h.keys cur)
  refine ⟨?_, ?_, h.pools, ?_, ?_⟩
  · simp only [List.map_append, List.map_cons, List.map_nil]
    rw [List.nodup_append]
    refine ⟨h.nodup, List.nodup_singleton _, ?_⟩
    intro a ha hb
    rw [List.mem_singleton] at hb
    subst hb
    exact hnew ha
  · intro fte hfte
    simp only at hfte ⊢
    rcases List.mem_append.1 hfte with hm | hm
    · exact h.used fte hm
    · rw [List.mem_singleton] at hm
      subst hm
      exact ⟨hpool, hused⟩
  · intro t
    simp only
    by_cases ht : t = cur
    · subst ht
      rw [Function.update_same]
      exact k1
    · rw [Function.update_noteq ht]
      exact h.keys t
  · intro fte hfte
    simp only at hfte ⊢
    rcases List.mem_append.1 hfte with hm | hm
    · obtain ⟨pte, hp1, hp2⟩ := h.owned fte hm
      by_cases ht : fte.owner = cur
      · rw [ht, Function.update_same]
        rw [ht] at hp1
        exact ⟨pte, k3 pte hp1, hp2⟩
      · rw [Function.update_noteq ht]
        exact ⟨pte, hp1, hp2⟩
    · rw [List.mem_singleton] at hm
      subst hm
      simp only
      rw [Function.update_same]
      exact k2

/-- What `palloc_get_page` with `PAL_USER` returns: a null pointer and the unchanged state
when the user pool is full, else a page of the user pool that no frame-table entry holds. -/
theorem palloc_get_page_user (st : vm_state) (flags : Nat) (hu : flags.testBit 2 = true)
    (h : vm_inv st) (r : Option Nat) (st1 : vm_state)
    (hget : palloc_get_page st flags = some (r, st1)) :
    (r = none ∧ st1 = st ∧ ∀ b ∈ st.user_pool.used_map, b = true) ∨
    (∃ pp, r = some pp ∧ vm_inv st1 ∧ page_from_pool st1.user_pool pp = true ∧
      st1.user_pool.used_map[pp - st1.user_pool.base]? = some true ∧
      pp ∉ st1.frame_table.map (fun e => e.physical_page) ∧
      st1.user_pool.used_map.length = st.user_pool.used_map.length) := by
  unfold palloc_get_page at hget
  simp only [hu, if_true] at hget
  cases hf : st.user_pool.used_map.findIdx? (fun b => !b) with
  | none =>
    rw [hf] at hget
    simp only at hget
    split at hget
    · cases hget
    · simp only [Option.some.injEq, Prod.mk.injEq] at hget
      left
      refine ⟨hget.1.symm, hget.2.symm, ?_⟩
      intro b hb
      have := List.findIdx?_eq_none_iff.1 hf b hb
      simpa using this
  | some idx =>
    rw [hf] at hget
    simp only [Option.some.injEq, Prod.mk.injEq] at hget
    obtain ⟨hi, hp, _⟩ := List.findIdx?_eq_some_iff_getElem.1 hf
    have hfalse : st.user_pool.used_map[idx]? = some false := by
      rw [List.getElem?_eq_getElem hi]
      simpa using hp
    right
    refine ⟨st.user_pool.base + idx, hget.1.symm, ?_, ?_, ?_, ?_, ?_⟩
    · rw [← hget.2]
      refine ⟨h.nodup, ?_, ?_, h.keys, h.owned⟩
      · intro fte hfte
        obtain ⟨u1, u2⟩ := h.used fte hfte
        simp only [page_from_pool, List.length_set] at u1 ⊢
        refine ⟨u1, ?_⟩
        by_cases hidx : fte.physical_page - st.user_pool.base = idx
        · rw [hidx]
          exact getElem?_set_same _ _ _ _ hfalse
        · rw [getElem?_set_other _ _ _ _ hidx]
          exact u2
      · simp only [List.length_set]
        exact h.pools
    · rw [← hget.2]
      simp only [page_from_pool, List.length_set, Bool.and_eq_true, decide_eq_true_eq]
      omega
    · rw [← hget.2]
      simp only
      rw [Nat.add_sub_cancel_left]
      exact getElem?_set_same _ _ _ _ hfalse
    · rw [← hget.2]
      simp only
      intro hmem
      obtain ⟨fte, hfte, hpp⟩ := List.mem_map.1 hmem
      have := (h.used fte hfte).2
      rw [hpp, Nat.add_sub_cancel_left, hfalse] at this
      cases this
    · rw [← hget.2]
      simp only [List.length_set]

/-- Dropping the first frame-table entry of page `p` leaves a sublist without any entry of
page `p`, when no two entries share a page. -/
theorem frame_table_drop_spec (ft : List frame_table_entry) (p : Nat)
    (hnd : (ft.map (fun e => e.physical_page)).Nodup) :
    (frame_table_drop ft (some p)).Sublist ft ∧
    ∀ e ∈ frame_table_drop ft (some p), e.physical_page ≠ p := by
  unfold frame_table_drop
  cases hf : ft.findIdx? (fun e => some e.physical_page == some p) with
  | none =>
    simp only
    refine ⟨List.Sublist.refl _, ?_⟩
    intro e he hp
    have := List.findIdx?_eq_none_iff.1 hf e he
    simp [hp] at this
  | some i =>
    simp only
    refine ⟨List.eraseIdx_sublist _ _, ?_⟩
    obtain ⟨hi, hp, _⟩ := List.findIdx?_eq_some_iff_getElem.1 hf
    have hpi : ft[i].physical_page = p := by simpa using hp
    intro e he hep
    rw [List.eraseIdx_eq_take_drop_succ] at he
    have hsplit : ft = ft.take i ++ ft[i] :: ft.drop (i + 1) := by
      rw [← List.drop_eq_getElem_cons hi, List.take_append_drop]
    rw [hsplit, List.map_append, List.map_cons, List.nodup_middle, List.nodup_cons] at hnd
    apply hnd.1
    rw [hpi, ← List.map_append]
    exact List.mem_map.2 ⟨e, he, hep⟩

theorem frame_table_drop_none (ft : List frame_table_entry) : frame_table_drop ft none = ft := by
  unfold frame_table_drop
  cases hfi : ft.findIdx? (fun e => some e.physical_page == none) with
  | none => rfl
  | some i =>
    obtain ⟨_, hp, _⟩ := List.findIdx?_eq_some_iff_getElem.1 hfi
    simp at hp

theorem palloc_pool_free_spec (pool pool2 : palloc_pool) (p : Nat)
    (h : palloc_pool_free pool p = some pool2) :
    pool2.base = pool.base ∧ pool2.used_map = pool.used_map.set (p - pool.base) false ∧
    pool.used_map[p - pool.base]? = some true := by
  unfold palloc_pool_free at h
  split at h
  · rename_i hu
    simp only [Option.some.injEq] at h
    rw [← h]
    exact ⟨rfl, rfl, hu⟩
  · cases h

/-- The function `frame_free` keeps the invariant; when the page belongs to the user pool,
the user pool has a free page afterwards. -/
theorem frame_free_inv (st st2 : vm_state) (frame : Option Nat) (h : vm_inv st)
    (hf : frame_free st frame = some st2) :
    vm_inv st2 ∧ st2.user_pool.used_map.length = st.user_pool.used_map.length ∧
    ∀ p, frame = some p → page_from_pool st.user_pool p = true →
      ∃ b ∈ st2.user_pool.used_map, b = false := by
  cases frame with
  | none =>
    unfold frame_free palloc_free_page at hf
    simp only [Option.some.injEq, frame_table_drop_none] at hf
    refine ⟨vm_inv_congr st st2 h (by rw [← hf]) (by rw [← hf]) (by rw [← hf])
      (fun t => by rw [← hf]), by rw [← hf], fun p hp => by cases hp⟩
  | some p =>
    obtain ⟨hsub, hne⟩ := frame_table_drop_spec st.frame_table p h.nodup
    unfold frame_free at hf
    generalize frame_table_drop st.frame_table (some p) = ft at hf hsub hne
    unfold palloc_free_page at hf
    simp only at hf
    by_cases hk : page_from_pool st.kernel_pool p = true
    · rw [if_pos hk] at hf
      cases hpf : palloc_pool_free st.kernel_pool p with
      | none => rw [hpf] at hf; cases hf
      | some pool =>
        rw [hpf] at hf
        simp only [Option.some.injEq] at hf
        obtain ⟨q1, q2, _⟩ := palloc_pool_free_spec _ _ _ hpf
        refine ⟨?_, by rw [← hf], ?_⟩
        · rw [← hf]
          refine ⟨List.Nodup.sublist (List.Sublist.map _ hsub) h.nodup,
            fun fte hfte => h.used fte (hsub.subset hfte), ?_, h.keys,
            fun fte hfte => h.owned fte (hsub.subset hfte)⟩
          simp only
          rw [q1, q2, List.length_set]
          exact h.pools
        · intro p2 hp2 hup
          simp only [Option.some.injEq] at hp2
          subst hp2
          have hpools := h.pools
          simp only [page_from_pool, Bool.and_eq_true, decide_eq_true_eq] at hk hup
          omega
    · rw [if_neg hk] at hf
      by_cases hup : page_from_pool st.user_pool p = true
      · rw [if_pos hup] at hf
        cases hpf : palloc_pool_free st.user_pool p with
        | none => rw [hpf] at hf; cases hf
        | some pool =>
          rw [hpf] at hf
          simp only [Option.some.injEq] at hf
          obtain ⟨q1, q2, q3⟩ := palloc_pool_free_spec _ _ _ hpf
          have hup2 := hup
          simp only [page_from_pool, Bool.and_eq_true, decide_eq_true_eq] at hup2
          refine ⟨?_, by rw [← hf]; simp only; rw [q2, List.length_set], ?_⟩
          · rw [← hf]
            refine ⟨List.Nodup.sublist (List.Sublist.map _ hsub) h.nodup, ?_, ?_, h.keys,
              fun fte hfte => h.owned fte (hsub.subset hfte)⟩
            · intro fte hfte
              obtain ⟨u1, u2⟩ := h.used fte (hsub.subset hfte)
              have hpne : fte.physical_page ≠ p := hne fte hfte
              have u3 := u1
              simp only [page_from_pool, Bool.and_eq_true, decide_eq_true_eq] at u3
              simp only [page_from_pool]
              rw [q1, q2, List.length_set]
              refine ⟨u1, ?_⟩
              rw [getElem?_set_other _ _ _ _ (by omega)]
              exact u2
            · simp only
              rw [q1]
              exact h.pools
          · intro p2 hp2 _
            simp only [Option.some.injEq] at hp2
            subst hp2
            refine ⟨false, ?_, rfl⟩
            rw [← hf]
            simp only
            rw [q2]
            exact List.getElem?_mem (getElem?_set_same _ _ _ _ q3)
      · rw [if_neg hup] at hf
        cases hf

theorem frame_evict_scan_mem (l : List frame_table_entry) :
    ∀ (pd : Nat → Option pagedir_entry) (cand : Option frame_table_entry)
      (fte : frame_table_entry), (frame_evict_scan pd cand l).2 = some fte →
      cand = some fte ∨ fte ∈ l := by
  induction l with
  | nil => intro pd cand fte h; exact Or.inl h
  | cons x xs ih =>
    intro pd cand fte h
    unfold frame_evict_scan at h
    split at h
    · rcases ih _ _ _ h with h1 | h1
      · exact Or.inl h1
      · exact Or.inr (List.mem_cons_of_mem _ h1)
    · rcases ih _ _ _ h with h1 | h1
      · simp only [Option.some.injEq] at h1
        right
        rw [← h1]
        exact List.mem_cons_self _ _
      · exact Or.inr (List.mem_cons_of_mem _ h1)

theorem frame_evict_select_mem (pd : Nat → Option pagedir_entry) (ft : List frame_table_entry)
    (fte : frame_table_entry) (h : (frame_evict_select pd ft).2 = some fte) : fte ∈ ft := by
  unfold frame_evict_select at h
  simp only at h
  split at h
  · rcases frame_evict_scan_mem ft _ _ _ h with h1 | h1
    · cases h1
    · exact h1
  · rcases frame_evict_scan_mem ft _ _ _ h with h1 | h1
    · cases h1
    · exact h1

/-- With `PAL_USER` and a free page in the user pool `frame_get_page` returns a page at once,
whatever the fuel, and keeps the invariant. -/
theorem frame_get_page_direct (st : vm_state) (cur flags vp : Nat)
    (hu : flags.testBit 2 = true) (h : vm_inv st)
    (hfree : ∃ b ∈ st.user_pool.used_map, b = false) :
    ∃ pp st1, (∀ f, frame_get_page (f + 1) st cur flags vp = some (some pp, st1)) ∧
      vm_inv st1 ∧ st1.user_pool.used_map.length = st.user_pool.used_map.length := by
  cases hg : palloc_get_page st flags with
  | none =>
    exfalso
    unfold palloc_get_page at hg
    simp only [hu, if_true] at hg
    cases hf : st.user_pool.used_map.findIdx? (fun b => !b) with
    | none =>
      obtain ⟨b, hb1, hb2⟩ := hfree
      have := List.findIdx?_eq_none_iff.1 hf b hb1
      simp [hb2] at this
    | some idx =>
      rw [hf] at hg
      simp at hg
  | some res =>
    obtain ⟨r, st1⟩ := res
    rcases palloc_get_page_user st flags hu h r st1 hg with ⟨_, _, hfull⟩ | ⟨pp, hr, h1, h2, h3, h4, h5⟩
    · obtain ⟨b, hb1, hb2⟩ := hfree
      have := hfull b hb1
      rw [hb2] at this
      cases this
    · subst hr
      refine ⟨pp, frame_table_entry_set st1 cur pp vp, ?_,
        frame_table_entry_set_inv st1 cur pp vp h1 h2 h3 h4, h5⟩
      intro f
      simp only [frame_get_page]
      rw [hg]

theorem map_store_keys (pt : List page_table_entry) (v : Nat) (pte1 : page_table_entry)
    (h : pte1.virtual_page = v) :
    (pt.map (fun e => if e.virtual_page == v then pte1 else e)).map (fun e => e.virtual_page)
      = pt.map (fun e => e.virtual_page) := by
  rw [List.map_map]
  apply List.map_congr_left
  intro e _
  simp only [Function.comp]
  by_cases he : (e.virtual_page == v) = true
  · rw [if_pos he, h]
    exact (beq_iff_eq.1 he).symm
  · rw [if_neg he]

/-- The second half of `frame_evict_page` for a victim taken from the frame table: its result
does not depend on the fuel of the final `frame_get_page`, and it keeps the invariant. -/
theorem frame_evict_victim_spec (st1 : vm_state) (cur vp : Nat) (fte : frame_table_entry)
    (h : vm_inv st1) (hmem : fte ∈ st1.frame_table) :
    (∀ f, frame_evict_victim (frame_get_page (f + 1)) st1 cur vp fte
      = frame_evict_victim (frame_get_page 1) st1 cur vp fte) ∧
    ∀ r st2, frame_evict_victim (frame_get_page 1) st1 cur vp fte = some (r, st2) →
      vm_inv st2 ∧ st2.user_pool.used_map.length = st1.user_pool.used_map.length := by
  have key : ∀ f, (frame_evict_victim (frame_get_page (f + 1)) st1 cur vp fte
        = frame_evict_victim (frame_get_page 1) st1 cur vp fte) ∧
      ∀ r st2, frame_evict_victim (frame_get_page (f + 1)) st1 cur vp fte = some (r, st2) →
        vm_inv st2 ∧ st2.user_pool.used_map.length = st1.user_pool.used_map.length := by
    intro f
    unfold frame_evict_victim
    simp only
    have h2 := set_pagedir_inv st1 fte.owner
      (pagedir_clear_page (st1.threads fte.owner).pagedir fte.virtual_page) h
    generalize hst2 : set_pagedir st1 fte.owner
      (pagedir_clear_page (st1.threads fte.owner).pagedir fte.virtual_page) = st2 at h2
    have hup2 : st2.user_pool = st1.user_pool := by rw [← hst2]; rfl
    have hft2 : st2.frame_table = st1.frame_table := by rw [← hst2]; rfl
    cases hsw : swap_out st2.swap (st2.memory fte.physical_page) with
    | none => exact ⟨rfl, fun r s hc => by cases hc⟩
    | some res =>
      obtain ⟨swap_index, sw⟩ := res
      simp only
      have h3 := swap_change_inv st2 sw h2
      cases hse : page_table_entry_search (st2.threads fte.owner).page_table fte.virtual_page with
      | none =>
        refine ⟨rfl, fun r s hc => ?_⟩
        simp only [Option.some.injEq, Prod.mk.injEq] at hc
        rw [← hc.2]
        exact ⟨h3, by simp only; rw [hup2]⟩
      | some pte =>
        simp only
        have hkey := search_some_key _ _ _ hse
        have h4 := set_page_table_keys { st2 with swap := sw } fte.owner
          ((st2.threads fte.owner).page_table.map
            (fun e => if e.virtual_page == fte.virtual_page
              then { pte with status := pte_status.SWAP, swap_index := swap_index,
                              physical_page := none } else e))
          h3 (map_store_keys _ _
            (page_table_entry.mk none pte.virtual_page pte_status.SWAP swap_index pte.file
              pte.ofs pte.read_bytes pte.zero_bytes pte.writable) hkey)
        generalize hst3 : set_page_table { st2 with swap := sw } fte.owner
          ((st2.threads fte.owner).page_table.map
            (fun e => if e.virtual_page == fte.virtual_page
              then { pte with status := pte_status.SWAP, swap_index := swap_index,
                              physical_page := none } else e)) = st3 at h4
        have hup3 : st3.user_pool = st1.user_pool := by rw [← hst3, ← hup2]; rfl
        cases hff : frame_free st3 (some fte.physical_page) with
        | none => exact ⟨rfl, fun r s hc => by cases hc⟩
        | some st4 =>
          simp only
          obtain ⟨h5, hl5, hfree⟩ := frame_free_inv st3 st4 _ h4 hff
          have hpool : page_from_pool st3.user_pool fte.physical_page = true := by
            rw [hup3]
            exact (h.used fte hmem).1
          obtain ⟨pp, st5, g1, g2, g3⟩ := frame_get_page_direct st4 cur (PAL_USER ||| PAL_ZERO) vp
            (by decide) h5 (hfree _ rfl hpool)
          rw [g1 f, g1 0]
          refine ⟨rfl, fun r s hc => ?_⟩
          simp only [Option.some.injEq, Prod.mk.injEq] at hc
          rw [← hc.2]
          exact ⟨g2, by rw [g3, hl5, hup3]⟩
  refine ⟨fun f => (key f).1, ?_⟩
  exact (key 0).2

/-- The function `frame_evict_page`: its result does not depend on the fuel, and it keeps the
invariant. -/
theorem frame_evict_page_body_spec (st : vm_state) (cur vp : Nat) (h : vm_inv st) :
    (∀ f, frame_evict_page_body (frame_get_page (f + 1)) st cur vp
      = frame_evict_page_body (frame_get_page 1) st cur vp) ∧
    ∀ r st2, frame_evict_page_body (frame_get_page 1) st cur vp = some (r, st2) →
      vm_inv st2 ∧ st2.user_pool.used_map.length = st.user_pool.used_map.length := by
  unfold frame_evict_page_body
  simp only
  have h1 := set_pagedir_inv st cur
    (frame_evict_select (st.threads cur).pagedir st.frame_table).1 h
  cases hsel : (frame_evict_select (st.threads cur).pagedir st.frame_table).2 with
  | none =>
    refine ⟨fun _ => rfl, fun r s hc => ?_⟩
    simp only [Option.some.injEq, Prod.mk.injEq] at hc
    rw [← hc.2]
    exact ⟨h1, rfl⟩
  | some fte =>
    simp only
    have hmem := frame_evict_select_mem _ _ _ hsel
    exact frame_evict_victim_spec _ cur vp fte h1 hmem

/-- The function `frame_get_page` with `PAL_USER`: two levels of recursion are always enough,
and the invariant is kept. -/
theorem frame_get_page_spec (st : vm_state) (cur flags vp : Nat)
    (hu : flags.testBit 2 = true) (h : vm_inv st) :
    (∀ f, frame_get_page (f + 2) st cur flags vp = frame_get_page 2 st cur flags vp) ∧
    ∀ r st2, frame_get_page 2 st cur flags vp = some (r, st2) →
      vm_inv st2 ∧ st2.user_pool.used_map.length = st.user_pool.used_map.length := by
  cases hg : palloc_get_page st flags with
  | none =>
    refine ⟨fun f => ?_, fun r s hc => ?_⟩
    · simp only [frame_get_page]
      rw [hg]
    · simp only [frame_get_page] at hc
      rw [hg] at hc
      cases hc
  | some res =>
    obtain ⟨r0, st1⟩ := res
    rcases palloc_get_page_user st flags hu h r0 st1 hg with ⟨hr, hst, _⟩ | ⟨pp, hr, h1, h2, h3, h4, h5⟩
    · subst hr
      subst hst
      obtain ⟨e1, e2⟩ := frame_evict_page_body_spec st1 cur vp h
      refine ⟨fun f => ?_, fun r s hc => ?_⟩
      · simp only [frame_get_page]
        rw [hg]
        simp only
        exact e1 f
      · simp only [frame_get_page] at hc
        rw [hg] at hc
        simp only at hc
        exact e2 r s hc
    · subst hr
      refine ⟨fun f => ?_, fun r s hc => ?_⟩
      · simp only [frame_get_page]
        rw [hg]
      · simp only [frame_get_page] at hc
        rw [hg] at hc
        simp only [Option.some.injEq, Prod.mk.injEq] at hc
        rw [← hc.2]
        exact ⟨frame_table_entry_set_inv st1 cur pp vp h1 h2 h3 h4, h5⟩

theorem frame_step_spec (fuel : Nat) (st : vm_state) (op : frame_op) (h : vm_inv st)
    (hu : op.user = true) :
    frame_step fuel st op = frame_step 0 st op ∧
    ∀ st2, frame_step 0 st op = some st2 →
      vm_inv st2 ∧ st2.user_pool.used_map.length = st.user_pool.used_map.length := by
  cases op with
  | get_page cur flag vp =>
    obtain ⟨e1, e2⟩ := frame_get_page_spec st cur flag vp hu h
    refine ⟨?_, ?_⟩
    · simp only [frame_step]
      rw [e1 fuel]
    · intro st2 hs
      simp only [frame_step] at hs
      cases hg : frame_get_page 2 st cur flag vp with
      | none => rw [hg] at hs; cases hs
      | some res =>
        rw [hg] at hs
        simp only [Option.map_some', Option.some.injEq] at hs
        rw [← hs]
        exact e2 res.1 res.2 hg
  | evict_page cur vp =>
    obtain ⟨e1, e2⟩ := frame_evict_page_body_spec st cur vp h
    refine ⟨?_, ?_⟩
    · simp only [frame_step, frame_evict_page]
      rw [e1 fuel]
    · intro st2 hs
      simp only [frame_step, frame_evict_page] at hs
      cases hg : frame_evict_page_body (frame_get_page 1) st cur vp with
      | none => rw [hg] at hs; cases hs
      | some res =>
        rw [hg] at hs
        simp only [Option.map_some', Option.some.injEq] at hs
        rw [← hs]
        exact e2 res.1 res.2 hg
  | free frame =>
    refine ⟨rfl, ?_⟩
    intro st2 hs
    obtain ⟨q1, q2, _⟩ := frame_free_inv st st2 frame h hs
    exact ⟨q1, q2⟩

theorem frame_run_spec (fuel : Nat) (ops : List frame_op) : ∀ (st : vm_state), vm_inv st →
    ops.all frame_op.user = true →
    frame_run fuel st ops = frame_run 0 st ops ∧
    ∀ st2, frame_run 0 st ops = some st2 →
      vm_inv st2 ∧ st2.user_pool.used_map.length = st.user_pool.used_map.length := by
  induction ops with
  | nil =>
    intro st h _
    refine ⟨rfl, fun st2 hs => ?_⟩
    simp only [frame_run, Option.some.injEq] at hs
    rw [← hs]
    exact ⟨h, rfl⟩
  | cons op ops ih =>
    intro st h hu
    simp only [List.all_cons, Bool.and_eq_true] at hu
    obtain ⟨s1, s2⟩ := frame_step_spec fuel st op h hu.1
    cases hst : frame_step 0 st op with
    | none =>
      refine ⟨?_, fun st2 hs => ?_⟩
      · simp only [frame_run]
        rw [s1, hst]
      · simp only [frame_run] at hs
        rw [hst] at hs
        cases hs
    | some st1 =>
      obtain ⟨q1, q2⟩ := s2 st1 hst
      obtain ⟨r1, r2⟩ := ih st1 q1 hu.2
      refine ⟨?_, fun st2 hs => ?_⟩
      · simp only [frame_run]
        rw [s1, hst]
        exact r1
      · simp only [frame_run] at hs
        rw [hst] at hs
        obtain ⟨t1, t2⟩ := r2 st2 hs
        exact ⟨t1, by rw [t2, q2]⟩

/-- A frame table whose pages are distinct pages of the user pool has at most as many entries
as the pool has pages. -/
theorem frame_table_length_le (st : vm_state) (h : vm_inv st) :
    st.frame_table.length ≤ st.user_pool.used_map.length := by
  have hsub : (st.frame_table.map (fun e => e.physical_page)).toFinset
      ⊆ Finset.Ico st.user_pool.base (st.user_pool.base + st.user_pool.used_map.length) := by
    intro x hx
    rw [List.mem_toFinset] at hx
    obtain ⟨fte, hf1, hf2⟩ := List.mem_map.1 hx
    have := (h.used fte hf1).1
    simp only [page_from_pool, Bool.and_eq_true, decide_eq_true_eq] at this
    rw [Finset.mem_Ico, ← hf2]
    exact this
  have hcard := Finset.card_le_card hsub
  rw [List.toFinset_card_of_nodup h.nodup, Nat.card_Ico, List.length_map] at hcard
  omega

/-- C7: after `frame_init_table` and any sequence of `frame_get_page` (with `PAL_USER`),
`frame_evict_page` and `frame_free` calls, whatever the state the sequence starts from (pools
that do not overlap, page tables with one entry per virtual page): two levels of the recursion
between `frame_get_page` and `frame_evict_page` are always enough, and if the calls return,
the frame table holds at most as many entries as the user pool has pages, no two entries share
a physical page, and every entry's virtual page has exactly one entry in the page table of the
entry's owner. -/
theorem frame_table_invariant (st0 : vm_state) (ops : List frame_op) (fuel : Nat)
    (hpools : st0.kernel_pool.base + st0.kernel_pool.used_map.length ≤ st0.user_pool.base)
    (hkeys : ∀ t, ((st0.threads t).page_table.map (fun e => e.virtual_page)).Nodup)
    (huser : ops.all frame_op.user = true) :
    frame_run fuel (frame_init_table st0) ops = frame_run 0 (frame_init_table st0) ops ∧
    ∀ st, frame_run 0 (frame_init_table st0) ops = some st →
      st.frame_table.length ≤ st0.user_pool.used_map.length ∧
      (st.frame_table.map (fun e => e.physical_page)).Nodup ∧
      ∀ fte ∈ st.frame_table,
        (st.threads fte.owner).page_table.countP
          (fun e => e.virtual_page == fte.virtual_page) = 1 := by
  have hinit : vm_inv (frame_init_table st0) := by
    refine ⟨List.nodup_nil, fun fte hf => ?_, hpools, hkeys, fun fte hf => ?_⟩
    · simp [frame_init_table] at hf
    · simp [frame_init_table] at hf
  obtain ⟨r1, r2⟩ := frame_run_spec fuel ops _ hinit huser
  refine ⟨r1, fun st hs => ?_⟩
  obtain ⟨q1, q2⟩ := r2 st hs
  refine ⟨?_, q1.nodup, ?_⟩
  · have := frame_table_length_le st q1
    rw [q2] at this
    exact this
  · intro fte hf
    obtain ⟨pte, hp1, hp2⟩ := q1.owned fte hf
    have hmem : fte.virtual_page ∈ (st.threads fte.owner).page_table.map
        (fun e => e.virtual_page) := List.mem_map.2 ⟨pte, hp1, hp2⟩
    have := List.count_eq_one_of_mem (q1.keys fte.owner) hmem
    rw [List.count_eq_countP, List.countP_map] at this
    exact this

theorem frame_table_invariant_witness :
    (vm_example.kernel_pool.base + vm_example.kernel_pool.used_map.length
      ≤ vm_example.user_pool.base) ∧
    (∀ t, ((vm_example.threads t).page_table.map (fun e => e.virtual_page)).Nodup) ∧
    ([frame_op.get_page 1 6 100, frame_op.get_page 1 6 200, frame_op.get_page 2 6 100,
      frame_op.get_page 1 6 300, frame_op.free (some 4), frame_op.evict_page 2 500].all
        frame_op.user = true) ∧
    (frame_run 5 (frame_init_table vm_example)
        [frame_op.get_page 1 6 100, frame_op.get_page 1 6 200, frame_op.get_page 2 6 100,
          frame_op.get_page 1 6 300, frame_op.free (some 4), frame_op.evict_page 2 500]
      = frame_run 0 (frame_init_table vm_example)
        [frame_op.get_page 1 6 100, frame_op.get_page 1 6 200, frame_op.get_page 2 6 100,
          frame_op.get_page 1 6 300, frame_op.free (some 4), frame_op.evict_page 2 500] ∧
    ∀ st, frame_run 0 (frame_init_table vm_example)
        [frame_op.get_page 1 6 100, frame_op.get_page 1 6 200, frame_op.get_page 2 6 100,
          frame_op.get_page 1 6 300, frame_op.free (some 4), frame_op.evict_page 2 500]
        = some st →
      st.frame_table.length ≤ vm_example.user_pool.used_map.length ∧
      (st.frame_table.map (fun e => e.physical_page)).Nodup ∧
      ∀ fte ∈ st.frame_table,
        (st.threads fte.owner).page_table.countP
          (fun e => e.virtual_page == fte.virtual_page) = 1) :=
  ⟨by decide, fun _ => List.nodup_nil, by decide,
    frame_table_invariant vm_example
      [frame_op.get_page 1 6 100, frame_op.get_page 1 6 200, frame_op.get_page 2 6 100,
        frame_op.get_page 1 6 300, frame_op.free (some 4), frame_op.evict_page 2 500] 5
      (by decide) (fun _ => List.nodup_nil) (by decide)⟩

/-! ## Lemmas on `mmap` and `munmap` -/


theorem ptr_add_inj (p a b : Nat) (ha : a < 2 ^ 32) (hb : b < 2 ^ 32)
    (h : ptr_add p a = ptr_add p b) : a = b := by
  unfold ptr_add at h
  have h1 : Nat.ModEq (2 ^ 32) (p + a) (p + b) := h
  exact Nat.ModEq.eq_of_lt_of_lt (Nat.ModEq.add_left_cancel' p h1) ha hb

theorem page_count_lt (size k : Nat) : k < page_count size ↔ k * PGSIZE < size := by
  unfold page_count
  show k < (size + 4096 - 1) / 4096 ↔ k * 4096 < size
  omega

theorem mmap_overlap_iff (pt : List page_table_entry) (data n : Nat) :
    mmap_overlap pt data n = true ↔
      ∃ k, k < n ∧ (page_table_entry_search pt (ptr_add data (k * PGSIZE))).isSome = true := by
  induction n with
  | zero => simp [mmap_overlap]
  | succ n ih =>
    simp only [mmap_overlap, Bool.or_eq_true, ih]
    constructor
    · rintro (⟨k, hk, h⟩ | h)
      · exact ⟨k, by omega, h⟩
      · exact ⟨n, by omega, h⟩
    · rintro ⟨k, hk, h⟩
      by_cases hkn : k = n
      · subst hkn; exact Or.inr h
      · exact Or.inl ⟨k, by omega, h⟩

theorem file_reopen_spec (fs : file_sys) (hd : Nat) (f : vm_file)
    (h : file_get fs hd = some f) :
    ∃ fs1, file_reopen fs hd = some (fs.files.length, fs1) ∧
      file_get fs1 fs.files.length = some (vm_file.mk f.inode 0) ∧
      fs1.inodes = fs.inodes ∧ fs1.write_cnt = fs.write_cnt ∧
      file_length fs1 fs.files.length = some (fs.inodes f.inode).length := by
  have hg : file_get { fs with files := fs.files ++ [some (vm_file.mk f.inode 0)] }
      fs.files.length = some (vm_file.mk f.inode 0) := by
    simp [file_get]
  refine ⟨{ fs with files := fs.files ++ [some (vm_file.mk f.inode 0)] }, ?_, hg, rfl, rfl, ?_⟩
  · simp only [file_reopen, h]
  · simp only [file_length, hg]

/-- C14: `mmap (fd, addr)` returns -1 and leaves the memory-management state of the process,
its supplemental page table included, and its mapping list unchanged whenever `fd < 2`,
`addr` is null, `addr` is not page-aligned, `fd` names no open file, the file has length
zero, or some page of the range `addr .. addr + length` already has a page-table entry. -/
theorem mmap_rejects (st : sys_state) (cur : Nat) (fd : Int) (data : Nat)
    (h : fd < 2 ∨ data = 0 ∨ data % PGSIZE ≠ 0 ∨
      (get_thread_file (st.owned_files cur) fd).bind (fun f => f.file) = none ∨
      ∃ hd f, (get_thread_file (st.owned_files cur) fd).bind (fun f => f.file) = some hd ∧
        file_get st.fs hd = some f ∧
        ((st.fs.inodes f.inode).length = 0 ∨
          ∃ k, k * PGSIZE < (st.fs.inodes f.inode).length ∧
            (page_table_entry_search (st.vm.threads cur).page_table
              (ptr_add data (k * PGSIZE))).isSome = true)) :
    ∃ st1, mmap st cur fd data = some (-1, st1) ∧ st1.vm = st.vm ∧
      st1.mmap_list = st.mmap_list := by
  unfold mmap
  by_cases h1 : fd < 2
  · exact ⟨st, by rw [if_pos h1], rfl, rfl⟩
  rw [if_neg h1]
  by_cases h2 : data = 0 ∨ data % PGSIZE ≠ 0
  · exact ⟨st, by rw [if_pos h2], rfl, rfl⟩
  rw [if_neg h2]
  rcases h with h | h | h | h | ⟨hd, f, hf, hg, h⟩
  · exact absurd h h1
  · exact absurd (Or.inl h) h2
  · exact absurd (Or.inr h) h2
  · exact ⟨st, by rw [h], rfl, rfl⟩
  · obtain ⟨fs1, hre, _, _, _, hlen⟩ := file_reopen_spec st.fs hd f hg
    simp only [hf, hre, hlen]
    rcases h with h | ⟨k, hk, hs⟩
    · exact ⟨{ st with fs := fs1 }, by rw [if_pos h], rfl, rfl⟩
    · by_cases h0 : (st.fs.inodes f.inode).length = 0
      · exact ⟨{ st with fs := fs1 }, by rw [if_pos h0], rfl, rfl⟩
      · rw [if_neg h0]
        have hov : mmap_overlap (st.vm.threads cur).page_table data
            (page_count (st.fs.inodes f.inode).length) = true :=
          (mmap_overlap_iff _ _ _).2 ⟨k, (page_count_lt _ _).2 hk, hs⟩
        exact ⟨{ st with fs := fs1 }, by rw [if_pos hov], rfl, rfl⟩

theorem mmap_rejects_witness :
    ((get_thread_file (sys_read_only.owned_files 1) 2).bind (fun f => f.file) = some 0 ∧
      file_get sys_read_only.fs 0 = some (vm_file.mk 0 0) ∧
      0 * PGSIZE < (sys_read_only.fs.inodes 0).length ∧
      (page_table_entry_search (sys_read_only.vm.threads 1).page_table
        (ptr_add 0x10000 (0 * PGSIZE))).isSome = true) ∧
    ∃ st1, mmap sys_read_only 1 2 0x10000 = some (-1, st1) ∧ st1.vm = sys_read_only.vm ∧
      st1.mmap_list = sys_read_only.mmap_list :=
  ⟨⟨by decide, rfl, by decide, by decide⟩,
    mmap_rejects sys_read_only 1 2 0x10000
      (Or.inr (Or.inr (Or.inr (Or.inr
        ⟨0, vm_file.mk 0 0, by decide, rfl, Or.inr ⟨0, by decide, by decide⟩⟩))))⟩


theorem set_page_table_twice (vm : vm_state) (t : Nat) (a b : List page_table_entry) :
    set_page_table (set_page_table vm t a) t b = set_page_table vm t b := by
  simp [set_page_table, Function.update_idem]

theorem set_page_table_get (vm : vm_state) (t : Nat) (a : List page_table_entry) :
    ((set_page_table vm t a).threads t).page_table = a := by
  simp [set_page_table]

theorem set_page_table_pagedir (vm : vm_state) (t u : Nat) (a : List page_table_entry) :
    ((set_page_table vm t a).threads u).pagedir = (vm.threads u).pagedir := by
  unfold set_page_table
  by_cases h : u = t
  · subst h; simp
  · simp [Function.update_noteq h]

theorem mmap_entry_for_key (file data size ofs : Nat) :
    (mmap_entry_for file data size ofs).virtual_page = ptr_add data ofs := rfl

theorem mmap_entries_search_none (file data size lo m v : Nat)
    (h : ∀ k, lo ≤ k → k < lo + m → ptr_add data (k * PGSIZE) ≠ v) :
    ∀ e ∈ ((List.range' lo m).map (fun k => mmap_entry_for file data size (k * PGSIZE))).reverse,
      (e.virtual_page == v) = false := by
  intro e he
  simp only [List.mem_reverse, List.mem_map, List.mem_range'_1] at he
  obtain ⟨k, ⟨hk1, hk2⟩, rfl⟩ := he
  simpa [mmap_entry_for_key] using h k hk1 hk2

theorem search_append_none (l1 l2 : List page_table_entry) (v : Nat)
    (h : ∀ e ∈ l1, (e.virtual_page == v) = false) :
    page_table_entry_search (l1 ++ l2) v = page_table_entry_search l2 v := by
  unfold page_table_entry_search
  rw [List.find?_append]
  have : l1.find? (fun e => e.virtual_page == v) = none := by
    rw [List.find?_eq_none]
    intro e he
    simp [h e he]
  rw [this]; rfl

theorem page_key_ne (data n j k : Nat) (hn : n * PGSIZE ≤ 2 ^ 32) (hj : j < n) (hk : k < n)
    (hjk : k ≠ j) : ptr_add data (k * PGSIZE) ≠ ptr_add data (j * PGSIZE) := by
  intro h
  have h1 : k * PGSIZE < 2 ^ 32 := by
    have : k * PGSIZE < n * PGSIZE := Nat.mul_lt_mul_of_pos_right hk (by decide)
    omega
  have h2 : j * PGSIZE < 2 ^ 32 := by
    have : j * PGSIZE < n * PGSIZE := Nat.mul_lt_mul_of_pos_right hj (by decide)
    omega
  have := ptr_add_inj data _ _ h1 h2 h
  exact hjk (Nat.eq_of_mul_eq_mul_right (by decide : 0 < PGSIZE) this)

theorem mmap_install_eq (file data size : Nat) (pt : List page_table_entry) (N : Nat)
    (hN : N * PGSIZE ≤ 2 ^ 32)
    (hfree : ∀ k, k < N → page_table_entry_search pt (ptr_add data (k * PGSIZE)) = none) :
    ∀ n, n ≤ N → mmap_install file data size pt n
      = ((List.range' 0 n).map (fun k => mmap_entry_for file data size (k * PGSIZE))).reverse
          ++ pt := by
  intro n
  induction n with
  | zero => intro _; simp [mmap_install]
  | succ n ih =>
    intro hn
    have hs : page_table_entry_search
        (((List.range' 0 n).map (fun k => mmap_entry_for file data size (k * PGSIZE))).reverse
          ++ pt) (ptr_add data (n * PGSIZE)) = none := by
      rw [search_append_none _ _ _ (mmap_entries_search_none file data size 0 n _ (by
        intro k _ hk
        exact page_key_ne data N n k hN (by omega) (by omega) (by omega)))]
      exact hfree n (by omega)
    simp only [mmap_install]
    rw [ih (by omega)]
    unfold hash_insert
    rw [mmap_entry_for_key, hs]
    simp [List.range'_concat]

theorem munmap_find_last (l : List mmap_entry) (m : mmap_entry) :
    munmap_find (l ++ [m]) m.id = some (l.length, m) := by
  unfold munmap_find
  rw [List.enum_append, List.foldl_append]
  simp [List.enumFrom]

theorem munmap_loop_untouched (cur : Nat) (me : mmap_entry) (size : Nat) (st : sys_state)
    (pt : List page_table_entry) (N : Nat) (hN : N * PGSIZE ≤ 2 ^ 32) :
    ∀ j, j ≤ N →
      munmap_loop cur me size
        (sys_state.mk (set_page_table st.vm cur
          (((List.range' 0 N).map (fun k => mmap_entry_for me.file me.va size (k * PGSIZE))).reverse
            ++ pt)) st.fs st.mmap_list st.owned_files) j
      = some (sys_state.mk (set_page_table st.vm cur
          (((List.range' j (N - j)).map
            (fun k => mmap_entry_for me.file me.va size (k * PGSIZE))).reverse ++ pt))
          st.fs st.mmap_list st.owned_files) := by
  intro j
  induction j with
  | zero => intro _; simp [munmap_loop]
  | succ j ih =>
    intro hj
    simp only [munmap_loop]
    rw [ih (by omega)]
    have hsplit : List.range' j (N - j) = j :: List.range' (j + 1) (N - (j + 1)) := by
      have : N - j = (N - (j + 1)) + 1 := by omega
      rw [this, List.range'_succ]
    have hnone := mmap_entries_search_none me.file me.va size (j + 1) (N - (j + 1))
      (ptr_add me.va (j * PGSIZE)) (by
        intro k hk1 hk2
        exact page_key_ne me.va N j k hN (by omega) (by omega) (by omega))
    simp only [munmap_page, set_page_table_get]
    rw [hsplit]
    simp only [List.map_cons, List.reverse_cons, List.append_assoc, List.singleton_append]
    rw [search_append_none _ _ _ hnone]
    have hs : page_table_entry_search
        (mmap_entry_for me.file me.va size (j * PGSIZE) :: pt) (ptr_add me.va (j * PGSIZE))
        = some (mmap_entry_for me.file me.va size (j * PGSIZE)) := by
      simp [page_table_entry_search, mmap_entry_for_key]
    rw [hs]
    have hst : (mmap_entry_for me.file me.va size (j * PGSIZE)).status = pte_status.MMAP := rfl
    simp only [hst, set_page_table_twice, mmap_entry_for_key]
    congr 3
    unfold hash_delete
    rw [set_page_table_get, List.eraseP_append_right _ (by
      intro e he
      rw [hnone e he]; simp)]
    simp [mmap_entry_for_key]

theorem set_page_table_self (vm : vm_state) (t : Nat) :
    set_page_table vm t (vm.threads t).page_table = vm := by
  unfold set_page_table
  have : Function.update vm.threads t { vm.threads t with page_table := (vm.threads t).page_table }
      = vm.threads := Function.update_eq_self t vm.threads
  rw [this]

/-- C15: a successful `mmap` directly followed by `munmap` of the identifier it returned
(no page of the mapping was touched in between) makes no call of `file_write_at`, leaves the
bytes of every file as they were, and restores the supplemental page table and the mapping
list of the process, indeed its whole memory-management state, to what they were before the
`mmap`. -/
theorem mmap_munmap_restores (st : sys_state) (cur : Nat) (fd : Int) (data : Nat) (id : Int)
    (st1 : sys_state) (hlen : ∀ i, (st.fs.inodes i).length < 2 ^ 31)
    (hm : mmap st cur fd data = some (id, st1)) (hid : id ≠ -1) :
    ∃ st2, munmap st1 cur id = some st2 ∧
      (st2.vm.threads cur).page_table = (st.vm.threads cur).page_table ∧
      st2.mmap_list cur = st.mmap_list cur ∧ st2.vm = st.vm ∧
      st2.fs.write_cnt = st.fs.write_cnt ∧ st2.fs.inodes = st.fs.inodes := by
  unfold mmap at hm
  by_cases h1 : fd < 2
  · rw [if_pos h1] at hm; simp only [Option.some.injEq, Prod.mk.injEq] at hm; exact absurd hm.1.symm hid
  rw [if_neg h1] at hm
  by_cases h2 : data = 0 ∨ data % PGSIZE ≠ 0
  · rw [if_pos h2] at hm; simp only [Option.some.injEq, Prod.mk.injEq] at hm; exact absurd hm.1.symm hid
  rw [if_neg h2] at hm
  cases hf : (get_thread_file (st.owned_files cur) fd).bind (fun f => f.file) with
  | none => rw [hf] at hm; simp only [Option.some.injEq, Prod.mk.injEq] at hm; exact absurd hm.1.symm hid
  | some hd =>
    rw [hf] at hm
    cases hg : file_get st.fs hd with
    | none => simp [file_reopen, hg] at hm
    | some f =>
      obtain ⟨fs1, hre, hg1, hin, hwc, hl⟩ := file_reopen_spec st.fs hd f hg
      simp only [hre, hl] at hm
      by_cases h0 : (st.fs.inodes f.inode).length = 0
      · rw [if_pos h0] at hm; simp only [Option.some.injEq, Prod.mk.injEq] at hm
        exact absurd hm.1.symm hid
      rw [if_neg h0] at hm
      cases hov : mmap_overlap (st.vm.threads cur).page_table data
          (page_count (st.fs.inodes f.inode).length) with
      | true =>
        rw [hov] at hm; simp only [if_true, Option.some.injEq, Prod.mk.injEq] at hm
        exact absurd hm.1.symm hid
      | false =>
        rw [hov] at hm
        simp only [Bool.false_eq_true, if_false, Option.some.injEq, Prod.mk.injEq] at hm
        obtain ⟨hid1, hst1⟩ := hm
        have hN : page_count (st.fs.inodes f.inode).length * PGSIZE ≤ 2 ^ 32 := by
          have := hlen f.inode
          unfold page_count
          show ((st.fs.inodes f.inode).length + 4096 - 1) / 4096 * 4096 ≤ 2 ^ 32
          omega
        have hfree : ∀ k, k < page_count (st.fs.inodes f.inode).length →
            page_table_entry_search (st.vm.threads cur).page_table (ptr_add data (k * PGSIZE))
              = none := by
          intro k hk
          cases hs : page_table_entry_search (st.vm.threads cur).page_table
              (ptr_add data (k * PGSIZE)) with
          | none => rfl
          | some e =>
            have := (mmap_overlap_iff (st.vm.threads cur).page_table data
              (page_count (st.fs.inodes f.inode).length)).2 ⟨k, hk, by rw [hs]; rfl⟩
            rw [hov] at this; exact absurd this (by decide)
        have hinst := mmap_install_eq st.fs.files.length data (st.fs.inodes f.inode).length
          (st.vm.threads cur).page_table _ hN hfree _ (Nat.le_refl _)
        rw [hinst] at hst1
        subst hst1
        have hloop := munmap_loop_untouched cur (mmap_entry.mk id st.fs.files.length data)
          (st.fs.inodes f.inode).length
          (sys_state.mk st.vm fs1 (Function.update st.mmap_list cur
            (st.mmap_list cur ++ [mmap_entry.mk id st.fs.files.length data])) st.owned_files)
          (st.vm.threads cur).page_table _ hN _ (Nat.le_refl _)
        simp only [Nat.sub_self, List.range'_zero, List.map_nil, List.reverse_nil,
          List.nil_append] at hloop
        have hfind := munmap_find_last (st.mmap_list cur) (mmap_entry.mk id st.fs.files.length data)
        have hne : (st.mmap_list cur ++ [mmap_entry.mk id st.fs.files.length data]).isEmpty
            = false := by
          cases st.mmap_list cur <;> rfl
        have hcl : file_get fs1 st.fs.files.length = some (vm_file.mk f.inode 0) := hg1
        unfold munmap
        simp only [Function.update_same, hne, Bool.false_eq_true, if_false, hid1, hfind, hl,
          hloop, file_close, hcl, set_page_table_self, set_page_table_get]
        refine ⟨_, rfl, rfl, ?_, rfl, hwc, hin⟩
        simp only [Function.update_same]
        rw [List.eraseIdx_append_of_length_le (Nat.le_refl _)]
        simp

theorem mmap_munmap_restores_witness :
    (∀ i, (sys_example.fs.inodes i).length < 2 ^ 31) ∧
    ∃ st1, mmap sys_example 1 2 0x10000 = some (1, st1) ∧ (1 : Int) ≠ -1 ∧
      ∃ st2, munmap st1 1 1 = some st2 ∧
        (st2.vm.threads 1).page_table = (sys_example.vm.threads 1).page_table ∧
        st2.mmap_list 1 = sys_example.mmap_list 1 ∧ st2.vm = sys_example.vm ∧
        st2.fs.write_cnt = sys_example.fs.write_cnt ∧ st2.fs.inodes = sys_example.fs.inodes :=
  ⟨fun _ => (by decide : [1, 2, 3].length < 2 ^ 31), _, rfl, by decide,
    mmap_munmap_restores sys_example 1 2 0x10000 1 _
      (fun _ => (by decide : [1, 2, 3].length < 2 ^ 31)) rfl (by decide)⟩

theorem int_wrap_small (z : Int) (h0 : 0 ≤ z) (h1 : z < 2 ^ 31) : int_wrap z = z := by
  obtain ⟨k, rfl⟩ := Int.eq_ofNat_of_zero_le h0
  have hk : k < 2 ^ 31 := by exact_mod_cast h1
  unfold int_wrap
  rw [int_to_u32_small k (by omega), size_to_int_small k hk]

/-- The identifiers of a mapping list increase along the list and lie between 1 and `b`. -/
theorem mmap_next_id_spec (l : List mmap_entry) (b : Nat) (hb : (b : Int) < 2 ^ 31 - 1)
    (hs : (l.map (fun m => m.id)).Pairwise (fun a c => a < c))
    (hr : ∀ m ∈ l, 1 ≤ m.id ∧ m.id ≤ (b : Int)) :
    1 ≤ mmap_next_id l ∧ mmap_next_id l ≤ (b : Int) + 1 ∧ ∀ m ∈ l, m.id < mmap_next_id l := by
  unfold mmap_next_id
  rcases List.eq_nil_or_concat l with rfl | ⟨l1, x, rfl⟩
  · simp
  · rw [List.concat_eq_append] at hs hr ⊢
    have hx := hr x (by simp)
    rw [List.getLast?_concat]
    simp only
    rw [int_wrap_small (x.id + 1) (by omega) (by omega)]
    refine ⟨by omega, by omega, ?_⟩
    intro m hm
    rw [List.map_append, List.pairwise_append] at hs
    rw [List.mem_append] at hm
    rcases hm with hm | hm
    · have := hs.2.2 m.id (List.mem_map_of_mem _ hm) x.id (by simp)
      omega
    · simp only [List.mem_singleton] at hm
      subst hm; omega

theorem munmap_frame_mmap_list (st st1 : sys_state) (cur : Nat) (me : mmap_entry)
    (pte : page_table_entry) (bytes ofs : Nat)
    (h : munmap_frame st cur me pte bytes ofs = some st1) :
    st1.mmap_list = st.mmap_list := by
  unfold munmap_frame at h
  simp only at h
  split at h
  · exact absurd h (by simp)
  · split at h
    · exact absurd h (by simp)
    · simp only [Option.some.injEq] at h; rw [← h]

theorem munmap_swap_mmap_list (st st1 : sys_state) (cur : Nat) (me : mmap_entry)
    (pte : page_table_entry) (ofs : Nat)
    (h : munmap_swap st cur me pte ofs = some st1) :
    st1.mmap_list = st.mmap_list := by
  unfold munmap_swap at h
  by_cases hd : pagedir_is_dirty (st.vm.threads cur).pagedir pte.virtual_page = true
  · rw [if_pos hd] at h
    cases hp : palloc_get_page st.vm 0 with
    | none => rw [hp] at h; exact absurd h (by simp)
    | some r =>
      obtain ⟨r1, vm1⟩ := r
      cases r1 with
      | none => rw [hp] at h; exact absurd h (by simp)
      | some temp_page =>
        rw [hp] at h
        simp only at h
        cases hsw : swap_in vm1.swap pte.swap_index (vm1.memory temp_page) with
        | none => rw [hsw] at h; exact absurd h (by simp)
        | some r2 =>
          obtain ⟨page, sw⟩ := r2
          rw [hsw] at h
          simp only at h
          cases hw : file_write_at st.fs me.file page PGSIZE ofs with
          | none => rw [hw] at h; exact absurd h (by simp)
          | some r3 =>
            obtain ⟨n, fs1⟩ := r3
            rw [hw] at h
            simp only at h
            cases hfr : palloc_free_page (set_memory { vm1 with swap := sw } temp_page page)
                (some temp_page) with
            | none => rw [hfr] at h; exact absurd h (by simp)
            | some vm3 =>
              rw [hfr] at h
              simp only [Option.some.injEq] at h; rw [← h]
  · rw [if_neg hd] at h
    simp only [Option.some.injEq] at h; rw [← h]

theorem munmap_page_mmap_list (st st1 : sys_state) (cur : Nat) (me : mmap_entry)
    (size ofs : Nat) (h : munmap_page st cur me size ofs = some st1) :
    st1.mmap_list = st.mmap_list := by
  unfold munmap_page at h
  simp only at h
  cases hs : page_table_entry_search (st.vm.threads cur).page_table (ptr_add me.va ofs) with
  | none => rw [hs] at h; simp only [Option.some.injEq] at h; rw [← h]
  | some pte =>
    rw [hs] at h
    simp only at h
    cases hst : pte.status with
    | ZERO => rw [hst] at h; simp only [Option.some.injEq] at h; rw [← h]
    | MMAP => rw [hst] at h; simp only [Option.some.injEq] at h; rw [← h]
    | FRAME =>
      rw [hst] at h
      simp only at h
      split at h
      · exact absurd h (by simp)
      · rename_i st2 h2
        simp only [Option.some.injEq] at h; rw [← h]
        exact munmap_frame_mmap_list st st2 _ _ _ _ _ h2
    | SWAP =>
      rw [hst] at h
      simp only at h
      split at h
      · exact absurd h (by simp)
      · rename_i st2 h2
        simp only [Option.some.injEq] at h; rw [← h]
        exact munmap_swap_mmap_list st st2 _ _ _ _ h2

theorem munmap_loop_mmap_list (cur : Nat) (me : mmap_entry) (size : Nat) (st : sys_state) :
    ∀ n st1, munmap_loop cur me size st n = some st1 → st1.mmap_list = st.mmap_list := by
  intro n
  induction n with
  | zero => intro st1 h; simp only [munmap_loop, Option.some.injEq] at h; rw [← h]
  | succ n ih =>
    intro st1 h
    simp only [munmap_loop] at h
    split at h
    · exact absurd h (by simp)
    · rename_i st2 h2
      rw [munmap_page_mmap_list _ _ _ _ _ _ h, ih st2 h2]

theorem munmap_mmap_list (st st1 : sys_state) (cur : Nat) (id : Int)
    (h : munmap st cur id = some st1) :
    ∀ t, (st1.mmap_list t).Sublist (st.mmap_list t) := by
  intro t
  unfold munmap at h
  split at h
  · simp only [Option.some.injEq] at h; rw [← h]
  · split at h
    · simp only [Option.some.injEq] at h; rw [← h]
    · split at h
      · exact absurd h (by simp)
      · split at h
        · exact absurd h (by simp)
        · rename_i st2 hloop
          split at h
          · exact absurd h (by simp)
          · simp only [Option.some.injEq] at h
            rw [← h]
            have hl := munmap_loop_mmap_list _ _ _ _ _ _ hloop
            simp only [hl]
            by_cases htc : t = cur
            · subst htc
              rw [Function.update_same]
              exact List.eraseIdx_sublist _ _
            · rw [Function.update_noteq htc]

theorem mmap_mmap_list (st st1 : sys_state) (cur : Nat) (fd : Int) (data : Nat) (id : Int)
    (h : mmap st cur fd data = some (id, st1)) :
    (id = -1 ∧ st1.mmap_list = st.mmap_list) ∨
    (id = mmap_next_id (st.mmap_list cur) ∧ ∃ file,
      st1.mmap_list = Function.update st.mmap_list cur
        (st.mmap_list cur ++ [mmap_entry.mk id file data])) := by
  unfold mmap at h
  split at h
  · simp only [Option.some.injEq, Prod.mk.injEq] at h; exact Or.inl ⟨h.1.symm, by rw [← h.2]⟩
  · split at h
    · simp only [Option.some.injEq, Prod.mk.injEq] at h; exact Or.inl ⟨h.1.symm, by rw [← h.2]⟩
    · split at h
      · simp only [Option.some.injEq, Prod.mk.injEq] at h
        exact Or.inl ⟨h.1.symm, by rw [← h.2]⟩
      · split at h
        · exact absurd h (by simp)
        · split at h
          · exact absurd h (by simp)
          · rename_i file fs1 _ _ size _
            simp only at h
            split at h
            · simp only [Option.some.injEq, Prod.mk.injEq] at h
              exact Or.inl ⟨h.1.symm, by rw [← h.2]⟩
            · split at h
              · simp only [Option.some.injEq, Prod.mk.injEq] at h
                exact Or.inl ⟨h.1.symm, by rw [← h.2]⟩
              · simp only [Option.some.injEq, Prod.mk.injEq] at h
                refine Or.inr ⟨h.1.symm, file, ?_⟩
                rw [← h.2, ← h.1]

theorem map_step_inv (b : Nat) (st st1 : sys_state) (op : map_op)
    (hb : (b : Int) < 2 ^ 31 - 1) (h : mmap_ids_inv b st) (hs : map_step st op = some st1) :
    mmap_ids_inv (b + 1) st1 := by
  cases op with
  | munmap cur id =>
    have hsub := munmap_mmap_list st st1 cur id hs
    intro t
    refine ⟨(h t).1.sublist ((hsub t).map _), ?_⟩
    intro m hm
    have := (h t).2 m ((hsub t).subset hm)
    push_cast
    omega
  | mmap cur fd data =>
    simp only [map_step] at hs
    cases hm : mmap st cur fd data with
    | none => rw [hm] at hs; exact absurd hs (by simp)
    | some r =>
      obtain ⟨id, st2⟩ := r
      rw [hm] at hs
      simp only [Option.map_some', Option.some.injEq] at hs
      subst hs
      rcases mmap_mmap_list st st2 cur fd data id hm with ⟨_, hl⟩ | ⟨hid, file, hl⟩
      · intro t
        rw [hl]
        refine ⟨(h t).1, ?_⟩
        intro m hm
        have := (h t).2 m hm
        push_cast
        omega
      · have hn := mmap_next_id_spec (st.mmap_list cur) b hb (h cur).1 (h cur).2
        rw [← hid] at hn
        intro t
        rw [hl]
        by_cases htc : t = cur
        · subst htc
          rw [Function.update_same]
          refine ⟨?_, ?_⟩
          · rw [List.map_append, List.pairwise_append]
            refine ⟨(h t).1, by simp, ?_⟩
            intro a ha c hc
            simp only [List.map_cons, List.map_nil, List.mem_singleton] at hc
            subst hc
            obtain ⟨m, hm1, rfl⟩ := List.mem_map.1 ha
            exact hn.2.2 m hm1
          · intro m hm1
            rw [List.mem_append] at hm1
            rcases hm1 with hm1 | hm1
            · have := (h t).2 m hm1
              push_cast
              omega
            · simp only [List.mem_singleton] at hm1
              subst hm1
              push_cast
              exact ⟨hn.1, hn.2.1⟩
        · rw [Function.update_noteq htc]
          refine ⟨(h t).1, ?_⟩
          intro m hm1
          have := (h t).2 m hm1
          push_cast
          omega

theorem map_run_inv (ops : List map_op) : ∀ (b : Nat) (st st1 : sys_state),
    ((b + ops.length : Nat) : Int) < 2 ^ 31 - 1 → mmap_ids_inv b st →
    map_run st ops = some st1 → mmap_ids_inv (b + ops.length) st1 := by
  induction ops with
  | nil =>
    intro b st st1 _ h hr
    simp only [map_run, Option.some.injEq] at hr
    subst hr; exact h
  | cons op ops ih =>
    intro b st st1 hb h hr
    simp only [map_run] at hr
    cases hs : map_step st op with
    | none => rw [hs] at hr; exact absurd hr (by simp)
    | some st2 =>
      rw [hs] at hr
      simp only at hr
      have h2 := map_step_inv b st st2 op (by
        simp only [List.length_cons] at hb; push_cast at hb ⊢; omega) h hs
      have := ih (b + 1) st2 st1 (by
        simp only [List.length_cons] at hb; push_cast at hb ⊢; omega) h2 hr
      simpa [Nat.add_assoc, Nat.add_comm 1] using this

/-- C17 (as amended): within one process, whatever `mmap` and `munmap` calls came before, a
successful `mmap` returns an identifier that is at least 1 and strictly greater than the
identifier of every mapping the process still has mapped at the time of the call. -/
theorem mmap_id_above_active (st0 : sys_state) (ops : List map_op) (cur : Nat) (fd : Int)
    (data : Nat) (h0 : ∀ t, st0.mmap_list t = []) (hlen : ops.length < 2 ^ 31 - 1) :
    ∀ st id st1, map_run st0 ops = some st → mmap st cur fd data = some (id, st1) → id ≠ -1 →
      1 ≤ id ∧ ∀ m ∈ st.mmap_list cur, m.id < id := by
  intro st id st1 hr hm hid
  have hinv0 : mmap_ids_inv 0 st0 := by
    intro t; rw [h0 t]; simp
  have hinv := map_run_inv ops 0 st0 st (by push_cast; omega) hinv0 hr
  rcases mmap_mmap_list st st1 cur fd data id hm with ⟨h1, _⟩ | ⟨h1, _⟩
  · exact absurd h1 hid
  · have hn := mmap_next_id_spec (st.mmap_list cur) (0 + ops.length) (by push_cast; omega)
      (hinv cur).1 (hinv cur).2
    rw [← h1] at hn
    exact ⟨hn.1, hn.2.2⟩

theorem mmap_id_above_active_witness :
    (∀ t, sys_example.mmap_list t = []) ∧
    [map_op.mmap 1 2 0x10000, map_op.mmap 1 2 0x20000, map_op.munmap 1 1].length < 2 ^ 31 - 1 ∧
    ∀ st id st1,
      map_run sys_example [map_op.mmap 1 2 0x10000, map_op.mmap 1 2 0x20000, map_op.munmap 1 1]
        = some st →
      mmap st 1 2 0x30000 = some (id, st1) → id ≠ -1 →
      1 ≤ id ∧ ∀ m ∈ st.mmap_list 1, m.id < id :=
  ⟨fun _ => rfl, by decide,
    mmap_id_above_active sys_example
      [map_op.mmap 1 2 0x10000, map_op.mmap 1 2 0x20000, map_op.munmap 1 1] 1 2 0x30000
      (fun _ => rfl) (by decide)⟩

/-- C17 (as stated) fails: thread 1 maps a file and gets identifier 1, unmaps it, maps again
and gets identifier 1 again, which is not greater than the identifier returned before. -/
theorem mmap_id_reused :
    ∃ st1 st2 st3, mmap sys_example 1 2 0x10000 = some (1, st1) ∧
      munmap st1 1 1 = some st2 ∧ mmap st2 1 2 0x10000 = some (1, st3) :=
  ⟨_, _, _, rfl, rfl, rfl⟩


/-- C12 fails in the code: the page-table entry of the page at `0x10000` is not writable,
`page_load` succeeds on it and maps the page writable. -/
theorem page_load_ignores_writable :
    (page_table_entry_search (sys_read_only.vm.threads 1).page_table 0x10000).map
        (fun e => (e.status, e.writable)) = some (pte_status.ZERO, false) ∧
    (page_load 2 true sys_read_only 1 0x10000).map
        (fun r => (r.1, ((r.2.vm.threads 1).pagedir 0x10000).map
          (fun e => (e.present, e.writable))))
      = some (true, some (true, true)) := by
  decide

/-! ## Effect of `frame_get_page` -/

theorem swap_out_spec (st : swap_state) (P : List Nat)
    (hsize : st.swap_bitmap.length * BLOCKS_PER_PAGE ≤ st.swap_block.size)
    (h32 : st.swap_block.size < 2 ^ 32) (hfree : true ∈ st.swap_bitmap) :
    ∃ (k : Nat) (dev1 : block),
      swap_out st P = some ((k : Int), swap_state.mk dev1 (st.swap_bitmap.set k false)) ∧
      k < st.swap_bitmap.length ∧ st.swap_bitmap[k]? = some true ∧
      dev1.size = st.swap_block.size ∧
      (∀ i, i < BLOCKS_PER_PAGE → dev1.data (k * BLOCKS_PER_PAGE + i) = page_sector P i) ∧
      (∀ s, (s < k * BLOCKS_PER_PAGE ∨ k * BLOCKS_PER_PAGE + BLOCKS_PER_PAGE ≤ s) →
        dev1.data s = st.swap_block.data s) := by
  obtain ⟨hk, hkt, _⟩ := bitmap_scan_free st.swap_bitmap hfree
  generalize hkdef : bitmap_scan st.swap_bitmap = k at hk hkt
  have hB : BLOCKS_PER_PAGE = 8 := by decide
  have hk8 : k * BLOCKS_PER_PAGE + BLOCKS_PER_PAGE ≤ st.swap_block.size := by
    have : (k + 1) * BLOCKS_PER_PAGE ≤ st.swap_bitmap.length * BLOCKS_PER_PAGE :=
      Nat.mul_le_mul_right _ hk
    rw [Nat.add_mul, Nat.one_mul] at this
    omega
  have hk31 : k < 2 ^ 31 := by
    rw [hB] at hk8
    omega
  obtain ⟨dev1, h1, h2, h3, h4⟩ :=
    swap_out_loop_spec st.swap_block k P hk8 h32 BLOCKS_PER_PAGE (le_refl _)
  refine ⟨k, dev1, ?_, hk, hkt, h2, h3, h4⟩
  unfold swap_out
  simp only
  rw [hkdef, size_to_int_small k hk31, h1, int_to_u32_small k (by omega)]
  simp only [bitmap_set]
  rw [if_pos hk]

theorem swap_out_full (st : swap_state) (P : List Nat)
    (hfull : true ∉ st.swap_bitmap) (hsize : st.swap_block.size ≤ 2 ^ 32 - 8) :
    swap_out st P = none := by
  have hf : ∀ x ∈ st.swap_bitmap, x = false := by
    intro x hx
    cases x with
    | false => rfl
    | true => exact absurd hx hfull
  unfold swap_out
  simp only
  rw [bitmap_scan_full _ hf]
  have hB : BLOCKS_PER_PAGE = 7 + 1 := by decide
  rw [hB, swap_out_loop_panics st.swap_block P hsize 7]

theorem swap_in_spec (st : swap_state) (k : Nat) (P dest : List Nat)
    (hsize : st.swap_bitmap.length * BLOCKS_PER_PAGE ≤ st.swap_block.size)
    (h32 : st.swap_block.size < 2 ^ 32) (hk : k < st.swap_bitmap.length)
    (hP : swap_slot_holds st k P) (hd : dest.length = PGSIZE) :
    swap_in st (k : Int) dest = some (P, { st with swap_bitmap := st.swap_bitmap.set k true }) := by
  have hB : BLOCKS_PER_PAGE = 8 := by decide
  have hk8 : k * BLOCKS_PER_PAGE + BLOCKS_PER_PAGE ≤ st.swap_block.size := by
    have : (k + 1) * BLOCKS_PER_PAGE ≤ st.swap_bitmap.length * BLOCKS_PER_PAGE :=
      Nat.mul_le_mul_right _ hk
    rw [Nat.add_mul, Nat.one_mul] at this
    omega
  have hin := swap_in_loop_spec st.swap_block k P dest hP.1 hk8 h32 hP.2 BLOCKS_PER_PAGE
    (le_refl _)
  have hfull : List.take (BLOCKS_PER_PAGE * BLOCK_SECTOR_SIZE) P
      ++ List.drop (BLOCKS_PER_PAGE * BLOCK_SECTOR_SIZE) dest = P := by
    have e : BLOCKS_PER_PAGE * BLOCK_SECTOR_SIZE = PGSIZE := by decide
    rw [e, List.take_of_length_le (by rw [hP.1]), List.drop_eq_nil_of_le (by omega),
      List.append_nil]
  rw [hfull] at hin
  unfold swap_in
  rw [hin]
  simp only
  rw [int_to_u32_small k (by rw [hB] at hk8; omega)]
  simp only [bitmap_set]
  rw [if_pos hk]

theorem pagedir_cleared_refl (pd : Nat → Option pagedir_entry) : pagedir_cleared pd pd := by
  intro v
  exact ⟨fun h => h, fun e2 h => ⟨e2, h, rfl, rfl, rfl, fun h => h, fun h => h⟩⟩

theorem pagedir_cleared_trans (pd3 pd2 pd : Nat → Option pagedir_entry)
    (h32 : pagedir_cleared pd3 pd2) (h21 : pagedir_cleared pd2 pd) : pagedir_cleared pd3 pd := by
  intro v
  refine ⟨fun h => (h32 v).1 ((h21 v).1 h), ?_⟩
  intro e3 h3
  obtain ⟨e2, h2, a1, a2, a3, a4, a5⟩ := (h32 v).2 e3 h3
  obtain ⟨e, h1, b1, b2, b3, b4, b5⟩ := (h21 v).2 e2 h2
  exact ⟨e, h1, a1.trans b1, a2.trans b2, a3.trans b3, fun h => b4 (a4 h), fun h => b5 (a5 h)⟩

theorem pagedir_set_accessed_cleared (pd : Nat → Option pagedir_entry) (v : Nat) :
    pagedir_cleared (pagedir_set_accessed pd v false) pd := by
  unfold pagedir_set_accessed
  cases hv : pd v with
  | none => exact pagedir_cleared_refl pd
  | some e =>
    intro w
    by_cases hw : w = v
    · subst hw
      simp only [Function.update_same, hv]
      refine ⟨fun h => absurd h (by simp), ?_⟩
      intro e2 h2
      simp only [Option.some.injEq] at h2
      subst h2
      exact ⟨e, rfl, rfl, rfl, rfl, fun h => h, fun h => absurd h (by simp)⟩
    · simp only [Function.update_noteq hw]
      exact pagedir_cleared_refl pd w

theorem pagedir_clear_page_cleared (pd : Nat → Option pagedir_entry) (v : Nat) :
    pagedir_cleared (pagedir_clear_page pd v) pd := by
  unfold pagedir_clear_page
  cases hv : pd v with
  | none => exact pagedir_cleared_refl pd
  | some e =>
    intro w
    by_cases hw : w = v
    · subst hw
      simp only [Function.update_same, hv]
      refine ⟨fun h => absurd h (by simp), ?_⟩
      intro e2 h2
      simp only [Option.some.injEq] at h2
      subst h2
      exact ⟨e, rfl, rfl, rfl, rfl, fun h => absurd h (by simp), fun h => h⟩
    · simp only [Function.update_noteq hw]
      exact pagedir_cleared_refl pd w

theorem frame_evict_scan_cleared (l : List frame_table_entry) :
    ∀ (pd : Nat → Option pagedir_entry) (cand : Option frame_table_entry),
      pagedir_cleared (frame_evict_scan pd cand l).1 pd := by
  induction l with
  | nil => intro pd cand; exact pagedir_cleared_refl pd
  | cons fte rest ih =>
    intro pd cand
    simp only [frame_evict_scan]
    split
    · exact pagedir_cleared_trans _ _ _ (ih _ _) (pagedir_set_accessed_cleared pd _)
    · exact ih _ _

theorem frame_evict_select_cleared (pd : Nat → Option pagedir_entry)
    (ft : List frame_table_entry) : pagedir_cleared (frame_evict_select pd ft).1 pd := by
  unfold frame_evict_select
  simp only
  split
  · exact frame_evict_scan_cleared ft pd none
  · exact pagedir_cleared_trans _ _ _ (frame_evict_scan_cleared ft _ none)
      (frame_evict_scan_cleared ft pd none)

theorem search_map_store_other (pt : List page_table_entry) (v w : Nat)
    (pte1 : page_table_entry) (h1 : pte1.virtual_page = v) (hw : w ≠ v) :
    page_table_entry_search (pt.map (fun e => if e.virtual_page == v then pte1 else e)) w
      = page_table_entry_search pt w := by
  unfold page_table_entry_search
  induction pt with
  | nil => rfl
  | cons e rest ih =>
    simp only [List.map_cons, List.find?_cons]
    by_cases he : e.virtual_page = v
    · have h2 : (e.virtual_page == v) = true := by simpa using he
      have h3 : (pte1.virtual_page == w) = false := by
        rw [h1]; simpa using fun h => hw h.symm
      have h4 : (e.virtual_page == w) = false := by
        rw [he]; simpa using fun h => hw h.symm
      simp only [h2, if_true, h3, h4]
      exact ih
    · have h2 : (e.virtual_page == v) = false := by simpa using he
      simp only [h2, Bool.false_eq_true, if_false]
      cases h5 : (e.virtual_page == w) with
      | true => rfl
      | false => exact ih

theorem search_map_store_same (pt : List page_table_entry) (v : Nat)
    (pte pte1 : page_table_entry) (h1 : pte1.virtual_page = v)
    (hs : page_table_entry_search pt v = some pte) :
    page_table_entry_search (pt.map (fun e => if e.virtual_page == v then pte1 else e)) v
      = some pte1 := by
  unfold page_table_entry_search at hs ⊢
  induction pt with
  | nil => simp at hs
  | cons e rest ih =>
    simp only [List.map_cons, List.find?_cons] at hs ⊢
    by_cases he : e.virtual_page = v
    · have h2 : (e.virtual_page == v) = true := by simpa using he
      have h3 : (pte1.virtual_page == v) = true := by simpa using h1
      simp only [h2, if_true, h3]
    · have h2 : (e.virtual_page == v) = false := by simpa using he
      simp only [h2, Bool.false_eq_true, if_false] at hs ⊢
      exact ih hs

theorem search_hash_insert (pt : List page_table_entry) (e pte : page_table_entry) (v : Nat)
    (h : page_table_entry_search pt v = some pte) :
    page_table_entry_search (hash_insert pt e) v = some pte := by
  unfold hash_insert
  cases hs : page_table_entry_search pt e.virtual_page with
  | some _ => exact h
  | none =>
    simp only
    unfold page_table_entry_search at h hs ⊢
    rw [List.find?_cons]
    cases hev : (e.virtual_page == v) with
    | true =>
      have : e.virtual_page = v := by simpa using hev
      rw [this, h] at hs
      cases hs
    | false => exact h

theorem frame_free_user (st : vm_state) (p : Nat)
    (hk : page_from_pool st.kernel_pool p = false)
    (hu : page_from_pool st.user_pool p = true)
    (hused : st.user_pool.used_map[p - st.user_pool.base]? = some true) :
    frame_free st (some p) = some (vm_state.mk (frame_table_drop st.frame_table (some p))
      st.kernel_pool
      (palloc_pool.mk st.user_pool.base (st.user_pool.used_map.set (p - st.user_pool.base) false))
      st.threads st.memory st.swap) := by
  unfold frame_free palloc_free_page
  simp only [hk, Bool.false_eq_true, if_false, hu, if_true, palloc_pool_free, hused]

theorem frame_evict_victim_eq
    (gp : vm_state → Nat → Nat → Nat → Option (Option Nat × vm_state))
    (st1 : vm_state) (cur vp : Nat) (fte : frame_table_entry) (k : Int) (sw : swap_state)
    (pte : page_table_entry)
    (hk : page_from_pool st1.kernel_pool fte.physical_page = false)
    (hu : page_from_pool st1.user_pool fte.physical_page = true)
    (hused : st1.user_pool.used_map[fte.physical_page - st1.user_pool.base]? = some true)
    (hsw : swap_out st1.swap (st1.memory fte.physical_page) = some (k, sw))
    (hpte : page_table_entry_search (st1.threads fte.owner).page_table fte.virtual_page
      = some pte) :
    frame_evict_victim gp st1 cur vp fte
      = gp (frame_evicted st1 fte k sw pte) cur (PAL_USER ||| PAL_ZERO) vp := by
  unfold frame_evict_victim
  simp only
  have hsw2 : swap_out (set_pagedir st1 fte.owner
      (pagedir_clear_page (st1.threads fte.owner).pagedir fte.virtual_page)).swap
      ((set_pagedir st1 fte.owner
        (pagedir_clear_page (st1.threads fte.owner).pagedir fte.virtual_page)).memory
          fte.physical_page) = some (k, sw) := hsw
  rw [hsw2]
  simp only
  have hpte2 : page_table_entry_search
      ((set_pagedir st1 fte.owner
        (pagedir_clear_page (st1.threads fte.owner).pagedir fte.virtual_page)).threads
          fte.owner).page_table fte.virtual_page = some pte := by
    simp only [set_pagedir, Function.update_same]
    exact hpte
  have hpte3 : page_table_entry_search
      ((vm_state.mk (set_pagedir st1 fte.owner
          (pagedir_clear_page (st1.threads fte.owner).pagedir fte.virtual_page)).frame_table
        (set_pagedir st1 fte.owner
          (pagedir_clear_page (st1.threads fte.owner).pagedir fte.virtual_page)).kernel_pool
        (set_pagedir st1 fte.owner
          (pagedir_clear_page (st1.threads fte.owner).pagedir fte.virtual_page)).user_pool
        (set_pagedir st1 fte.owner
          (pagedir_clear_page (st1.threads fte.owner).pagedir fte.virtual_page)).threads
        (set_pagedir st1 fte.owner
          (pagedir_clear_page (st1.threads fte.owner).pagedir fte.virtual_page)).memory
        sw).threads fte.owner).page_table fte.virtual_page = some pte := hpte2
  rw [hpte3]
  simp only [frame_free, palloc_free_page, set_page_table, set_pagedir, hk, hu,
    palloc_pool_free, hused, Bool.false_eq_true, if_false, if_true]
  rfl

theorem frame_get_page_direct_eq (st : vm_state) (cur vp idx f : Nat)
    (hidx : st.user_pool.used_map.findIdx? (fun b => !b) = some idx) :
    frame_get_page (f + 1) st cur (PAL_USER ||| PAL_ZERO) vp
      = some (some (st.user_pool.base + idx),
          frame_table_entry_set
            (vm_state.mk st.frame_table st.kernel_pool
              (palloc_pool.mk st.user_pool.base (st.user_pool.used_map.set idx true)) st.threads
              (Function.update st.memory (st.user_pool.base + idx) (List.replicate PGSIZE 0))
              st.swap)
            cur (st.user_pool.base + idx) vp) := by
  have h2 : (PAL_USER ||| PAL_ZERO).testBit 2 = true := by decide
  have h1 : (PAL_USER ||| PAL_ZERO).testBit 1 = true := by decide
  simp only [frame_get_page, palloc_get_page, h2, h1, if_true, hidx]

theorem frame_table_entry_set_pagedir (st : vm_state) (cur pp vp t : Nat) :
    ((frame_table_entry_set st cur pp vp).threads t).pagedir = (st.threads t).pagedir := by
  unfold frame_table_entry_set
  simp only
  exact set_page_table_pagedir _ _ _ _

theorem frame_table_entry_set_search (st : vm_state) (cur pp vp t v : Nat)
    (pte : page_table_entry)
    (h : page_table_entry_search (st.threads t).page_table v = some pte) :
    page_table_entry_search ((frame_table_entry_set st cur pp vp).threads t).page_table v
      = some pte := by
  unfold frame_table_entry_set
  simp only
  by_cases ht : t = cur
  · subst ht
    rw [set_page_table_get]
    exact search_hash_insert _ _ _ _ h
  · simp only [set_page_table, Function.update_noteq ht]
    exact h

theorem findIdx_free_of_mem (l : List Bool) (h : ∃ b ∈ l, b = false) :
    ∃ idx, l.findIdx? (fun b => !b) = some idx := by
  cases hf : l.findIdx? (fun b => !b) with
  | some idx => exact ⟨idx, rfl⟩
  | none =>
    obtain ⟨b, hb, hbf⟩ := h
    have := List.findIdx?_eq_none_iff.1 hf b hb
    subst hbf
    simp at this

theorem frame_evicted_spec (st1 : vm_state) (fte : frame_table_entry) (k : Int)
    (sw : swap_state) (pte : page_table_entry) (h : vm_inv st1) (hmem : fte ∈ st1.frame_table)
    (hpte : page_table_entry_search (st1.threads fte.owner).page_table fte.virtual_page
      = some pte) :
    vm_inv (frame_evicted st1 fte k sw pte) ∧
    (∃ idx, (frame_evicted st1 fte k sw pte).user_pool.used_map.findIdx? (fun b => !b)
      = some idx) ∧
    (∀ t, pagedir_cleared ((frame_evicted st1 fte k sw pte).threads t).pagedir
      (st1.threads t).pagedir) ∧
    (∀ t v p, page_table_entry_search (st1.threads t).page_table v = some p →
      ¬(fte.owner = t ∧ fte.virtual_page = v) →
      page_table_entry_search ((frame_evicted st1 fte k sw pte).threads t).page_table v
        = some p) ∧
    page_table_entry_search ((frame_evicted st1 fte k sw pte).threads fte.owner).page_table
      fte.virtual_page
      = some { pte with status := pte_status.SWAP, swap_index := k, physical_page := none } := by
  obtain ⟨hu, hused⟩ := h.used fte hmem
  have hkp : page_from_pool st1.kernel_pool fte.physical_page = false := by
    have hp := h.pools
    simp only [page_from_pool, Bool.and_eq_true, decide_eq_true_eq] at hu
    simp only [page_from_pool, Bool.and_eq_false_iff, decide_eq_false_iff_not]
    right; omega
  have hkey := search_some_key _ _ _ hpte
  have hX : vm_inv (set_page_table
      (vm_state.mk st1.frame_table st1.kernel_pool st1.user_pool
        (set_pagedir st1 fte.owner
          (pagedir_clear_page (st1.threads fte.owner).pagedir fte.virtual_page)).threads
        st1.memory sw) fte.owner
      (((set_pagedir st1 fte.owner
          (pagedir_clear_page (st1.threads fte.owner).pagedir fte.virtual_page)).threads
            fte.owner).page_table.map
        (fun e => if e.virtual_page == fte.virtual_page then
          { pte with status := pte_status.SWAP, swap_index := k, physical_page := none }
          else e))) := by
    apply set_page_table_keys
    · exact swap_change_inv _ sw (set_pagedir_inv st1 _ _ h)
    · exact map_store_keys _ _ _ hkey
  have hboth : vm_inv (frame_evicted st1 fte k sw pte) ∧
      ∃ b ∈ (frame_evicted st1 fte k sw pte).user_pool.used_map, b = false := by
    generalize hXdef : set_page_table
      (vm_state.mk st1.frame_table st1.kernel_pool st1.user_pool
        (set_pagedir st1 fte.owner
          (pagedir_clear_page (st1.threads fte.owner).pagedir fte.virtual_page)).threads
        st1.memory sw) fte.owner
      (((set_pagedir st1 fte.owner
          (pagedir_clear_page (st1.threads fte.owner).pagedir fte.virtual_page)).threads
            fte.owner).page_table.map
        (fun e => if e.virtual_page == fte.virtual_page then
          { pte with status := pte_status.SWAP, swap_index := k, physical_page := none }
          else e)) = X at hX
    have e1 : X.kernel_pool = st1.kernel_pool := by rw [← hXdef]; rfl
    have e2 : X.user_pool = st1.user_pool := by rw [← hXdef]; rfl
    have hff := frame_free_user X fte.physical_page (by rw [e1]; exact hkp)
      (by rw [e2]; exact hu) (by rw [e2]; exact hused)
    obtain ⟨hinv, _, hfree⟩ := frame_free_inv _ _ _ hX hff
    have hfree2 := hfree _ rfl (by rw [e2]; exact hu)
    subst hXdef
    exact ⟨hinv, hfree2⟩
  refine ⟨hboth.1, findIdx_free_of_mem _ hboth.2, ?_, ?_, ?_⟩
  · intro t
    by_cases ht : t = fte.owner
    · subst ht
      simp only [frame_evicted, set_page_table, set_pagedir, Function.update_same]
      exact pagedir_clear_page_cleared _ _
    · simp only [frame_evicted, set_page_table, set_pagedir, Function.update_noteq ht]
      exact pagedir_cleared_refl _
  · intro t v p hs hne
    by_cases ht : t = fte.owner
    · subst ht
      simp only [frame_evicted, set_page_table, set_pagedir, Function.update_same]
      exact (search_map_store_other _ fte.virtual_page v
        (page_table_entry.mk none pte.virtual_page pte_status.SWAP k pte.file pte.ofs
          pte.read_bytes pte.zero_bytes pte.writable) hkey (by
        intro hv; exact hne ⟨rfl, hv.symm⟩)).trans hs
    · simp only [frame_evicted, set_page_table, set_pagedir, Function.update_noteq ht]
      exact hs
  · simp only [frame_evicted, set_page_table, set_pagedir, Function.update_same]
    exact search_map_store_same _ fte.virtual_page pte
      (page_table_entry.mk none pte.virtual_page pte_status.SWAP k pte.file pte.ofs
        pte.read_bytes pte.zero_bytes pte.writable) hkey hpte

theorem frame_get_page_direct_props (st : vm_state) (cur vp idx f : Nat)
    (hidx : st.user_pool.used_map.findIdx? (fun b => !b) = some idx) :
    ∃ st2, frame_get_page (f + 1) st cur (PAL_USER ||| PAL_ZERO) vp
        = some (some (st.user_pool.base + idx), st2) ∧
      st2.memory (st.user_pool.base + idx) = List.replicate PGSIZE 0 ∧
      st2.frame_table
        = st.frame_table ++ [frame_table_entry.mk (st.user_pool.base + idx) vp cur] ∧
      st2.kernel_pool = st.kernel_pool ∧ st2.swap = st.swap ∧
      (∀ t, (st2.threads t).pagedir = (st.threads t).pagedir) ∧
      (∀ t v p, page_table_entry_search (st.threads t).page_table v = some p →
        page_table_entry_search (st2.threads t).page_table v = some p) := by
  refine ⟨_, frame_get_page_direct_eq st cur vp idx f hidx, ?_, rfl, rfl, rfl, ?_, ?_⟩
  · show Function.update st.memory (st.user_pool.base + idx) (List.replicate PGSIZE 0)
      (st.user_pool.base + idx) = _
    rw [Function.update_same]
  · intro t
    exact frame_table_entry_set_pagedir _ _ _ _ _
  · intro t v p hs
    exact frame_table_entry_set_search _ _ _ _ _ _ _ hs

theorem palloc_get_page_full (st : vm_state) (flags : Nat) (hu : flags.testBit 2 = true)
    (ha : flags.testBit 0 = false)
    (hidx : st.user_pool.used_map.findIdx? (fun b => !b) = none) :
    palloc_get_page st flags = some (none, st) := by
  simp only [palloc_get_page, hu, if_true, hidx, ha, Bool.false_eq_true, if_false]

theorem swap_out_keep (sw sw2 : swap_state) (P : List Nat) (k : Int) (hwf : swap_wf sw)
    (h : swap_out sw P = some (k, sw2)) :
    swap_wf sw2 ∧ sw2.swap_bitmap.length = sw.swap_bitmap.length ∧
    (∃ j : Nat, k = (j : Int) ∧ sw.swap_bitmap[j]? = some true ∧
      sw2.swap_bitmap = sw.swap_bitmap.set j false) ∧
    ∀ j, sw.swap_bitmap[j]? = some false →
      sw2.swap_bitmap[j]? = some false ∧
      ∀ i, i < BLOCKS_PER_PAGE →
        sw2.swap_block.data (j * BLOCKS_PER_PAGE + i) = sw.swap_block.data (j * BLOCKS_PER_PAGE + i) := by
  by_cases hfree : true ∈ sw.swap_bitmap
  · obtain ⟨j, dev1, hout, hj, hjt, hsz, _, hother⟩ :=
      swap_out_spec sw P hwf.1 (by have := hwf.2; omega) hfree
    rw [hout] at h
    simp only [Option.some.injEq, Prod.mk.injEq] at h
    obtain ⟨hkj, hsw⟩ := h
    subst hsw
    refine ⟨⟨by simp only [List.length_set]; rw [hsz]; exact hwf.1, by rw [hsz]; exact hwf.2⟩,
      by simp only [List.length_set], ⟨j, hkj.symm, hjt, rfl⟩, ?_⟩
    intro m hm
    have hmj : m ≠ j := by
      intro e; rw [e, hjt] at hm; cases hm
    refine ⟨?_, ?_⟩
    · simp only
      rw [getElem?_set_other _ _ _ _ hmj]
      exact hm
    · intro i hi
      apply hother
      have hB : BLOCKS_PER_PAGE = 8 := by decide
      rw [hB] at hi ⊢
      omega
  · rw [swap_out_full sw P hfree hwf.2] at h
    cases h

theorem set_pagedir_page_table (st : vm_state) (t u : Nat) (pd : Nat → Option pagedir_entry) :
    ((set_pagedir st t pd).threads u).page_table = (st.threads u).page_table := by
  unfold set_pagedir
  by_cases h : u = t
  · subst h; simp
  · simp [Function.update_noteq h]

theorem frame_evict_page_body_run (st : vm_state) (cur vp f : Nat) (fte : frame_table_entry)
    (k : Int) (sw : swap_state) (pte : page_table_entry) (h : vm_inv st)
    (hsel : (frame_evict_select (st.threads cur).pagedir st.frame_table).2 = some fte)
    (hsw : swap_out st.swap (st.memory fte.physical_page) = some (k, sw))
    (hpte : page_table_entry_search (st.threads fte.owner).page_table fte.virtual_page
      = some pte) :
    ∃ E idx st2,
      E = frame_evicted (set_pagedir st cur
        (frame_evict_select (st.threads cur).pagedir st.frame_table).1) fte k sw pte ∧
      E.user_pool.used_map.findIdx? (fun b => !b) = some idx ∧
      frame_evict_page_body (frame_get_page (f + 1)) st cur vp
        = some (some (E.user_pool.base + idx), st2) ∧
      st2.memory (E.user_pool.base + idx) = List.replicate PGSIZE 0 ∧
      st2.frame_table = E.frame_table ++ [frame_table_entry.mk (E.user_pool.base + idx) vp cur] ∧
      st2.kernel_pool = E.kernel_pool ∧ st2.swap = E.swap ∧
      (∀ t, (st2.threads t).pagedir = (E.threads t).pagedir) ∧
      (∀ t v p, page_table_entry_search (E.threads t).page_table v = some p →
        page_table_entry_search (st2.threads t).page_table v = some p) := by
  have hmem : fte ∈ st.frame_table := frame_evict_select_mem _ _ _ hsel
  have h1 : vm_inv (set_pagedir st cur
      (frame_evict_select (st.threads cur).pagedir st.frame_table).1) := set_pagedir_inv _ _ _ h
  have hpte1 : page_table_entry_search ((set_pagedir st cur
      (frame_evict_select (st.threads cur).pagedir st.frame_table).1).threads
        fte.owner).page_table fte.virtual_page = some pte := by
    rw [set_pagedir_page_table]; exact hpte
  obtain ⟨_, ⟨idx, hidx⟩, _, _, _⟩ := frame_evicted_spec _ fte k sw pte h1 hmem hpte1
  obtain ⟨hu, hused⟩ := h.used fte hmem
  have hkp : page_from_pool st.kernel_pool fte.physical_page = false := by
    have hp := h.pools
    simp only [page_from_pool, Bool.and_eq_true, decide_eq_true_eq] at hu
    simp only [page_from_pool, Bool.and_eq_false_iff, decide_eq_false_iff_not]
    right; omega
  obtain ⟨st2, hd, p1, p2, p3, p4, p5, p6⟩ := frame_get_page_direct_props _ cur vp idx f hidx
  refine ⟨_, idx, st2, rfl, hidx, ?_, p1, p2, p3, p4, p5, p6⟩
  unfold frame_evict_page_body
  simp only [hsel]
  rw [frame_evict_victim_eq (frame_get_page (f + 1)) (set_pagedir st cur
    (frame_evict_select (st.threads cur).pagedir st.frame_table).1) cur vp fte k sw pte hkp hu
    hused hsw hpte1]
  exact hd

theorem frame_get_page_fuel0 (st : vm_state) (cur flag vp : Nat) :
    frame_get_page 0 st cur flag vp = none := rfl

/-- A successful `frame_get_page (PAL_USER | PAL_ZERO, vp)` has the effect
`frame_get_effect`, on any well-formed state. -/
theorem frame_get_page_effect (st : vm_state) (cur vp f pp : Nat) (st2 : vm_state)
    (h : vm_inv st) (hwf : swap_wf st.swap)
    (hget : frame_get_page (f + 2) st cur (PAL_USER ||| PAL_ZERO) vp = some (some pp, st2)) :
    frame_get_effect st st2 cur vp pp := by
  have hu6 : (PAL_USER ||| PAL_ZERO).testBit 2 = true := by decide
  have ha6 : (PAL_USER ||| PAL_ZERO).testBit 0 = false := by decide
  have hinv2 : vm_inv st2 := by
    have hs := frame_get_page_spec st cur _ vp hu6 h
    rw [hs.1 f] at hget
    exact (hs.2 _ _ hget).1
  cases hidx : st.user_pool.used_map.findIdx? (fun b => !b) with
  | some idx =>
    obtain ⟨s2, hd, p1, p2, p3, p4, p5, p6⟩ := frame_get_page_direct_props st cur vp idx (f + 1) hidx
    rw [hd] at hget
    simp only [Option.some.injEq, Prod.mk.injEq] at hget
    obtain ⟨hpp, hst⟩ := hget
    subst hpp; subst hst
    refine ⟨hinv2, p1, by rw [p2]; simp, p3, fun t v pte hs _ => p6 t v pte hs, ?_,
      by rw [p4]; exact hwf, by rw [p4]; exact ⟨rfl, fun k hk => ⟨hk, fun i _ => rfl⟩⟩⟩
    intro t
    rw [p5 t]
    exact pagedir_cleared_refl _
  | none =>
    have hbody : frame_get_page (f + 2) st cur (PAL_USER ||| PAL_ZERO) vp
        = frame_evict_page_body (frame_get_page (f + 1)) st cur vp := by
      simp only [frame_get_page, palloc_get_page_full st _ hu6 ha6 hidx]
    rw [hbody] at hget
    cases hsel : (frame_evict_select (st.threads cur).pagedir st.frame_table).2 with
    | none =>
      unfold frame_evict_page_body at hget
      simp only [hsel, Option.some.injEq, Prod.mk.injEq] at hget
      exact absurd hget.1 (by simp)
    | some fte =>
      have hmem : fte ∈ st.frame_table := frame_evict_select_mem _ _ _ hsel
      obtain ⟨pte, hpte⟩ := search_of_mem _ _ (h.owned fte hmem)
      cases hsw : swap_out st.swap (st.memory fte.physical_page) with
      | none =>
        unfold frame_evict_page_body at hget
        simp only [hsel] at hget
        unfold frame_evict_victim at hget
        have hsw2 : swap_out (set_pagedir (set_pagedir st cur
            (frame_evict_select (st.threads cur).pagedir st.frame_table).1) fte.owner
            (pagedir_clear_page ((set_pagedir st cur
              (frame_evict_select (st.threads cur).pagedir st.frame_table).1).threads
                fte.owner).pagedir fte.virtual_page)).swap
            ((set_pagedir (set_pagedir st cur
              (frame_evict_select (st.threads cur).pagedir st.frame_table).1) fte.owner
              (pagedir_clear_page ((set_pagedir st cur
                (frame_evict_select (st.threads cur).pagedir st.frame_table).1).threads
                  fte.owner).pagedir fte.virtual_page)).memory fte.physical_page) = none := hsw
        simp only [hsw2] at hget
        cases hget
      | some r =>
        obtain ⟨k, sw⟩ := r
        obtain ⟨E, idx, s2, hE, _, hrun, p1, p2, p3, p4, p5, p6⟩ :=
          frame_evict_page_body_run st cur vp f fte k sw pte h hsel hsw hpte
        rw [hrun] at hget
        simp only [Option.some.injEq, Prod.mk.injEq] at hget
        obtain ⟨hpp, hst⟩ := hget
        subst hpp; subst hst
        have h1 : vm_inv (set_pagedir st cur
            (frame_evict_select (st.threads cur).pagedir st.frame_table).1) :=
          set_pagedir_inv _ _ _ h
        have hpte1 : page_table_entry_search ((set_pagedir st cur
            (frame_evict_select (st.threads cur).pagedir st.frame_table).1).threads
              fte.owner).page_table fte.virtual_page = some pte := by
          rw [set_pagedir_page_table]; exact hpte
        obtain ⟨_, _, q3, q4, _⟩ := frame_evicted_spec _ fte k sw pte h1 hmem hpte1
        rw [← hE] at q3 q4
        obtain ⟨w1, w2, _, w4⟩ := swap_out_keep st.swap sw _ k hwf hsw
        have hEk : E.kernel_pool = st.kernel_pool := by rw [hE]; rfl
        have hEs : E.swap = sw := by rw [hE]; rfl
        refine ⟨hinv2, p1, by rw [p2]; simp, by rw [p3, hEk], ?_, ?_, by rw [p4, hEs]; exact w1,
          by rw [p4, hEs]; exact ⟨w2, w4⟩⟩
        · intro t v p hs hno
          apply p6
          apply q4 t v p
          · rw [set_pagedir_page_table]; exact hs
          · intro hc
            exact hno fte hmem hc
        · intro t
          rw [p5 t]
          refine pagedir_cleared_trans _ _ _ (q3 t) ?_
          by_cases ht : t = cur
          · subst ht
            simp only [set_pagedir, Function.update_same]
            exact frame_evict_select_cleared _ _
          · simp only [set_pagedir, Function.update_noteq ht]
            exact pagedir_cleared_refl _

theorem pagedir_is_accessed_cleared (pd2 pd : Nat → Option pagedir_entry) (v : Nat)
    (h : pagedir_cleared pd2 pd) (ha : pagedir_is_accessed pd2 v = true) :
    pagedir_is_accessed pd v = true := by
  unfold pagedir_is_accessed at ha ⊢
  cases h2 : pd2 v with
  | none => rw [h2] at ha; cases ha
  | some e2 =>
    rw [h2] at ha
    obtain ⟨e, he, _, _, _, _, hacc⟩ := (h v).2 e2 h2
    rw [he]
    exact hacc ha

theorem pagedir_set_accessed_off (pd : Nat → Option pagedir_entry) (v : Nat) :
    pagedir_is_accessed (pagedir_set_accessed pd v false) v = false := by
  unfold pagedir_is_accessed pagedir_set_accessed
  cases hv : pd v with
  | none => simp only [hv]
  | some e => simp only [Function.update_same]

theorem frame_evict_scan_cand (l : List frame_table_entry) :
    ∀ (pd : Nat → Option pagedir_entry) (c : frame_table_entry),
      ∃ fte, (frame_evict_scan pd (some c) l).2 = some fte := by
  induction l with
  | nil => intro pd c; exact ⟨c, rfl⟩
  | cons fte rest ih =>
    intro pd c
    simp only [frame_evict_scan]
    split
    · exact ih _ _
    · exact ih _ _

theorem frame_evict_scan_none (l : List frame_table_entry) :
    ∀ (pd : Nat → Option pagedir_entry), (frame_evict_scan pd none l).2 = none →
      ∀ fte ∈ l, pagedir_is_accessed (frame_evict_scan pd none l).1 fte.virtual_page = false := by
  induction l with
  | nil => intro pd _ fte hf; cases hf
  | cons a rest ih =>
    intro pd hn fte hf
    simp only [frame_evict_scan] at hn ⊢
    by_cases hacc : pagedir_is_accessed pd a.virtual_page = true
    · rw [if_pos hacc] at hn ⊢
      rcases List.mem_cons.1 hf with rfl | hr
      · cases hc : pagedir_is_accessed
            (frame_evict_scan (pagedir_set_accessed pd fte.virtual_page false) none rest).1
            fte.virtual_page with
        | false => rfl
        | true =>
          have := pagedir_is_accessed_cleared _ _ _ (frame_evict_scan_cleared rest _ none) hc
          rw [pagedir_set_accessed_off] at this
          cases this
      · exact ih _ hn fte hr
    · rw [if_neg hacc] at hn
      obtain ⟨c, hc⟩ := frame_evict_scan_cand rest pd a
      rw [hc] at hn
      cases hn

theorem frame_evict_scan_clear (l : List frame_table_entry)
    (pd : Nat → Option pagedir_entry) (c : Option frame_table_entry) (hne : l ≠ [])
    (h : ∀ fte ∈ l, pagedir_is_accessed pd fte.virtual_page = false) :
    ∃ fte, (frame_evict_scan pd c l).2 = some fte := by
  cases l with
  | nil => exact absurd rfl hne
  | cons a rest =>
    simp only [frame_evict_scan]
    rw [if_neg (by rw [h a (List.mem_cons_self _ _)]; simp)]
    exact frame_evict_scan_cand rest pd a

theorem frame_evict_select_some (pd : Nat → Option pagedir_entry)
    (ft : List frame_table_entry) (hne : ft ≠ []) :
    ∃ fte, (frame_evict_select pd ft).2 = some fte := by
  unfold frame_evict_select
  simp only
  cases h1 : (frame_evict_scan pd none ft).2 with
  | some fte => exact ⟨fte, h1⟩
  | none =>
    simp only
    exact frame_evict_scan_clear ft _ none hne (frame_evict_scan_none ft pd h1)

theorem findIdx_set_free (l : List Bool) (i : Nat) (hi : i < l.length)
    (hall : ∀ b ∈ l, b = true) : (l.set i false).findIdx? (fun b => !b) = some i := by
  rw [List.findIdx?_eq_some_iff_getElem]
  refine ⟨by rw [List.length_set]; exact hi, ?_, ?_⟩
  · simp
  · intro j hj
    rw [List.getElem_set_ne (by omega)]
    simp [hall _ (List.getElem_mem _)]

theorem findIdx_none_of_full (l : List Bool) (hall : ∀ b ∈ l, b = true) :
    l.findIdx? (fun b => !b) = none := by
  rw [List.findIdx?_eq_none_iff]
  intro b hb
  simp [hall b hb]

theorem frame_table_drop_length (ft : List frame_table_entry) (fte : frame_table_entry)
    (h : fte ∈ ft) :
    (frame_table_drop ft (some fte.physical_page)).length + 1 = ft.length := by
  unfold frame_table_drop
  cases hf : ft.findIdx? (fun e => some e.physical_page == some fte.physical_page) with
  | none =>
    have := List.findIdx?_eq_none_iff.1 hf fte h
    simp at this
  | some i =>
    obtain ⟨hi, _, _⟩ := List.findIdx?_eq_some_iff_getElem.1 hf
    simp only
    rw [List.length_eraseIdx, if_pos hi]
    omega

theorem vm_full_inv : vm_inv vm_full :=
  ⟨by decide, by decide, by decide, fun _ => (by decide : ([100, 200] : List Nat).Nodup),
    by decide⟩

/-- C19: with no free physical page, a frame table that is not empty (whatever the accessed
indicators of its frames, so also when all of them are set), a free swap slot and every
frame's owner holding a page-table entry for it (part of `vm_inv`), `frame_get_page`
terminates with any fuel of at least 2 and returns a frame, not a null pointer.  It has
evicted exactly one frame: the victim's entry is gone from the frame table and replaced by
the entry of the new page, which uses the victim's frame; exactly one swap slot became
occupied, it holds the victim's page, and the victim's page-table entry is `SWAP` with that
slot. -/
theorem frame_get_page_evicts (st : vm_state) (cur flags vp fuel : Nat) (h : vm_inv st)
    (hu : flags.testBit 2 = true) (ha : flags.testBit 0 = false)
    (hfull : ∀ b ∈ st.user_pool.used_map, b = true) (hne : st.frame_table ≠ [])
    (hwf : swap_wf st.swap) (hfree : true ∈ st.swap.swap_bitmap) :
    ∃ (victim : frame_table_entry) (st2 : vm_state) (k : Nat), victim ∈ st.frame_table ∧
      frame_get_page (fuel + 2) st cur flags vp = some (some victim.physical_page, st2) ∧
      st2.frame_table = frame_table_drop st.frame_table (some victim.physical_page)
        ++ [frame_table_entry.mk victim.physical_page vp cur] ∧
      (∀ e ∈ frame_table_drop st.frame_table (some victim.physical_page),
        e ∈ st.frame_table ∧ e.physical_page ≠ victim.physical_page) ∧
      st2.frame_table.length = st.frame_table.length ∧
      st.swap.swap_bitmap[k]? = some true ∧
      st2.swap.swap_bitmap = st.swap.swap_bitmap.set k false ∧
      (∀ i, i < BLOCKS_PER_PAGE → st2.swap.swap_block.data (k * BLOCKS_PER_PAGE + i)
        = page_sector (st.memory victim.physical_page) i) ∧
      ∃ pte, page_table_entry_search (st2.threads victim.owner).page_table victim.virtual_page
          = some pte ∧
        pte.status = pte_status.SWAP ∧ pte.swap_index = (k : Int) ∧ pte.physical_page = none := by
  obtain ⟨fte, hsel⟩ := frame_evict_select_some (st.threads cur).pagedir st.frame_table hne
  have hmem : fte ∈ st.frame_table := frame_evict_select_mem _ _ _ hsel
  obtain ⟨pte, hpte⟩ := search_of_mem _ _ (h.owned fte hmem)
  obtain ⟨k, dev1, hout, _, hkt, _, hdata, _⟩ :=
    swap_out_spec st.swap (st.memory fte.physical_page) hwf.1 (by have := hwf.2; omega) hfree
  obtain ⟨E, idx, st2, hE, hidx, hrun, _, p2, _, p4, _, p6⟩ :=
    frame_evict_page_body_run st cur vp fuel fte _ _ pte h hsel hout hpte
  obtain ⟨hu1, hused⟩ := h.used fte hmem
  have hu2 := hu1
  simp only [page_from_pool, Bool.and_eq_true, decide_eq_true_eq] at hu2
  have hEpool : E.user_pool.used_map
      = st.user_pool.used_map.set (fte.physical_page - st.user_pool.base) false := by
    rw [hE]; rfl
  have hEbase : E.user_pool.base = st.user_pool.base := by rw [hE]; rfl
  have hEft : E.frame_table = frame_table_drop st.frame_table (some fte.physical_page) := by
    rw [hE]; rfl
  have hEsw : E.swap = swap_state.mk dev1
      (st.swap.swap_bitmap.set k false) := by rw [hE]; rfl
  rw [hEpool, findIdx_set_free _ _ (by omega) hfull] at hidx
  simp only [Option.some.injEq] at hidx
  have hpp : E.user_pool.base + idx = fte.physical_page := by
    rw [hEbase, ← hidx]; omega
  rw [hpp] at hrun p2
  have h1 : vm_inv (set_pagedir st cur
      (frame_evict_select (st.threads cur).pagedir st.frame_table).1) := set_pagedir_inv _ _ _ h
  have hpte1 : page_table_entry_search ((set_pagedir st cur
      (frame_evict_select (st.threads cur).pagedir st.frame_table).1).threads
        fte.owner).page_table fte.virtual_page = some pte := by
    rw [set_pagedir_page_table]; exact hpte
  obtain ⟨_, _, _, _, q5⟩ := frame_evicted_spec _ fte (k : Int)
    (swap_state.mk dev1 (st.swap.swap_bitmap.set k false)) pte h1 hmem hpte1
  rw [← hE] at q5
  obtain ⟨hsub, hdrop⟩ := frame_table_drop_spec st.frame_table fte.physical_page h.nodup
  have hbody : frame_get_page (fuel + 2) st cur flags vp
      = frame_evict_page_body (frame_get_page (fuel + 1)) st cur vp := by
    simp only [frame_get_page,
      palloc_get_page_full st _ hu ha (findIdx_none_of_full _ hfull)]
  refine ⟨fte, st2, k, hmem, by rw [hbody]; exact hrun, by rw [p2, hEft],
    fun e he => ⟨hsub.subset he, hdrop e he⟩, ?_, hkt, by rw [p4, hEsw], ?_,
    ⟨_, p6 _ _ _ q5, rfl, rfl, rfl⟩⟩
  · rw [p2, hEft, List.length_append, List.length_singleton]
    exact frame_table_drop_length _ _ hmem
  · intro i hi
    rw [p4, hEsw]
    exact hdata i hi

theorem frame_get_page_evicts_witness :
    vm_inv vm_full ∧ (PAL_USER ||| PAL_ZERO).testBit 2 = true ∧
    (PAL_USER ||| PAL_ZERO).testBit 0 = false ∧
    (∀ b ∈ vm_full.user_pool.used_map, b = true) ∧ vm_full.frame_table ≠ [] ∧
    swap_wf vm_full.swap ∧ true ∈ vm_full.swap.swap_bitmap ∧
    ∃ (victim : frame_table_entry) (st2 : vm_state) (k : Nat), victim ∈ vm_full.frame_table ∧
      frame_get_page (0 + 2) vm_full 1 (PAL_USER ||| PAL_ZERO) 300
        = some (some victim.physical_page, st2) ∧
      st2.frame_table = frame_table_drop vm_full.frame_table (some victim.physical_page)
        ++ [frame_table_entry.mk victim.physical_page 300 1] ∧
      (∀ e ∈ frame_table_drop vm_full.frame_table (some victim.physical_page),
        e ∈ vm_full.frame_table ∧ e.physical_page ≠ victim.physical_page) ∧
      st2.frame_table.length = vm_full.frame_table.length ∧
      vm_full.swap.swap_bitmap[k]? = some true ∧
      st2.swap.swap_bitmap = vm_full.swap.swap_bitmap.set k false ∧
      (∀ i, i < BLOCKS_PER_PAGE → st2.swap.swap_block.data (k * BLOCKS_PER_PAGE + i)
        = page_sector (vm_full.memory victim.physical_page) i) ∧
      ∃ pte, page_table_entry_search (st2.threads victim.owner).page_table victim.virtual_page
          = some pte ∧
        pte.status = pte_status.SWAP ∧ pte.swap_index = (k : Int) ∧ pte.physical_page = none :=
  ⟨vm_full_inv, by decide, by decide, by decide, List.cons_ne_nil _ _, ⟨by decide, by decide⟩,
    by decide,
    frame_get_page_evicts vm_full 1 (PAL_USER ||| PAL_ZERO) 300 0 vm_full_inv (by decide)
      (by decide) (by decide) (List.cons_ne_nil _ _) ⟨by decide, by decide⟩ (by decide)⟩

/-! ## Page-in: `page_load` -/

theorem page_load_install_ok (st2 : sys_state) (cur vp pp : Nat)
    (pte pte0 : page_table_entry) (hkey : pte.virtual_page = vp)
    (hs : page_table_entry_search (st2.vm.threads cur).page_table vp = some pte0) :
    ∃ st3, page_load_install true st2 cur vp pp pte = some (true, st3) ∧
      page_table_entry_search (st3.vm.threads cur).page_table vp
        = some { pte with physical_page := some pp, status := pte_status.FRAME } ∧
      (st3.vm.threads cur).pagedir vp = some (pagedir_entry.mk true pp true false false) ∧
      st3.vm.memory = st2.vm.memory ∧ st3.vm.swap = st2.vm.swap ∧ st3.fs = st2.fs ∧
      st3.vm.frame_table = st2.vm.frame_table := by
  refine ⟨_, rfl, ?_, ?_, rfl, rfl, rfl, rfl⟩
  · simp only [set_pagedir, set_page_table, Function.update_same]
    exact search_map_store_same _ vp pte0
      (page_table_entry.mk (some pp) pte.virtual_page pte_status.FRAME pte.swap_index pte.file
        pte.ofs pte.read_bytes pte.zero_bytes pte.writable) hkey hs
  · simp only [set_pagedir, set_page_table, Function.update_same, pagedir_set_dirty]
    by_cases hpv : pp = vp
    · subst hpv
      simp only [Function.update_same]
    · cases hp : (st2.vm.threads cur).pagedir pp with
      | none =>
        simp only [Function.update_noteq hpv, hp, Function.update_same]
      | some e =>
        simp only [Function.update_noteq hpv, hp]
        rw [Function.update_noteq (Ne.symm hpv), Function.update_same]

theorem page_load_install_fail (st2 : sys_state) (cur vp pp : Nat) (pte : page_table_entry) :
    page_load_install false st2 cur vp pp pte
      = (frame_free st2.vm (some pp)).map (fun vm3 => (false, { st2 with vm := vm3 })) := rfl

theorem page_store_zero (bytes : List Nat) (zb : Nat) (h : bytes.length + zb ≤ PGSIZE) :
    page_store (page_store (List.replicate PGSIZE 0) 0 bytes) bytes.length
        (List.replicate zb 0)
      = bytes ++ List.replicate zb 0 ++ List.replicate (PGSIZE - (bytes.length + zb)) 0 := by
  unfold page_store
  simp only [List.take_zero, List.nil_append, Nat.zero_add, List.length_replicate,
    List.drop_replicate]
  rw [List.take_append_of_le_length (Nat.le_refl _), List.take_length,
    List.drop_append_eq_append_drop, List.drop_of_length_le (by omega)]
  simp only [List.nil_append, List.drop_replicate, List.append_assoc]
  congr 3
  omega

theorem file_get_set (fs : file_sys) (file : Nat) (f g : vm_file)
    (h : file_get fs file = some f) :
    file_get { fs with files := fs.files.set file (some g) } file = some g := by
  unfold file_get at h ⊢
  have hlt : file < fs.files.length := by
    cases hx : fs.files[file]? with
    | none => rw [hx] at h; cases h
    | some o => exact (List.getElem?_eq_some_iff.1 hx).1
  simp only [List.getElem?_set_self hlt]

theorem file_seek_read (fs : file_sys) (file ofs size : Nat) (f : vm_file)
    (h : file_get fs file = some f) :
    ∃ fs1 fs2, file_seek fs file ofs = some fs1 ∧
      file_read fs1 file size = some (((fs.inodes f.inode).drop ofs).take size, fs2) ∧
      fs2.inodes = fs.inodes ∧ fs2.write_cnt = fs.write_cnt := by
  have hg := file_get_set fs file f { f with pos := ofs } h
  refine ⟨file_sys.mk fs.inodes (fs.files.set file (some (vm_file.mk f.inode ofs)))
      fs.write_cnt,
    file_sys.mk fs.inodes ((fs.files.set file (some (vm_file.mk f.inode ofs))).set file
      (some (vm_file.mk f.inode (ofs + (((fs.inodes f.inode).drop ofs).take size).length))))
      fs.write_cnt,
    by simp only [file_seek, h], ?_, rfl, rfl⟩
  simp only [file_read, hg]

/-- Content after a successful page-in, by status.  On a well-formed state, for a page-table
entry of thread `cur` that is not resident (its status is not `FRAME` and no frame of the
frame table backs the page), a `page_load` that returns `true` leaves the entry with status
`FRAME` and the frame `pp` recorded, the page mapped to `pp`, and `pp` holds: all zeros if the
status was `ZERO`; the page held by the recorded swap slot if it was `SWAP`, and that slot is
free afterwards; and, if it was `MMAP`, the `read_bytes` bytes of the bound file from the
recorded offset on, followed by `zero_bytes` zeros (and zeros up to the end of the page). -/
theorem page_load_success_content (st : sys_state) (cur vp fuel : Nat) (pd_ok : Bool)
    (pte : page_table_entry) (st2 : sys_state) (h : vm_inv st.vm) (hwf : swap_wf st.vm.swap)
    (hs : page_table_entry_search (st.vm.threads cur).page_table vp = some pte)
    (hst : pte.status ≠ pte_status.FRAME)
    (hnof : ∀ fte ∈ st.vm.frame_table, ¬(fte.owner = cur ∧ fte.virtual_page = vp))
    (hload : page_load (fuel + 2) pd_ok st cur vp = some (true, st2)) :
    ∃ pp, page_table_entry_search (st2.vm.threads cur).page_table vp
        = some { pte with physical_page := some pp, status := pte_status.FRAME } ∧
      (st2.vm.threads cur).pagedir vp = some (pagedir_entry.mk true pp true false false) ∧
      (pte.status = pte_status.ZERO → st2.vm.memory pp = List.replicate PGSIZE 0) ∧
      (pte.status = pte_status.SWAP → ∀ (k : Nat) (P : List Nat), pte.swap_index = (k : Int) →
        st.vm.swap.swap_bitmap[k]? = some false → swap_slot_holds st.vm.swap k P →
        st2.vm.memory pp = P ∧ st2.vm.swap.swap_bitmap[k]? = some true) ∧
      (pte.status = pte_status.MMAP → ∀ f, file_get st.fs pte.file = some f →
        st2.vm.memory pp
          = ((st.fs.inodes f.inode).drop pte.ofs).take pte.read_bytes
            ++ List.replicate pte.zero_bytes 0
            ++ List.replicate (PGSIZE - (pte.read_bytes + pte.zero_bytes)) 0) := by
  have hkey := search_some_key _ _ _ hs
  unfold page_load at hload
  rw [hs] at hload
  simp only [if_neg hst] at hload
  cases hget : frame_get_page (fuel + 2) st.vm cur (PAL_USER ||| PAL_ZERO) vp with
  | none => rw [hget] at hload; cases hload
  | some r =>
    obtain ⟨r1, vm1⟩ := r
    cases r1 with
    | none =>
      rw [hget] at hload
      simp only [Option.some.injEq, Prod.mk.injEq] at hload
      exact absurd hload.1 (by simp)
    | some pp =>
      rw [hget] at hload
      have eff := frame_get_page_effect st.vm cur vp fuel pp vm1 h hwf hget
      have hs1 := eff.pte_keep cur vp pte hs hnof
      simp only [hs1] at hload
      cases hpd : pd_ok with
      | false =>
        rw [hpd] at hload
        cases hfill : page_load_fill { st with vm := vm1 } pte pp with
        | none => rw [hfill] at hload; cases hload
        | some r2 =>
          obtain ⟨b, s2⟩ := r2
          rw [hfill] at hload
          cases b with
          | false =>
            simp only [Option.map_eq_some', Prod.mk.injEq] at hload
            obtain ⟨_, _, hc, _⟩ := hload
            exact absurd hc (by simp)
          | true =>
            simp only [page_load_install_fail, Option.map_eq_some', Prod.mk.injEq] at hload
            obtain ⟨_, _, hc, _⟩ := hload
            exact absurd hc (by simp)
      | true =>
        rw [hpd] at hload
        refine ⟨pp, ?_⟩
        cases hstat : pte.status with
        | FRAME => exact absurd hstat hst
        | ZERO =>
          have hfill : page_load_fill { st with vm := vm1 } pte pp
              = some (true, { st with vm := set_memory vm1 pp (List.replicate PGSIZE 0) }) := by
            simp only [page_load_fill, hstat]
          rw [hfill] at hload
          simp only at hload
          obtain ⟨st3, hi, q1, q2, q3, _, _, _⟩ := page_load_install_ok
            { st with vm := set_memory vm1 pp (List.replicate PGSIZE 0) } cur vp pp pte pte hkey hs1
          rw [hi] at hload
          simp only [Option.some.injEq, Prod.mk.injEq, true_and] at hload
          subst hload
          refine ⟨q1, q2, ?_, ?_, ?_⟩
          · intro _
            rw [q3]
            simp only [set_memory, Function.update_same]
          · intro hc; cases hc
          · intro hc; cases hc
        | SWAP =>
          simp only [page_load_fill, hstat] at hload
          cases hin : swap_in vm1.swap pte.swap_index (vm1.memory pp) with
          | none => rw [hin] at hload; cases hload
          | some r3 =>
            obtain ⟨page, sw⟩ := r3
            rw [hin] at hload
            simp only at hload
            obtain ⟨st3, hi, q1, q2, q3, q4, _, _⟩ := page_load_install_ok
              { st with vm := set_memory { vm1 with swap := sw } pp page } cur vp pp pte pte hkey hs1
            rw [hi] at hload
            simp only [Option.some.injEq, Prod.mk.injEq, true_and] at hload
            subst hload
            refine ⟨q1, q2, ?_, ?_, ?_⟩
            · intro hc; cases hc
            rotate_left
            · intro hc; cases hc
            intro _ k P hk hocc hP
            obtain ⟨hlen, hkeep⟩ := eff.swap_keep
            obtain ⟨hocc1, hdata⟩ := hkeep k hocc
            have hklt : k < vm1.swap.swap_bitmap.length := by
              have := (List.getElem?_eq_some_iff.1 hocc1).1
              exact this
            have hP1 : swap_slot_holds vm1.swap k P :=
              ⟨hP.1, fun i hi => by rw [hdata i hi]; exact hP.2 i hi⟩
            have hz : (vm1.memory pp).length = PGSIZE := by
              rw [eff.zero, List.length_replicate]
            have hin2 := swap_in_spec vm1.swap k P (vm1.memory pp) eff.wf.1
              (by have := eff.wf.2; omega) hklt hP1 hz
            rw [hk, hin2] at hin
            simp only [Option.some.injEq, Prod.mk.injEq] at hin
            obtain ⟨hpage, hsw⟩ := hin
            rw [q3, q4]
            simp only [set_memory, Function.update_same]
            refine ⟨hpage.symm, ?_⟩
            rw [← hsw]
            simp only
            rw [List.getElem?_set_self hklt]
        | MMAP =>
          simp only [page_load_fill, hstat] at hload
          by_cases hfit : pte.read_bytes + pte.zero_bytes ≤ PGSIZE
          · rw [if_pos hfit] at hload
            cases hfg : file_get st.fs pte.file with
            | none =>
              simp only [file_seek, hfg] at hload
              cases hload
            | some f =>
              obtain ⟨fs1, fs2, hseek, hread, _, _⟩ :=
                file_seek_read st.fs pte.file pte.ofs pte.read_bytes f hfg
              simp only [hseek, hread] at hload
              by_cases hlen : (((st.fs.inodes f.inode).drop pte.ofs).take pte.read_bytes).length
                  ≠ pte.read_bytes
              · rw [if_pos hlen] at hload
                simp only [Option.map_eq_some', Prod.mk.injEq] at hload
                obtain ⟨_, _, hc, _⟩ := hload
                exact absurd hc (by simp)
              · rw [if_neg hlen] at hload
                simp only at hload
                have hlen2 := not_not.1 hlen
                obtain ⟨st3, hi, q1, q2, q3, _, _, _⟩ := page_load_install_ok
                  (sys_state.mk (set_memory vm1 pp
                    (page_store (page_store (vm1.memory pp) 0
                      (((st.fs.inodes f.inode).drop pte.ofs).take pte.read_bytes))
                      (((st.fs.inodes f.inode).drop pte.ofs).take pte.read_bytes).length
                      (List.replicate pte.zero_bytes 0)))
                    fs2 st.mmap_list st.owned_files) cur vp pp pte pte hkey hs1
                rw [hi] at hload
                simp only [Option.some.injEq, Prod.mk.injEq, true_and] at hload
                subst hload
                refine ⟨q1, q2, ?_, ?_, ?_⟩
                · intro hc; cases hc
                · intro hc; cases hc
                intro _ f2 hf2
                simp only [Option.some.injEq] at hf2
                subst hf2
                rw [q3]
                simp only [set_memory, Function.update_same]
                rw [eff.zero, page_store_zero _ _ (by rw [hlen2]; exact hfit), hlen2]
          · rw [if_neg hfit] at hload
            cases hload

theorem sys_file_pages_inv : vm_inv sys_file_pages.vm := by
  refine ⟨by decide, by decide, by decide, ?_, by decide⟩
  intro t
  by_cases ht : t = 1
  · subst ht; decide
  · simp only [sys_file_pages, set_page_table, Function.update_noteq ht]
    exact List.nodup_nil

/-- The call `frame_get_page (PAL_USER | PAL_ZERO, vp)` returns a frame, with any fuel of at
least 2, on a well-formed state that has a free user page, or a frame to evict and a free
swap slot. -/
theorem frame_get_page_returns (st : vm_state) (cur vp fuel : Nat) (h : vm_inv st)
    (hwf : swap_wf st.swap)
    (havail : (∃ b ∈ st.user_pool.used_map, b = false) ∨
      (st.frame_table ≠ [] ∧ true ∈ st.swap.swap_bitmap)) :
    ∃ pp st2, frame_get_page (fuel + 2) st cur (PAL_USER ||| PAL_ZERO) vp
      = some (some pp, st2) := by
  cases hidx : st.user_pool.used_map.findIdx? (fun b => !b) with
  | some idx =>
    obtain ⟨st2, hd, _⟩ := frame_get_page_direct_props st cur vp idx (fuel + 1) hidx
    exact ⟨_, st2, hd⟩
  | none =>
    have hav : st.frame_table ≠ [] ∧ true ∈ st.swap.swap_bitmap := by
      rcases havail with hfree | hav
      · obtain ⟨idx, hi⟩ := findIdx_free_of_mem _ hfree
        rw [hidx] at hi
        cases hi
      · exact hav
    obtain ⟨hne, hfree⟩ := hav
    obtain ⟨fte, hsel⟩ := frame_evict_select_some (st.threads cur).pagedir st.frame_table hne
    have hmem : fte ∈ st.frame_table := frame_evict_select_mem _ _ _ hsel
    obtain ⟨pte, hpte⟩ := search_of_mem _ _ (h.owned fte hmem)
    obtain ⟨k, dev1, hout, _⟩ :=
      swap_out_spec st.swap (st.memory fte.physical_page) hwf.1 (by have := hwf.2; omega) hfree
    obtain ⟨E, idx, st2, _, _, hrun, _⟩ :=
      frame_evict_page_body_run st cur vp fuel fte _ _ pte h hsel hout hpte
    have hbody : frame_get_page (fuel + 2) st cur (PAL_USER ||| PAL_ZERO) vp
        = frame_evict_page_body (frame_get_page (fuel + 1)) st cur vp := by
      have hu6 : (PAL_USER ||| PAL_ZERO).testBit 2 = true := by decide
      have ha6 : (PAL_USER ||| PAL_ZERO).testBit 0 = false := by decide
      simp only [frame_get_page, palloc_get_page_full st _ hu6 ha6 hidx]
    exact ⟨_, st2, by rw [hbody]; exact hrun⟩

/-- The call `page_load` returns `true`, with any fuel of at least 2, for an entry that is not
resident when a frame can be had, `pagedir_set_page` finds memory, the recorded slot of a
`SWAP` entry is occupied and holds a page, and the file of an `MMAP` entry is open and has the
`read_bytes` bytes at the recorded offset, the two counts fitting a page. -/
theorem page_load_runs (st : sys_state) (cur vp fuel : Nat) (pte : page_table_entry)
    (h : vm_inv st.vm) (hwf : swap_wf st.vm.swap)
    (hs : page_table_entry_search (st.vm.threads cur).page_table vp = some pte)
    (hst : pte.status ≠ pte_status.FRAME)
    (hnof : ∀ fte ∈ st.vm.frame_table, ¬(fte.owner = cur ∧ fte.virtual_page = vp))
    (havail : (∃ b ∈ st.vm.user_pool.used_map, b = false) ∨
      (st.vm.frame_table ≠ [] ∧ true ∈ st.vm.swap.swap_bitmap))
    (hswap : pte.status = pte_status.SWAP → ∃ (k : Nat) (P : List Nat),
      pte.swap_index = (k : Int) ∧ st.vm.swap.swap_bitmap[k]? = some false ∧
      swap_slot_holds st.vm.swap k P)
    (hmmap : pte.status = pte_status.MMAP → ∃ f, file_get st.fs pte.file = some f ∧
      pte.ofs + pte.read_bytes ≤ (st.fs.inodes f.inode).length ∧
      pte.read_bytes + pte.zero_bytes ≤ PGSIZE) :
    ∃ st2, page_load (fuel + 2) true st cur vp = some (true, st2) := by
  obtain ⟨pp, vm1, hget⟩ := frame_get_page_returns st.vm cur vp fuel h hwf havail
  have eff := frame_get_page_effect st.vm cur vp fuel pp vm1 h hwf hget
  have hs1 := eff.pte_keep cur vp pte hs hnof
  unfold page_load
  rw [hs]
  simp only [if_neg hst, hget, hs1]
  cases hstat : pte.status with
  | FRAME => exact absurd hstat hst
  | ZERO =>
    simp only [page_load_fill, hstat]
    exact ⟨_, rfl⟩
  | SWAP =>
    obtain ⟨k, P, hk, hocc, hP⟩ := hswap hstat
    obtain ⟨hlen, hkeep⟩ := eff.swap_keep
    obtain ⟨hocc1, hdata⟩ := hkeep k hocc
    have hklt : k < vm1.swap.swap_bitmap.length := (List.getElem?_eq_some_iff.1 hocc1).1
    have hP1 : swap_slot_holds vm1.swap k P :=
      ⟨hP.1, fun i hi => by rw [hdata i hi]; exact hP.2 i hi⟩
    have hz : (vm1.memory pp).length = PGSIZE := by
      rw [eff.zero, List.length_replicate]
    have hin := swap_in_spec vm1.swap k P (vm1.memory pp) eff.wf.1
      (by have := eff.wf.2; omega) hklt hP1 hz
    simp only [page_load_fill, hstat, hk, hin]
    exact ⟨_, rfl⟩
  | MMAP =>
    obtain ⟨f, hfg, hlen, hfit⟩ := hmmap hstat
    obtain ⟨fs1, fs2, hseek, hread, _, _⟩ :=
      file_seek_read st.fs pte.file pte.ofs pte.read_bytes f hfg
    have hfull : (((st.fs.inodes f.inode).drop pte.ofs).take pte.read_bytes).length
        = pte.read_bytes := by
      rw [List.length_take, List.length_drop]
      omega
    simp only [page_load_fill, hstat, if_pos hfit, hseek, hread, hfull, ne_eq,
      not_true_eq_false, if_false]
    exact ⟨_, rfl⟩

/-- C11: page-in content by status, with the load carried out.  The state is well formed and
`pte` is an entry of thread `cur` that is not resident (its status is not `FRAME` and no frame
of the frame table backs the page).

First, whatever `pagedir_set_page` does, a `page_load` that returns `true` leaves the entry
with status `FRAME` and the frame `pp` recorded, the page mapped to `pp`, and `pp` holds: all
zeros if the status was `ZERO`; the page held by the recorded swap slot if it was `SWAP`, and
that slot is free afterwards; and, if it was `MMAP`, the `read_bytes` bytes of the bound file
from the recorded offset on, followed by `zero_bytes` zeros (and zeros up to the end of the
page).

Second, the load does return `true`, with any fuel of at least 2, when a frame can be had (a
free user page, or a frame to evict and a free swap slot) and `pagedir_set_page` finds memory:
for a `ZERO` entry always; for a `SWAP` entry whose recorded slot `k` is occupied and holds
the page `P`; for an `MMAP` entry whose file is open and has the `read_bytes` bytes at the
recorded offset, the two counts fitting a page.  In each case the frame then holds the
content named above. -/
theorem page_load_content (st : sys_state) (cur vp fuel : Nat) (pte : page_table_entry)
    (h : vm_inv st.vm) (hwf : swap_wf st.vm.swap)
    (hs : page_table_entry_search (st.vm.threads cur).page_table vp = some pte)
    (hst : pte.status ≠ pte_status.FRAME)
    (hnof : ∀ fte ∈ st.vm.frame_table, ¬(fte.owner = cur ∧ fte.virtual_page = vp)) :
    (∀ (pd_ok : Bool) (st2 : sys_state),
      page_load (fuel + 2) pd_ok st cur vp = some (true, st2) →
      ∃ pp, page_table_entry_search (st2.vm.threads cur).page_table vp
          = some { pte with physical_page := some pp, status := pte_status.FRAME } ∧
        (st2.vm.threads cur).pagedir vp = some (pagedir_entry.mk true pp true false false) ∧
        (pte.status = pte_status.ZERO → st2.vm.memory pp = List.replicate PGSIZE 0) ∧
        (pte.status = pte_status.SWAP → ∀ (k : Nat) (P : List Nat),
          pte.swap_index = (k : Int) → st.vm.swap.swap_bitmap[k]? = some false →
          swap_slot_holds st.vm.swap k P →
          st2.vm.memory pp = P ∧ st2.vm.swap.swap_bitmap[k]? = some true) ∧
        (pte.status = pte_status.MMAP → ∀ f, file_get st.fs pte.file = some f →
          st2.vm.memory pp
            = ((st.fs.inodes f.inode).drop pte.ofs).take pte.read_bytes
              ++ List.replicate pte.zero_bytes 0
              ++ List.replicate (PGSIZE - (pte.read_bytes + pte.zero_bytes)) 0)) ∧
    (((∃ b ∈ st.vm.user_pool.used_map, b = false) ∨
        (st.vm.frame_table ≠ [] ∧ true ∈ st.vm.swap.swap_bitmap)) →
      (pte.status = pte_status.ZERO →
        ∃ pp st2, page_load (fuel + 2) true st cur vp = some (true, st2) ∧
          page_table_entry_search (st2.vm.threads cur).page_table vp
            = some { pte with physical_page := some pp, status := pte_status.FRAME } ∧
          (st2.vm.threads cur).pagedir vp = some (pagedir_entry.mk true pp true false false) ∧
          st2.vm.memory pp = List.replicate PGSIZE 0) ∧
      (pte.status = pte_status.SWAP → ∀ (k : Nat) (P : List Nat),
        pte.swap_index = (k : Int) → st.vm.swap.swap_bitmap[k]? = some false →
        swap_slot_holds st.vm.swap k P →
        ∃ pp st2, page_load (fuel + 2) true st cur vp = some (true, st2) ∧
          page_table_entry_search (st2.vm.threads cur).page_table vp
            = some { pte with physical_page := some pp, status := pte_status.FRAME } ∧
          (st2.vm.threads cur).pagedir vp = some (pagedir_entry.mk true pp true false false) ∧
          st2.vm.memory pp = P ∧ st2.vm.swap.swap_bitmap[k]? = some true) ∧
      (pte.status = pte_status.MMAP → ∀ f, file_get st.fs pte.file = some f →
        pte.ofs + pte.read_bytes ≤ (st.fs.inodes f.inode).length →
        pte.read_bytes + pte.zero_bytes ≤ PGSIZE →
        ∃ pp st2, page_load (fuel + 2) true st cur vp = some (true, st2) ∧
          page_table_entry_search (st2.vm.threads cur).page_table vp
            = some { pte with physical_page := some pp, status := pte_status.FRAME } ∧
          (st2.vm.threads cur).pagedir vp = some (pagedir_entry.mk true pp true false false) ∧
          st2.vm.memory pp
            = ((st.fs.inodes f.inode).drop pte.ofs).take pte.read_bytes
              ++ List.replicate pte.zero_bytes 0
              ++ List.replicate (PGSIZE - (pte.read_bytes + pte.zero_bytes)) 0)) := by
  refine ⟨fun pd_ok st2 hload =>
    page_load_success_content st cur vp fuel pd_ok pte st2 h hwf hs hst hnof hload, ?_⟩
  intro havail
  refine ⟨?_, ?_, ?_⟩
  · intro hstat
    obtain ⟨st2, hload⟩ := page_load_runs st cur vp fuel pte h hwf hs hst hnof havail
      (fun hc => by rw [hstat] at hc; cases hc) (fun hc => by rw [hstat] at hc; cases hc)
    obtain ⟨pp, c1, c2, cz, _, _⟩ :=
      page_load_success_content st cur vp fuel true pte st2 h hwf hs hst hnof hload
    exact ⟨pp, st2, hload, c1, c2, cz hstat⟩
  · intro hstat k P hk hocc hP
    obtain ⟨st2, hload⟩ := page_load_runs st cur vp fuel pte h hwf hs hst hnof havail
      (fun _ => ⟨k, P, hk, hocc, hP⟩) (fun hc => by rw [hstat] at hc; cases hc)
    obtain ⟨pp, c1, c2, _, csw, _⟩ :=
      page_load_success_content st cur vp fuel true pte st2 h hwf hs hst hnof hload
    obtain ⟨m1, m2⟩ := csw hstat k P hk hocc hP
    exact ⟨pp, st2, hload, c1, c2, m1, m2⟩
  · intro hstat f hfg hlen hfit
    obtain ⟨st2, hload⟩ := page_load_runs st cur vp fuel pte h hwf hs hst hnof havail
      (fun hc => by rw [hstat] at hc; cases hc) (fun _ => ⟨f, hfg, hlen, hfit⟩)
    obtain ⟨pp, c1, c2, _, _, cm⟩ :=
      page_load_success_content st cur vp fuel true pte st2 h hwf hs hst hnof hload
    exact ⟨pp, st2, hload, c1, c2, cm hstat f hfg⟩

theorem sys_read_only_inv : vm_inv sys_read_only.vm := by
  refine ⟨by decide, by decide, by decide, ?_, by decide⟩
  intro t
  by_cases ht : t = 1
  · subst ht; decide
  · simp only [sys_read_only, set_page_table, Function.update_noteq ht]
    exact List.nodup_nil

theorem sys_swapped_inv : vm_inv sys_swapped.vm :=
  ⟨by decide, by decide, by decide,
    fun _ => (by decide : ([100, 200, 0x10000] : List Nat).Nodup), by decide⟩

theorem sys_swapped_slot : swap_slot_holds sys_swapped.vm.swap 1 (List.replicate PGSIZE 7) := by
  refine ⟨List.length_replicate _ _, ?_⟩
  intro i hi
  have hB : BLOCKS_PER_PAGE = 8 := by decide
  rw [hB] at hi ⊢
  have hlt : 8 ≤ 1 * 8 + i ∧ 1 * 8 + i < 16 := by omega
  show (if 8 ≤ 1 * 8 + i ∧ 1 * 8 + i < 16 then List.replicate BLOCK_SECTOR_SIZE 7
    else List.replicate BLOCK_SECTOR_SIZE 0) = _
  rw [if_pos hlt]
  unfold page_sector
  rw [List.drop_replicate, List.take_replicate]
  congr 1
  have h1 : BLOCK_SECTOR_SIZE = 512 := rfl
  have h2 : PGSIZE = 4096 := rfl
  rw [h1, h2]
  omega

theorem page_load_content_witness :
    vm_inv sys_swapped.vm ∧ swap_wf sys_swapped.vm.swap ∧
    page_table_entry_search (sys_swapped.vm.threads 1).page_table 0x10000
      = some (page_table_entry.mk none 0x10000 pte_status.SWAP 1 0 0 0 0 true) ∧
    pte_status.SWAP ≠ pte_status.FRAME ∧
    (∀ fte ∈ sys_swapped.vm.frame_table, ¬(fte.owner = 1 ∧ fte.virtual_page = 0x10000)) ∧
    (∀ b ∈ sys_swapped.vm.user_pool.used_map, b = true) ∧
    sys_swapped.vm.frame_table ≠ [] ∧ true ∈ sys_swapped.vm.swap.swap_bitmap ∧
    sys_swapped.vm.swap.swap_bitmap[1]? = some false ∧
    swap_slot_holds sys_swapped.vm.swap 1 (List.replicate PGSIZE 7) ∧
    (∃ pp st2, page_load (0 + 2) true sys_swapped 1 0x10000 = some (true, st2) ∧
      page_table_entry_search (st2.vm.threads 1).page_table 0x10000
        = some (page_table_entry.mk (some pp) 0x10000 pte_status.FRAME 1 0 0 0 0 true) ∧
      (st2.vm.threads 1).pagedir 0x10000 = some (pagedir_entry.mk true pp true false false) ∧
      st2.vm.memory pp = List.replicate PGSIZE 7 ∧
      st2.vm.swap.swap_bitmap[1]? = some true) ∧
    (∃ pp st2, page_load (0 + 2) true sys_read_only 1 0x10000 = some (true, st2) ∧
      page_table_entry_search (st2.vm.threads 1).page_table 0x10000
        = some (page_table_entry.mk (some pp) 0x10000 pte_status.FRAME 0 0 0 0 0 false) ∧
      (st2.vm.threads 1).pagedir 0x10000 = some (pagedir_entry.mk true pp true false false) ∧
      st2.vm.memory pp = List.replicate PGSIZE 0) ∧
    (∃ pp st2, page_load (0 + 2) true sys_file_pages 1 0x10000 = some (true, st2) ∧
      page_table_entry_search (st2.vm.threads 1).page_table 0x10000
        = some (page_table_entry.mk (some pp) 0x10000 pte_status.FRAME 0 0 0 3 4093 true) ∧
      (st2.vm.threads 1).pagedir 0x10000 = some (pagedir_entry.mk true pp true false false) ∧
      st2.vm.memory pp
        = [1, 2, 3] ++ List.replicate 4093 0 ++ List.replicate (PGSIZE - (3 + 4093)) 0) :=
  ⟨sys_swapped_inv, ⟨by decide, by decide⟩, rfl, by decide, by decide, by decide,
    List.cons_ne_nil _ _, by decide, rfl, sys_swapped_slot,
    ((page_load_content sys_swapped 1 0x10000 0
      (page_table_entry.mk none 0x10000 pte_status.SWAP 1 0 0 0 0 true)
      sys_swapped_inv ⟨by decide, by decide⟩ rfl (by decide) (by decide)).2
        (Or.inr ⟨List.cons_ne_nil _ _, by decide⟩)).2.1 rfl 1 (List.replicate PGSIZE 7) rfl rfl
      sys_swapped_slot,
    ((page_load_content sys_read_only 1 0x10000 0
      (page_table_entry.mk none 0x10000 pte_status.ZERO 0 0 0 0 0 false)
      sys_read_only_inv ⟨by decide, by decide⟩ rfl (by decide) (by decide)).2
        (Or.inl ⟨false, by decide, rfl⟩)).1 rfl,
    ((page_load_content sys_file_pages 1 0x10000 0
      (page_table_entry.mk none 0x10000 pte_status.MMAP 0 0 0 3 4093 true)
      sys_file_pages_inv ⟨by decide, by decide⟩ rfl (by decide) (by decide)).2
        (Or.inl ⟨false, by decide, rfl⟩)).2.2 rfl (vm_file.mk 0 0) rfl (by decide)
      (by decide)⟩

/-- C13: short-read rollback.  When `page_load` resolves an `MMAP` entry of a page that is
not mapped, has obtained the frame `pp` for it, and the file holds fewer than `read_bytes`
bytes from the recorded offset on, `page_load` returns `false`; the frame `pp` is released:
no entry of the frame table has it and its page is free in the user pool again; the page is
still not mapped; and the entry is unchanged, its status still `MMAP`. -/
theorem page_load_short_read (st : sys_state) (cur vp fuel : Nat) (pd_ok : Bool)
    (pte : page_table_entry) (f : vm_file) (pp : Nat) (vm1 : vm_state) (h : vm_inv st.vm)
    (hwf : swap_wf st.vm.swap)
    (hs : page_table_entry_search (st.vm.threads cur).page_table vp = some pte)
    (hst : pte.status = pte_status.MMAP)
    (hnof : ∀ fte ∈ st.vm.frame_table, ¬(fte.owner = cur ∧ fte.virtual_page = vp))
    (hfit : pte.read_bytes + pte.zero_bytes ≤ PGSIZE)
    (hf : file_get st.fs pte.file = some f)
    (hshort : (st.fs.inodes f.inode).length - pte.ofs < pte.read_bytes)
    (hunmapped : ∀ e, (st.vm.threads cur).pagedir vp = some e → e.present = false)
    (hget : frame_get_page (fuel + 2) st.vm cur (PAL_USER ||| PAL_ZERO) vp
      = some (some pp, vm1)) :
    ∃ st2, page_load (fuel + 2) pd_ok st cur vp = some (false, st2) ∧
      (∀ fte ∈ st2.vm.frame_table, fte.physical_page ≠ pp) ∧
      st2.vm.user_pool.used_map[pp - st2.vm.user_pool.base]? = some false ∧
      (∀ e, (st2.vm.threads cur).pagedir vp = some e → e.present = false) ∧
      page_table_entry_search (st2.vm.threads cur).page_table vp = some pte ∧
      pte.status = pte_status.MMAP := by
  have eff := frame_get_page_effect st.vm cur vp fuel pp vm1 h hwf hget
  have hs1 := eff.pte_keep cur vp pte hs hnof
  obtain ⟨fs1, fs2, hseek, hread, _, _⟩ :=
    file_seek_read st.fs pte.file pte.ofs pte.read_bytes f hf
  have hlen : (((st.fs.inodes f.inode).drop pte.ofs).take pte.read_bytes).length
      ≠ pte.read_bytes := by
    rw [List.length_take, List.length_drop]
    omega
  obtain ⟨hu, hused⟩ := eff.inv.used _ eff.entry
  have hu2 := hu
  simp only [page_from_pool, Bool.and_eq_true, decide_eq_true_eq] at hu2
  have hkp : page_from_pool vm1.kernel_pool pp = false := by
    have hp := eff.inv.pools
    simp only [page_from_pool, Bool.and_eq_false_iff, decide_eq_false_iff_not]
    right; omega
  have hfree := frame_free_user
    (set_memory vm1 pp (page_store (vm1.memory pp) 0
      (((st.fs.inodes f.inode).drop pte.ofs).take pte.read_bytes))) pp hkp hu hused
  have hfill : page_load_fill { st with vm := vm1 } pte pp
      = some (false, sys_state.mk (set_memory vm1 pp (page_store (vm1.memory pp) 0
          (((st.fs.inodes f.inode).drop pte.ofs).take pte.read_bytes)))
          fs2 st.mmap_list st.owned_files) := by
    simp only [page_load_fill, hst, if_pos hfit, hseek, hread, if_pos hlen]
  refine ⟨sys_state.mk (vm_state.mk (frame_table_drop vm1.frame_table (some pp))
      vm1.kernel_pool
      (palloc_pool.mk vm1.user_pool.base (vm1.user_pool.used_map.set (pp - vm1.user_pool.base) false))
      vm1.threads
      (Function.update vm1.memory pp (page_store (vm1.memory pp) 0
        (((st.fs.inodes f.inode).drop pte.ofs).take pte.read_bytes)))
      vm1.swap) fs2 st.mmap_list st.owned_files, ?_, ?_, ?_, ?_, ?_, hst⟩
  · unfold page_load
    rw [hs]
    simp only [hst, hget, hs1, hfill, hfree]
    simp only [reduceCtorEq, if_false, Option.map_some']
    rfl
  · intro fte hfte
    exact (frame_table_drop_spec vm1.frame_table pp eff.inv.nodup).2 fte hfte
  · simp only
    rw [List.getElem?_set_self (by omega)]
  · intro e he
    have he1 : (vm1.threads cur).pagedir vp = some e := he
    obtain ⟨e0, he0, _, _, _, hpres, _⟩ := (eff.pd_keep cur vp).2 e he1
    cases hp : e.present with
    | false => rfl
    | true =>
      have := hunmapped e0 he0
      rw [hpres hp] at this
      cases this
  · exact hs1

theorem page_load_short_read_witness :
    vm_inv sys_file_pages.vm ∧ swap_wf sys_file_pages.vm.swap ∧
    page_table_entry_search (sys_file_pages.vm.threads 1).page_table 0x20000
      = some (page_table_entry.mk none 0x20000 pte_status.MMAP 0 0 0 100 3996 true) ∧
    (∀ fte ∈ sys_file_pages.vm.frame_table, ¬(fte.owner = 1 ∧ fte.virtual_page = 0x20000)) ∧
    100 + 3996 ≤ PGSIZE ∧ file_get sys_file_pages.fs 0 = some (vm_file.mk 0 0) ∧
    (sys_file_pages.fs.inodes 0).length - 0 < 100 ∧
    (∀ e, (sys_file_pages.vm.threads 1).pagedir 0x20000 = some e → e.present = false) ∧
    ∃ pp vm1, frame_get_page (0 + 2) sys_file_pages.vm 1 (PAL_USER ||| PAL_ZERO) 0x20000
        = some (some pp, vm1) ∧
      ∃ st2, page_load (0 + 2) true sys_file_pages 1 0x20000 = some (false, st2) ∧
        (∀ fte ∈ st2.vm.frame_table, fte.physical_page ≠ pp) ∧
        st2.vm.user_pool.used_map[pp - st2.vm.user_pool.base]? = some false ∧
        (∀ e, (st2.vm.threads 1).pagedir 0x20000 = some e → e.present = false) ∧
        page_table_entry_search (st2.vm.threads 1).page_table 0x20000
          = some (page_table_entry.mk none 0x20000 pte_status.MMAP 0 0 0 100 3996 true) ∧
        pte_status.MMAP = pte_status.MMAP :=
  ⟨sys_file_pages_inv, ⟨by decide, by decide⟩, rfl, by decide, by decide, rfl, by decide,
    (fun _ he => by cases he), _, _, rfl,
    page_load_short_read sys_file_pages 1 0x20000 0 true
      (page_table_entry.mk none 0x20000 pte_status.MMAP 0 0 0 100 3996 true) (vm_file.mk 0 0)
      _ _ sys_file_pages_inv ⟨by decide, by decide⟩ rfl rfl (by decide) (by decide) rfl
      (by decide) (fun _ he => by cases he) rfl⟩

/-! ## Write-back on `munmap` -/

theorem bytes_write_length (C buf : List Nat) (ofs : Nat) :
    C.length ≤ (bytes_write C ofs buf).length := by
  unfold bytes_write
  simp only [List.length_append, List.length_take, List.length_drop, List.length_replicate]
  omega

theorem bytes_write_in (C buf : List Nat) (ofs j : Nat) (hj : j < buf.length) :
    (bytes_write C ofs buf)[ofs + j]? = buf[j]? := by
  unfold bytes_write
  simp only
  have hl : (List.take ofs (C ++ List.replicate (ofs + buf.length - C.length) 0)).length = ofs := by
    simp only [List.length_take, List.length_append, List.length_replicate]
    omega
  rw [List.append_assoc, List.getElem?_append_right (by rw [hl]; omega), hl,
    List.getElem?_append_left (by omega)]
  congr 1
  omega

theorem bytes_write_out (C buf : List Nat) (ofs q : Nat) (hq : q < C.length)
    (h : q < ofs ∨ ofs + buf.length ≤ q) : (bytes_write C ofs buf)[q]? = C[q]? := by
  unfold bytes_write
  simp only
  have hl : (List.take ofs (C ++ List.replicate (ofs + buf.length - C.length) 0)).length = ofs := by
    simp only [List.length_take, List.length_append, List.length_replicate]
    omega
  rcases h with h | h
  · rw [List.append_assoc, List.getElem?_append_left (by rw [hl]; exact h),
      List.getElem?_take_of_lt h, List.getElem?_append_left hq]
  · rw [List.append_assoc, List.getElem?_append_right (by rw [hl]; omega), hl,
      List.getElem?_append_right (by omega), List.getElem?_drop,
      List.getElem?_append_left (by omega)]
    congr 1
    omega

theorem pagedir_clear_page_dirty (pd : Nat → Option pagedir_entry) (v w : Nat) :
    pagedir_is_dirty (pagedir_clear_page pd v) w = pagedir_is_dirty pd w := by
  unfold pagedir_is_dirty pagedir_clear_page
  cases hv : pd v with
  | none => rfl
  | some e =>
    simp only
    by_cases hw : w = v
    · subst hw; simp only [Function.update_same, hv]
    · simp only [Function.update_noteq hw]

theorem pagedir_clear_page_other (pd : Nat → Option pagedir_entry) (v w : Nat) (h : w ≠ v) :
    pagedir_clear_page pd v w = pd w := by
  unfold pagedir_clear_page
  cases hv : pd v with
  | none => rfl
  | some e => simp only [Function.update_noteq h]

theorem search_hash_delete_other (pt : List page_table_entry) (v w : Nat) (h : w ≠ v) :
    page_table_entry_search (hash_delete pt v) w = page_table_entry_search pt w := by
  unfold page_table_entry_search hash_delete
  induction pt with
  | nil => rfl
  | cons e rest ih =>
    by_cases hev : e.virtual_page = v
    · have h1 : (e.virtual_page == v) = true := by simpa using hev
      have h2 : (e.virtual_page == w) = false := by
        rw [hev]; simpa using fun hc => h hc.symm
      rw [@List.eraseP_cons_of_pos _ e rest (fun e => e.virtual_page == v) h1, List.find?_cons,
        h2]
    · have h1 : (e.virtual_page == v) = false := by simpa using hev
      rw [@List.eraseP_cons_of_neg _ e rest (fun e => e.virtual_page == v) (by simp only [h1]; simp),
        List.find?_cons, List.find?_cons]
      cases (e.virtual_page == w) with
      | true => rfl
      | false => exact ih

theorem palloc_free_page_keep (vm vm1 : vm_state) (page : Option Nat)
    (h : palloc_free_page vm page = some vm1) :
    vm1.threads = vm.threads ∧ vm1.memory = vm.memory ∧ vm1.swap = vm.swap ∧
    vm1.frame_table = vm.frame_table ∧
    vm1.kernel_pool.base = vm.kernel_pool.base ∧
    vm1.kernel_pool.used_map.length = vm.kernel_pool.used_map.length := by
  unfold palloc_free_page at h
  cases page with
  | none =>
    simp only [Option.some.injEq] at h
    subst h
    exact ⟨rfl, rfl, rfl, rfl, rfl, rfl⟩
  | some p =>
    simp only at h
    by_cases hk : page_from_pool vm.kernel_pool p = true
    · rw [if_pos hk] at h
      cases hpf : palloc_pool_free vm.kernel_pool p with
      | none => rw [hpf] at h; cases h
      | some pool =>
        rw [hpf] at h
        simp only [Option.some.injEq] at h
        subst h
        obtain ⟨q1, q2, _⟩ := palloc_pool_free_spec _ _ _ hpf
        exact ⟨rfl, rfl, rfl, rfl, q1, by rw [q2, List.length_set]⟩
    · rw [if_neg hk] at h
      by_cases hu : page_from_pool vm.user_pool p = true
      · rw [if_pos hu] at h
        cases hpf : palloc_pool_free vm.user_pool p with
        | none => rw [hpf] at h; cases h
        | some pool =>
          rw [hpf] at h
          simp only [Option.some.injEq] at h
          subst h
          exact ⟨rfl, rfl, rfl, rfl, rfl, rfl⟩
      · rw [if_neg hu] at h
        cases h

theorem frame_free_keep (vm vm1 : vm_state) (frame : Option Nat)
    (h : frame_free vm frame = some vm1) :
    vm1.threads = vm.threads ∧ vm1.memory = vm.memory ∧ vm1.swap = vm.swap ∧
    vm1.kernel_pool.base = vm.kernel_pool.base ∧
    vm1.kernel_pool.used_map.length = vm.kernel_pool.used_map.length := by
  unfold frame_free at h
  obtain ⟨a, b, c, _, d, e⟩ := palloc_free_page_keep _ _ _ h
  exact ⟨a, b, c, d, e⟩

theorem file_write_at_spec (fs : file_sys) (file : Nat) (f : vm_file) (buffer : List Nat)
    (size ofs : Nat) (h : file_get fs file = some f) :
    file_write_at fs file buffer size ofs
      = some ((buffer.take size).length,
          file_sys.mk (Function.update fs.inodes f.inode
            (bytes_write (fs.inodes f.inode) ofs (buffer.take size))) fs.files
            (fs.write_cnt + 1)) := by
  simp only [file_write_at, h]

theorem munmap_frame_spec (st st1 : sys_state) (cur : Nat) (me : mmap_entry)
    (pte : page_table_entry) (bytes ofs : Nat) (f : vm_file)
    (hf : file_get st.fs me.file = some f)
    (h : munmap_frame st cur me pte bytes ofs = some st1) :
    st1.fs.files = st.fs.files ∧
    st1.vm.kernel_pool.base = st.vm.kernel_pool.base ∧
    st1.vm.kernel_pool.used_map.length = st.vm.kernel_pool.used_map.length ∧
    st1.vm.memory = st.vm.memory ∧
    (st1.vm.threads cur).page_table = (st.vm.threads cur).page_table ∧
    (st1.vm.threads cur).pagedir
      = pagedir_clear_page (st.vm.threads cur).pagedir pte.virtual_page ∧
    ((pagedir_is_dirty (st.vm.threads cur).pagedir pte.virtual_page
        || pagedir_is_dirty (st.vm.threads cur).pagedir (pte.physical_page.getD 0)) = true →
      ∃ page, user_page st.vm cur pte.virtual_page = some page ∧
        st1.fs.inodes f.inode = bytes_write (st.fs.inodes f.inode) ofs (page.take bytes)) ∧
    ((pagedir_is_dirty (st.vm.threads cur).pagedir pte.virtual_page
        || pagedir_is_dirty (st.vm.threads cur).pagedir (pte.physical_page.getD 0)) = false →
      st1.fs.inodes = st.fs.inodes) := by
  unfold munmap_frame at h
  simp only at h
  cases hd : (pagedir_is_dirty (st.vm.threads cur).pagedir pte.virtual_page
      || pagedir_is_dirty (st.vm.threads cur).pagedir (pte.physical_page.getD 0)) with
  | false =>
    rw [hd] at h
    simp only [Bool.false_eq_true, if_false] at h
    cases hff : frame_free st.vm pte.physical_page with
    | none => rw [hff] at h; cases h
    | some vm1 =>
      rw [hff] at h
      simp only [Option.some.injEq] at h
      subst h
      obtain ⟨a, b, _, d, e⟩ := frame_free_keep _ _ _ hff
      refine ⟨rfl, d, e, b, ?_, ?_, (fun hc => by cases hc), fun _ => rfl⟩
      · simp only [set_pagedir_page_table, a]
      · simp only [set_pagedir, Function.update_same, a]
  | true =>
    rw [hd] at h
    simp only [if_true] at h
    cases hup : user_page st.vm cur pte.virtual_page with
    | none => rw [hup] at h; cases h
    | some page =>
      rw [hup] at h
      simp only [file_write_at_spec st.fs me.file f page bytes ofs hf, Option.map_some'] at h
      cases hff : frame_free st.vm pte.physical_page with
      | none => rw [hff] at h; cases h
      | some vm1 =>
        rw [hff] at h
        simp only [Option.some.injEq] at h
        subst h
        obtain ⟨a, b, _, d, e⟩ := frame_free_keep _ _ _ hff
        refine ⟨rfl, d, e, b, ?_, ?_, fun _ => ⟨page, rfl, ?_⟩, (fun hc => by cases hc)⟩
        · simp only [set_pagedir_page_table, a]
        · simp only [set_pagedir, Function.update_same, a]
        · simp only [Function.update_same]

theorem munmap_swap_spec (st st1 : sys_state) (cur : Nat) (me : mmap_entry)
    (pte : page_table_entry) (ofs : Nat) (f : vm_file)
    (hf : file_get st.fs me.file = some f)
    (h : munmap_swap st cur me pte ofs = some st1) :
    st1.fs.files = st.fs.files ∧
    st1.vm.kernel_pool.base = st.vm.kernel_pool.base ∧
    st1.vm.kernel_pool.used_map.length = st.vm.kernel_pool.used_map.length ∧
    (∀ p, page_from_pool st.vm.kernel_pool p = false → st1.vm.memory p = st.vm.memory p) ∧
    st1.vm.threads = st.vm.threads ∧
    (pagedir_is_dirty (st.vm.threads cur).pagedir pte.virtual_page = true →
      ∃ buf : List Nat, buf.length ≤ PGSIZE ∧
        st1.fs.inodes f.inode = bytes_write (st.fs.inodes f.inode) ofs buf) ∧
    (pagedir_is_dirty (st.vm.threads cur).pagedir pte.virtual_page = false →
      st1.fs.inodes = st.fs.inodes) := by
  unfold munmap_swap at h
  cases hd : pagedir_is_dirty (st.vm.threads cur).pagedir pte.virtual_page with
  | false =>
    rw [hd] at h
    simp only [Bool.false_eq_true, if_false, Option.some.injEq] at h
    subst h
    exact ⟨rfl, rfl, rfl, fun _ _ => rfl, rfl, (fun hc => by cases hc), fun _ => rfl⟩
  | true =>
    rw [hd] at h
    simp only [if_true] at h
    have h2 : (0 : Nat).testBit 2 = false := by decide
    have h1 : (0 : Nat).testBit 1 = false := by decide
    have h0 : (0 : Nat).testBit 0 = false := by decide
    cases hidx : st.vm.kernel_pool.used_map.findIdx? (fun b => !b) with
    | none =>
      simp only [palloc_get_page, h2, h0, Bool.false_eq_true, if_false, hidx] at h
      cases h
    | some idx =>
      obtain ⟨hi, _, _⟩ := List.findIdx?_eq_some_iff_getElem.1 hidx
      simp only [palloc_get_page, h2, h1, Bool.false_eq_true, if_false, hidx] at h
      cases hsw : swap_in st.vm.swap pte.swap_index (st.vm.memory (st.vm.kernel_pool.base + idx)) with
      | none => rw [hsw] at h; cases h
      | some r =>
        obtain ⟨page, sw⟩ := r
        rw [hsw] at h
        simp only [file_write_at_spec st.fs me.file f page PGSIZE ofs hf] at h
        cases hfr : palloc_free_page
            (set_memory (vm_state.mk st.vm.frame_table
              (palloc_pool.mk st.vm.kernel_pool.base (st.vm.kernel_pool.used_map.set idx true))
              st.vm.user_pool st.vm.threads st.vm.memory sw)
              (st.vm.kernel_pool.base + idx) page)
            (some (st.vm.kernel_pool.base + idx)) with
        | none => rw [hfr] at h; cases h
        | some vm3 =>
          rw [hfr] at h
          simp only [Option.some.injEq] at h
          subst h
          obtain ⟨a, b, _, _, d, e⟩ := palloc_free_page_keep _ _ _ hfr
          refine ⟨rfl, d, ?_, ?_, a, fun _ => ⟨page.take PGSIZE, ?_, ?_⟩,
            (fun hc => by cases hc)⟩
          · rw [e]
            simp only [set_memory, List.length_set]
          · intro p hp
            rw [b]
            simp only [set_memory]
            have hne : p ≠ st.vm.kernel_pool.base + idx := by
              intro hc
              subst hc
              simp only [page_from_pool, Bool.and_eq_false_iff, decide_eq_false_iff_not] at hp
              omega
            rw [Function.update_noteq hne]
          · rw [List.length_take]; omega
          · simp only [Function.update_same]

theorem munmap_page_spec (st st1 : sys_state) (cur : Nat) (me : mmap_entry) (size ofs : Nat)
    (f : vm_file) (hf : file_get st.fs me.file = some f)
    (h : munmap_page st cur me size ofs = some st1) :
    munmap_keep st st1 cur (ptr_add me.va ofs) ∧
    (st1.fs.inodes f.inode = st.fs.inodes f.inode ∨
      ∃ buf : List Nat, buf.length ≤ PGSIZE ∧
        st1.fs.inodes f.inode = bytes_write (st.fs.inodes f.inode) ofs buf) ∧
    (∀ pte, page_table_entry_search (st.vm.threads cur).page_table (ptr_add me.va ofs)
        = some pte →
      (pte.status = pte_status.FRAME → munmap_dirty (st.vm.threads cur).pagedir pte = true →
        ∃ page, user_page st.vm cur pte.virtual_page = some page ∧
          st1.fs.inodes f.inode
            = bytes_write (st.fs.inodes f.inode) ofs (page.take (munmap_bytes size ofs))) ∧
      (munmap_clean (st.vm.threads cur).pagedir pte →
        st1.fs.inodes f.inode = st.fs.inodes f.inode)) := by
  unfold munmap_page at h
  simp only at h
  cases hs : page_table_entry_search (st.vm.threads cur).page_table (ptr_add me.va ofs) with
  | none =>
    rw [hs] at h
    simp only [Option.some.injEq] at h
    subst h
    exact ⟨⟨rfl, rfl, rfl, fun _ _ => rfl, fun _ => rfl, fun _ _ => rfl, fun _ _ => rfl⟩,
      Or.inl rfl, fun pte hc => by cases hc⟩
  | some pte =>
    rw [hs] at h
    simp only at h
    have hkey := search_some_key _ _ _ hs
    have hsimple : ∀ s : sys_state, s = st →
        munmap_keep st (sys_state.mk (set_page_table s.vm cur
          (hash_delete (s.vm.threads cur).page_table pte.virtual_page)) s.fs s.mmap_list
          s.owned_files) cur (ptr_add me.va ofs) := by
      intro s hs2
      subst hs2
      refine ⟨rfl, rfl, rfl, fun _ _ => rfl, fun v => ?_, fun v _ => ?_, fun v hv => ?_⟩
      · simp only [set_page_table_pagedir]
      · simp only [set_page_table_pagedir]
      · simp only [set_page_table_get]
        rw [hkey]
        exact search_hash_delete_other _ _ _ hv
    cases hst : pte.status with
    | ZERO =>
      rw [hst] at h
      simp only [Option.some.injEq] at h
      subst h
      refine ⟨hsimple st rfl, Or.inl rfl, ?_⟩
      intro pte2 hp2
      simp only [Option.some.injEq] at hp2
      subst hp2
      exact ⟨(fun hc => by rw [hst] at hc; cases hc), fun _ => rfl⟩
    | MMAP =>
      rw [hst] at h
      simp only [Option.some.injEq] at h
      subst h
      refine ⟨hsimple st rfl, Or.inl rfl, ?_⟩
      intro pte2 hp2
      simp only [Option.some.injEq] at hp2
      subst hp2
      exact ⟨(fun hc => by rw [hst] at hc; cases hc), fun _ => rfl⟩
    | FRAME =>
      rw [hst] at h
      simp only at h
      cases hfr : munmap_frame st cur me pte
          (if ofs + PGSIZE ≥ size then size - ofs else PGSIZE) ofs with
      | none => rw [hfr] at h; cases h
      | some s2 =>
        rw [hfr] at h
        simp only [Option.some.injEq] at h
        subst h
        obtain ⟨a1, a2, a3, a4, a5, a6, a7, a8⟩ := munmap_frame_spec st s2 cur me pte _ ofs f hf hfr
        refine ⟨⟨a1, a2, a3, fun p _ => congrFun a4 p, fun v => ?_, fun v hv => ?_,
          fun v hv => ?_⟩, ?_, ?_⟩
        · simp only [set_page_table_pagedir]
          rw [a6, pagedir_clear_page_dirty]
        · simp only [set_page_table_pagedir]
          rw [a6, hkey, pagedir_clear_page_other _ _ _ hv]
        · simp only [set_page_table_get]
          rw [hkey, search_hash_delete_other _ _ _ hv, a5]
        · cases hd : munmap_dirty (st.vm.threads cur).pagedir pte with
          | false => left; exact congrFun (a8 hd) f.inode
          | true =>
            right
            obtain ⟨page, _, hc⟩ := a7 hd
            exact ⟨_, by rw [List.length_take]; split <;> omega, hc⟩
        · intro pte2 hp2
          simp only [Option.some.injEq] at hp2
          subst hp2
          refine ⟨fun _ hd => a7 hd, fun hcl => ?_⟩
          have hd : munmap_dirty (st.vm.threads cur).pagedir pte = false := by
            unfold munmap_dirty
            rw [hcl.1, hcl.2 hst]; rfl
          exact congrFun (a8 hd) f.inode
    | SWAP =>
      rw [hst] at h
      simp only at h
      cases hsw : munmap_swap st cur me pte ofs with
      | none => rw [hsw] at h; cases h
      | some s2 =>
        rw [hsw] at h
        simp only [Option.some.injEq] at h
        subst h
        obtain ⟨a1, a2, a3, a4, a5, a6, a7⟩ := munmap_swap_spec st s2 cur me pte ofs f hf hsw
        refine ⟨⟨a1, a2, a3, a4, fun v => ?_, fun v _ => ?_, fun v hv => ?_⟩, ?_, ?_⟩
        · simp only [set_page_table_pagedir, a5]
        · simp only [set_page_table_pagedir, a5]
        · simp only [set_page_table_get]
          rw [hkey, search_hash_delete_other _ _ _ hv, a5]
        · cases hd : pagedir_is_dirty (st.vm.threads cur).pagedir pte.virtual_page with
          | false => left; exact congrFun (a7 hd) f.inode
          | true => right; exact a6 hd
        · intro pte2 hp2
          simp only [Option.some.injEq] at hp2
          subst hp2
          exact ⟨(fun hc => by rw [hst] at hc; cases hc),
            fun hcl => congrFun (a7 hcl.1) f.inode⟩

theorem munmap_bytes_le (size ofs : Nat) (h : ofs < size) :
    munmap_bytes size ofs ≤ PGSIZE ∧ ofs + munmap_bytes size ofs ≤ size ∧
      0 < munmap_bytes size ofs := by
  unfold munmap_bytes
  have hP : PGSIZE = 4096 := rfl
  split <;> omega

theorem file_get_congr (fs fs2 : file_sys) (file : Nat) (h : fs2.files = fs.files) :
    file_get fs2 file = file_get fs file := by
  unfold file_get
  rw [h]

theorem page_from_pool_congr (pool pool2 : palloc_pool) (p : Nat) (hb : pool2.base = pool.base)
    (hl : pool2.used_map.length = pool.used_map.length) :
    page_from_pool pool2 p = page_from_pool pool p := by
  unfold page_from_pool
  rw [hb, hl]

theorem munmap_inv_step (st stk st1 : sys_state) (cur : Nat) (me : mmap_entry) (f : vm_file)
    (size k : Nat) (hf : file_get st.fs me.file = some f)
    (hN : page_count size * PGSIZE ≤ 2 ^ 32)
    (hpool : ∀ m, m < page_count size → ∀ e,
      (st.vm.threads cur).pagedir (ptr_add me.va (m * PGSIZE)) = some e → e.present = true →
      page_from_pool st.vm.kernel_pool e.frame = false)
    (hk : k < page_count size) (hinv : munmap_inv st stk cur me f size k)
    (hstep : munmap_page stk cur me size (k * PGSIZE) = some st1) :
    munmap_inv st st1 cur me f size (k + 1) := by
  have hfk : file_get stk.fs me.file = some f := by
    rw [file_get_congr _ _ _ hinv.files]; exact hf
  obtain ⟨keep, hcont, hpost⟩ := munmap_page_spec stk st1 cur me size (k * PGSIZE) f hfk hstep
  have hP : PGSIZE = 4096 := rfl
  have hksize : k * PGSIZE < size := (page_count_lt size k).1 hk
  have hne : ∀ m, k + 1 ≤ m → m < page_count size →
      ptr_add me.va (m * PGSIZE) ≠ ptr_add me.va (k * PGSIZE) := by
    intro m hm1 hm2
    exact page_key_ne me.va (page_count size) k m hN hk hm2 (by omega)
  have hout : ∀ q, q < size → (q < k * PGSIZE ∨ (k + 1) * PGSIZE ≤ q) →
      (st1.fs.inodes f.inode)[q]? = (stk.fs.inodes f.inode)[q]? := by
    intro q hq hqk
    rcases hcont with hc | ⟨buf, hbl, hc⟩
    · rw [hc]
    · rw [hc]
      apply bytes_write_out _ _ _ _ (by have := hinv.len; omega)
      rcases hqk with h1 | h1
      · exact Or.inl h1
      · right
        rw [Nat.add_mul, Nat.one_mul] at h1
        omega
  refine ⟨keep.files.trans hinv.files, keep.kbase.trans hinv.kbase, keep.klen.trans hinv.klen,
    ?_, fun v => (keep.dirty v).trans (hinv.dirty v), ?_, ?_, ?_, ?_, ?_⟩
  · intro p hp
    rw [keep.mem p (by rw [page_from_pool_congr _ _ p hinv.kbase hinv.klen]; exact hp)]
    exact hinv.mem p hp
  · intro m hm1 hm2
    rw [keep.pd _ (hne m hm1 hm2)]
    exact hinv.pd m (by omega) hm2
  · intro m hm1 hm2
    rw [keep.pt _ (hne m hm1 hm2)]
    exact hinv.pt m (by omega) hm2
  · rcases hcont with hc | ⟨buf, _, hc⟩
    · rw [hc]; exact hinv.len
    · rw [hc]
      exact Nat.le_trans hinv.len (bytes_write_length _ _ _)
  · intro q hq1 hq2
    rw [hout q hq2 (Or.inr hq1)]
    exact hinv.rest q (by rw [Nat.add_mul, Nat.one_mul] at hq1; omega) hq2
  · intro m hm pte hpte
    by_cases hmk : m = k
    · subst hmk
      have hptek : page_table_entry_search (stk.vm.threads cur).page_table
          (ptr_add me.va (m * PGSIZE)) = some pte := by
        rw [hinv.pt m (Nat.le_refl _) hk]; exact hpte
      have hkey := search_some_key _ _ _ hpte
      obtain ⟨hb1, hb2, _⟩ := munmap_bytes_le size (m * PGSIZE) hksize
      have hdirty : munmap_dirty (stk.vm.threads cur).pagedir pte
          = munmap_dirty (st.vm.threads cur).pagedir pte := by
        unfold munmap_dirty
        rw [hinv.dirty, hinv.dirty]
      obtain ⟨post1, post2⟩ := hpost pte hptek
      refine ⟨?_, ?_⟩
      · intro hst hd
        obtain ⟨page, hup, hc⟩ := post1 hst (by rw [hdirty]; exact hd)
        refine ⟨page, ?_, ?_⟩
        · unfold user_page at hup ⊢
          rw [hkey] at hup ⊢
          rw [hinv.pd m (Nat.le_refl _) hk] at hup
          cases he : (st.vm.threads cur).pagedir (ptr_add me.va (m * PGSIZE)) with
          | none => rw [he] at hup; cases hup
          | some e =>
            rw [he] at hup
            simp only at hup ⊢
            by_cases hp : e.present = true
            · rw [if_pos hp] at hup ⊢
              rw [← hinv.mem e.frame (hpool m hk e he hp)]
              exact hup
            · rw [if_neg hp] at hup
              cases hup
        · intro j hj1 hj2
          rw [hc, bytes_write_in _ _ _ _ (by rw [List.length_take]; omega),
            List.getElem?_take_of_lt hj1]
      · intro hcl j hj
        have hclk : munmap_clean (stk.vm.threads cur).pagedir pte := by
          unfold munmap_clean at hcl ⊢
          rw [hinv.dirty, hinv.dirty]
          exact hcl
        rw [post2 hclk]
        exact hinv.rest _ (by omega) (by omega)
    · have hmlt : m < k := by omega
      have hmsize : m * PGSIZE < size := by
        have : m * PGSIZE < k * PGSIZE := Nat.mul_lt_mul_of_pos_right hmlt (by decide)
        omega
      obtain ⟨hb1, hb2, _⟩ := munmap_bytes_le size (m * PGSIZE) hmsize
      have hmk2 : (m + 1) * PGSIZE ≤ k * PGSIZE := Nat.mul_le_mul_right _ hmlt
      rw [Nat.add_mul, Nat.one_mul] at hmk2
      obtain ⟨d1, d2⟩ := hinv.done m hmlt pte hpte
      refine ⟨?_, ?_⟩
      · intro hst hd
        obtain ⟨page, hup, hc⟩ := d1 hst hd
        refine ⟨page, hup, ?_⟩
        intro j hj1 hj2
        rw [hout _ (by omega) (Or.inl (by omega))]
        exact hc j hj1 hj2
      · intro hcl j hj
        rw [hout _ (by omega) (Or.inl (by omega))]
        exact d2 hcl j hj

theorem munmap_loop_inv (st : sys_state) (cur : Nat) (me : mmap_entry) (f : vm_file)
    (size : Nat) (hf : file_get st.fs me.file = some f)
    (hsize : size = (st.fs.inodes f.inode).length)
    (hN : page_count size * PGSIZE ≤ 2 ^ 32)
    (hpool : ∀ m, m < page_count size → ∀ e,
      (st.vm.threads cur).pagedir (ptr_add me.va (m * PGSIZE)) = some e → e.present = true →
      page_from_pool st.vm.kernel_pool e.frame = false) :
    ∀ k, k ≤ page_count size → ∀ stk, munmap_loop cur me size st k = some stk →
      munmap_inv st stk cur me f size k := by
  intro k
  induction k with
  | zero =>
    intro _ stk h
    simp only [munmap_loop, Option.some.injEq] at h
    subst h
    exact ⟨rfl, rfl, rfl, fun _ _ => rfl, fun _ => rfl, fun _ _ _ => rfl, fun _ _ _ => rfl,
      by rw [hsize], fun _ _ _ => rfl, fun m hm => absurd hm (Nat.not_lt_zero m)⟩
  | succ k ih =>
    intro hk stk h
    simp only [munmap_loop] at h
    cases hl : munmap_loop cur me size st k with
    | none => rw [hl] at h; cases h
    | some s1 =>
      rw [hl] at h
      simp only at h
      exact munmap_inv_step st s1 stk cur me f size k hf hN hpool (by omega)
        (ih (by omega) s1 hl) h

theorem munmap_find_nonempty (l : List mmap_entry) (id : Int) (i : Nat) (me : mmap_entry)
    (h : munmap_find l id = some (i, me)) : l.isEmpty = false := by
  cases l with
  | nil => simp [munmap_find] at h
  | cons a rest => rfl

theorem munmap_unfold (st : sys_state) (cur : Nat) (id : Int) (i : Nat) (me : mmap_entry)
    (f : vm_file) (hfind : munmap_find (st.mmap_list cur) id = some (i, me))
    (hf : file_get st.fs me.file = some f) :
    munmap st cur id
      = match munmap_loop cur me (st.fs.inodes f.inode).length st
          (page_count (st.fs.inodes f.inode).length) with
        | none => none
        | some st1 =>
          match file_close st1.fs me.file with
          | none => none
          | some fs1 =>
            some { st1 with
              fs := fs1
              mmap_list := Function.update st1.mmap_list cur ((st1.mmap_list cur).eraseIdx i) } := by
  unfold munmap
  rw [munmap_find_nonempty _ _ _ _ hfind, hfind]
  simp only [Bool.false_eq_true, if_false, file_length, hf]

/-- The pages of a mapping after `munmap`: the statement of the write-back property. -/
theorem munmap_pages_done (st st2 : sys_state) (cur : Nat) (id : Int) (i : Nat)
    (me : mmap_entry) (f : vm_file)
    (hfind : munmap_find (st.mmap_list cur) id = some (i, me))
    (hf : file_get st.fs me.file = some f)
    (hlen : (st.fs.inodes f.inode).length < 2 ^ 31)
    (hpool : ∀ m, m * PGSIZE < (st.fs.inodes f.inode).length → ∀ e,
      (st.vm.threads cur).pagedir (ptr_add me.va (m * PGSIZE)) = some e → e.present = true →
      page_from_pool st.vm.kernel_pool e.frame = false)
    (hrun : munmap st cur id = some st2) :
    ∀ k, k * PGSIZE < (st.fs.inodes f.inode).length → ∀ pte,
      page_table_entry_search (st.vm.threads cur).page_table (ptr_add me.va (k * PGSIZE))
        = some pte →
      (pte.status = pte_status.FRAME → munmap_dirty (st.vm.threads cur).pagedir pte = true →
        ∃ page, user_page st.vm cur pte.virtual_page = some page ∧
          ∀ j, j < munmap_bytes (st.fs.inodes f.inode).length (k * PGSIZE) → j < page.length →
            (st2.fs.inodes f.inode)[k * PGSIZE + j]? = page[j]?) ∧
      (munmap_clean (st.vm.threads cur).pagedir pte →
        ∀ j, j < munmap_bytes (st.fs.inodes f.inode).length (k * PGSIZE) →
          (st2.fs.inodes f.inode)[k * PGSIZE + j]? = (st.fs.inodes f.inode)[k * PGSIZE + j]?) := by
  rw [munmap_unfold st cur id i me f hfind hf] at hrun
  cases hl : munmap_loop cur me (st.fs.inodes f.inode).length st
      (page_count (st.fs.inodes f.inode).length) with
  | none => rw [hl] at hrun; cases hrun
  | some st1 =>
    rw [hl] at hrun
    simp only at hrun
    have hN : page_count (st.fs.inodes f.inode).length * PGSIZE ≤ 2 ^ 32 := by
      unfold page_count
      show ((st.fs.inodes f.inode).length + 4096 - 1) / 4096 * 4096 ≤ 2 ^ 32
      omega
    have hinv := munmap_loop_inv st cur me f (st.fs.inodes f.inode).length hf rfl hN
      (fun m hm => hpool m ((page_count_lt _ _).1 hm)) _ (Nat.le_refl _) st1 hl
    have hin : st2.fs.inodes = st1.fs.inodes := by
      cases hc : file_close st1.fs me.file with
      | none => rw [hc] at hrun; cases hrun
      | some fs1 =>
        rw [hc] at hrun
        simp only [Option.some.injEq] at hrun
        subst hrun
        unfold file_close at hc
        split at hc
        · cases hc
        · simp only [Option.some.injEq] at hc
          rw [← hc]
    intro k hk pte hpte
    rw [hin]
    exact hinv.done k ((page_count_lt _ _).2 hk) pte hpte

/-- C16: unmap write-back.  Let `munmap (id)` by thread `cur` return, on a state in which
`id` names the mapping `me` of a file of `S` bytes (an `off_t` length) and no mapped page of
the extent sits in a frame of the kernel pool.  Then for every page `k` of the extent that
had a page-table entry: if the entry was resident (`FRAME`) and dirty, by the dirty indicator
of the page or of its frame, the bytes of the file from `k * PGSIZE` up to
`min (k * PGSIZE + PGSIZE) S` equal the contents of the page in memory; and if the page was
not dirty, those bytes of the file are unchanged. -/
theorem munmap_write_back (st st2 : sys_state) (cur : Nat) (id : Int) (i : Nat)
    (me : mmap_entry) (f : vm_file)
    (hfind : munmap_find (st.mmap_list cur) id = some (i, me))
    (hf : file_get st.fs me.file = some f)
    (hlen : (st.fs.inodes f.inode).length < 2 ^ 31)
    (hpool : ∀ m, m * PGSIZE < (st.fs.inodes f.inode).length → ∀ e,
      (st.vm.threads cur).pagedir (ptr_add me.va (m * PGSIZE)) = some e → e.present = true →
      page_from_pool st.vm.kernel_pool e.frame = false)
    (hrun : munmap st cur id = some st2) :
    ∀ k, k * PGSIZE < (st.fs.inodes f.inode).length → ∀ pte,
      page_table_entry_search (st.vm.threads cur).page_table (ptr_add me.va (k * PGSIZE))
        = some pte →
      (pte.status = pte_status.FRAME → munmap_dirty (st.vm.threads cur).pagedir pte = true →
        ∃ page, user_page st.vm cur pte.virtual_page = some page ∧
          ∀ j, j < munmap_bytes (st.fs.inodes f.inode).length (k * PGSIZE) → j < page.length →
            (st2.fs.inodes f.inode)[k * PGSIZE + j]? = page[j]?) ∧
      (munmap_clean (st.vm.threads cur).pagedir pte →
        ∀ j, j < munmap_bytes (st.fs.inodes f.inode).length (k * PGSIZE) →
          (st2.fs.inodes f.inode)[k * PGSIZE + j]? = (st.fs.inodes f.inode)[k * PGSIZE + j]?) :=
  munmap_pages_done st st2 cur id i me f hfind hf hlen hpool hrun

theorem sys_mapped_file_length (i : Nat) : (sys_mapped_file.fs.inodes i).length = 10000 :=
  List.length_replicate _ _

theorem sys_mapped_file_frames : ∀ m, m * PGSIZE < (sys_mapped_file.fs.inodes 0).length →
    ∀ e, (sys_mapped_file.vm.threads 1).pagedir (ptr_add 0x10000 (m * PGSIZE)) = some e →
      e.present = true → page_from_pool sys_mapped_file.vm.kernel_pool e.frame = false := by
  intro m _ e he _
  show page_from_pool (palloc_pool.mk 1 [false, false]) e.frame = false
  have he2 : (if ptr_add 0x10000 (m * PGSIZE) = 0x10000 then
        some (pagedir_entry.mk true 3 true true true)
      else if ptr_add 0x10000 (m * PGSIZE) = 0x12000 then
        some (pagedir_entry.mk true 4 true true true)
      else none) = some e := he
  split at he2
  · simp only [Option.some.injEq] at he2; rw [← he2]; decide
  · split at he2
    · simp only [Option.some.injEq] at he2; rw [← he2]; decide
    · cases he2

theorem sys_mapped_file_runs : ∃ st2, munmap sys_mapped_file 1 1 = some st2 := by
  have hloop : ∃ st1, munmap_loop 1 (mmap_entry.mk 1 1 0x10000) 10000 sys_mapped_file 3
      = some st1 := ⟨_, rfl⟩
  obtain ⟨st1, hl⟩ := hloop
  have hpc : page_count 10000 = 3 := by decide
  have hinv := munmap_loop_inv sys_mapped_file 1 (mmap_entry.mk 1 1 0x10000) (vm_file.mk 0 0)
    10000 rfl (sys_mapped_file_length 0).symm (by rw [hpc]; decide)
    (fun m hm => sys_mapped_file_frames m (by
      rw [sys_mapped_file_length]; exact (page_count_lt _ _).1 hm)) 3 (by rw [hpc]) st1 hl
  rw [munmap_unfold sys_mapped_file 1 1 0 (mmap_entry.mk 1 1 0x10000) (vm_file.mk 0 0) rfl rfl,
    sys_mapped_file_length, hpc, hl]
  have hfg : file_get st1.fs 1 = some (vm_file.mk 0 0) := by
    rw [file_get_congr _ _ _ hinv.files]; rfl
  simp only [file_close, hfg]
  exact ⟨_, rfl⟩

theorem munmap_write_back_witness :
    munmap_find (sys_mapped_file.mmap_list 1) 1 = some (0, mmap_entry.mk 1 1 0x10000) ∧
    file_get sys_mapped_file.fs 1 = some (vm_file.mk 0 0) ∧
    (sys_mapped_file.fs.inodes 0).length < 2 ^ 31 ∧
    (∀ m, m * PGSIZE < (sys_mapped_file.fs.inodes 0).length →
      ∀ e, (sys_mapped_file.vm.threads 1).pagedir (ptr_add 0x10000 (m * PGSIZE)) = some e →
        e.present = true → page_from_pool sys_mapped_file.vm.kernel_pool e.frame = false) ∧
    ∃ st2, munmap sys_mapped_file 1 1 = some st2 ∧
      ∀ k, k * PGSIZE < (sys_mapped_file.fs.inodes 0).length → ∀ pte,
        page_table_entry_search (sys_mapped_file.vm.threads 1).page_table
          (ptr_add 0x10000 (k * PGSIZE)) = some pte →
        (pte.status = pte_status.FRAME →
          munmap_dirty (sys_mapped_file.vm.threads 1).pagedir pte = true →
          ∃ page, user_page sys_mapped_file.vm 1 pte.virtual_page = some page ∧
            ∀ j, j < munmap_bytes (sys_mapped_file.fs.inodes 0).length (k * PGSIZE) →
              j < page.length → (st2.fs.inodes 0)[k * PGSIZE + j]? = page[j]?) ∧
        (munmap_clean (sys_mapped_file.vm.threads 1).pagedir pte →
          ∀ j, j < munmap_bytes (sys_mapped_file.fs.inodes 0).length (k * PGSIZE) →
            (st2.fs.inodes 0)[k * PGSIZE + j]? = (sys_mapped_file.fs.inodes 0)[k * PGSIZE + j]?) :=
  ⟨rfl, rfl, by rw [sys_mapped_file_length]; decide, sys_mapped_file_frames,
    sys_mapped_file_runs.elim (fun st2 h => ⟨st2, h,
      munmap_write_back sys_mapped_file st2 1 1 0 (mmap_entry.mk 1 1 0x10000) (vm_file.mk 0 0)
        rfl rfl (by rw [sys_mapped_file_length]; decide) sys_mapped_file_frames h⟩)⟩

/-- The end-to-end scenario of C16: after `munmap` of the mapping of the 10000-byte file, the
bytes of the first page in the file are the `0xAA` written to the page, those of the last
page, up to the end of the file, are the `0xBB` written there, and those of the untouched
middle page are the `0x11` of the original file. -/
theorem munmap_scenario_bytes (st2 : sys_state) (h : munmap sys_mapped_file 1 1 = some st2) :
    (∀ j, j < 4096 → (st2.fs.inodes 0)[j]? = some 0xAA) ∧
    (∀ j, j < 4096 → (st2.fs.inodes 0)[4096 + j]? = some 0x11) ∧
    (∀ j, j < 1808 → (st2.fs.inodes 0)[8192 + j]? = some 0xBB) := by
  have hw := munmap_pages_done sys_mapped_file st2 1 1 0 (mmap_entry.mk 1 1 0x10000)
    (vm_file.mk 0 0) rfl rfl (by rw [sys_mapped_file_length]; decide) sys_mapped_file_frames h
  have hb0 : munmap_bytes 10000 (0 * PGSIZE) = 4096 := by decide
  have hb1 : munmap_bytes 10000 (1 * PGSIZE) = 4096 := by decide
  have hb2 : munmap_bytes 10000 (2 * PGSIZE) = 1808 := by decide
  refine ⟨?_, ?_, ?_⟩
  · intro j hj
    obtain ⟨page, hp, hc⟩ := (hw 0 (by rw [sys_mapped_file_length]; decide) _ rfl).1 rfl rfl
    have hpage : page = List.replicate PGSIZE 0xAA := by
      have : user_page sys_mapped_file.vm 1 0x10000 = some (List.replicate PGSIZE 0xAA) := rfl
      rw [this] at hp
      exact (Option.some.inj hp).symm
    subst hpage
    have := hc j (by show j < munmap_bytes (sys_mapped_file.fs.inodes 0).length (0 * PGSIZE)
                     rw [sys_mapped_file_length, hb0]; exact hj)
      (by rw [List.length_replicate]; exact hj)
    rw [show 0 * PGSIZE + j = j by omega] at this
    rw [this, List.getElem?_replicate, if_pos (show j < PGSIZE from hj)]
  · intro j hj
    have hcl : munmap_clean (sys_mapped_file.vm.threads 1).pagedir
        (page_table_entry.mk none 0x11000 pte_status.MMAP 0 1 4096 4096 0 true) :=
      ⟨rfl, fun hc => by cases hc⟩
    have := (hw 1 (by rw [sys_mapped_file_length]; decide) _ rfl).2 hcl j
      (by show j < munmap_bytes (sys_mapped_file.fs.inodes 0).length (1 * PGSIZE)
          rw [sys_mapped_file_length, hb1]; exact hj)
    rw [show 1 * PGSIZE + j = 4096 + j by show 1 * 4096 + j = _; omega] at this
    rw [this]
    show (List.replicate 10000 0x11)[4096 + j]? = _
    rw [List.getElem?_replicate, if_pos (by omega)]
  · intro j hj
    obtain ⟨page, hp, hc⟩ := (hw 2 (by rw [sys_mapped_file_length]; decide) _ rfl).1 rfl rfl
    have hpage : page = List.replicate PGSIZE 0xBB := by
      have : user_page sys_mapped_file.vm 1 0x12000 = some (List.replicate PGSIZE 0xBB) := rfl
      rw [this] at hp
      exact (Option.some.inj hp).symm
    subst hpage
    have := hc j (by show j < munmap_bytes (sys_mapped_file.fs.inodes 0).length (2 * PGSIZE)
                     rw [sys_mapped_file_length, hb2]; exact hj)
      (by rw [List.length_replicate]; show j < 4096; omega)
    rw [show 2 * PGSIZE + j = 8192 + j by show 2 * 4096 + j = _; omega] at this
    rw [this, List.getElem?_replicate, if_pos (show j < PGSIZE by show j < 4096; omega)]
/-! ## Inode layer: releasing the blocks of a removed inode -/

theorem free_map_release_spec (fm fm2 : List Nat) (s : Nat)
    (h : free_map_release fm s = some fm2) : fm2 = s :: fm ∧ s ∉ fm := by
  unfold free_map_release at h
  split at h
  · cases h
  · rename_i hs
    simp only [Option.some.injEq] at h
    exact ⟨h.symm, hs⟩

theorem free_map_release_fresh (fm : List Nat) (s : Nat) (h : s ∉ fm) :
    free_map_release fm s = some (s :: fm) := by
  unfold free_map_release
  rw [if_neg h]

/-- The entry loop of `inode_block_clear` over entries that are distinct and not free: it
releases exactly the entries `j < n`. -/
theorem inode_block_clear_loop_run (fm : List Nat) (words : List Nat) (E : Nat → Nat) :
    ∀ n, (∀ j, j < n → words[j]? = some (E j)) → (∀ j, j < n → E j ∉ fm) →
      (∀ j k, j < n → k < n → E j = E k → j = k) →
      ∃ rel, inode_block_clear_loop fm words n = some (rel ++ fm) ∧
        rel.Nodup ∧ ∀ x, x ∈ rel ↔ ∃ j, j < n ∧ x = E j := by
  intro n
  induction n with
  | zero =>
    intro _ _ _
    exact ⟨[], rfl, List.nodup_nil, fun x => by simp⟩
  | succ n ih =>
    intro hw hf hinj
    obtain ⟨rel, h1, h2, h3⟩ := ih (fun j hj => hw j (by omega)) (fun j hj => hf j (by omega))
      (fun j k hj hk => hinj j k (by omega) (by omega))
    have hnot : E n ∉ rel ++ fm := by
      intro hm
      rcases List.mem_append.1 hm with hm | hm
      · obtain ⟨j, hj, hx⟩ := (h3 _).1 hm
        have := hinj n j (by omega) (by omega) hx
        omega
      · exact hf n (by omega) hm
    refine ⟨E n :: rel, ?_, ?_, ?_⟩
    · simp only [inode_block_clear_loop, h1, hw n (by omega)]
      rw [free_map_release_fresh _ _ hnot]
      rfl
    · exact List.nodup_cons.2 ⟨fun hm => hnot (List.mem_append_left _ hm), h2⟩
    · intro x
      simp only [List.mem_cons, h3]
      constructor
      · rintro (rfl | ⟨j, hj, hx⟩)
        · exact ⟨n, by omega, rfl⟩
        · exact ⟨j, by omega, hx⟩
      · rintro ⟨j, hj, hx⟩
        by_cases hjn : j = n
        · subst hjn
          exact Or.inl hx
        · exact Or.inr ⟨j, by omega, hx⟩

/-- The first loop of `inode_close` over direct pointers that are distinct and not free: it
releases exactly the pointers `j < n` and touches nothing else. -/
theorem inode_close_direct_run (st : fs_state) (data : inode_disk) (E : Nat → Nat) :
    ∀ n, (∀ j, j < n → data.direct[j]? = some (E j)) → (∀ j, j < n → E j ∉ st.free_map) →
      (∀ j k, j < n → k < n → E j = E k → j = k) →
      ∃ rel, inode_close_direct st data n
          = some { cache := st.cache, free_map := rel ++ st.free_map,
                   open_inodes := st.open_inodes } ∧
        rel.Nodup ∧ ∀ x, x ∈ rel ↔ ∃ j, j < n ∧ x = E j := by
  intro n
  induction n with
  | zero =>
    intro _ _ _
    exact ⟨[], rfl, List.nodup_nil, fun x => by simp⟩
  | succ n ih =>
    intro hw hf hinj
    obtain ⟨rel, h1, h2, h3⟩ := ih (fun j hj => hw j (by omega)) (fun j hj => hf j (by omega))
      (fun j k hj hk => hinj j k (by omega) (by omega))
    have hnot : E n ∉ rel ++ st.free_map := by
      intro hm
      rcases List.mem_append.1 hm with hm | hm
      · obtain ⟨j, hj, hx⟩ := (h3 _).1 hm
        have := hinj n j (by omega) (by omega) hx
        omega
      · exact hf n (by omega) hm
    refine ⟨E n :: rel, ?_, ?_, ?_⟩
    · simp only [inode_close_direct, h1, hw n (by omega), inode_block_clear]
      rw [free_map_release_fresh _ _ hnot]
      rfl
    · exact List.nodup_cons.2 ⟨fun hm => hnot (List.mem_append_left _ hm), h2⟩
    · intro x
      simp only [List.mem_cons, h3]
      constructor
      · rintro (rfl | ⟨j, hj, hx⟩)
        · exact ⟨n, by omega, rfl⟩
        · exact ⟨j, by omega, hx⟩
      · rintro ⟨j, hj, hx⟩
        by_cases hjn : j = n
        · subst hjn
          exact Or.inl hx
        · exact Or.inr ⟨j, by omega, hx⟩

/-- The function `inode_block_clear` at level 1 on an indirect block whose first `size` entries
and own sector are distinct and not free: it releases these entries, then the block. -/
theorem inode_block_clear_run (st : fs_state) (p size : Nat) (E : Nat → Nat)
    (hc : cache_inv st.cache) (hp : p < st.cache.fs_device.size)
    (hw : ∀ j, j < size → (sector_words (cache_view st.cache p))[j]? = some (E j))
    (hf : ∀ j, j < size → E j ∉ st.free_map)
    (hinj : ∀ j k, j < size → k < size → E j = E k → j = k)
    (hpf : p ∉ st.free_map) (hpe : ∀ j, j < size → E j ≠ p) :
    ∃ c rel, inode_block_clear st p size 1
        = some { cache := c, free_map := rel ++ st.free_map, open_inodes := st.open_inodes } ∧
      cache_inv c ∧ (∀ t, cache_view c t = cache_view st.cache t) ∧
      c.fs_device.size = st.cache.fs_device.size ∧
      rel.Nodup ∧ ∀ x, x ∈ rel ↔ x = p ∨ ∃ j, j < size ∧ x = E j := by
  obtain ⟨c, r1, r2, r3, r4⟩ := cache_read_spec st.cache p hc hp
  obtain ⟨rel, h1, h2, h3⟩ := inode_block_clear_loop_run st.free_map
    (sector_words (cache_view st.cache p)) E size hw hf hinj
  have hnot : p ∉ rel ++ st.free_map := by
    intro hm
    rcases List.mem_append.1 hm with hm | hm
    · obtain ⟨j, hj, hx⟩ := (h3 _).1 hm
      exact hpe j hj hx.symm
    · exact hpf hm
  refine ⟨c, p :: rel, ?_, r2, r3, r4, ?_, ?_⟩
  · simp only [inode_block_clear, r1, h1]
    rw [free_map_release_fresh _ _ hnot]
    rfl
  · exact List.nodup_cons.2 ⟨fun hm => hnot (List.mem_append_left _ hm), h2⟩
  · intro x
    simp only [List.mem_cons, h3]

/-- The second loop of `inode_close` over a well-formed pointer tree.  Relative data sector `r`
is entry `r % 128` of the indirect block `T (r / 128)` at `indirect[i + r / 128]`; the loop
releases exactly the data sectors `S r` and the indirect blocks that hold them. -/
theorem inode_close_indirect_run (data : inode_disk) :
    ∀ (iters i sectors : Nat) (s : fs_state) (S T : Nat → Nat),
      cache_inv s.cache → 0 < sectors → sectors ≤ iters * 128 →
      (∀ r, r < sectors → data.indirect[i + r / 128]? = some (T (r / 128)) ∧
        (sector_words (cache_view s.cache (T (r / 128))))[r % 128]? = some (S r) ∧
        T (r / 128) < s.cache.fs_device.size ∧ T (r / 128) ∉ s.free_map ∧ S r ∉ s.free_map) →
      (∀ r k, r < sectors → k < sectors → S r = S k → r = k) →
      (∀ r k, r < sectors → k < sectors → T (r / 128) = T (k / 128) → r / 128 = k / 128) →
      (∀ r k, r < sectors → k < sectors → S r ≠ T (k / 128)) →
      ∃ c rel, inode_close_indirect data iters i sectors s
          = some { cache := c, free_map := rel ++ s.free_map, open_inodes := s.open_inodes } ∧
        cache_inv c ∧ (∀ t, cache_view c t = cache_view s.cache t) ∧
        c.fs_device.size = s.cache.fs_device.size ∧
        rel.Nodup ∧ ∀ x, x ∈ rel ↔ ∃ r, r < sectors ∧ (x = S r ∨ x = T (r / 128)) := by
  intro iters
  induction iters with
  | zero =>
    intro i sectors s S T _ h0 hcap
    omega
  | succ iters ih =>
    intro i sectors s S T hc h0 hcap hlay hSinj hTinj hsep
    have h128 : BLOCK_POINTER_NUM = 128 := rfl
    have hb : (if sectors < BLOCK_POINTER_NUM then sectors else BLOCK_POINTER_NUM) ≤ 128 := by
      rw [h128]; split <;> omega
    have hbs : (if sectors < BLOCK_POINTER_NUM then sectors else BLOCK_POINTER_NUM) ≤ sectors := by
      rw [h128]; split <;> omega
    generalize hblocks : (if sectors < BLOCK_POINTER_NUM then sectors else BLOCK_POINTER_NUM)
      = blocks at hb hbs
    have hl0 := hlay 0 h0
    simp only [Nat.zero_div, Nat.add_zero, Nat.zero_mod] at hl0
    have hent : ∀ j, j < blocks → j / 128 = 0 ∧ j % 128 = j := fun j hj => by omega
    obtain ⟨c1, rel1, e1, e2, e3, e4, e5, e6⟩ := inode_block_clear_run s (T 0) blocks S hc
      hl0.2.2.1
      (fun j hj => by
        have := (hlay j (by omega)).2.1
        rw [(hent j hj).1, (hent j hj).2] at this
        exact this)
      (fun j hj => (hlay j (by omega)).2.2.2.2)
      (fun j k hj hk => hSinj j k (by omega) (by omega))
      hl0.2.2.2.1
      (fun j hj => hsep j 0 (by omega) h0)
    by_cases hle : sectors ≤ BLOCK_POINTER_NUM
    · refine ⟨c1, rel1, ?_, e2, e3, e4, e5, ?_⟩
      · simp only [inode_close_indirect, hl0.1, hblocks, e1, if_pos hle]
      · intro x
        rw [e6]
        rw [h128] at hle
        have hbl : blocks = sectors := by
          rw [← hblocks, h128]; split <;> omega
        constructor
        · rintro (rfl | ⟨j, hj, hx⟩)
          · exact ⟨0, h0, Or.inr rfl⟩
          · exact ⟨j, by omega, Or.inl hx⟩
        · rintro ⟨r, hr, hx | hx⟩
          · exact Or.inr ⟨r, by omega, hx⟩
          · have : r / 128 = 0 := by omega
            rw [this] at hx
            exact Or.inl hx
    · rw [h128] at hle
      have hbl : blocks = 128 := by
        rw [← hblocks, h128]; split <;> omega
      have hin1 : ∀ x, x ∈ rel1 → ∃ r, r < 128 ∧ (x = S r ∨ x = T (r / 128)) := by
        intro x hx
        rcases (e6 x).1 hx with rfl | ⟨j, hj, hx⟩
        · exact ⟨0, by omega, Or.inr rfl⟩
        · exact ⟨j, by omega, Or.inl hx⟩
      have hdiv : ∀ r, (r + 128) / 128 = r / 128 + 1 ∧ (r + 128) % 128 = r % 128 :=
        fun r => by omega
      have hlay2 : ∀ r, r < sectors - 128 →
          data.indirect[i + 1 + r / 128]? = some (T (r / 128 + 1)) ∧
          (sector_words (cache_view c1 (T (r / 128 + 1))))[r % 128]? = some (S (r + 128)) ∧
          T (r / 128 + 1) < c1.fs_device.size ∧ T (r / 128 + 1) ∉ rel1 ++ s.free_map ∧
          S (r + 128) ∉ rel1 ++ s.free_map := by
        intro r hr
        have := hlay (r + 128) (by omega)
        rw [(hdiv r).1, (hdiv r).2] at this
        refine ⟨by rw [← this.1]; congr 1; omega, by simp only [e3]; exact this.2.1,
          by simp only [e4]; exact this.2.2.1, ?_, ?_⟩
        · intro hm
          rcases List.mem_append.1 hm with hm | hm
          · obtain ⟨k, hk, hx | hx⟩ := hin1 _ hm
            · exact hsep k (r + 128) (by omega) (by omega)
                (by rw [(hdiv r).1]; exact hx.symm)
            · have := hTinj (r + 128) k (by omega) (by omega)
                (by rw [(hdiv r).1]; exact hx)
              omega
          · exact this.2.2.2.1 hm
        · intro hm
          rcases List.mem_append.1 hm with hm | hm
          · obtain ⟨k, hk, hx | hx⟩ := hin1 _ hm
            · have := hSinj (r + 128) k (by omega) (by omega) hx
              omega
            · exact hsep (r + 128) k (by omega) (by omega) hx
          · exact this.2.2.2.2 hm
      obtain ⟨c2, rel2, f1, f2, f3, f4, f5, f6⟩ := ih (i + 1) (sectors - 128)
        { cache := c1, free_map := rel1 ++ s.free_map, open_inodes := s.open_inodes }
        (fun r => S (r + 128)) (fun q => T (q + 1)) e2 (by omega) (by omega) hlay2
        (fun r k hr hk hx => by
          have := hSinj (r + 128) (k + 128) (by omega) (by omega) hx
          omega)
        (fun r k hr hk hx => by
          have := hTinj (r + 128) (k + 128) (by omega) (by omega)
            (by rw [(hdiv r).1, (hdiv k).1]; exact hx)
          omega)
        (fun r k hr hk => by
          have := hsep (r + 128) (k + 128) (by omega) (by omega)
          rw [(hdiv k).1] at this
          exact this)
      refine ⟨c2, rel2 ++ rel1, ?_, f2, fun t => by rw [f3, e3], by rw [f4, e4], ?_, ?_⟩
      · simp only [inode_close_indirect, hl0.1, hblocks, e1]
        rw [if_neg (by rw [h128]; omega), h128, f1, List.append_assoc]
      · refine List.Nodup.append f5 e5 ?_
        intro x hx2 hx1
        obtain ⟨r, hr, hx⟩ := (f6 x).1 hx2
        rcases hx with hx | hx
        · exact (hlay2 r hr).2.2.2.2 (hx ▸ List.mem_append_left _ hx1)
        · exact (hlay2 r hr).2.2.2.1 (hx ▸ List.mem_append_left _ hx1)
      · intro x
        rw [List.mem_append, f6, e6]
        constructor
        · rintro (⟨r, hr, hx⟩ | rfl | ⟨j, hj, hx⟩)
          · refine ⟨r + 128, by omega, ?_⟩
            rw [(hdiv r).1]
            exact hx
          · exact ⟨0, h0, Or.inr rfl⟩
          · exact ⟨j, by omega, Or.inl hx⟩
        · rintro ⟨r, hr, hx⟩
          by_cases hr1 : r < 128
          · rcases hx with hx | hx
            · exact Or.inr (Or.inr ⟨r, by omega, hx⟩)
            · have : r / 128 = 0 := by omega
              rw [this] at hx
              exact Or.inr (Or.inl hx)
          · refine Or.inl ⟨r - 128, by omega, ?_⟩
            have h1 : r - 128 + 128 = r := by omega
            have h2 : (r - 128) / 128 + 1 = r / 128 := by omega
            rw [h1, h2]
            exact hx

/-- The block release of `inode_close` on a well-formed pointer tree of `n` data sectors `S k`
and indirect blocks `T q`, none of them free: it releases each of them exactly once. -/
theorem inode_close_blocks_run (st : fs_state) (data : inode_disk) (n : Nat) (S T : Nat → Nat)
    (hc : cache_inv st.cache) (hn : n = bytes_to_sectors data.length)
    (hcap : n ≤ 25 + 100 * 128)
    (hlay : inode_layout (cache_view st.cache) st.cache.fs_device.size data n S T)
    (hTinj : ∀ k j, 25 ≤ k → k < n → 25 ≤ j → j < n →
      T ((k - 25) / 128) = T ((j - 25) / 128) → (k - 25) / 128 = (j - 25) / 128)
    (hS : ∀ k, k < n → S k ∉ st.free_map)
    (hT : ∀ k, 25 ≤ k → k < n → T ((k - 25) / 128) ∉ st.free_map) :
    ∃ c rel, inode_close_blocks st data
        = some { cache := c, free_map := rel ++ st.free_map, open_inodes := st.open_inodes } ∧
      rel.Nodup ∧
      ∀ x, x ∈ rel ↔ (∃ k, k < n ∧ x = S k) ∨ (∃ k, 25 ≤ k ∧ k < n ∧ x = T ((k - 25) / 128)) := by
  have h25 : DIRECT_BLOCK_NUM = 25 := rfl
  have hblocks : (if n < DIRECT_BLOCK_NUM then n else DIRECT_BLOCK_NUM) ≤ 25 ∧
      (if n < DIRECT_BLOCK_NUM then n else DIRECT_BLOCK_NUM) ≤ n := by
    rw [h25]; split <;> omega
  generalize hb : (if n < DIRECT_BLOCK_NUM then n else DIRECT_BLOCK_NUM) = blocks at hblocks
  obtain ⟨rel1, d1, d2, d3⟩ := inode_close_direct_run st data S blocks
    (fun j hj => hlay.direct j (by omega) (by omega)) (fun j hj => hS j (by omega))
    (fun j k hj hk => hlay.inj j k (by omega) (by omega))
  by_cases hle : n ≤ DIRECT_BLOCK_NUM
  · refine ⟨st.cache, rel1, ?_, d2, ?_⟩
    · simp only [inode_close_blocks, ← hn, hb, d1, if_pos hle]
    · intro x
      rw [d3]
      rw [h25] at hle
      have hbn : blocks = n := by rw [← hb, h25]; split <;> omega
      constructor
      · rintro ⟨j, hj, hx⟩
        exact Or.inl ⟨j, by omega, hx⟩
      · rintro (⟨k, hk, hx⟩ | ⟨k, hk1, hk2, _⟩)
        · exact ⟨k, by omega, hx⟩
        · omega
  · rw [h25] at hle
    have hbn : blocks = 25 := by rw [← hb, h25]; split <;> omega
    have hsub : ∀ r, r + 25 - 25 = r := fun r => by omega
    have hlay2 : ∀ r, r < n - 25 →
        data.indirect[0 + r / 128]? = some (T (r / 128)) ∧
        (sector_words (cache_view st.cache (T (r / 128))))[r % 128]? = some (S (r + 25)) ∧
        T (r / 128) < st.cache.fs_device.size ∧ T (r / 128) ∉ rel1 ++ st.free_map ∧
        S (r + 25) ∉ rel1 ++ st.free_map := by
      intro r hr
      have a := hlay.indirect (r + 25) (by omega) (by omega)
      have b := hlay.t_range (r + 25) (by omega) (by omega)
      have c := hT (r + 25) (by omega) (by omega)
      rw [hsub] at a b c
      refine ⟨by rw [Nat.zero_add]; exact a.1, a.2, b, ?_, ?_⟩
      · intro hm
        rcases List.mem_append.1 hm with hm | hm
        · obtain ⟨j, hj, hx⟩ := (d3 _).1 hm
          have := hlay.sep j (r + 25) (by omega) (by omega) (by omega)
          rw [hsub] at this
          exact this hx.symm
        · exact c hm
      · intro hm
        rcases List.mem_append.1 hm with hm | hm
        · obtain ⟨j, hj, hx⟩ := (d3 _).1 hm
          have := hlay.inj (r + 25) j (by omega) (by omega) hx
          omega
        · exact hS (r + 25) (by omega) hm
    obtain ⟨c2, rel2, f1, f2, f3, f4, f5, f6⟩ := inode_close_indirect_run data 100 0 (n - 25)
      { cache := st.cache, free_map := rel1 ++ st.free_map, open_inodes := st.open_inodes }
      (fun r => S (r + 25)) T hc (by omega) (by omega) hlay2
      (fun r k hr hk hx => by
        have := hlay.inj (r + 25) (k + 25) (by omega) (by omega) hx
        omega)
      (fun r k hr hk hx => by
        have := hTinj (r + 25) (k + 25) (by omega) (by omega) (by omega) (by omega)
          (by rw [hsub, hsub]; exact hx)
        rw [hsub, hsub] at this
        exact this)
      (fun r k hr hk => by
        have := hlay.sep (r + 25) (k + 25) (by omega) (by omega) (by omega)
        rw [hsub] at this
        exact this)
    refine ⟨c2, rel2 ++ rel1, ?_, ?_, ?_⟩
    · simp only [inode_close_blocks, ← hn, hb, d1]
      rw [if_neg (by rw [h25]; omega), h25]
      show inode_close_indirect data 100 0 (n - 25) _ = _
      rw [f1, List.append_assoc]
    · refine List.Nodup.append f5 d2 ?_
      intro x hx2 hx1
      obtain ⟨r, hr, hx⟩ := (f6 x).1 hx2
      rcases hx with hx | hx
      · exact (hlay2 r hr).2.2.2.2 (hx ▸ List.mem_append_left _ hx1)
      · exact (hlay2 r hr).2.2.2.1 (hx ▸ List.mem_append_left _ hx1)
    · intro x
      rw [List.mem_append, f6, d3]
      constructor
      · rintro (⟨r, hr, hx | hx⟩ | ⟨j, hj, hx⟩)
        · exact Or.inl ⟨r + 25, by omega, hx⟩
        · exact Or.inr ⟨r + 25, by omega, by omega, by rw [hsub]; exact hx⟩
        · exact Or.inl ⟨j, by omega, hx⟩
      · rintro (⟨k, hk, hx⟩ | ⟨k, hk1, hk2, hx⟩)
        · by_cases hk25 : k < 25
          · exact Or.inr ⟨k, by omega, hx⟩
          · refine Or.inl ⟨k - 25, by omega, Or.inl ?_⟩
            have : k - 25 + 25 = k := by omega
            simp only [this]
            exact hx
        · exact Or.inl ⟨k - 25, by omega, Or.inr hx⟩

/-- Release on close, for the sectors below the length: `inode_close` releases sectors only
when the call drops the open count to zero on an inode marked removed: any other call returns
with the free map unchanged.  On a removed inode with one opener and a well-formed pointer
tree over the `bytes_to_sectors (length)` sectors of its length (data sectors `S k`, indirect
blocks `T q`, none of them free), the call returns and the free map grows by these data
sectors and indirect blocks and, released last, the inode's own sector; the released list has
no sector twice.  Pointers past the length are not looked at. -/
theorem inode_close_releases (st : fs_state) (h : Nat) (ino : inode)
    (hlook : inode_lookup st h = some ino) :
    (¬(ino.open_cnt = 1 ∧ ino.removed = true) →
      ∃ st2, inode_close st h = some st2 ∧ st2.free_map = st.free_map ∧
        st2.cache = st.cache) ∧
    (ino.open_cnt = 1 → ino.removed = true → ∀ (n : Nat) (S T : Nat → Nat),
      n = bytes_to_sectors ino.data.length → n ≤ 25 + 100 * 128 →
      cache_inv st.cache →
      inode_layout (cache_view st.cache) st.cache.fs_device.size ino.data n S T →
      (∀ k j, 25 ≤ k → k < n → 25 ≤ j → j < n →
        T ((k - 25) / 128) = T ((j - 25) / 128) → (k - 25) / 128 = (j - 25) / 128) →
      (∀ k, k < n → S k ∉ st.free_map ∧ S k ≠ ino.sector) →
      (∀ k, 25 ≤ k → k < n →
        T ((k - 25) / 128) ∉ st.free_map ∧ T ((k - 25) / 128) ≠ ino.sector) →
      ino.sector ∉ st.free_map →
      ∃ st2 rel, inode_close st h = some st2 ∧
        st2.free_map = ino.sector :: rel ++ st.free_map ∧
        (ino.sector :: rel).Nodup ∧
        (∀ x, x ∈ rel ↔
          (∃ k, k < n ∧ x = S k) ∨ (∃ k, 25 ≤ k ∧ k < n ∧ x = T ((k - 25) / 128))) ∧
        inode_lookup st2 h = none) := by
  constructor
  · intro hnot
    unfold inode_close
    rw [hlook]
    simp only
    by_cases h0 : ino.open_cnt - 1 = 0
    · rw [if_pos h0]
      have h1 : ino.open_cnt = 1 := by omega
      have hr : ino.removed = false := by
        cases hrem : ino.removed
        · rfl
        · exact absurd ⟨h1, hrem⟩ hnot
      rw [hr]
      exact ⟨_, rfl, rfl, rfl⟩
    · rw [if_neg h0]
      exact ⟨_, rfl, rfl, rfl⟩
  · intro h1 hrem n S T hn hcap hc hlay hTinj hS hT hsec
    obtain ⟨c, rel, b1, b2, b3⟩ := inode_close_blocks_run
      { st with open_inodes := st.open_inodes.filter (fun i => !(i.sector == h)) }
      ino.data n S T hc hn hcap hlay hTinj (fun k hk => (hS k hk).1)
      (fun k hk1 hk2 => (hT k hk1 hk2).1)
    have hnr : ino.sector ∉ rel := by
      intro hm
      rcases (b3 _).1 hm with ⟨k, hk, hx⟩ | ⟨k, hk1, hk2, hx⟩
      · exact (hS k hk).2 hx.symm
      · exact (hT k hk1 hk2).2 hx.symm
    have hnot : ino.sector ∉ rel ++ st.free_map := by
      intro hm
      rcases List.mem_append.1 hm with hm | hm
      · exact hnr hm
      · exact hsec hm
    refine ⟨{ cache := c, free_map := ino.sector :: (rel ++ st.free_map),
              open_inodes := st.open_inodes.filter (fun i => !(i.sector == h)) },
      rel, ?_, rfl, List.nodup_cons.2 ⟨hnr, b2⟩, b3, ?_⟩
    · unfold inode_close
      rw [hlook]
      simp only
      rw [if_pos (by omega), hrem]
      simp only [if_true]
      rw [b1]
      simp only
      rw [free_map_release_fresh _ _ hnot]
    · simp only [inode_lookup]
      rw [List.find?_eq_none]
      intro i hi
      have := (List.mem_filter.1 hi).2
      simpa using this

theorem fs_removed_view (t : Nat) : cache_view fs_removed.cache t = removed_dev.data t :=
  (cache_init_spec removed_dev).2.1 t

theorem fs_removed_size : fs_removed.cache.fs_device.size = 64 := by
  show (cache_init (cache_boot removed_dev)).fs_device.size = 64
  rw [(cache_init_spec removed_dev).2.2]
  rfl

theorem fs_removed_layout :
    inode_layout (cache_view fs_removed.cache) fs_removed.cache.fs_device.size
      removed_inode.data 26 removed_S removed_T := by
  refine ⟨by decide, ?_, ?_, ?_, ?_, ?_⟩
  · intro k hk1 hk2
    have hk : k = 25 := by omega
    subst hk
    refine ⟨rfl, ?_⟩
    rw [fs_removed_view]
    show (sector_words (words_sector (40 :: List.replicate 127 0)))[0]? = some 40
    rw [sector_words_words_sector (40 :: List.replicate 127 0) rfl (by
      intro w hw
      rcases List.mem_cons.1 hw with rfl | hw
      · decide
      · rw [List.eq_of_mem_replicate hw]; decide)]
    rfl
  · intro k hk
    rw [fs_removed_size]
    revert k
    decide
  · intro k _ _
    rw [fs_removed_size]
    exact (by decide : 35 < 64)
  · intro k j _ _ _
    unfold removed_S removed_T
    split <;> omega
  · intro k j _ _ h
    unfold removed_S at h
    split at h <;> split at h <;> omega

theorem inode_close_releases_witness :
    ∃ st2 rel, inode_close fs_removed 5 = some st2 ∧
      st2.free_map = 5 :: rel ++ [50, 51] ∧ (5 :: rel).Nodup ∧
      (∀ x, x ∈ rel ↔ (∃ k, k < 26 ∧ x = removed_S k) ∨
        (∃ k, 25 ≤ k ∧ k < 26 ∧ x = removed_T ((k - 25) / 128))) ∧
      inode_lookup st2 5 = none :=
  (inode_close_releases fs_removed 5 removed_inode rfl).2 rfl rfl 26 removed_S removed_T
    (by decide) (by decide) (cache_init_spec removed_dev).1 fs_removed_layout
    (fun _ _ _ _ _ _ _ => by omega) (by decide) (by decide) (by decide)

/-! ## Inode layer: allocation keeps the blocks an inode already has -/

theorem bytes_u32_lt (s : List Nat) (i : Nat) (h : ∀ b ∈ s, b < 256) : bytes_u32 s i < 2 ^ 32 := by
  have hg : ∀ k, s.getD k 0 < 256 := by
    intro k
    rw [List.getD_eq_getElem?_getD]
    cases hk : s[k]? with
    | none => simp
    | some b => exact h b (List.mem_iff_getElem?.2 ⟨k, hk⟩)
  unfold bytes_u32
  have h0 := hg i
  have h1 := hg (i + 1)
  have h2 := hg (i + 2)
  have h3 := hg (i + 3)
  omega

theorem sector_words_lt (s : Sector) (h : ∀ b ∈ s, b < 256) : ∀ w ∈ sector_words s, w < 2 ^ 32 := by
  intro w hw
  unfold sector_words at hw
  obtain ⟨i, _, rfl⟩ := List.mem_map.1 hw
  exact bytes_u32_lt s _ h

theorem words_sector_bytes (ws : List Nat) : ∀ b ∈ words_sector ws, b < 256 := by
  intro b hb
  unfold words_sector at hb
  obtain ⟨w, _, hbw⟩ := List.mem_flatMap.1 hb
  simp only [u32_bytes, List.mem_cons, List.mem_singleton, List.not_mem_nil, or_false] at hbw
  rcases hbw with rfl | rfl | rfl | rfl <;> omega

theorem empty_sector_bytes : ∀ b ∈ empty_sector, b < 256 := by
  intro b hb
  rw [List.eq_of_mem_replicate hb]
  decide

theorem alloc_step_refl (st : fs_state) (h : alloc_ok st) : alloc_step st st :=
  ⟨h, rfl, ⟨0, rfl⟩, fun _ _ _ _ hw _ => hw⟩

theorem mem_of_drop_eq (l l2 : List Nat) (m x : Nat) (h : l2 = l.drop m) (hx : x ∈ l2) : x ∈ l := by
  rw [h] at hx
  exact List.mem_of_mem_drop hx

theorem alloc_step_trans (a b c : fs_state) (h1 : alloc_step a b) (h2 : alloc_step b c) :
    alloc_step a c := by
  obtain ⟨m1, e1⟩ := h1.free
  obtain ⟨m2, e2⟩ := h2.free
  refine ⟨h2.ok, by rw [h2.size, h1.size], ⟨m1 + m2, by rw [e2, e1, List.drop_drop]⟩, ?_⟩
  intro t ht j w hw hw0
  exact h2.keep t (fun hm => ht (mem_of_drop_eq _ _ _ _ e1 hm)) j w (h1.keep t ht j w hw hw0) hw0

/-- A step that changes no sector outside the free map. -/
theorem alloc_step_of_view (st st2 : fs_state) (h2 : alloc_ok st2)
    (hs : st2.cache.fs_device.size = st.cache.fs_device.size)
    (hf : ∃ m, st2.free_map = st.free_map.drop m)
    (hv : ∀ t, t ∉ st.free_map → cache_view st2.cache t = cache_view st.cache t) :
    alloc_step st st2 :=
  ⟨h2, hs, hf, fun t ht j w hw _ => by rw [hv t ht]; exact hw⟩

/-- The allocation step of `inode_block_init`: a non-zero pointer is kept and nothing changes;
a zero pointer gets the head of the free map, which is written with the empty sector. -/
theorem inode_block_alloc_spec (st : fs_state) (p : Nat) (h : alloc_ok st) :
    ∃ ok q st2, inode_block_alloc st p = some (ok, q, st2) ∧ alloc_ok st2 ∧
      st2.cache.fs_device.size = st.cache.fs_device.size ∧
      st2.open_inodes = st.open_inodes ∧
      (∃ m, st2.free_map = st.free_map.drop m) ∧
      (∀ t, t ∉ st.free_map → cache_view st2.cache t = cache_view st.cache t) ∧
      (p ≠ 0 → ok = true ∧ q = p ∧ st2 = st) ∧
      (p = 0 → ok = true → st.free_map = q :: st2.free_map) ∧
      (ok = false → q = p) := by
  by_cases hp : p = 0
  · subst hp
    have hcases : st.free_map = [] ∨ ∃ s rest, st.free_map = s :: rest := by
      cases st.free_map with
      | nil => exact Or.inl rfl
      | cons s rest => exact Or.inr ⟨s, rest, rfl⟩
    rcases hcases with hfm | ⟨s, rest, hfm⟩
    · refine ⟨false, 0, st, ?_, h, rfl, rfl, ⟨0, rfl⟩, fun _ _ => rfl,
        fun hne => absurd rfl hne, (fun _ hc => by cases hc), fun _ => rfl⟩
      simp only [inode_block_alloc, if_true, hfm, free_map_allocate]
    · have hs : s < st.cache.fs_device.size := h.range s (by rw [hfm]; exact List.mem_cons_self _ _)
      obtain ⟨c, h1, h2, h3, h4⟩ := cache_write_spec st.cache s empty_sector h.inv hs
      refine ⟨true, s, { st with cache := c, free_map := rest }, ?_, ⟨h2, ?_, ?_, ?_⟩, h4, rfl,
        ⟨1, by rw [hfm]; rfl⟩, ?_, fun hne => absurd rfl hne, fun _ _ => hfm,
        fun hc => by cases hc⟩
      · simp only [inode_block_alloc, if_true, hfm, free_map_allocate, h1]
      · intro x hx
        show x < c.fs_device.size
        rw [h4]
        exact h.range x (by rw [hfm]; exact List.mem_cons_of_mem _ hx)
      · show c.fs_device.size ≤ 2 ^ 32
        rw [h4]
        exact h.dev
      · intro t b hb
        change b ∈ cache_view c t at hb
        rw [h3] at hb
        split at hb
        · exact empty_sector_bytes b hb
        · exact h.bytes t b hb
      · intro t ht
        show cache_view c t = _
        rw [h3, if_neg]
        rintro rfl
        exact ht (by rw [hfm]; exact List.mem_cons_self _ _)
  · refine ⟨true, p, st, ?_, h, rfl, rfl, ⟨0, rfl⟩, fun _ _ => rfl, fun _ => ⟨rfl, rfl, rfl⟩,
      fun h0 => absurd h0 hp, fun hc => by cases hc⟩
    simp only [inode_block_alloc, if_neg hp]

theorem alloc_ok_drop_mem (l l2 : List Nat) (h : ∃ m, l2 = l.drop m) (x : Nat) (hx : x ∈ l2) :
    x ∈ l := by
  obtain ⟨m, e⟩ := h
  exact mem_of_drop_eq _ _ _ _ e hx

/-- The entry loop of `inode_block_init`: it returns, every non-zero entry keeps its value, and
after a successful run the entries `j < n` are non-zero. -/
theorem inode_block_init_loop_spec (blk : List Nat) :
    ∀ (n : Nat) (st : fs_state), alloc_ok st → n ≤ blk.length →
    ∃ ok b st2, inode_block_init_loop st blk n = some (ok, b, st2) ∧ alloc_ok st2 ∧
      st2.cache.fs_device.size = st.cache.fs_device.size ∧
      st2.open_inodes = st.open_inodes ∧
      (∃ m, st2.free_map = st.free_map.drop m) ∧
      (∀ t, t ∉ st.free_map → cache_view st2.cache t = cache_view st.cache t) ∧
      b.length = blk.length ∧
      (∀ (j w : Nat), blk[j]? = some w → w ≠ 0 → b[j]? = some w) ∧
      (∀ (j : Nat), n ≤ j → b[j]? = blk[j]?) ∧
      (∀ w ∈ b, w ∈ blk ∨ w ∈ st.free_map) ∧
      (ok = true → 0 ∉ st.free_map → ∀ (j : Nat), j < n → ∃ w, b[j]? = some w ∧ w ≠ 0) := by
  intro n
  induction n with
  | zero =>
    intro st h _
    exact ⟨true, blk, st, rfl, h, rfl, rfl, ⟨0, rfl⟩, fun _ _ => rfl, rfl,
      fun _ _ hw _ => hw, fun _ _ => rfl, fun _ hw => Or.inl hw,
      fun _ _ j hj => by omega⟩
  | succ n ih =>
    intro st h hn
    obtain ⟨ok1, b1, s1, a1, a2, a3, a4, a5, a6, a7, a8, a9, a10, a11⟩ := ih st h (by omega)
    cases ok1 with
    | false =>
      refine ⟨false, b1, s1, ?_, a2, a3, a4, a5, a6, a7, a8, fun j hj => a9 j (by omega), a10,
        fun hc => by cases hc⟩
      simp only [inode_block_init_loop, a1]
    | true =>
      have hlt : n < b1.length := by omega
      obtain ⟨ok, q, s2, c1, c2, c3, c4, c5, c6, c7, c8, c9⟩ := inode_block_alloc_spec s1 b1[n] a2
      have hbn : b1[n]? = some b1[n] := List.getElem?_eq_getElem hlt
      have hsub : ∀ x, x ∈ s1.free_map → x ∈ st.free_map := alloc_ok_drop_mem _ _ a5
      have hq : q = b1[n] ∨ q ∈ s1.free_map := by
        by_cases hz : b1[n] = 0
        · cases ok with
          | false => exact Or.inl (c9 rfl)
          | true =>
            right
            rw [c8 hz rfl]
            exact List.mem_cons_self _ _
        · exact Or.inl (c7 hz).2.1
      refine ⟨ok, b1.set n q, s2, ?_, c2, by rw [c3, a3], by rw [c4, a4], ?_, ?_, ?_, ?_, ?_, ?_,
        ?_⟩
      · simp only [inode_block_init_loop, a1, hbn, c1]
      · obtain ⟨m1, e1⟩ := a5
        obtain ⟨m2, e2⟩ := c5
        exact ⟨m1 + m2, by rw [e2, e1, List.drop_drop]⟩
      · intro t ht
        rw [c6 t (fun hm => ht (hsub t hm)), a6 t ht]
      · rw [List.length_set, a7]
      · intro j w hj hw
        have hb1 := a8 j w hj hw
        by_cases hjn : j = n
        · subst hjn
          rw [hbn] at hb1
          have hbw : b1[j] = w := Option.some.inj hb1
          have : q = w := by rw [(c7 (by rw [hbw]; exact hw)).2.1, hbw]
          rw [this, List.getElem?_set_self hlt]
        · rw [List.getElem?_set_ne (fun hc => hjn hc.symm)]
          exact hb1
      · intro j hj
        rw [List.getElem?_set_ne (by omega)]
        exact a9 j (by omega)
      · intro w hw
        rcases List.mem_or_eq_of_mem_set hw with hw | hw
        · exact a10 w hw
        · rcases hq with hq | hq
          · rcases a10 b1[n] (List.getElem_mem _) with hx | hx
            · exact Or.inl (by rw [hw, hq]; exact hx)
            · exact Or.inr (by rw [hw, hq]; exact hx)
          · exact Or.inr (by rw [hw]; exact hsub q hq)
      · intro hok h0 j hj
        subst hok
        by_cases hjn : j = n
        · subst hjn
          refine ⟨q, by rw [List.getElem?_set_self hlt], ?_⟩
          by_cases hz : b1[j] = 0
          · intro hq0
            have := c8 hz rfl
            exact h0 (hsub 0 (by rw [this, hq0]; exact List.mem_cons_self _ _))
          · rw [(c7 hz).2.1]
            exact hz
        · obtain ⟨w, hw1, hw2⟩ := a11 rfl h0 j (by omega)
          exact ⟨w, by rw [List.getElem?_set_ne (fun hc => hjn hc.symm)]; exact hw1, hw2⟩

/-- The function `inode_block_init` at level 1: it returns; a non-zero pointer is kept, a sector
that is not free keeps its non-zero entries, and after a successful call the block is non-zero,
on the device, no longer free, and its first `size` entries are non-zero. -/
theorem inode_block_init_spec (st : fs_state) (p size : Nat) (h : alloc_ok st)
    (hsz : size ≤ BLOCK_POINTER_NUM)
    (hp : p ≠ 0 → p ∉ st.free_map ∧ p < st.cache.fs_device.size) :
    ∃ ok q st2, inode_block_init st p size 1 = some (ok, q, st2) ∧ alloc_step st st2 ∧
      st2.open_inodes = st.open_inodes ∧
      (p ≠ 0 → q = p) ∧ (q = p ∨ q ∈ st.free_map) ∧
      (ok = true → st.free_map.Nodup → 0 ∉ st.free_map →
        q ≠ 0 ∧ q < st.cache.fs_device.size ∧ q ∉ st2.free_map ∧
        ∀ (j : Nat), j < size →
          ∃ w, (sector_words (cache_view st2.cache q))[j]? = some w ∧ w ≠ 0) := by
  obtain ⟨ok0, q, s0, c1, c2, c3, c4, c5, c6, c7, c8, c9⟩ := inode_block_alloc_spec st p h
  have hsub0 : ∀ x, x ∈ s0.free_map → x ∈ st.free_map := alloc_ok_drop_mem _ _ c5
  cases ok0 with
  | false =>
    refine ⟨false, q, s0, ?_, alloc_step_of_view st s0 c2 c3 c5 c6, c4,
      fun _ => c9 rfl, Or.inl (c9 rfl), fun hc => by cases hc⟩
    simp only [inode_block_init, c1]
  | true =>
    have hqp : q = p ∨ q ∈ st.free_map := by
      by_cases hz : p = 0
      · right
        rw [c8 hz rfl]
        exact List.mem_cons_self _ _
      · exact Or.inl (c7 hz).2.1
    have hq : q < s0.cache.fs_device.size := by
      rw [c3]
      rcases hqp with hq | hq
      · by_cases hz : p = 0
        · have := c8 hz rfl
          exact h.range q (by rw [this]; exact List.mem_cons_self _ _)
        · rw [hq]
          exact (hp hz).2
      · exact h.range q hq
    obtain ⟨c', r1, r2, r3, r4⟩ := cache_read_spec s0.cache q c2.inv hq
    have hok1 : alloc_ok (fs_state.mk c' s0.free_map s0.open_inodes) :=
      ⟨r2, fun s hs => by
          show s < c'.fs_device.size
          rw [r4]
          exact c2.range s hs,
        by show c'.fs_device.size ≤ 2 ^ 32
           rw [r4]
           exact c2.dev,
        fun t b hb => by
          change b ∈ cache_view c' t at hb
          rw [r3] at hb
          exact c2.bytes t b hb⟩
    obtain ⟨ok2, b, s2, l1, l2, l3, l4, l5, l6, l7, l8, l9, l10, l11⟩ :=
      inode_block_init_loop_spec (sector_words (cache_view s0.cache q)) size
        (fs_state.mk c' s0.free_map s0.open_inodes) hok1
        (by rw [sector_words_length]; exact hsz)
    have hsub2 : ∀ x, x ∈ s2.free_map → x ∈ s0.free_map := alloc_ok_drop_mem _ _ l5
    have hfree : ∃ m, s2.free_map = st.free_map.drop m := by
      obtain ⟨m1, e1⟩ := c5
      obtain ⟨m2, e2⟩ := l5
      exact ⟨m1 + m2, by rw [e2]; show s0.free_map.drop m2 = _; rw [e1, List.drop_drop]⟩
    have hview : ∀ t, t ∉ st.free_map → cache_view s2.cache t = cache_view st.cache t := by
      intro t ht
      rw [l6 t (fun hm => ht (hsub0 t hm))]
      show cache_view c' t = _
      rw [r3, c6 t ht]
    have hsize : s2.cache.fs_device.size = st.cache.fs_device.size := by
      rw [l3]
      show c'.fs_device.size = _
      rw [r4, c3]
    cases ok2 with
    | false =>
      refine ⟨false, q, s2, ?_, alloc_step_of_view st s2 l2 hsize hfree hview, by rw [l4]; exact c4,
        fun hz => (c7 hz).2.1, hqp, fun hc => by cases hc⟩
      simp only [inode_block_init, c1, r1, l1]
    | true =>
      have hq2 : q < s2.cache.fs_device.size := by rw [hsize, ← c3]; exact hq
      obtain ⟨c3', w1, w2, w3, w4⟩ := cache_write_spec s2.cache q (words_sector b) l2.inv hq2
      have hblen : b.length = BLOCK_POINTER_NUM := by rw [l7, sector_words_length]
      have hbw : ∀ w ∈ b, w < 2 ^ 32 := by
        intro w hw
        rcases l10 w hw with hw | hw
        · exact sector_words_lt _ (c2.bytes q) w hw
        · have := c2.range w hw
          have := c2.dev
          omega
      have hrt : sector_words (cache_view c3' q) = b := by
        rw [w3, if_pos rfl, sector_words_words_sector b hblen hbw]
      refine ⟨true, q, fs_state.mk c3' s2.free_map s2.open_inodes, ?_, ⟨⟨w2, ?_, ?_, ?_⟩, ?_, hfree, ?_⟩,
        by rw [← c4, ← l4], fun hz => (c7 hz).2.1, hqp, ?_⟩
      · simp only [inode_block_init, c1, r1, l1, w1]
      · intro s hs
        show s < c3'.fs_device.size
        rw [w4]
        exact l2.range s hs
      · show c3'.fs_device.size ≤ 2 ^ 32
        rw [w4]
        exact l2.dev
      · intro t x hx
        change x ∈ cache_view c3' t at hx
        rw [w3] at hx
        split at hx
        · exact words_sector_bytes b x hx
        · exact l2.bytes t x hx
      · show c3'.fs_device.size = _
        rw [w4, hsize]
      · intro t ht j w hw hw0
        show (sector_words (cache_view c3' t))[j]? = some w
        by_cases htq : t = q
        · subst htq
          rw [hrt]
          apply l8 j w _ hw0
          rw [c6 t ht]
          exact hw
        · rw [w3, if_neg htq, hview t ht]
          exact hw
      · intro _ hnd h0
        have hq0 : q ≠ 0 := by
          rcases hqp with hq1 | hq1
          · by_cases hz : p = 0
            · intro hq00
              have := c8 hz rfl
              exact h0 (by rw [this, hq00]; exact List.mem_cons_self _ _)
            · rw [hq1]; exact hz
          · intro hq00
            exact h0 (hq00 ▸ hq1)
        refine ⟨hq0, by rw [← c3]; exact hq, ?_, ?_⟩
        · intro hm
          have hm0 : q ∈ s0.free_map := hsub2 q hm
          by_cases hz : p = 0
          · have := c8 hz rfl
            rw [this] at hnd
            exact (List.nodup_cons.1 hnd).1 hm0
          · have := (c7 hz).2.1
            rw [this] at hm0
            exact (hp hz).1 (hsub0 p hm0)
        · intro j hj
          show ∃ w, (sector_words (cache_view c3' q))[j]? = some w ∧ w ≠ 0
          rw [hrt]
          exact l11 rfl (fun hm => h0 (hsub0 0 hm)) j hj

/-- The first loop of `inode_disk_init`: it returns, every non-zero direct pointer keeps its
value, no sector outside the free map changes, and after a successful run the pointers `j < n`
are non-zero. -/
theorem inode_disk_init_direct_spec (d : inode_disk) :
    ∀ (n : Nat) (st : fs_state), alloc_ok st → n ≤ d.direct.length →
    ∃ ok dir st2, inode_disk_init_direct st d n
        = some (ok, inode_disk.mk d.length d.magic d.is_dir dir d.indirect, st2) ∧
      alloc_ok st2 ∧ st2.cache.fs_device.size = st.cache.fs_device.size ∧
      st2.open_inodes = st.open_inodes ∧
      (∃ m, st2.free_map = st.free_map.drop m) ∧
      (∀ t, t ∉ st.free_map → cache_view st2.cache t = cache_view st.cache t) ∧
      dir.length = d.direct.length ∧
      (∀ (j w : Nat), d.direct[j]? = some w → w ≠ 0 → dir[j]? = some w) ∧
      (ok = true → 0 ∉ st.free_map → ∀ (j : Nat), j < n → ∃ w, dir[j]? = some w ∧ w ≠ 0) := by
  intro n
  induction n with
  | zero =>
    intro st h _
    exact ⟨true, d.direct, st, rfl, h, rfl, rfl, ⟨0, rfl⟩, fun _ _ => rfl, rfl,
      fun _ _ hw _ => hw, fun _ _ j hj => by omega⟩
  | succ n ih =>
    intro st h hn
    obtain ⟨ok1, b1, s1, a1, a2, a3, a4, a5, a6, a7, a8, a11⟩ := ih st h (by omega)
    cases ok1 with
    | false =>
      refine ⟨false, b1, s1, ?_, a2, a3, a4, a5, a6, a7, a8, fun hc => by cases hc⟩
      simp only [inode_disk_init_direct, a1]
    | true =>
      have hlt : n < b1.length := by omega
      obtain ⟨ok, q, s2, c1, c2, c3, c4, c5, c6, c7, c8, c9⟩ := inode_block_alloc_spec s1 b1[n] a2
      have hbn : b1[n]? = some b1[n] := List.getElem?_eq_getElem hlt
      have hsub : ∀ x, x ∈ s1.free_map → x ∈ st.free_map := alloc_ok_drop_mem _ _ a5
      refine ⟨ok, b1.set n q, s2, ?_, c2, by rw [c3, a3], by rw [c4, a4], ?_, ?_, ?_, ?_, ?_⟩
      · simp only [inode_disk_init_direct, a1, hbn, inode_block_init, c1]
      · obtain ⟨m1, e1⟩ := a5
        obtain ⟨m2, e2⟩ := c5
        exact ⟨m1 + m2, by rw [e2, e1, List.drop_drop]⟩
      · intro t ht
        rw [c6 t (fun hm => ht (hsub t hm)), a6 t ht]
      · rw [List.length_set, a7]
      · intro j w hj hw
        have hb1 := a8 j w hj hw
        by_cases hjn : j = n
        · subst hjn
          rw [hbn] at hb1
          have hbw : b1[j] = w := Option.some.inj hb1
          have : q = w := by rw [(c7 (by rw [hbw]; exact hw)).2.1, hbw]
          rw [this, List.getElem?_set_self hlt]
        · rw [List.getElem?_set_ne (fun hc => hjn hc.symm)]
          exact hb1
      · intro hok h0 j hj
        subst hok
        by_cases hjn : j = n
        · subst hjn
          refine ⟨q, by rw [List.getElem?_set_self hlt], ?_⟩
          by_cases hz : b1[j] = 0
          · intro hq0
            have := c8 hz rfl
            exact h0 (hsub 0 (by rw [this, hq0]; exact List.mem_cons_self _ _))
          · rw [(c7 hz).2.1]
            exact hz
        · obtain ⟨w, hw1, hw2⟩ := a11 rfl h0 j (by omega)
          exact ⟨w, by rw [List.getElem?_set_ne (fun hc => hjn hc.symm)]; exact hw1, hw2⟩

/-- The second loop of `inode_disk_init`: it returns, every non-zero indirect pointer keeps its
value, every sector that is not free keeps its non-zero entries, and after a successful run the
indirect blocks of the `sectors` data sectors and their entries are non-zero. -/
theorem inode_disk_init_indirect_spec :
    ∀ (iters i sectors : Nat) (d : inode_disk) (st : fs_state), alloc_ok st →
      i + iters ≤ d.indirect.length →
      (∀ (q p : Nat), i ≤ q → d.indirect[q]? = some p → p ≠ 0 →
        p ∉ st.free_map ∧ p < st.cache.fs_device.size) →
    ∃ ok ind st2, inode_disk_init_indirect iters i sectors d st
        = some (ok, inode_disk.mk d.length d.magic d.is_dir d.direct ind, st2) ∧
      alloc_step st st2 ∧ st2.open_inodes = st.open_inodes ∧
      ind.length = d.indirect.length ∧
      (∀ (q : Nat), q < i → ind[q]? = d.indirect[q]?) ∧
      (∀ (q p : Nat), d.indirect[q]? = some p → p ≠ 0 → ind[q]? = some p) ∧
      (ok = true → st.free_map.Nodup → 0 ∉ st.free_map → 0 < sectors →
        ∀ (r : Nat), r < sectors → r < iters * 128 →
          ∃ p w, ind[i + r / 128]? = some p ∧ p ≠ 0 ∧ p < st.cache.fs_device.size ∧
            p ∉ st2.free_map ∧
            (sector_words (cache_view st2.cache p))[r % 128]? = some w ∧ w ≠ 0) := by
  intro iters
  induction iters with
  | zero =>
    intro i sectors d st h _ _
    exact ⟨true, d.indirect, st, rfl, alloc_step_refl st h, rfl, rfl, fun _ _ => rfl,
      fun _ _ hq _ => hq, fun _ _ _ _ r _ hr => by omega⟩
  | succ iters ih =>
    intro i sectors d st h hlen hsep
    have h128 : BLOCK_POINTER_NUM = 128 := rfl
    have hil : i < d.indirect.length := by omega
    have hdi : d.indirect[i]? = some d.indirect[i] := List.getElem?_eq_getElem hil
    have hb : (if sectors < BLOCK_POINTER_NUM then sectors else BLOCK_POINTER_NUM)
        ≤ BLOCK_POINTER_NUM := by
      split <;> omega
    generalize hblocks : (if sectors < BLOCK_POINTER_NUM then sectors else BLOCK_POINTER_NUM)
      = blocks at hb
    obtain ⟨ok1, q, s1, b1, b2, b3, b4, b5, b6⟩ := inode_block_init_spec st d.indirect[i] blocks h
      hb (fun hz => hsep i _ (le_refl _) hdi hz)
    have hsub : ∀ x, x ∈ s1.free_map → x ∈ st.free_map := alloc_ok_drop_mem _ _ b2.free
    have hset_other : ∀ (j : Nat), j ≠ i → (d.indirect.set i q)[j]? = d.indirect[j]? :=
      fun j hj => List.getElem?_set_ne (fun hc => hj hc.symm)
    have hset_self : (d.indirect.set i q)[i]? = some q := List.getElem?_set_self hil
    have hkeep1 : ∀ (j p : Nat), d.indirect[j]? = some p → p ≠ 0 →
        (d.indirect.set i q)[j]? = some p := by
      intro j p hj hp
      by_cases hji : j = i
      · subst hji
        rw [hdi] at hj
        have hpe : d.indirect[j] = p := Option.some.inj hj
        rw [hset_self, b4 (by rw [hpe]; exact hp), hpe]
      · rw [hset_other j hji]
        exact hj
    cases ok1 with
    | false =>
      refine ⟨false, d.indirect.set i q, s1, ?_, b2, b3, by rw [List.length_set],
        fun j hj => hset_other j (by omega), hkeep1, fun hc => by cases hc⟩
      simp only [inode_disk_init_indirect, hdi, hblocks, b1]
      rfl
    | true =>
      by_cases hle : sectors ≤ BLOCK_POINTER_NUM
      · refine ⟨true, d.indirect.set i q, s1, ?_, b2, b3, by rw [List.length_set],
          fun j hj => hset_other j (by omega), hkeep1, ?_⟩
        · simp only [inode_disk_init_indirect, hdi, hblocks, b1, if_pos hle]
          rfl
        · intro _ hnd h0 hs0 r hr _
          rw [h128] at hle
          have hbl : blocks = sectors := by
            rw [← hblocks, h128]; split <;> omega
          obtain ⟨g1, g2, g3, g4⟩ := b6 rfl hnd h0
          obtain ⟨w, hw1, hw2⟩ := g4 r (by omega)
          have hr0 : r / 128 = 0 ∧ r % 128 = r := by omega
          rw [hr0.1, hr0.2, Nat.add_zero]
          exact ⟨q, w, hset_self, g1, g2, g3, hw1, hw2⟩
      · rw [h128] at hle
        have hbl : blocks = 128 := by
          rw [← hblocks, h128]; split <;> omega
        obtain ⟨ok2, ind, s2, f1, f2, f3, f4, f5, f6, f7⟩ := ih (i + 1) (sectors - 128)
          (inode_disk.mk d.length d.magic d.is_dir d.direct (d.indirect.set i q)) s1 b2.ok
          (by show i + 1 + iters ≤ (d.indirect.set i q).length
              rw [List.length_set]; omega)
          (fun j p hj hjp hp0 => by
            change (d.indirect.set i q)[j]? = some p at hjp
            rw [hset_other j (by omega)] at hjp
            have := hsep j p (by omega) hjp hp0
            exact ⟨fun hm => this.1 (hsub p hm), by rw [b2.size]; exact this.2⟩)
        refine ⟨ok2, ind, s2, ?_, alloc_step_trans st s1 s2 b2 f2, by rw [f3, b3],
          by rw [f4]; exact List.length_set _ _ _, ?_, ?_, ?_⟩
        · simp only [inode_disk_init_indirect, hdi, hblocks, b1, Bool.not_true,
            Bool.false_eq_true, if_false]
          rw [if_neg (by rw [h128]; omega), h128]
          exact f1
        · intro j hj
          rw [f5 j (by omega)]
          exact hset_other j (by omega)
        · intro j p hjp hp0
          exact f6 j p (hkeep1 j p hjp hp0) hp0
        · intro hok hnd h0 hs0 r hr hr2
          obtain ⟨g1, g2, g3, g4⟩ := b6 rfl hnd h0
          obtain ⟨m, hm⟩ := b2.free
          have hnd1 : s1.free_map.Nodup := by
            rw [hm]
            exact List.Nodup.sublist (List.drop_sublist _ _) hnd
          have h01 : 0 ∉ s1.free_map := fun hx => h0 (hsub 0 hx)
          by_cases hr1 : r < 128
          · obtain ⟨w, hw1, hw2⟩ := g4 r (by omega)
            have hr0 : r / 128 = 0 ∧ r % 128 = r := by omega
            rw [hr0.1, hr0.2, Nat.add_zero]
            refine ⟨q, w, ?_, g1, g2, ?_, f2.keep q g3 r w hw1 hw2, hw2⟩
            · rw [f5 i (by omega)]
              exact hset_self
            · intro hx
              exact g3 (alloc_ok_drop_mem _ _ f2.free q hx)
          · obtain ⟨p, w, k1, k2, k3, k4, k5, k6⟩ := f7 hok hnd1 h01 (by omega) (r - 128)
              (by omega) (by omega)
            have e1 : i + 1 + (r - 128) / 128 = i + r / 128 := by omega
            have e2 : (r - 128) % 128 = r % 128 := by omega
            rw [e1] at k1
            rw [e2] at k5
            exact ⟨p, w, k1, k2, by rw [← b2.size]; exact k3, k4, k5, k6⟩

theorem list_set_self (l : List Nat) (n w : Nat) (h : l[n]? = some w) : l.set n w = l := by
  apply List.ext_getElem?
  intro j
  by_cases hj : j = n
  · subst hj
    rw [List.getElem?_set_self (List.getElem?_eq_some.1 h).1, h]
  · rw [List.getElem?_set_ne (fun hc => hj hc.symm)]

theorem inode_block_alloc_nonzero (st : fs_state) (p : Nat) (hp : p ≠ 0) :
    inode_block_alloc st p = some (true, p, st) := by
  simp only [inode_block_alloc, if_neg hp]

/-- The entry loop of `inode_block_init` over entries that are all non-zero changes nothing. -/
theorem inode_block_init_loop_full (st : fs_state) (blk : List Nat) :
    ∀ (n : Nat), (∀ (j : Nat), j < n → ∃ w, blk[j]? = some w ∧ w ≠ 0) →
      inode_block_init_loop st blk n = some (true, blk, st) := by
  intro n
  induction n with
  | zero => intro _; rfl
  | succ n ih =>
    intro hp
    obtain ⟨w, hw1, hw2⟩ := hp n (by omega)
    simp only [inode_block_init_loop, ih (fun j hj => hp j (by omega)), hw1,
      inode_block_alloc_nonzero st w hw2, list_set_self blk n w hw1]

/-- The function `inode_block_init` at level 1 on a block that is allocated with its first `size`
entries non-zero: it succeeds, takes no sector and leaves every entry of every sector as it
is. -/
theorem inode_block_init_full (st : fs_state) (p size : Nat) (h : alloc_ok st) (hp : p ≠ 0)
    (hr : p < st.cache.fs_device.size)
    (hfull : ∀ (j : Nat), j < size →
      ∃ w, (sector_words (cache_view st.cache p))[j]? = some w ∧ w ≠ 0) :
    ∃ c, inode_block_init st p size 1
        = some (true, p, fs_state.mk c st.free_map st.open_inodes) ∧
      alloc_ok (fs_state.mk c st.free_map st.open_inodes) ∧
      c.fs_device.size = st.cache.fs_device.size ∧
      ∀ t, sector_words (cache_view c t) = sector_words (cache_view st.cache t) := by
  obtain ⟨c1, r1, r2, r3, r4⟩ := cache_read_spec st.cache p h.inv hr
  obtain ⟨c2, w1, w2, w3, w4⟩ := cache_write_spec c1 p
    (words_sector (sector_words (cache_view st.cache p))) r2 (by rw [r4]; exact hr)
  refine ⟨c2, ?_, ⟨w2, ?_, ?_, ?_⟩, by rw [w4, r4], ?_⟩
  · simp only [inode_block_init, inode_block_alloc_nonzero st p hp, r1,
      inode_block_init_loop_full _ _ size hfull, w1]
  · intro s hs
    show s < c2.fs_device.size
    rw [w4, r4]
    exact h.range s hs
  · show c2.fs_device.size ≤ 2 ^ 32
    rw [w4, r4]
    exact h.dev
  · intro t x hx
    change x ∈ cache_view c2 t at hx
    rw [w3] at hx
    split at hx
    · exact words_sector_bytes _ x hx
    · rw [r3] at hx
      exact h.bytes t x hx
  · intro t
    rw [w3]
    split
    · rename_i htp
      rw [htp, sector_words_words_sector _ (sector_words_length _)
        (sector_words_lt _ (h.bytes p))]
    · rw [r3]

theorem inode_disk_eta_direct (d : inode_disk) :
    inode_disk.mk d.length d.magic d.is_dir d.direct d.indirect = d := by
  cases d
  rfl

/-- The first loop of `inode_disk_init` over direct pointers that are all non-zero changes
nothing. -/
theorem inode_disk_init_direct_full (st : fs_state) (d : inode_disk) :
    ∀ (n : Nat), (∀ (j : Nat), j < n → ∃ w, d.direct[j]? = some w ∧ w ≠ 0) →
      inode_disk_init_direct st d n = some (true, d, st) := by
  intro n
  induction n with
  | zero => intro _; rfl
  | succ n ih =>
    intro hp
    obtain ⟨w, hw1, hw2⟩ := hp n (by omega)
    simp only [inode_disk_init_direct, ih (fun j hj => hp j (by omega)), hw1, inode_block_init,
      inode_block_alloc_nonzero st w hw2, list_set_self d.direct n w hw1, inode_disk_eta_direct]

/-- The second loop of `inode_disk_init` over indirect blocks that are allocated with non-zero
entries for all `sectors` data sectors: it succeeds, takes no sector, and leaves the inode and
every entry of every sector as they are. -/
theorem inode_disk_init_indirect_full :
    ∀ (iters i sectors : Nat) (d : inode_disk) (st : fs_state), alloc_ok st → 0 < sectors →
      (∀ (r : Nat), r < sectors → r < iters * 128 →
        ∃ p w, d.indirect[i + r / 128]? = some p ∧ p ≠ 0 ∧ p < st.cache.fs_device.size ∧
          (sector_words (cache_view st.cache p))[r % 128]? = some w ∧ w ≠ 0) →
    ∃ c, inode_disk_init_indirect iters i sectors d st
        = some (true, d, fs_state.mk c st.free_map st.open_inodes) ∧
      alloc_ok (fs_state.mk c st.free_map st.open_inodes) ∧
      c.fs_device.size = st.cache.fs_device.size ∧
      ∀ t, sector_words (cache_view c t) = sector_words (cache_view st.cache t) := by
  intro iters
  induction iters with
  | zero =>
    intro i sectors d st h _ _
    exact ⟨st.cache, rfl, h, rfl, fun _ => rfl⟩
  | succ iters ih =>
    intro i sectors d st h h0 hfull
    have h128 : BLOCK_POINTER_NUM = 128 := rfl
    obtain ⟨p, w0, p1, p2, p3, _, _⟩ := hfull 0 h0 (by omega)
    simp only [Nat.zero_div, Nat.add_zero] at p1
    have hb : (if sectors < BLOCK_POINTER_NUM then sectors else BLOCK_POINTER_NUM) ≤ 128 ∧
        (if sectors < BLOCK_POINTER_NUM then sectors else BLOCK_POINTER_NUM) ≤ sectors := by
      rw [h128]; split <;> omega
    generalize hblocks : (if sectors < BLOCK_POINTER_NUM then sectors else BLOCK_POINTER_NUM)
      = blocks at hb
    obtain ⟨c1, b1, b2, b3, b4⟩ := inode_block_init_full st p blocks h p2 p3
      (fun j hj => by
        obtain ⟨p', w, q1, _, _, q4, q5⟩ := hfull j (by omega) (by omega)
        have hj0 : j / 128 = 0 ∧ j % 128 = j := by omega
        rw [hj0.1, Nat.add_zero, p1] at q1
        rw [hj0.2, ← Option.some.inj q1] at q4
        exact ⟨w, q4, q5⟩)
    have hd1 : inode_disk.mk d.length d.magic d.is_dir d.direct (d.indirect.set i p) = d := by
      rw [list_set_self d.indirect i p p1]
    by_cases hle : sectors ≤ BLOCK_POINTER_NUM
    · refine ⟨c1, ?_, b2, b3, b4⟩
      simp only [inode_disk_init_indirect, p1, hblocks, b1, Bool.not_true, Bool.false_eq_true,
        if_false, if_pos hle, hd1]
    · rw [h128] at hle
      obtain ⟨c2, f1, f2, f3, f4⟩ := ih (i + 1) (sectors - 128) d
        (fs_state.mk c1 st.free_map st.open_inodes) b2 (by omega)
        (fun r hr hr2 => by
          obtain ⟨p', w, q1, q2, q3, q4, q5⟩ := hfull (r + 128) (by omega) (by omega)
          have e1 : i + (r + 128) / 128 = i + 1 + r / 128 := by omega
          have e2 : (r + 128) % 128 = r % 128 := by omega
          rw [e1] at q1
          rw [e2] at q4
          refine ⟨p', w, q1, q2, by show p' < c1.fs_device.size; rw [b3]; exact q3, ?_, q5⟩
          show (sector_words (cache_view c1 p'))[r % 128]? = some w
          rw [b4]
          exact q4)
      refine ⟨c2, ?_, f2, by rw [f3]; exact b3, fun t => by rw [f4]; exact b4 t⟩
      simp only [inode_disk_init_indirect, p1, hblocks, b1, Bool.not_true, Bool.false_eq_true,
        if_false, hd1]
      rw [if_neg (by rw [h128]; omega), h128]
      exact f1

/-- The function `inode_disk_init` on an inode whose direct pointers `j < blocks` are non-zero
and whose indirect blocks cover the remaining sectors with non-zero entries: it succeeds, takes
no sector, and leaves the inode and every entry of every sector as they are. -/
theorem inode_disk_init_full (st : fs_state) (d : inode_disk) (size : Nat) (h : alloc_ok st)
    (hsize : ¬ size > 0x800000)
    (hdir : ∀ (j : Nat), j < bytes_to_sectors size → j < 25 →
      ∃ w, d.direct[j]? = some w ∧ w ≠ 0)
    (hind : ∀ (r : Nat), r < bytes_to_sectors size - 25 → r < 100 * 128 →
      ∃ p w, d.indirect[0 + r / 128]? = some p ∧ p ≠ 0 ∧ p < st.cache.fs_device.size ∧
        (sector_words (cache_view st.cache p))[r % 128]? = some w ∧ w ≠ 0) :
    ∃ st2, inode_disk_init st d size = some (true, d, st2) ∧ st2.free_map = st.free_map ∧
      st2.open_inodes = st.open_inodes ∧
      ∀ t, sector_words (cache_view st2.cache t) = sector_words (cache_view st.cache t) := by
  have h25 : DIRECT_BLOCK_NUM = 25 := rfl
  generalize hn : bytes_to_sectors size = n at hdir hind
  have hblocks : (if n < DIRECT_BLOCK_NUM then n else DIRECT_BLOCK_NUM) ≤ 25 ∧
      (if n < DIRECT_BLOCK_NUM then n else DIRECT_BLOCK_NUM) ≤ n := by
    rw [h25]; split <;> omega
  generalize hb : (if n < DIRECT_BLOCK_NUM then n else DIRECT_BLOCK_NUM) = blocks at hblocks
  have a1 := inode_disk_init_direct_full st d blocks (fun j hj => hdir j (by omega) (by omega))
  by_cases hle : n ≤ DIRECT_BLOCK_NUM
  · refine ⟨st, ?_, rfl, rfl, fun _ => rfl⟩
    simp only [inode_disk_init, if_neg hsize, hn, hb, a1, if_pos hle]
  · rw [h25] at hle
    obtain ⟨c, f1, _, _, f4⟩ := inode_disk_init_indirect_full 100 0 (n - 25) d st h (by omega) hind
    refine ⟨fs_state.mk c st.free_map st.open_inodes, ?_, rfl, rfl, f4⟩
    simp only [inode_disk_init, if_neg hsize, hn, hb, a1]
    rw [if_neg (by rw [h25]; omega), h25]
    exact f1

/-- C20: `inode_disk_init` never changes a non-zero pointer.  On a well-formed state the call
returns; every direct pointer, indirect pointer and entry of an indirect block of the inode that
is non-zero before the call has the same value after it; and after a successful call a second
call with the same size succeeds, leaves the inode and the free map as they are and changes no
entry of any sector. -/
theorem inode_disk_init_idempotent (st : fs_state) (data : inode_disk) (size : Nat)
    (h : alloc_ok st) (hd : data.direct.length = DIRECT_BLOCK_NUM)
    (hi : data.indirect.length = INDIRECT_BLOCK_NUM)
    (hsep : ∀ (q p : Nat), data.indirect[q]? = some p → p ≠ 0 →
      p ∉ st.free_map ∧ p < st.cache.fs_device.size) :
    ∃ ok d1 st1, inode_disk_init st data size = some (ok, d1, st1) ∧
      (∀ (j p : Nat), data.direct[j]? = some p → p ≠ 0 → d1.direct[j]? = some p) ∧
      (∀ (q p : Nat), data.indirect[q]? = some p → p ≠ 0 → d1.indirect[q]? = some p ∧
        ∀ (j w : Nat), (sector_words (cache_view st.cache p))[j]? = some w → w ≠ 0 →
          (sector_words (cache_view st1.cache p))[j]? = some w) ∧
      (ok = true → st.free_map.Nodup → 0 ∉ st.free_map →
        ∃ st2, inode_disk_init st1 d1 size = some (true, d1, st2) ∧
          st2.free_map = st1.free_map ∧
          ∀ t, sector_words (cache_view st2.cache t) = sector_words (cache_view st1.cache t)) := by
  have h25 : DIRECT_BLOCK_NUM = 25 := rfl
  have h100 : INDIRECT_BLOCK_NUM = 100 := rfl
  by_cases hsize : size > 0x800000
  · refine ⟨false, data, st, ?_, fun _ _ hj _ => hj, fun _ _ hq _ => ⟨hq, fun _ _ hw _ => hw⟩,
      fun hc => by cases hc⟩
    simp only [inode_disk_init, if_pos hsize]
  · generalize hn : bytes_to_sectors size = n
    have hblocks : (if n < DIRECT_BLOCK_NUM then n else DIRECT_BLOCK_NUM) ≤ 25 ∧
        (if n < DIRECT_BLOCK_NUM then n else DIRECT_BLOCK_NUM) ≤ n ∧
        (25 ≤ n → (if n < DIRECT_BLOCK_NUM then n else DIRECT_BLOCK_NUM) = 25) ∧
        (n < 25 → (if n < DIRECT_BLOCK_NUM then n else DIRECT_BLOCK_NUM) = n) := by
      rw [h25]; split <;> omega
    generalize hb : (if n < DIRECT_BLOCK_NUM then n else DIRECT_BLOCK_NUM) = blocks at hblocks
    obtain ⟨ok1, dir, s1, a1, a2, a3, a4, a5, a6, a7, a8, a9⟩ :=
      inode_disk_init_direct_spec data blocks st h (by rw [hd, h25]; omega)
    have hsub1 : ∀ x, x ∈ s1.free_map → x ∈ st.free_map := alloc_ok_drop_mem _ _ a5
    have hstep1 : alloc_step st s1 := alloc_step_of_view st s1 a2 a3 a5 a6
    cases ok1 with
    | false =>
      refine ⟨false, (inode_disk.mk data.length data.magic data.is_dir dir data.indirect), s1, ?_, a8, fun q p hq hp => ⟨hq, hstep1.keep p (hsep q p hq hp).1⟩,
        fun hc => by cases hc⟩
      simp only [inode_disk_init, if_neg hsize, hn, hb, a1]
    | true =>
      by_cases hle : n ≤ DIRECT_BLOCK_NUM
      · refine ⟨true, (inode_disk.mk data.length data.magic data.is_dir dir data.indirect), s1, ?_, a8,
          fun q p hq hp => ⟨hq, hstep1.keep p (hsep q p hq hp).1⟩, ?_⟩
        · simp only [inode_disk_init, if_neg hsize, hn, hb, a1, if_pos hle]
        · intro _ hnd h0
          rw [h25] at hle
          obtain ⟨st2, g1, g2, _, g4⟩ := inode_disk_init_full s1
            (inode_disk.mk data.length data.magic data.is_dir dir data.indirect) size a2 hsize
            (fun j hj1 hj2 => a9 rfl h0 j (by rw [hn] at hj1; omega))
            (fun r hr _ => by rw [hn] at hr; omega)
          exact ⟨st2, g1, g2, g4⟩
      · rw [h25] at hle
        obtain ⟨ok2, ind, s2, f1, f2, f3, f4, f5, f6, f7⟩ := inode_disk_init_indirect_spec 100 0
          (n - 25) (inode_disk.mk data.length data.magic data.is_dir dir data.indirect) s1 a2
          (by show 0 + 100 ≤ data.indirect.length
              rw [hi, h100])
          (fun q p _ hq hp => by
            have := hsep q p hq hp
            exact ⟨fun hm => this.1 (hsub1 p hm), by rw [a3]; exact this.2⟩)
        have hstep2 : alloc_step st s2 := alloc_step_trans st s1 s2 hstep1 f2
        refine ⟨ok2, inode_disk.mk data.length data.magic data.is_dir dir ind, s2, ?_, a8,
          fun q p hq hp => ⟨f6 q p hq hp, hstep2.keep p (hsep q p hq hp).1⟩, ?_⟩
        · simp only [inode_disk_init, if_neg hsize, hn, hb, a1]
          rw [if_neg (by rw [h25]; omega), h25]
          exact f1
        · intro hok hnd h0
          obtain ⟨m, hm⟩ := a5
          have hnd1 : s1.free_map.Nodup := by
            rw [hm]
            exact List.Nodup.sublist (List.drop_sublist _ _) hnd
          have h01 : 0 ∉ s1.free_map := fun hx => h0 (hsub1 0 hx)
          obtain ⟨st2, g1, g2, _, g4⟩ := inode_disk_init_full s2
            (inode_disk.mk data.length data.magic data.is_dir dir ind) size f2.ok hsize
            (fun j hj1 hj2 => a9 rfl h0 j (by rw [hn] at hj1; omega))
            (fun r hr hr2 => by
              rw [hn] at hr
              obtain ⟨p, w, k1, k2, k3, _, k5, k6⟩ := f7 hok hnd1 h01 (by omega) r hr hr2
              exact ⟨p, w, k1, k2, by rw [f2.size]; exact k3, k5, k6⟩)
          exact ⟨st2, g1, g2, g4⟩

theorem fs_grown_size : fs_grown.cache.fs_device.size = 64 := by
  show (cache_init (cache_boot grown_dev)).fs_device.size = 64
  rw [(cache_init_spec grown_dev).2.2]
  rfl

theorem fs_grown_ok : alloc_ok fs_grown := by
  refine ⟨(cache_init_spec grown_dev).1, ?_, ?_, ?_⟩
  · intro s hs
    rw [fs_grown_size]
    have : s ∈ List.range' 50 10 := hs
    rw [List.mem_range'_1] at this
    omega
  · rw [fs_grown_size]
    decide
  · intro t b hb
    have hv : cache_view fs_grown.cache t = grown_dev.data t := (cache_init_spec grown_dev).2.1 t
    rw [hv] at hb
    simp only [grown_dev] at hb
    split at hb
    · exact words_sector_bytes _ b hb
    · exact empty_sector_bytes b hb

theorem fs_grown_sep (q p : Nat) (hq : grown_disk.indirect[q]? = some p) (hp : p ≠ 0) :
    p ∉ fs_grown.free_map ∧ p < fs_grown.cache.fs_device.size := by
  have h35 : p = 35 := by
    cases q with
    | zero => exact (Option.some.inj hq).symm
    | succ q =>
      have hq2 := hq
      rw [show grown_disk.indirect = 35 :: List.replicate 99 0 from rfl,
        List.getElem?_cons_succ, List.getElem?_replicate] at hq2
      split at hq2
      · exact absurd (Option.some.inj hq2).symm hp
      · cases hq2
  subst h35
  rw [fs_grown_size]
  exact ⟨by decide, by decide⟩

theorem inode_disk_init_idempotent_witness :
    ∃ ok d1 st1, inode_disk_init fs_grown grown_disk 14000 = some (ok, d1, st1) ∧
      (∀ (j p : Nat), grown_disk.direct[j]? = some p → p ≠ 0 → d1.direct[j]? = some p) ∧
      (∀ (q p : Nat), grown_disk.indirect[q]? = some p → p ≠ 0 → d1.indirect[q]? = some p ∧
        ∀ (j w : Nat), (sector_words (cache_view fs_grown.cache p))[j]? = some w → w ≠ 0 →
          (sector_words (cache_view st1.cache p))[j]? = some w) ∧
      (ok = true → fs_grown.free_map.Nodup → 0 ∉ fs_grown.free_map →
        ∃ st2, inode_disk_init st1 d1 14000 = some (true, d1, st2) ∧
          st2.free_map = st1.free_map ∧
          ∀ t, sector_words (cache_view st2.cache t) = sector_words (cache_view st1.cache t)) :=
  inode_disk_init_idempotent fs_grown grown_disk 14000 fs_grown_ok rfl rfl fs_grown_sep

set_option maxRecDepth 100000 in
/-- The call of the scenario succeeds: it takes the one free sector 50 for entry 2 of the
indirect block and leaves the entries 40 and 41 as they are. -/
theorem inode_disk_init_grows :
    ∃ d1 st1, inode_disk_init fs_grown grown_disk 14000 = some (true, d1, st1) ∧
      st1.free_map = List.range' 51 9 ∧ d1 = grown_disk ∧
      (sector_words (cache_view st1.cache 35)).take 4 = [40, 41, 50, 0] :=
  ⟨_, _, rfl, rfl, rfl, by decide⟩

/-! ## Fixed-point rounding -/

/-- On a value that is not negative `FP_ROUND` gives a nearest integer. -/
theorem fp_round_nonneg (A : Int) (h0 : 0 ≤ A) (h1 : A + 32768 < 2 ^ 31) :
    ∃ r, FP_ROUND A = some r ∧ fp_nearest A r := by
  refine ⟨(A + 32768) / 65536, ?_, ?_⟩
  · unfold FP_ROUND int_checked
    rw [if_pos h0]
    have hc : ((1 <<< (FP_SHIFT_BITS - 1) : Nat) : Int) = 32768 := by decide
    rw [hc, if_pos ⟨by omega, h1⟩]
    simp only [Option.map_some', Int.shiftRight_eq_div_pow, FP_SHIFT_BITS]
    rfl
  · unfold fp_nearest
    constructor <;> omega

/-- On a negative value `FP_ROUND` rounds down after subtracting one half: its result is at
least one half below the value, so it is a nearest integer only when the value lies exactly
half way between two integers. -/
theorem fp_round_neg (A : Int) (h0 : A < 0) (h1 : -2 ^ 31 ≤ A - 32768) :
    ∃ r, FP_ROUND A = some r ∧ 2 ^ 15 ≤ A - r * 2 ^ 16 ∧
      (A % 65536 ≠ 32768 → ¬ fp_nearest A r) := by
  refine ⟨(A - 32768) / 65536, ?_, ?_, ?_⟩
  · unfold FP_ROUND int_checked
    rw [if_neg (by omega)]
    have hc : ((1 <<< (FP_SHIFT_BITS - 1) : Nat) : Int) = 32768 := by decide
    rw [hc, if_pos ⟨h1, by omega⟩]
    simp only [Option.map_some', Int.shiftRight_eq_div_pow, FP_SHIFT_BITS]
    rfl
  · omega
  · intro hne hn
    unfold fp_nearest at hn
    omega

/-- C22 fails in the code: `FP_ROUND` of the fixed-point value -65536, which is exactly -1,
is -2, and `FP_ROUND` of -1, which is -1 / 65536, is -1 instead of 0.  For a negative value
the macro subtracts one half and then shifts to the right, which rounds down, not towards
zero. -/
theorem fp_round_negative_off :
    FP_ROUND (-65536) = some (-2) ∧ ¬ fp_nearest (-65536) (-2) ∧ fp_nearest (-65536) (-1) ∧
    FP_ROUND (-1) = some (-1) ∧ ¬ fp_nearest (-1) (-1) ∧ fp_nearest (-1) 0 := by
  decide

/-! ## System-call argument validation -/

/-- C30 fails in the code: for `SYS_WRITE`, a call with three arguments, `check_esp` of all
three projects checks the argument bytes up to `esp + 7` only.  With the system-call number
twelve bytes below the end of the only mapped page, the third argument lies in the next page,
which is not mapped (`check_ptr` fails on its first byte), and `check_esp` still returns
true. -/
theorem check_esp_skips_third_argument :
    check_esp one_page_pagedir write_call_memory 0x8048ff4 = true ∧
    check_esp_vm one_page_pagedir write_call_memory 0x8048ff4 = true ∧
    check_esp_filesys one_page_pagedir write_call_memory 0x8048ff4 = true ∧
    write_call_memory 0x8048ff4 = SYS_WRITE ∧ syscall_argc SYS_WRITE = 3 ∧
    check_ptr one_page_pagedir (0x8048ff4 + 4 + 8) = false := by
  decide

/-! ## Preparing a user buffer -/

/-- C27 fails in the code: thread 1 of `sys_file_pages` has a page-table entry for the page at
`0x10000`, which is not mapped.  `read_prepare` on the address `0x10001` inside that page looks
up the address itself, finds no entry and, the address being far below the stack pointer, ends
in `exit (-1)`; on the page-aligned address `0x10000` it calls `page_load`. -/
theorem read_prepare_unaligned_exits :
    (page_table_entry_search (sys_file_pages.vm.threads 1).page_table
      (pg_round_down 0x10001)).isSome = true ∧
    pagedir_get_page (sys_file_pages.vm.threads 1).pagedir 0x10001 = none ∧
    read_prepare 2 true sys_file_pages 1 0xbfffff00 0x10001 = some (false, sys_file_pages) ∧
    read_prepare 2 true sys_file_pages 1 0xbfffff00 0x10000
      = page_load 2 true sys_file_pages 1 0x10000 :=
  ⟨by decide, by decide, rfl, rfl⟩

/-! ## Victim selection -/

theorem frame_evict_scan_append (l1 l2 : List frame_table_entry) :
    ∀ (pd : Nat → Option pagedir_entry) (c : Option frame_table_entry),
      frame_evict_scan pd c (l1 ++ l2)
        = frame_evict_scan (frame_evict_scan pd c l1).1 (frame_evict_scan pd c l1).2 l2 := by
  induction l1 with
  | nil => intro pd c; rfl
  | cons fte rest ih =>
    intro pd c
    simp only [List.cons_append, frame_evict_scan]
    split
    · exact ih _ _
    · exact ih _ _

/-- The scan of `frame_evict_page` has no `break`: when the accessed indicator of the last
frame of the table is clear, that frame is the victim, whatever the indicators of the frames
before it. -/
theorem frame_evict_select_last (pd : Nat → Option pagedir_entry) (ft : List frame_table_entry)
    (fte : frame_table_entry) (h : pagedir_is_accessed pd fte.virtual_page = false) :
    (frame_evict_select pd (ft ++ [fte])).2 = some fte := by
  have h1 : (frame_evict_scan pd none (ft ++ [fte])).2 = some fte := by
    rw [frame_evict_scan_append]
    have hc : pagedir_is_accessed (frame_evict_scan pd none ft).1 fte.virtual_page = false := by
      cases hx : pagedir_is_accessed (frame_evict_scan pd none ft).1 fte.virtual_page with
      | false => rfl
      | true =>
        have := pagedir_is_accessed_cleared _ _ fte.virtual_page
          (frame_evict_scan_cleared ft pd none) hx
        rw [h] at this
        cases this
    simp only [frame_evict_scan, hc, Bool.false_eq_true, if_false]
  unfold frame_evict_select
  simp only [h1]

/-- C24 fails in the code: the frame table of `vm_idle` holds the frames 3 and 4, in this
order, both with the accessed indicator clear.  `frame_evict_page` does not stop at frame 3,
the first frame whose indicator is clear: it goes on to the end of the table and evicts
frame 4; afterwards frame 3 is still in the frame table. -/
theorem frame_evict_page_takes_last :
    pagedir_is_accessed (vm_idle.threads 1).pagedir 100 = false ∧
    vm_idle.frame_table = [frame_table_entry.mk 3 100 1, frame_table_entry.mk 4 200 1] ∧
    (frame_evict_select (vm_idle.threads 1).pagedir vm_idle.frame_table).2
      = some (frame_table_entry.mk 4 200 1) ∧
    ∃ st2, frame_evict_page 1 vm_idle 1 300 = some (some 4, st2) ∧
      st2.frame_table = [frame_table_entry.mk 3 100 1, frame_table_entry.mk 4 300 1] :=
  ⟨by decide, rfl, rfl, _, rfl, rfl⟩

/-! ## Byte-to-sector translation in a large file -/

set_option maxRecDepth 100000 in
/-- C23 fails in the code: the positions 77824 and 77825 of `tree_inode` lie in the same
512-byte sector, data sector 152, which is entry 127 of the first indirect block: sector 227.
`byte_to_sector` returns 227 for the aligned position 77824 but 355, entry 127 of the second
indirect block, for 77825: the index of the indirect block is taken from the position rounded
up to sectors, the index inside the block from the position rounded down. -/
theorem byte_to_sector_splits_sector :
    (∃ c1, byte_to_sector fs_tree.cache tree_inode 77824 = some (227, c1)) ∧
    (∃ c2, byte_to_sector fs_tree.cache tree_inode 77825 = some (355, c2)) ∧
    77824 / 512 = 77825 / 512 ∧ (77825 / 512 - 25) / 128 = 0 ∧ (77825 / 512 - 25) % 128 = 127 ∧
    tree_inode.data.indirect[0]? = some 35 ∧
    (sector_words (cache_view fs_tree.cache 35))[127]? = some 227 :=
  ⟨⟨_, rfl⟩, ⟨_, rfl⟩, rfl, rfl, rfl, rfl, by decide⟩

set_option maxRecDepth 100000 in
/-- C29 fails in the code: on `tree_inode`, `inode_write_at` of the one byte 0xAB at offset
77825 returns 1, and the two bytes that `inode_read_at` returns for the offsets 143360 and
143361, far outside the written range, change from 0, 0 to 0, 0xAB.  The write goes to the
sector that `byte_to_sector` returns for 77825, which is the sector of the bytes from 143360
on. -/
theorem inode_write_at_hits_other_sector :
    inode_read_write_read fs_tree 5 [0xAB] 1 77825 2 143360 = some ([0, 0], 1, [0, 0xAB]) := by
  decide

/-! ## Frame table: the effects of an eviction -/

theorem pagedir_clear_page_present (pd : Nat → Option pagedir_entry) (v : Nat)
    (e : pagedir_entry) (h : pagedir_clear_page pd v v = some e) : e.present = false := by
  unfold pagedir_clear_page at h
  cases hv : pd v with
  | none =>
    rw [hv] at h
    simp only at h
    rw [hv] at h
    cases h
  | some e0 =>
    rw [hv] at h
    simp only [Function.update_same, Option.some.injEq] at h
    rw [← h]

theorem frame_evicted_pagedir (st1 : vm_state) (fte : frame_table_entry) (k : Int)
    (sw : swap_state) (pte : page_table_entry) :
    ((frame_evicted st1 fte k sw pte).threads fte.owner).pagedir
      = pagedir_clear_page (st1.threads fte.owner).pagedir fte.virtual_page := by
  simp [frame_evicted, set_page_table, set_pagedir]

/-- C21: on a well-formed state with a frame table that is not empty and a free swap slot,
`frame_evict_page` returns a frame.  For the victim (owner `o`, virtual page `v`, contents
`P`): the mapping of `v` in the page directory of `o` is not present any more; the page-table
entry of `o` for `v` has status `SWAP`, a null frame reference and the index of a swap slot
that was free, is now occupied and holds `P`; the victim's entry is removed from the frame
table (no remaining entry uses its page) and the entry of the returned frame for the requested
page is appended. -/
theorem frame_evict_page_effects (st : vm_state) (cur vp fuel : Nat) (h : vm_inv st)
    (hne : st.frame_table ≠ []) (hwf : swap_wf st.swap) (hfree : true ∈ st.swap.swap_bitmap) :
    ∃ (victim : frame_table_entry) (pp : Nat) (st2 : vm_state) (k : Nat),
      victim ∈ st.frame_table ∧
      frame_evict_page (fuel + 1) st cur vp = some (some pp, st2) ∧
      (∀ e, (st2.threads victim.owner).pagedir victim.virtual_page = some e →
        e.present = false) ∧
      (∃ pte, page_table_entry_search (st2.threads victim.owner).page_table victim.virtual_page
          = some pte ∧
        pte.status = pte_status.SWAP ∧ pte.swap_index = (k : Int) ∧
        pte.physical_page = none) ∧
      st.swap.swap_bitmap[k]? = some true ∧ st2.swap.swap_bitmap[k]? = some false ∧
      (∀ i, i < BLOCKS_PER_PAGE → st2.swap.swap_block.data (k * BLOCKS_PER_PAGE + i)
        = page_sector (st.memory victim.physical_page) i) ∧
      st2.frame_table = frame_table_drop st.frame_table (some victim.physical_page)
        ++ [frame_table_entry.mk pp vp cur] ∧
      (∀ e ∈ frame_table_drop st.frame_table (some victim.physical_page),
        e ∈ st.frame_table ∧ e.physical_page ≠ victim.physical_page) ∧
      (frame_table_drop st.frame_table (some victim.physical_page)).length + 1
        = st.frame_table.length := by
  obtain ⟨fte, hsel⟩ := frame_evict_select_some (st.threads cur).pagedir st.frame_table hne
  have hmem : fte ∈ st.frame_table := frame_evict_select_mem _ _ _ hsel
  obtain ⟨pte, hpte⟩ := search_of_mem _ _ (h.owned fte hmem)
  obtain ⟨k, dev1, hout, hklt, hkt, _, hdata, _⟩ :=
    swap_out_spec st.swap (st.memory fte.physical_page) hwf.1 (by have := hwf.2; omega) hfree
  obtain ⟨E, idx, st2, hE, hidx, hrun, _, p2, _, p4, p5, p6⟩ :=
    frame_evict_page_body_run st cur vp fuel fte _ _ pte h hsel hout hpte
  have hEft : E.frame_table = frame_table_drop st.frame_table (some fte.physical_page) := by
    rw [hE]; rfl
  have hEsw : E.swap = swap_state.mk dev1 (st.swap.swap_bitmap.set k false) := by
    rw [hE]; rfl
  have h1 : vm_inv (set_pagedir st cur
      (frame_evict_select (st.threads cur).pagedir st.frame_table).1) := set_pagedir_inv _ _ _ h
  have hpte1 : page_table_entry_search ((set_pagedir st cur
      (frame_evict_select (st.threads cur).pagedir st.frame_table).1).threads
        fte.owner).page_table fte.virtual_page = some pte := by
    rw [set_pagedir_page_table]; exact hpte
  obtain ⟨_, _, _, _, q5⟩ := frame_evicted_spec _ fte (k : Int)
    (swap_state.mk dev1 (st.swap.swap_bitmap.set k false)) pte h1 hmem hpte1
  rw [← hE] at q5
  obtain ⟨hsub, hdrop⟩ := frame_table_drop_spec st.frame_table fte.physical_page h.nodup
  refine ⟨fte, E.user_pool.base + idx, st2, k, hmem, hrun, ?_, ⟨_, p6 _ _ _ q5, rfl, rfl, rfl⟩,
    hkt, ?_, ?_, by rw [p2, hEft], fun e he => ⟨hsub.subset he, hdrop e he⟩,
    frame_table_drop_length _ _ hmem⟩
  · intro e he
    rw [p5, hE, frame_evicted_pagedir] at he
    exact pagedir_clear_page_present _ _ e he
  · rw [p4, hEsw]
    exact List.getElem?_set_self hklt
  · intro i hi
    rw [p4, hEsw]
    exact hdata i hi

theorem frame_evict_page_effects_witness :
    ∃ (victim : frame_table_entry) (pp : Nat) (st2 : vm_state) (k : Nat),
      victim ∈ vm_full.frame_table ∧
      frame_evict_page (0 + 1) vm_full 1 300 = some (some pp, st2) ∧
      (∀ e, (st2.threads victim.owner).pagedir victim.virtual_page = some e →
        e.present = false) ∧
      (∃ pte, page_table_entry_search (st2.threads victim.owner).page_table victim.virtual_page
          = some pte ∧
        pte.status = pte_status.SWAP ∧ pte.swap_index = (k : Int) ∧
        pte.physical_page = none) ∧
      vm_full.swap.swap_bitmap[k]? = some true ∧ st2.swap.swap_bitmap[k]? = some false ∧
      (∀ i, i < BLOCKS_PER_PAGE → st2.swap.swap_block.data (k * BLOCKS_PER_PAGE + i)
        = page_sector (vm_full.memory victim.physical_page) i) ∧
      st2.frame_table = frame_table_drop vm_full.frame_table (some victim.physical_page)
        ++ [frame_table_entry.mk pp 300 1] ∧
      (∀ e ∈ frame_table_drop vm_full.frame_table (some victim.physical_page),
        e ∈ vm_full.frame_table ∧ e.physical_page ≠ victim.physical_page) ∧
      (frame_table_drop vm_full.frame_table (some victim.physical_page)).length + 1
        = vm_full.frame_table.length :=
  frame_evict_page_effects vm_full 1 300 0 vm_full_inv (List.cons_ne_nil _ _)
    ⟨by decide, by decide⟩ (by decide)

/-! ## Memory-mapped files: the page-table entries of a mapping -/

/-- A successful `mmap`: the file was reopened as the new handle `fs.files.length`, it is not
empty, no page of its range had a page-table entry, and the new page table is the old one with
one entry per page in front. -/
theorem mmap_success_shape (st : sys_state) (cur : Nat) (fd : Int) (data : Nat) (id : Int)
    (st1 : sys_state) (hlen : ∀ i, (st.fs.inodes i).length < 2 ^ 31)
    (hm : mmap st cur fd data = some (id, st1)) (hid : id ≠ -1) :
    ∃ (S : Nat), 0 < S ∧ S < 2 ^ 31 ∧ file_length st1.fs st.fs.files.length = some S ∧
      (∀ k, k < page_count S →
        page_table_entry_search (st.vm.threads cur).page_table (ptr_add data (k * PGSIZE))
          = none) ∧
      (st1.vm.threads cur).page_table
        = ((List.range' 0 (page_count S)).map
            (fun k => mmap_entry_for st.fs.files.length data S (k * PGSIZE))).reverse
          ++ (st.vm.threads cur).page_table := by
  unfold mmap at hm
  by_cases h1 : fd < 2
  · rw [if_pos h1] at hm; simp only [Option.some.injEq, Prod.mk.injEq] at hm
    exact absurd hm.1.symm hid
  rw [if_neg h1] at hm
  by_cases h2 : data = 0 ∨ data % PGSIZE ≠ 0
  · rw [if_pos h2] at hm; simp only [Option.some.injEq, Prod.mk.injEq] at hm
    exact absurd hm.1.symm hid
  rw [if_neg h2] at hm
  cases hf : (get_thread_file (st.owned_files cur) fd).bind (fun f => f.file) with
  | none =>
    rw [hf] at hm; simp only [Option.some.injEq, Prod.mk.injEq] at hm
    exact absurd hm.1.symm hid
  | some hd =>
    rw [hf] at hm
    cases hg : file_get st.fs hd with
    | none => simp [file_reopen, hg] at hm
    | some f =>
      obtain ⟨fs1, hre, hg1, hin, hwc, hl⟩ := file_reopen_spec st.fs hd f hg
      simp only [hre, hl] at hm
      by_cases h0 : (st.fs.inodes f.inode).length = 0
      · rw [if_pos h0] at hm; simp only [Option.some.injEq, Prod.mk.injEq] at hm
        exact absurd hm.1.symm hid
      rw [if_neg h0] at hm
      cases hov : mmap_overlap (st.vm.threads cur).page_table data
          (page_count (st.fs.inodes f.inode).length) with
      | true =>
        rw [hov] at hm; simp only [if_true, Option.some.injEq, Prod.mk.injEq] at hm
        exact absurd hm.1.symm hid
      | false =>
        rw [hov] at hm
        simp only [Bool.false_eq_true, if_false, Option.some.injEq, Prod.mk.injEq] at hm
        obtain ⟨hid1, hst1⟩ := hm
        have hN : page_count (st.fs.inodes f.inode).length * PGSIZE ≤ 2 ^ 32 := by
          have := hlen f.inode
          unfold page_count
          show ((st.fs.inodes f.inode).length + 4096 - 1) / 4096 * 4096 ≤ 2 ^ 32
          omega
        have hfree : ∀ k, k < page_count (st.fs.inodes f.inode).length →
            page_table_entry_search (st.vm.threads cur).page_table (ptr_add data (k * PGSIZE))
              = none := by
          intro k hk
          cases hs : page_table_entry_search (st.vm.threads cur).page_table
              (ptr_add data (k * PGSIZE)) with
          | none => rfl
          | some e =>
            have := (mmap_overlap_iff (st.vm.threads cur).page_table data
              (page_count (st.fs.inodes f.inode).length)).2 ⟨k, hk, by rw [hs]; rfl⟩
            rw [hov] at this; exact absurd this (by decide)
        have hinst := mmap_install_eq st.fs.files.length data (st.fs.inodes f.inode).length
          (st.vm.threads cur).page_table _ hN hfree _ (Nat.le_refl _)
        rw [hinst] at hst1
        subst hst1
        refine ⟨(st.fs.inodes f.inode).length, by omega, hlen _, hl, hfree, ?_⟩
        simp only [set_page_table_get]

theorem mmap_entries_search (file data S N : Nat) (pt : List page_table_entry)
    (hN : N * PGSIZE ≤ 2 ^ 32) :
    ∀ n, n ≤ N → ∀ k, k < n →
      page_table_entry_search
        (((List.range' 0 n).map (fun k => mmap_entry_for file data S (k * PGSIZE))).reverse
          ++ pt) (ptr_add data (k * PGSIZE))
        = some (mmap_entry_for file data S (k * PGSIZE)) := by
  intro n
  induction n with
  | zero => intro _ k hk; omega
  | succ n ih =>
    intro hn k hk
    rw [List.range'_concat, List.map_append, List.reverse_append]
    simp only [List.map_cons, List.map_nil, List.reverse_cons, List.reverse_nil, List.nil_append,
      List.cons_append, Nat.zero_add, Nat.one_mul]
    unfold page_table_entry_search
    by_cases hkn : k = n
    · subst hkn
      rw [List.find?_cons_of_pos]
      simp [mmap_entry_for_key]
    · rw [List.find?_cons_of_neg]
      · exact ih (by omega) k (by omega)
      · simp only [mmap_entry_for_key, beq_iff_eq]
        exact page_key_ne data N k n hN (by omega) (by omega) (fun h => hkn h.symm)

theorem read_bytes_sum (S : Nat) (n : Nat) :
    ((List.range n).map (fun k => min PGSIZE (S - k * PGSIZE))).sum = min S (n * PGSIZE) := by
  induction n with
  | zero => simp
  | succ n ih =>
    rw [List.range_succ, List.map_append, List.sum_append, ih]
    simp only [List.map_cons, List.map_nil, List.sum_cons, List.sum_nil, PGSIZE]
    omega

/-- C26: a successful `mmap` of a file of `S > 0` bytes at `data`, where no page of the range
had a page-table entry, adds exactly `page_count S` entries, the number of pages of `S` bytes
rounded up, and changes no other entry.  The entry of page `k` is at `data + k * PGSIZE`, has
status `MMAP`, the reopened file, offset `k * PGSIZE`, `read_bytes` the lesser of `PGSIZE` and
`S - k * PGSIZE`, and `zero_bytes` the rest of the page; the `read_bytes` add up to `S`. -/
theorem mmap_installs_pages (st : sys_state) (cur : Nat) (fd : Int) (data : Nat) (id : Int)
    (st1 : sys_state) (hlen : ∀ i, (st.fs.inodes i).length < 2 ^ 31)
    (hm : mmap st cur fd data = some (id, st1)) (hid : id ≠ -1) :
    ∃ (file S : Nat), 0 < S ∧ file_length st1.fs file = some S ∧
      (st1.vm.threads cur).page_table.length
        = (st.vm.threads cur).page_table.length + page_count S ∧
      page_count S = (S + PGSIZE - 1) / PGSIZE ∧
      (∀ k, k < page_count S →
        page_table_entry_search (st.vm.threads cur).page_table (ptr_add data (k * PGSIZE))
          = none ∧
        ∃ pte, page_table_entry_search (st1.vm.threads cur).page_table
            (ptr_add data (k * PGSIZE)) = some pte ∧
          pte.virtual_page = ptr_add data (k * PGSIZE) ∧
          pte.status = pte_status.MMAP ∧ pte.file = file ∧ pte.ofs = k * PGSIZE ∧
          pte.read_bytes = min PGSIZE (S - k * PGSIZE) ∧
          pte.zero_bytes = PGSIZE - pte.read_bytes ∧
          pte.read_bytes + pte.zero_bytes = PGSIZE) ∧
      (∀ v, (∀ k, k < page_count S → ptr_add data (k * PGSIZE) ≠ v) →
        page_table_entry_search (st1.vm.threads cur).page_table v
          = page_table_entry_search (st.vm.threads cur).page_table v) ∧
      ((List.range (page_count S)).map (fun k => min PGSIZE (S - k * PGSIZE))).sum = S := by
  obtain ⟨S, h0, h31, hl, hfree, hpt⟩ := mmap_success_shape st cur fd data id st1 hlen hm hid
  have hN : page_count S * PGSIZE ≤ 2 ^ 32 := by
    unfold page_count
    show (S + 4096 - 1) / 4096 * 4096 ≤ 2 ^ 32
    omega
  refine ⟨st.fs.files.length, S, h0, hl, ?_, rfl, ?_, ?_, ?_⟩
  · rw [hpt, List.length_append, List.length_reverse, List.length_map, List.length_range']
    omega
  · intro k hk
    refine ⟨hfree k hk, mmap_entry_for st.fs.files.length data S (k * PGSIZE), ?_, rfl, rfl, rfl,
      rfl, ?_, ?_, ?_⟩
    · rw [hpt]
      exact mmap_entries_search _ data S _ _ hN _ (Nat.le_refl _) k hk
    · simp only [mmap_entry_for, PGSIZE]
      split <;> omega
    · simp only [mmap_entry_for, PGSIZE]
      split <;> omega
    · simp only [mmap_entry_for, PGSIZE]
      split <;> omega
  · intro v hv
    rw [hpt]
    exact search_append_none _ _ _
      (mmap_entries_search_none _ data S 0 _ v (fun k _ hk => hv k (by omega)))
  · rw [read_bytes_sum]
    have : S ≤ page_count S * PGSIZE := by
      unfold page_count
      show S ≤ (S + 4096 - 1) / 4096 * 4096
      omega
    omega

theorem sys_mapped_file_mmap :
    ∃ st1, mmap sys_mapped_file 1 2 0x40000 = some (2, st1) := by
  have hl : file_length
      (file_sys.mk sys_mapped_file.fs.inodes
        (sys_mapped_file.fs.files ++ [some (vm_file.mk 0 0)]) sys_mapped_file.fs.write_cnt) 2
      = some 10000 := by
    have hg : file_get
        (file_sys.mk sys_mapped_file.fs.inodes
          (sys_mapped_file.fs.files ++ [some (vm_file.mk 0 0)]) sys_mapped_file.fs.write_cnt) 2
        = some (vm_file.mk 0 0) := rfl
    unfold file_length
    rw [hg]
    show some (sys_mapped_file.fs.inodes 0).length = some 10000
    rw [sys_mapped_file_length]
  have hov : mmap_overlap (sys_mapped_file.vm.threads 1).page_table 0x40000 (page_count 10000)
      = false := by decide
  have hid : mmap_next_id (sys_mapped_file.mmap_list 1) = 2 := by decide
  have hfd : (get_thread_file (sys_mapped_file.owned_files 1) 2).bind (fun f => f.file)
      = some 0 := by decide
  have hre : file_reopen sys_mapped_file.fs 0
      = some (2, file_sys.mk sys_mapped_file.fs.inodes
        (sys_mapped_file.fs.files ++ [some (vm_file.mk 0 0)]) sys_mapped_file.fs.write_cnt) := rfl
  have key : (mmap sys_mapped_file 1 2 0x40000).map (fun r => r.1) = some 2 := by
    unfold mmap
    rw [if_neg (by decide), if_neg (by decide), hfd]
    simp only [hre, hl]
    rw [if_neg (by decide), hov]
    simp only [Bool.false_eq_true, if_false, hid, Option.map_some']
  cases hm : mmap sys_mapped_file 1 2 0x40000 with
  | none => rw [hm] at key; cases key
  | some r =>
    obtain ⟨id, st1⟩ := r
    rw [hm] at key
    simp only [Option.map_some', Option.some.injEq] at key
    subst key
    exact ⟨st1, rfl⟩

theorem mmap_installs_pages_witness :
    ∃ st1, mmap sys_mapped_file 1 2 0x40000 = some (2, st1) ∧
    ∃ (file S : Nat), 0 < S ∧ file_length st1.fs file = some S ∧
      (st1.vm.threads 1).page_table.length
        = (sys_mapped_file.vm.threads 1).page_table.length + page_count S ∧
      page_count S = (S + PGSIZE - 1) / PGSIZE ∧
      (∀ k, k < page_count S →
        page_table_entry_search (sys_mapped_file.vm.threads 1).page_table
          (ptr_add 0x40000 (k * PGSIZE)) = none ∧
        ∃ pte, page_table_entry_search (st1.vm.threads 1).page_table
            (ptr_add 0x40000 (k * PGSIZE)) = some pte ∧
          pte.virtual_page = ptr_add 0x40000 (k * PGSIZE) ∧
          pte.status = pte_status.MMAP ∧ pte.file = file ∧ pte.ofs = k * PGSIZE ∧
          pte.read_bytes = min PGSIZE (S - k * PGSIZE) ∧
          pte.zero_bytes = PGSIZE - pte.read_bytes ∧
          pte.read_bytes + pte.zero_bytes = PGSIZE) ∧
      (∀ v, (∀ k, k < page_count S → ptr_add 0x40000 (k * PGSIZE) ≠ v) →
        page_table_entry_search (st1.vm.threads 1).page_table v
          = page_table_entry_search (sys_mapped_file.vm.threads 1).page_table v) ∧
      ((List.range (page_count S)).map (fun k => min PGSIZE (S - k * PGSIZE))).sum = S :=
  Exists.elim sys_mapped_file_mmap (fun st1 h1 =>
    ⟨st1, h1, mmap_installs_pages sys_mapped_file 1 2 0x40000 2 st1
      (fun _ => by
        show (List.replicate 10000 0x11).length < 2 ^ 31
        rw [List.length_replicate]
        decide) h1 (by decide)⟩)

/-! ## Buffer cache: transparency -/

theorem cache_write_back_size (c c1 : cache_state) (k : Nat)
    (h : cache_write_back c k = some c1) : c1.fs_device.size = c.fs_device.size := by
  unfold cache_write_back at h
  cases hk : c.cache[k]? with
  | none => rw [hk] at h; cases h
  | some e =>
    rw [hk] at h
    simp only at h
    by_cases hvd : (e.valid && e.dirty) = true
    · rw [if_pos hvd] at h
      cases hb : block_write c.fs_device e.sector e.buffer with
      | none => rw [hb] at h; cases h
      | some dev =>
        rw [hb] at h
        simp only [Option.some.injEq] at h
        rw [← h]
        show dev.size = c.fs_device.size
        unfold block_write at hb
        split at hb
        · simp only [Option.some.injEq] at hb
          rw [← hb]
        · cases hb
    · rw [if_neg hvd] at h
      simp only [Option.some.injEq] at h
      rw [← h]

/-- The clock sweep for a sector past the end of the device does not return: the read of the
sector panics the kernel. -/
theorem cache_clock_out_of_range (sec : Nat) :
    ∀ (fuel : Nat) (c : cache_state), ¬ sec < c.fs_device.size → cache_clock sec fuel c = none := by
  intro fuel
  induction fuel with
  | zero => intro c _; rfl
  | succ fuel ih =>
    intro c hr
    unfold cache_clock
    cases hk : c.cache[c.clock_ptr]? with
    | none => rfl
    | some e =>
      simp only
      split
      · exact ih _ hr
      · cases hw : cache_write_back c c.clock_ptr with
        | none => rfl
        | some c1 =>
          simp only
          have hs := cache_write_back_size c c1 _ hw
          have hb : block_read c1.fs_device sec = none := by
            unfold block_read
            rw [if_neg (by rw [hs]; exact hr)]
          rw [hb]
          cases c1.cache[c.clock_ptr]? <;> rfl

theorem cache_get_out_of_range (c : cache_state) (sec : Nat) (hc : cache_inv c)
    (hr : ¬ sec < c.fs_device.size) : cache_get c sec = none := by
  have hf : c.cache.findIdx? (fun e => e.valid && e.sector == sec) = none := by
    rw [List.findIdx?_eq_none_iff]
    intro e he
    obtain ⟨i, hi⟩ := List.mem_iff_getElem?.1 he
    cases hv : e.valid with
    | false => simp
    | true =>
      have := hc.inrange i e hi hv
      have hne : e.sector ≠ sec := by
        intro h
        rw [h] at this
        exact hr this
      simp [hne]
  unfold cache_get
  rw [hf]
  simp only
  unfold cache_acquire
  cases c.cache.findIdx? (fun e => !e.valid) with
  | some i =>
    simp only
    unfold block_read
    rw [if_neg hr]
  | none => exact cache_clock_out_of_range sec _ c hr

theorem cache_trace_eq (ops : List rw_op) :
    ∀ (c : cache_state) (d : block), cache_inv c → c.fs_device.size = d.size →
      (∀ t, cache_view c t = d.data t) → cache_trace c ops = disk_trace d ops := by
  induction ops with
  | nil => intro c d _ _ _; rfl
  | cons op ops ih =>
    intro c d hc hs hv
    cases op with
    | read sec =>
      by_cases hr : sec < c.fs_device.size
      · obtain ⟨c2, r1, r2, r3, r4⟩ := cache_read_spec c sec hc hr
        simp only [cache_trace, disk_trace, r1, block_read]
        rw [if_pos (by rw [← hs]; exact hr)]
        simp only
        rw [ih c2 d r2 (by rw [r4, hs]) (fun t => by rw [r3, hv]), hv]
      · simp only [cache_trace, disk_trace, cache_read, cache_get_out_of_range c sec hc hr,
          block_read]
        rw [if_neg (by rw [← hs]; exact hr)]
    | write sec src =>
      by_cases hr : sec < c.fs_device.size
      · obtain ⟨c2, r1, r2, r3, r4⟩ := cache_write_spec c sec src hc hr
        simp only [cache_trace, disk_trace, r1, block_write]
        rw [if_pos (by rw [← hs]; exact hr)]
        simp only
        apply ih c2 _ r2 (by rw [r4, hs])
        intro t
        rw [r3]
        show _ = Function.update d.data sec src t
        rw [Function.update_apply, hv]
      · simp only [cache_trace, disk_trace, cache_write, cache_get_out_of_range c sec hc hr,
          block_write]
        rw [if_neg (by rw [← hs]; exact hr)]

/-- C28: after `cache_init`, every sequence of `cache_read` and `cache_write` calls, of any
length and over any sectors, returns exactly the sectors that the same reads and writes
return when they are applied to the block device directly: each read returns the sector last
written there, or the initial content of the device.  (A call that names a sector past the
end of the device panics the kernel on both sides.) -/
theorem cache_transparent (dev : block) (ops : List rw_op) :
    cache_trace (cache_init (cache_boot dev)) ops = disk_trace dev ops := by
  obtain ⟨h1, h2, h3⟩ := cache_init_spec dev
  exact cache_trace_eq ops _ dev h1 (by rw [h3]) h2

/-! ## Buffer cache: the clock sweep -/

theorem cache_entry_clean_eta (e : cache_entry) (h : e.dirty = false) :
    { e with dirty := false } = e := by
  cases e
  simp only at h
  subst h
  rfl

theorem cache_write_back_valid (c : cache_state) (k : Nat) (e : cache_entry)
    (hk : c.cache[k]? = some e) (hv : e.valid = true) (hs : e.sector < c.fs_device.size) :
    ∃ c1, cache_write_back c k = some c1 ∧ c1.fs_device = cache_flushed c.fs_device e ∧
      c1.clock_ptr = c.clock_ptr ∧ c1.cache[k]? = some { e with dirty := false } ∧
      c1.cache.length = c.cache.length ∧
      ∀ i, i ≠ k → c1.cache[i]? = c.cache[i]? := by
  have hlt : k < c.cache.length := (List.getElem?_eq_some.1 hk).1
  cases hd : e.dirty with
  | true =>
    refine ⟨{ c with
      fs_device := block.mk c.fs_device.size
        (Function.update c.fs_device.data e.sector e.buffer),
      cache := c.cache.set k { e with dirty := false } }, ?_, ?_, rfl, ?_, ?_, ?_⟩
    · simp only [cache_write_back, hk, hv, hd, Bool.and_self, if_true, block_write, if_pos hs]
    · simp only [cache_flushed, hd, if_true]
    · exact List.getElem?_set_self hlt
    · exact List.length_set _ _ _
    · intro i hi
      exact List.getElem?_set_ne (fun h => hi h.symm)
  | false =>
    refine ⟨c, ?_, ?_, rfl, ?_, rfl, fun _ _ => rfl⟩
    · simp only [cache_write_back, hk, hv, hd, Bool.and_false, Bool.false_eq_true, if_false]
    · simp only [cache_flushed, hd, Bool.false_eq_true, if_false]
    · rw [hk, cache_entry_clean_eta e hd]

/-- The clock sweep on a full cache.  When the `k` lines from the cursor on have the recency
flag set and the next line has it clear (or `k = CACHE_SIZE`: all flags are set), the sweep
clears the flags of these `k` lines and evicts line `(clock_ptr + k) % CACHE_SIZE`. -/
theorem cache_clock_sweep (sec : Nat) :
    ∀ (k fuel : Nat) (c : cache_state), k < fuel → c.cache.length = CACHE_SIZE →
      c.clock_ptr < CACHE_SIZE → k ≤ CACHE_SIZE → sec < c.fs_device.size →
      (∀ (i : Nat) (e : cache_entry), c.cache[i]? = some e →
        e.valid = true ∧ e.sector < c.fs_device.size) →
      (∀ j, j < k → cache_flag c ((c.clock_ptr + j) % CACHE_SIZE) = some true) →
      (k < CACHE_SIZE → cache_flag c ((c.clock_ptr + k) % CACHE_SIZE) = some false) →
      ∃ victim c2, c.cache[(c.clock_ptr + k) % CACHE_SIZE]? = some victim ∧
        cache_clock sec fuel c = some ((c.clock_ptr + k) % CACHE_SIZE, c2) ∧
        c2.clock_ptr = ((c.clock_ptr + k) % CACHE_SIZE + 1) % CACHE_SIZE ∧
        c2.fs_device = cache_flushed c.fs_device victim ∧
        c2.cache[(c.clock_ptr + k) % CACHE_SIZE]? = some (cache_line_for c2.fs_device sec) ∧
        c2.cache.length = CACHE_SIZE ∧
        (∀ (i : Nat) (e : cache_entry), i ≠ (c.clock_ptr + k) % CACHE_SIZE →
          c.cache[i]? = some e →
          (∃ j, j < k ∧ i = (c.clock_ptr + j) % CACHE_SIZE) →
          c2.cache[i]? = some { e with second_chance := false }) ∧
        (∀ (i : Nat), i ≠ (c.clock_ptr + k) % CACHE_SIZE →
          (∀ j, j < k → i ≠ (c.clock_ptr + j) % CACHE_SIZE) → c2.cache[i]? = c.cache[i]?) := by
  intro k
  induction k with
  | zero =>
    intro fuel c hfuel hlen hptr _ hr hin _ hclear
    have h64 : CACHE_SIZE = 64 := rfl
    have hv : (c.clock_ptr + 0) % CACHE_SIZE = c.clock_ptr := by
      rw [Nat.add_zero]; exact Nat.mod_eq_of_lt hptr
    rw [hv] at hclear ⊢
    have hlt : c.clock_ptr < c.cache.length := by rw [hlen]; exact hptr
    have hk : c.cache[c.clock_ptr]? = some c.cache[c.clock_ptr] := List.getElem?_eq_getElem hlt
    generalize c.cache[c.clock_ptr] = e at hk
    have hsc : e.second_chance = false := by
      have := hclear (by rw [h64]; omega)
      simp only [cache_flag, hk, Option.map_some', Option.some.injEq] at this
      exact this
    obtain ⟨hev, hes⟩ := hin _ e hk
    obtain ⟨c1, w1, w2, w3, w4, w5, w6⟩ := cache_write_back_valid c c.clock_ptr e hk hev hes
    have hsz : c1.fs_device.size = c.fs_device.size := by
      rw [w2]
      unfold cache_flushed
      split <;> rfl
    have hlt1 : c.clock_ptr < c1.cache.length := by rw [w5]; exact hlt
    obtain ⟨fuel1, rfl⟩ : ∃ f, fuel = f + 1 := ⟨fuel - 1, by omega⟩
    refine ⟨e, { c1 with
      cache := c1.cache.set c.clock_ptr (cache_line_for c1.fs_device sec),
      clock_ptr := (c.clock_ptr + 1) % CACHE_SIZE }, hk, ?_, rfl, w2,
      List.getElem?_set_self hlt1, by rw [List.length_set, w5, hlen], ?_, ?_⟩
    · simp only [cache_clock, hk, hsc, Bool.false_eq_true, if_false, w1, w4, block_read,
        if_pos (show sec < c1.fs_device.size by rw [hsz]; exact hr)]
      rfl
    · intro i e0 _ _ hex
      obtain ⟨j, hj, _⟩ := hex
      omega
    · intro i hi _
      show (c1.cache.set c.clock_ptr _)[i]? = _
      rw [List.getElem?_set_ne (fun h => hi h.symm), w6 i hi]
  | succ k ih =>
    intro fuel c hfuel hlen hptr hk64 hr hin hset hclear
    have h64 : CACHE_SIZE = 64 := rfl
    rw [h64] at hptr hk64
    have hlt : c.clock_ptr < c.cache.length := by rw [hlen, h64]; exact hptr
    have hk : c.cache[c.clock_ptr]? = some c.cache[c.clock_ptr] := List.getElem?_eq_getElem hlt
    generalize c.cache[c.clock_ptr] = e at hk
    have hsc : e.second_chance = true := by
      have := hset 0 (by omega)
      rw [Nat.add_zero, Nat.mod_eq_of_lt (by rw [h64]; exact hptr)] at this
      simp only [cache_flag, hk, Option.map_some', Option.some.injEq] at this
      exact this
    obtain ⟨fuel1, rfl⟩ : ∃ f, fuel = f + 1 := ⟨fuel - 1, by omega⟩
    have hget : ∀ i, i ≠ c.clock_ptr →
        (c.cache.set c.clock_ptr { e with second_chance := false })[i]? = c.cache[i]? :=
      fun i hi => List.getElem?_set_ne (fun h => hi h.symm)
    have hself : (c.cache.set c.clock_ptr { e with second_chance := false })[c.clock_ptr]?
        = some { e with second_chance := false } := List.getElem?_set_self hlt
    have hidx : ∀ j, ((c.clock_ptr + 1) % CACHE_SIZE + j) % CACHE_SIZE
        = (c.clock_ptr + (j + 1)) % CACHE_SIZE := by
      intro j
      rw [h64]
      omega
    obtain ⟨victim1, c2, v1, v2, v3, v4, v5, v6, v7, v8⟩ := ih fuel1
      { c with cache := c.cache.set c.clock_ptr { e with second_chance := false },
               clock_ptr := (c.clock_ptr + 1) % CACHE_SIZE }
      (by omega) (by show (c.cache.set _ _).length = _; rw [List.length_set, hlen])
      (Nat.mod_lt _ (by decide)) (by rw [h64]; omega) hr
      (by
        intro i e0 hi
        change (c.cache.set c.clock_ptr { e with second_chance := false })[i]? = some e0 at hi
        by_cases hip : i = c.clock_ptr
        · subst hip
          rw [hself] at hi
          simp only [Option.some.injEq] at hi
          rw [← hi]
          exact hin _ e hk
        · rw [hget i hip] at hi
          exact hin i e0 hi)
      (by
        intro j hj
        show cache_flag _ (((c.clock_ptr + 1) % CACHE_SIZE + j) % CACHE_SIZE) = some true
        rw [hidx j]
        have := hset (j + 1) (by omega)
        unfold cache_flag at this ⊢
        show ((c.cache.set c.clock_ptr { e with second_chance := false })[
          (c.clock_ptr + (j + 1)) % CACHE_SIZE]?).map _ = _
        rw [hget _ (by rw [h64]; omega)]
        exact this)
      (by
        intro hk1
        show cache_flag _ (((c.clock_ptr + 1) % CACHE_SIZE + k) % CACHE_SIZE) = some false
        rw [hidx k]
        unfold cache_flag
        show ((c.cache.set c.clock_ptr { e with second_chance := false })[
          (c.clock_ptr + (k + 1)) % CACHE_SIZE]?).map _ = _
        by_cases hfull : k + 1 = 64
        · have : (c.clock_ptr + (k + 1)) % CACHE_SIZE = c.clock_ptr := by rw [h64]; omega
          rw [this, hself]
          rfl
        · rw [hget _ (by rw [h64]; omega)]
          exact hclear (by rw [h64]; omega))
    simp only [] at v1 v2 v3 v4 v5 v7 v8
    rw [hidx k] at v1 v2 v3 v5 v7 v8
    have hvictim : ∃ victim, c.cache[(c.clock_ptr + (k + 1)) % CACHE_SIZE]? = some victim ∧
        cache_flushed c.fs_device victim1 = cache_flushed c.fs_device victim := by
      by_cases hvp : (c.clock_ptr + (k + 1)) % CACHE_SIZE = c.clock_ptr
      · rw [hvp] at v1 ⊢
        rw [hself] at v1
        simp only [Option.some.injEq] at v1
        exact ⟨e, hk, by rw [← v1]; rfl⟩
      · rw [hget _ hvp] at v1
        exact ⟨victim1, v1, rfl⟩
    obtain ⟨victim, hvi1, hvi2⟩ := hvictim
    refine ⟨victim, c2, hvi1, ?_, v3, by rw [v4, hvi2], v5, v6, ?_, ?_⟩
    · simp only [cache_clock, hk, hsc, if_true]
      exact v2
    · intro i e0 hi he0 hex
      obtain ⟨j, hj, hij⟩ := hex
      by_cases hip : i = c.clock_ptr
      · subst hip
        rw [hk] at he0
        simp only [Option.some.injEq] at he0
        subst he0
        rw [v8 _ hi (by
          intro j' hj'
          rw [hidx j', h64]
          omega)]
        exact hself
      · have hj0 : j ≠ 0 := by
          intro h0
          subst h0
          rw [Nat.add_zero, Nat.mod_eq_of_lt (by rw [h64]; exact hptr)] at hij
          exact hip hij
        refine v7 i e0 hi (by rw [hget i hip]; exact he0) ⟨j - 1, by omega, ?_⟩
        rw [hidx (j - 1), hij]
        congr 2
        omega
    · intro i hi hnot
      have hip : i ≠ c.clock_ptr := by
        have := hnot 0 (by omega)
        rw [Nat.add_zero, Nat.mod_eq_of_lt (by rw [h64]; exact hptr)] at this
        exact this
      rw [v8 i hi (by
        intro j' hj'
        rw [hidx j']
        exact hnot (j' + 1) (by omega))]
      exact hget i hip

/-- C25: `cache_acquire` on a cache of `CACHE_SIZE` lines over a device that holds the
requested sector.  When some line is invalid, the first invalid line takes the sector: no
other line, the device and the scan cursor are unchanged, so nothing is evicted or written.
When every line is valid and `k` is the number of lines, from the scan cursor on, whose recency
flag is set before the first one whose flag is clear (`k = CACHE_SIZE` when all flags are
set), the victim is line `(clock_ptr + k) % CACHE_SIZE`, the cursor's own line after a full
sweep; the flag of each of the `k` lines passed over is cleared and no other line changes; the
victim is written to the device first if it is dirty; the line then holds the requested sector
as the device has it; and the cursor is left one past the victim modulo `CACHE_SIZE`. -/
theorem cache_acquire_clock (c : cache_state) (sec : Nat)
    (hlen : c.cache.length = CACHE_SIZE) (hptr : c.clock_ptr < CACHE_SIZE)
    (hr : sec < c.fs_device.size)
    (hin : ∀ e ∈ c.cache, e.valid = true → e.sector < c.fs_device.size) :
    (∀ i, c.cache.findIdx? (fun e => !e.valid) = some i →
      cache_acquire c sec
        = some (i, { c with cache := c.cache.set i (cache_line_for c.fs_device sec) })) ∧
    ((∀ e ∈ c.cache, e.valid = true) → ∀ k, k ≤ CACHE_SIZE →
      (∀ j, j < k → cache_flag c ((c.clock_ptr + j) % CACHE_SIZE) = some true) →
      (k < CACHE_SIZE → cache_flag c ((c.clock_ptr + k) % CACHE_SIZE) = some false) →
      ∃ victim c2, c.cache[(c.clock_ptr + k) % CACHE_SIZE]? = some victim ∧
        cache_acquire c sec = some ((c.clock_ptr + k) % CACHE_SIZE, c2) ∧
        c2.clock_ptr = ((c.clock_ptr + k) % CACHE_SIZE + 1) % CACHE_SIZE ∧
        c2.fs_device = cache_flushed c.fs_device victim ∧
        c2.cache[(c.clock_ptr + k) % CACHE_SIZE]? = some (cache_line_for c2.fs_device sec) ∧
        (∀ (i : Nat) (e : cache_entry), i ≠ (c.clock_ptr + k) % CACHE_SIZE →
          c.cache[i]? = some e →
          (∃ j, j < k ∧ i = (c.clock_ptr + j) % CACHE_SIZE) →
          c2.cache[i]? = some { e with second_chance := false }) ∧
        (∀ (i : Nat), i ≠ (c.clock_ptr + k) % CACHE_SIZE →
          (∀ j, j < k → i ≠ (c.clock_ptr + j) % CACHE_SIZE) → c2.cache[i]? = c.cache[i]?)) := by
  constructor
  · intro i hf
    simp only [cache_acquire, hf, block_read, if_pos hr]
    rfl
  · intro hval k hk hset hclear
    have hf : c.cache.findIdx? (fun e => !e.valid) = none := by
      rw [List.findIdx?_eq_none_iff]
      intro e he
      simp [hval e he]
    obtain ⟨victim, c2, v1, v2, v3, v4, v5, _, v7, v8⟩ := cache_clock_sweep sec k
      (CACHE_SIZE + 1) c (by omega) hlen hptr hk hr
      (fun i e hi => ⟨hval e (List.mem_iff_getElem?.2 ⟨i, hi⟩),
        hin e (List.mem_iff_getElem?.2 ⟨i, hi⟩) (hval e (List.mem_iff_getElem?.2 ⟨i, hi⟩))⟩)
      hset hclear
    refine ⟨victim, c2, v1, ?_, v3, v4, v5, v7, v8⟩
    simp only [cache_acquire, hf]
    exact v2

set_option maxRecDepth 100000 in
theorem cache_acquire_clock_witness :
    ∃ victim c2, clock_cache.cache[(clock_cache.clock_ptr + 2) % CACHE_SIZE]? = some victim ∧
      cache_acquire clock_cache 100 = some ((clock_cache.clock_ptr + 2) % CACHE_SIZE, c2) ∧
      c2.clock_ptr = ((clock_cache.clock_ptr + 2) % CACHE_SIZE + 1) % CACHE_SIZE ∧
      c2.fs_device = cache_flushed clock_cache.fs_device victim ∧
      c2.cache[(clock_cache.clock_ptr + 2) % CACHE_SIZE]?
        = some (cache_line_for c2.fs_device 100) ∧
      (∀ (i : Nat) (e : cache_entry), i ≠ (clock_cache.clock_ptr + 2) % CACHE_SIZE →
        clock_cache.cache[i]? = some e →
        (∃ j, j < 2 ∧ i = (clock_cache.clock_ptr + j) % CACHE_SIZE) →
        c2.cache[i]? = some { e with second_chance := false }) ∧
      (∀ (i : Nat), i ≠ (clock_cache.clock_ptr + 2) % CACHE_SIZE →
        (∀ j, j < 2 → i ≠ (clock_cache.clock_ptr + j) % CACHE_SIZE) →
        c2.cache[i]? = clock_cache.cache[i]?) :=
  (cache_acquire_clock clock_cache 100 (by decide) (by decide) (by decide) (by decide)).2
    (by decide) 2 (by decide) (by decide) (by decide)

set_option maxRecDepth 100000 in
/-- The sweep of the scenario: the cursor is at line 3, the flags of the lines 3 and 4 are
set, line 5 is the victim; its sector 15 is written to the device, and the cursor ends at
line 6. -/
theorem clock_cache_example :
    ∃ c2, cache_acquire clock_cache 100 = some (5, c2) ∧ c2.clock_ptr = 6 ∧
      c2.fs_device.data 15 = List.replicate 512 5 ∧
      cache_flag c2 3 = some false ∧ cache_flag c2 4 = some false :=
  ⟨_, rfl, rfl, rfl, rfl, rfl⟩
/-! ## Close after a failed growth -/

set_option maxRecDepth 100000 in
/-- C18 fails in the code: sectors taken by a growth that ran out of free sectors are not
released by the last close of the removed inode.  On a device whose free map holds only the
sectors 2 and 3, an empty inode is created at sector 1 and opened; `inode_write_at` of 2000
bytes at offset 0 needs four data sectors, `inode_disk_init` takes 2 and 3 into the first two
direct pointers and then fails, so the write returns 0 with the length still 0 and the free
map empty.  After `inode_remove`, the last `inode_close` releases
`bytes_to_sectors (0) = 0` data sectors and then the sector 1 of the inode: the free map is
`[1]`, and the allocated data sectors 2 and 3 are never released. -/
theorem inode_close_leaks_failed_growth :
    inode_grow_remove_close (fs_boot (block.mk 64 (fun _ => List.replicate 512 0)) [2, 3]) 1
        (List.replicate 2000 0xAB) 2000
      = some (0, [2, 3, 0, 0], 0, [], [1]) := by
  decide
